import Mathlib

/-!
# xscreensaver `molecule` hack: a shallow embedding of `hacks/glx/molecule.c`

Conventions of the embedding.

* A C string is the list of its characters before the terminating NUL.
* `int` is `Int`; counters (`natoms`, `nbonds`, `strength`) stay far below
  `INT_MAX` for every input that fits in memory, so their arithmetic is exact.
* A value of type `GLfloat` is the rational number it stands for.  The
  arithmetic of `molecule_bounding_box` and `ensure_bounding_box_visible`
  rounds the exact result of every operation to the nearest value of the
  type (`GLfloat_of`, `double_of`); infinities and NaN are outside the
  embedding, and so is the rounding of the other operations on `GLfloat`.
* A growable array (`atoms`, `bonds`) is a list; `natoms` and `nbonds` are
  the lengths of those lists.
* A function whose C body can read outside an object (past the end of a
  string, outside an array) or use an uninitialised value returns `Option`:
  `none` stands for that undefined behaviour.
* Of the C library, `strcmp`, `strcasecmp`, `strncmp`, the character classes
  of the "C" locale and the `%d` conversion of `sscanf` are defined here;
  the `%f` conversion of `sscanf` is a parameter `scanf_f` of the parser,
  and `qsort` is an insertion sort.
* Diagnostics written to `stderr` are left out.
-/

namespace Molecule

/-! ## C library -/

/-- C `isalpha` in the "C" locale. -/
def isalpha (c : Char) : Bool :=
  (65 ≤ c.toNat && c.toNat ≤ 90) || (97 ≤ c.toNat && c.toNat ≤ 122)

/-- C `isspace` in the "C" locale: space, `\t`, `\n`, `\v`, `\f`, `\r`. -/
def isspace (c : Char) : Bool :=
  c.toNat = 32 || (9 ≤ c.toNat && c.toNat ≤ 13)

/-- C `isdigit`. -/
def isdigit (c : Char) : Bool :=
  48 ≤ c.toNat && c.toNat ≤ 57

/-- C `tolower` in the "C" locale. -/
def tolower (c : Char) : Char :=
  if 65 ≤ c.toNat ∧ c.toNat ≤ 90 then Char.ofNat (c.toNat + 32) else c

/-- C `strcmp`: only the sign of the result is specified, so it is -1, 0 or 1. -/
def strcmp : List Char → List Char → Int
  | [], [] => 0
  | [], _ :: _ => -1
  | _ :: _, [] => 1
  | a :: as, b :: bs =>
    if a = b then strcmp as bs else if a.toNat < b.toNat then -1 else 1

/-- C `strcasecmp`: `strcmp` on the lower-cased characters. -/
def strcasecmp (a b : List Char) : Int :=
  strcmp (a.map tolower) (b.map tolower)

/-- The test `!strncmp (s, pat, strlen (pat))`: `s` starts with `pat`. -/
def strncmp_eq (s pat : List Char) : Bool :=
  pat.isPrefixOf s

/-! ## Data model -/

/-- The C struct `atom_data` (the cached `gl_color` is a rendering detail and is left out). -/
structure atom_data where
  name : List Char
  size : ℚ
  size2 : ℚ
  color : String
  text_color : String
deriving DecidableEq

/-- The table `all_atom_data`. -/
def all_atom_data : List atom_data :=
  [ ⟨['H'], 117/100, 0, "White", "Grey70"⟩,
    ⟨['C'], 175/100, 0, "Grey60", "White"⟩,
    ⟨['C', 'A'], 180/100, 0, "Blue", "LightBlue"⟩,
    ⟨['N'], 155/100, 0, "LightSteelBlue3", "SlateBlue1"⟩,
    ⟨['O'], 140/100, 0, "Red", "LightPink"⟩,
    ⟨['P'], 128/100, 0, "MediumPurple", "PaleVioletRed"⟩,
    ⟨['S'], 180/100, 0, "Yellow4", "Yellow1"⟩,
    ⟨['b', 'o', 'n', 'd'], 0, 0, "Grey70", "Yellow1"⟩,
    ⟨['*'], 140/100, 0, "Green4", "LightGreen"⟩ ]

/-- The C struct `molecule_atom`.  The pointer `data` into `all_atom_data` is the
index of the entry it points to; `none` is NULL. -/
structure molecule_atom where
  id : Int
  label : List Char
  x : ℚ
  y : ℚ
  z : ℚ
  data : Option Nat
deriving DecidableEq

/-- The C struct `molecule_bond` (`from_` and `to_` are the C fields `from` and `to`). -/
structure molecule_bond where
  from_ : Int
  to_ : Int
  strength : Int
deriving DecidableEq

/-- The C struct `molecule`; `label` is a pointer, `none` is NULL. -/
structure molecule where
  label : Option (List Char)
  atoms : List molecule_atom
  bonds : List molecule_bond
deriving DecidableEq

/-- The field `natoms`. -/
def molecule.natoms (m : molecule) : Nat := m.atoms.length

/-- The field `nbonds`. -/
def molecule.nbonds (m : molecule) : Nat := m.bonds.length

/-- A zero-filled `molecule`, as `calloc` returns it. -/
def molecule.empty : molecule := ⟨none, [], []⟩

/-! ## `get_atom_data` and `push_atom` -/

/-- The loop `while (L > 0 && !isalpha(n[L-1])) n[--L] = 0;`: drop the trailing non-letters. -/
def strip_trailing_nonalpha (n : List Char) : List Char :=
  (n.reverse.dropWhile (fun c => !isalpha c)).reverse

/-- The `for` loop of `get_atom_data` from index `i` on, over the rest of the
table: `d` is the pointer set by the iterations done so far. -/
def get_atom_data_loop (n : List Char) : List atom_data → Nat → Option Nat → Option Nat
  | [], _, d => d
  | e :: rest, i, _ =>
    if strcasecmp n e.name = 0 then some i else get_atom_data_loop n rest (i + 1) (some i)

/-- The C function `get_atom_data`.  The loop `while (!isalpha(*n)) n++;` runs past
the end of a name that has no letter: that is the result `none`.  Otherwise the
result is `some d` with `d` the returned pointer. -/
def get_atom_data (atom_name : List Char) : Option (Option Nat) :=
  match atom_name.dropWhile (fun c => !isalpha c) with
  | [] => none
  | c :: n => some (get_atom_data_loop (strip_trailing_nonalpha (c :: n)) all_atom_data 0 none)

/-- The C function `push_atom`. -/
def push_atom (m : molecule) (id : Int) (label : List Char) (x y z : ℚ) : Option molecule :=
  match get_atom_data label with
  | none => none
  | some d => some { m with atoms := m.atoms ++ [⟨id, label, x, y, z, d⟩] }

/-! ## `push_bond` -/

/-- The test of the `for` loop of `push_bond` on one record. -/
def bond_matches (b : molecule_bond) (from_ to_ : Int) : Bool :=
  (b.from_ = from_ && b.to_ = to_) || (b.to_ = from_ && b.from_ = to_)

/-- The `for` loop of `push_bond`: `some bonds'` when a record matched and its
strength was incremented (the early `return`), `none` when the loop ran to the end. -/
def push_bond_loop (from_ to_ : Int) : List molecule_bond → Option (List molecule_bond)
  | [] => none
  | b :: rest =>
    if bond_matches b from_ to_ then some ({ b with strength := b.strength + 1 } :: rest)
    else (push_bond_loop from_ to_ rest).map (fun r => b :: r)

/-- The C function `push_bond`. -/
def push_bond (m : molecule) (from_ to_ : Int) : molecule :=
  match push_bond_loop from_ to_ m.bonds with
  | some bonds => { m with bonds := bonds }
  | none => { m with bonds := m.bonds ++ [⟨from_, to_, 1⟩] }

/-! ## `sscanf` -/

/-- The decimal digits at the head of `s`, accumulated onto `acc`. -/
def scan_digits : List Char → Nat → Nat × List Char
  | [], acc => (acc, [])
  | c :: r, acc =>
    if isdigit c then scan_digits r (10 * acc + (c.toNat - 48)) else (acc, c :: r)

/-- The outcome of one `%d` conversion: a matching failure, a numeral that does
not fit in `int` (undefined behaviour), or the value and the unread input. -/
inductive scan_result where
  | failure
  | overflow
  | ok (v : Int) (rest : List Char)
deriving DecidableEq

/-- The digits of a `%d` conversion, after the optional sign. -/
def scan_unsigned (neg : Bool) : List Char → scan_result
  | [] => .failure
  | c :: r =>
    if isdigit c then
      let v : Int := if neg then -((scan_digits (c :: r) 0).1 : Int) else (scan_digits (c :: r) 0).1
      if -2147483648 ≤ v ∧ v ≤ 2147483647 then .ok v (scan_digits (c :: r) 0).2 else .overflow
    else .failure

/-- The `sscanf` directive `" %d"`: skip white space, then an optionally signed
decimal integer. -/
def scan_int (s : List Char) : scan_result :=
  match s.dropWhile isspace with
  | [] => .failure
  | c :: r =>
    if c = '-' then scan_unsigned true r
    else if c = '+' then scan_unsigned false r
    else scan_unsigned false (c :: r)

/-- At most `n` directives `" %d"` in a row, as `sscanf` runs them: the
values converted before the first matching failure; `none` when a numeral
overflows. -/
def scan_ints : Nat → List Char → Option (List Int)
  | 0, _ => some []
  | n + 1, s =>
    match scan_int s with
    | .failure => some []
    | .overflow => none
    | .ok v rest => (scan_ints n rest).map (fun vs => v :: vs)

/-- The call `sscanf (s, " %f %f %f ", &x, &y, &z)` with `x`, `y`, `z` preset
to -999: each conversion that succeeds overwrites its variable, the first one
that fails ends the call.  The directive `" %f"` is the parameter `scanf_f`
(`none` is a matching failure). -/
def scan_coords (scanf_f : List Char → Option (ℚ × List Char)) (s : List Char) : ℚ × ℚ × ℚ :=
  match scanf_f s with
  | none => (-999, -999, -999)
  | some (x, r1) =>
    match scanf_f r1 with
    | none => (x, -999, -999)
    | some (y, r2) =>
      match scanf_f r2 with
      | none => (x, y, -999)
      | some (z, _) => (x, y, z)

/-- An instance of the directive `" %f"` for numerals in fixed notation (the
form of the coordinate columns): white space, an optional sign, digits with
an optional fraction.  Exponents, infinities and NaN are not covered. -/
def scan_decimal (s : List Char) : Option (ℚ × List Char) :=
  let t := s.dropWhile isspace
  let neg : Bool := t.head? = some '-'
  let u := if t.head? = some '-' ∨ t.head? = some '+' then t.tail else t
  let ip := scan_digits u 0
  let sign : Int := if neg then -1 else 1
  match ip.2 with
  | [] => if ip.2.length < u.length then some (mkRat (sign * ip.1) 1, []) else none
  | c :: r =>
    if c = '.' then
      let fp := scan_digits r 0
      let k := r.length - fp.2.length
      if ip.2.length < u.length ∨ 0 < k then
        some (mkRat (sign * (ip.1 * 10 ^ k + fp.1)) (10 ^ k), fp.2)
      else none
    else if ip.2.length < u.length then some (mkRat (sign * ip.1) 1, c :: r) else none

/-! ## `parse_pdb_data` -/

/-- The loop `while (isspace(*ss) && ss > name) *ss-- = 0;` run from the last
character of a string that does not start with white space. -/
def strip_trailing_space (n : List Char) : List Char :=
  (n.reverse.dropWhile isspace).reverse

/-- The label computed by the HEADER/COMPND branch of `parse_pdb_data`. -/
def parse_label (s : List Char) : List Char :=
  let n2 := ((s.take 99).drop 7).dropWhile isspace
  let n2 := n2.takeWhile (fun c => c ≠ '\n')
  let n2 := n2.takeWhile (fun c => c ≠ '\r')
  let n2 := strip_trailing_space n2
  if 4 < n2.length ∧ n2.drop (n2.length - 4) = ".pdb".toList then n2.take (n2.length - 4) else n2

/-- The keywords of the branch of `parse_pdb_data` marked "ignored". -/
def ignored_keywords : List String :=
  [ "TITLE ", "HEADER", "COMPND", "AUTHOR", "REVDAT", "SOURCE", "EXPDTA", "JRNL  ",
    "REMARK", "SEQRES", "HET   ", "FORMUL", "CRYST1", "ORIGX1", "ORIGX2", "ORIGX3",
    "SCALE1", "SCALE2", "SCALE3", "MASTER", "KEYWDS", "DBREF ", "HETNAM", "HETSYN",
    "HELIX ", "LINK  ", "MTRIX1", "MTRIX2", "MTRIX3", "SHEET ", "CISPEP",
    "GENERATED BY", "TER ", "END ", "TER\n", "END\n", "\n" ]

/-- The condition of the "ignored" branch. -/
def ignored_line (s : List Char) : Bool :=
  ignored_keywords.any (fun k => strncmp_eq s k.toList)

/-- The atom name computed by the ATOM branch (`lower = true`) and the HETATM
branch (`lower = false`) of `parse_pdb_data`. -/
def atom_name (lower : Bool) (s : List Char) : List Char :=
  let name := strip_trailing_space (((s.drop 12).take 3).dropWhile isspace)
  if lower then
    match name with
    | [] => []
    | c :: r => c :: r.map tolower
  else name

/-- The body of the ATOM branch (`off = 32`, `lower = true`) and of the HETATM
branch (`off = 30`, `lower = false`).  `none`: `s + off` lies past the end of
the string, or `id` is used without having been converted. -/
def parse_atom (scanf_f : List Char → Option (ℚ × List Char)) (off : Nat) (lower : Bool)
    (m : molecule) (s : List Char) : Option molecule :=
  if s.length < off then none
  else
    match scan_int (s.drop 7) with
    | .ok id _ =>
      push_atom m id (atom_name lower s)
        (scan_coords scanf_f (s.drop off)).1
        (scan_coords scanf_f (s.drop off)).2.1
        (scan_coords scanf_f (s.drop off)).2.2
    | _ => none

/-- The loop `for (j = 1; j < i; j++) if (atoms[j] > 0) push_bond (m, atoms[0], atoms[j]);`
over the partners `atoms[1..i-1]`. -/
def conect_bonds (m : molecule) (base : Int) (partners : List Int) : molecule :=
  partners.foldl (fun m p => if p > 0 then push_bond m base p else m) m

/-- The body of the CONECT branch.  `none`: `s + 8` lies past the end of the
string, a numeral overflows, or the twelfth conversion succeeds and is stored
in `atoms[11]`, outside `int atoms[11]`. -/
def parse_conect (m : molecule) (s : List Char) : Option molecule :=
  if s.length < 8 then none
  else
    match scan_ints 12 (s.drop 8) with
    | none => none
    | some [] => some m
    | some (base :: partners) =>
      if 11 < (base :: partners).length then none else some (conect_bonds m base partners)

/-- One iteration of the `while (*s)` loop of `parse_pdb_data`, without the
advance to the next line. -/
def parse_pdb_line (scanf_f : List Char → Option (ℚ × List Char)) (m : molecule)
    (s : List Char) : Option molecule :=
  if (m.label = none ∨ m.label = some []) ∧
      (strncmp_eq s "HEADER".toList ∨ strncmp_eq s "COMPND".toList) then
    some { m with label := some (parse_label s) }
  else if ignored_line s then some m
  else if strncmp_eq s "ATOM   ".toList then parse_atom scanf_f 32 true m s
  else if strncmp_eq s "HETATM ".toList then parse_atom scanf_f 30 false m s
  else if strncmp_eq s "CONECT ".toList then parse_conect m s
  else some m

/-- The advance `while (*s && *s != '\n') s++; if (*s == '\n') s++;`. -/
def next_line : List Char → List Char
  | [] => []
  | c :: r => if c = '\n' then r else next_line r

/-- The `while (*s)` loop of `parse_pdb_data`, with a bound on the number of iterations. -/
def parse_pdb_loop (scanf_f : List Char → Option (ℚ × List Char)) :
    Nat → molecule → List Char → Option molecule
  | _, m, [] => some m
  | 0, _, _ :: _ => none
  | fuel + 1, m, c :: r =>
    match parse_pdb_line scanf_f m (c :: r) with
    | none => none
    | some m1 => parse_pdb_loop scanf_f fuel m1 (next_line (c :: r))

/-- The C function `parse_pdb_data` (`filename` and `line` only feed the
diagnostics).  Every iteration consumes a character, so `data.length`
iterations are enough. -/
def parse_pdb_data (scanf_f : List Char → Option (ℚ × List Char)) (m : molecule)
    (data : List Char) : Option molecule :=
  parse_pdb_loop scanf_f data.length m data

/-! ## `generate_molecule_formula` -/

/-- The C struct `atom_and_count`, for the entries of `counts` whose `atom`
is not NULL. -/
structure atom_and_count where
  atom : List Char
  count : Nat
deriving DecidableEq

/-- The C function `cmp_atoms` on two entries whose `atom` is not NULL (`qsort`
is only given such entries). -/
def cmp_atoms (a b : atom_and_count) : Int :=
  if strcmp a.atom ['C'] = 0 then -1
  else if strcmp b.atom ['C'] = 0 then 1
  else if strcmp a.atom ['H'] = 0 then -1
  else if strcmp b.atom ['H'] = 0 then 1
  else strcmp a.atom b.atom

/-- The library function `qsort` with comparison function `cmp`, as an insertion
sort.  `generate_molecule_formula` sorts entries that differ pairwise under
`cmp_atoms`, and every sorting algorithm returns the same array on those. -/
def qsort {α : Type} (cmp : α → α → Int) (l : List α) : List α :=
  l.insertionSort (fun a b => cmp a b ≤ 0)

/-- The element symbol that `generate_molecule_formula` reads in a label:
`while (!isalpha(*a)) a++;` then the letters up to the first non-letter.
`none`: the label has no letter and the first loop runs past its end. -/
def element_symbol (label : List Char) : Option (List Char) :=
  match label.dropWhile (fun c => !isalpha c) with
  | [] => none
  | c :: r => some ((c :: r).takeWhile isalpha)

/-- The search `while (counts[j].atom && !!strcmp(a, counts[j].atom)) j++;` from
index `j` on, followed by the update of `counts[j]`.  The argument is the part
of `counts` from index `j` up to the first NULL entry.  `none`: the search
reads `counts[200]`. -/
def count_symbol (a : List Char) : List atom_and_count → Nat → Option (List atom_and_count)
  | [], j => if j < 200 then some [⟨a, 1⟩] else none
  | c :: rest, j =>
    if strcmp a c.atom = 0 then some ({ c with count := c.count + 1 } :: rest)
    else (count_symbol a rest (j + 1)).map (fun r => c :: r)

/-- The first `for` loop of `generate_molecule_formula` over the atoms not yet counted. -/
def count_atoms : List molecule_atom → List atom_and_count → Option (List atom_and_count)
  | [], counts => some counts
  | atom :: rest, counts =>
    match element_symbol atom.label with
    | none => none
    | some a =>
      match count_symbol a counts 0 with
      | none => none
      | some counts1 => count_atoms rest counts1

/-- What the last loop of `generate_molecule_formula` appends for one entry:
the symbol, then `sprintf (s, "[%d]", count)` when the count exceeds 1. -/
def formula_entry (c : atom_and_count) : List Char :=
  c.atom ++ (if 1 < c.count then '[' :: (Nat.toDigits 10 c.count ++ [']']) else [])

/-- The contents of `buf` when `generate_molecule_formula` calls
`special_case_formula`.  `none`: a label has no letter, or the loops
`while (counts[i].atom)` read `counts[200]`, or the string with its
terminator does not fit in the `natoms * 10` bytes of `buf`. -/
def raw_formula (m : molecule) : Option (List Char) :=
  match count_atoms m.atoms [] with
  | none => none
  | some counts =>
    if 200 ≤ counts.length then none
    else
      let buf := ((qsort cmp_atoms counts).map formula_entry).flatten
      if buf.length + 1 ≤ m.natoms * 10 then some buf else none

/-- The C function `special_case_formula`. -/
def special_case_formula (f : List Char) : List Char :=
  if f = "H[2]Be".toList then "BeH[2]".toList
  else if f = "H[3]B".toList then "BH[3]".toList
  else if f = "H[3]N".toList then "NH[3]".toList
  else if f = "CHN".toList then "HCN".toList
  else if f = "CKN".toList then "KCN".toList
  else if f = "H[4]N[2]".toList then "N[2]H[4]".toList
  else if f = "Cl[3]P".toList then "PCl[3]".toList
  else if f = "Cl[5]P".toList then "PCl[5]".toList
  else f

/-- The contents of `buf` after the call of `special_case_formula`. -/
def molecule_formula (m : molecule) : Option (List Char) :=
  (raw_formula m).map special_case_formula

/-- The C function `generate_molecule_formula`: the formula is appended to
the label after a newline. -/
def generate_molecule_formula (m : molecule) : Option molecule :=
  (molecule_formula m).map (fun buf => { m with label := some (m.label.getD [] ++ '\n' :: buf) })

/-! ## `get_atom` -/

/-- The outcome of `get_atom`: the atom pointed to by the result, the
`no atom` diagnostic followed by `abort ()`, or a read outside `atoms`. -/
inductive get_atom_result where
  | found (a : molecule_atom)
  | no_atom
  | out_of_bounds
deriving DecidableEq

/-- The array read `atoms[i]`; `none` outside the array. -/
def atom_at (atoms : List molecule_atom) (i : Int) : Option molecule_atom :=
  if i < 0 then none else atoms[i.toNat]?

/-- The statement `if (atoms[i].id == id) return &atoms[i];` followed by `k`. -/
def probe (atoms : List molecule_atom) (i id : Int) (k : get_atom_result) : get_atom_result :=
  match atom_at atoms i with
  | none => .out_of_bounds
  | some a => if a.id = id then .found a else k

/-- The full scan `for (i = 0; i < natoms; i++) if (id == atoms[i].id) return &atoms[i];`
and the `abort ()` that follows it. -/
def get_atom_scan (id : Int) : List molecule_atom → get_atom_result
  | [] => .no_atom
  | a :: rest => if id = a.id then .found a else get_atom_scan id rest

/-- The C function `get_atom` (`natoms` is the length of `atoms`). -/
def get_atom (atoms : List molecule_atom) (id : Int) : get_atom_result :=
  if id < (atoms.length : Int) then
    probe atoms id id
      (if id > 0 then
        probe atoms (id - 1) id
          (if id < (atoms.length : Int) - 1 then probe atoms (id + 1) id (get_atom_scan id atoms)
           else get_atom_scan id atoms)
       else if id < (atoms.length : Int) - 1 then probe atoms (id + 1) id (get_atom_scan id atoms)
       else get_atom_scan id atoms)
  else get_atom_scan id atoms

/-! ## Arithmetic on `GLfloat` and `double` -/

/-- The integer nearest to `r`; of two integers equally near, the even one. -/
def round_half_even (r : ℚ) : Int :=
  if r - ⌊r⌋ < 1/2 then ⌊r⌋
  else if 1/2 < r - ⌊r⌋ then ⌊r⌋ + 1
  else if ⌊r⌋ % 2 = 0 then ⌊r⌋ else ⌊r⌋ + 1

/-- The value of the binary floating-point format with `p` significant bits
and least exponent `emin` that is nearest to `q`, ties going to the even
significand: the rounding that the arithmetic of IEEE 754 applies to the exact
result of an operation.  The exponent is that of `q`, or `emin` for a
subnormal result; the format has no largest exponent here, so that a result
beyond the largest finite value is not the infinity that the machine gives. -/
def round_binary (p : Nat) (emin : Int) (q : ℚ) : ℚ :=
  let e := max (Int.log 2 |q|) emin
  let ulp : ℚ := 2 ^ (e - ((p : Int) - 1))
  round_half_even (q / ulp) * ulp

/-- The value of type `GLfloat` (`float`, binary32) that an operation with the
exact result `q` gives. -/
def GLfloat_of (q : ℚ) : ℚ := round_binary 24 (-126) q

/-- The value of type `double` (binary64) that an operation with the exact
result `q` gives. -/
def double_of (q : ℚ) : ℚ := round_binary 53 (-1022) q

/-- The constant `FLT_MAX`, the largest finite value of type `float`. -/
def FLT_MAX : ℚ := (2 ^ 24 - 1) * 2 ^ 104

/-- The numbers of the binary floating-point format with `p` significant bits
and least exponent `emin` (no largest exponent). -/
def representable (p : Nat) (emin : Int) (y : ℚ) : Prop :=
  ∃ m k : Int, |m| < 2 ^ p ∧ emin - ((p : Int) - 1) ≤ k ∧ y = m * (2 : ℚ) ^ k

/-- The rational `y` is a value of type `GLfloat`. -/
def is_GLfloat (y : ℚ) : Prop := representable 24 (-126) y ∧ |y| ≤ FLT_MAX

/-! ## Bounding box -/

/-- The six outputs `x1, y1, z1, x2, y2, z2` of `molecule_bounding_box`. -/
structure bounding_box where
  x1 : ℚ
  y1 : ℚ
  z1 : ℚ
  x2 : ℚ
  y2 : ℚ
  z2 : ℚ
deriving DecidableEq

/-- One iteration of the `for` loop of `molecule_bounding_box`. -/
def bounding_box_step (b : bounding_box) (a : molecule_atom) : bounding_box :=
  { x1 := if a.x < b.x1 then a.x else b.x1,
    y1 := if a.y < b.y1 then a.y else b.y1,
    z1 := if a.z < b.z1 then a.z else b.z1,
    x2 := if a.x > b.x2 then a.x else b.x2,
    y2 := if a.y > b.y2 then a.y else b.y2,
    z2 := if a.z > b.z2 then a.z else b.z2 }

/-- The C function `molecule_bounding_box` on the molecule being shown.  The
statements `*x1 -= 1.5;` to `*z2 += 1.5;` convert the `GLfloat` to `double`,
subtract or add the `double` constant 1.5, and convert the result back to
`GLfloat`.  (The result of adding 1.5 to a finite `GLfloat` is finite.) -/
def molecule_bounding_box (m : molecule) : bounding_box :=
  let b0 : bounding_box :=
    match m.atoms with
    | [] => ⟨0, 0, 0, 0, 0, 0⟩
    | a :: _ => ⟨a.x, a.y, a.z, a.x, a.y, a.z⟩
  let b := (m.atoms.drop 1).foldl bounding_box_step b0
  ⟨GLfloat_of (double_of (b.x1 - 3/2)), GLfloat_of (double_of (b.y1 - 3/2)),
   GLfloat_of (double_of (b.z1 - 3/2)), GLfloat_of (double_of (b.x2 + 3/2)),
   GLfloat_of (double_of (b.y2 + 3/2)), GLfloat_of (double_of (b.z2 + 3/2))⟩

/-- What `ensure_bounding_box_visible` does: the value stored in
`mc->molecule_size`, the flag `scale_down`, the argument of the call
`glScalef (scale, scale, scale)` (`none` when the call is not made) and the
arguments of `glTranslatef`. -/
structure visible_box where
  molecule_size : ℚ
  scale_down : Bool
  scale : Option ℚ
  translate : ℚ × ℚ × ℚ
deriving DecidableEq

/-- The C function `ensure_bounding_box_visible` on the molecule being shown.
The differences, the quotients and the sums are operations on `GLfloat`, each
rounded to `GLfloat`; the comparison `scale < 0.3` is made in `double`, with
the `double` constant 0.3.  When a difference exceeds `FLT_MAX` the machine
gives an infinite `size` and the scale 0: the definition is that of the code
for the molecules whose `molecule_size` here is at most `FLT_MAX`. -/
def ensure_bounding_box_visible (m : molecule) : visible_box :=
  let max_size : ℚ := 10
  let b := molecule_bounding_box m
  let w := GLfloat_of (b.x2 - b.x1)
  let h := GLfloat_of (b.y2 - b.y1)
  let d := GLfloat_of (b.z2 - b.z1)
  let size := if w > h then w else h
  let size := if size > d then size else d
  { molecule_size := size,
    scale_down :=
      if size > max_size then decide (GLfloat_of (max_size / size) < double_of (3/10))
      else false,
    scale := if size > max_size then some (GLfloat_of (max_size / size)) else none,
    translate := (-(GLfloat_of (b.x1 + GLfloat_of (w/2))),
                  -(GLfloat_of (b.y1 + GLfloat_of (h/2))),
                  -(GLfloat_of (b.z1 + GLfloat_of (d/2)))) }

/-- The factor by which `ensure_bounding_box_visible` scales the scene: the
argument of `glScalef`, and 1 when `glScalef` is not called. -/
def visible_box.factor (v : visible_box) : ℚ := v.scale.getD 1

/-! ## Definitions used to state the properties -/

/-- The ids `a`, `b` and the ids `c`, `d` are the same unordered pair. -/
def same_pair (a b c d : Int) : Prop :=
  (a = c ∧ b = d) ∨ (b = c ∧ a = d)

instance (a b c d : Int) : Decidable (same_pair a b c d) := by
  unfold same_pair; infer_instance

/-- A structure blob made of the given lines; `final_newline` tells whether
the last line ends with a newline. -/
def records_blob (final_newline : Bool) : List (List Char) → List Char
  | [] => []
  | [l] => if final_newline then l ++ ['\n'] else l
  | l :: l2 :: ls => l ++ '\n' :: records_blob final_newline (l2 :: ls)

/-- A well-formed atom record: one line that starts with the keyword `ATOM` or
`HETATM`, reaches the coordinate columns, holds a serial number that `%d`
converts after the keyword, and has a letter in its three name columns. -/
def atom_record_ok (l : List Char) : Bool :=
  !l.contains '\n' &&
  ((strncmp_eq l "ATOM   ".toList && decide (32 ≤ l.length)) ||
   (strncmp_eq l "HETATM ".toList && decide (30 ≤ l.length))) &&
  (match scan_int (l.drop 7) with
   | .ok _ _ => true
   | _ => false) &&
  ((l.drop 12).take 3).any isalpha

/-- A line that is neither an atom record nor a connectivity record: it does
not start with the keyword `ATOM`, `HETATM` or `CONECT`. -/
def other_record_ok (l : List Char) : Bool :=
  !l.contains '\n' && !strncmp_eq l "ATOM   ".toList && !strncmp_eq l "HETATM ".toList &&
    !strncmp_eq l "CONECT ".toList

/-- The serial number of an atom record. -/
def record_id (l : List Char) : Int :=
  match scan_int (l.drop 7) with
  | .ok v _ => v
  | _ => 0

/-- The atom name of an atom record: the three name columns without the
surrounding white space, in an `ATOM` record with every character after the
first in lower case. -/
def record_label (l : List Char) : List Char :=
  atom_name (strncmp_eq l "ATOM   ".toList) l

/-- A continuation at which a run of digits ends: the end of the input or a
character that is not a digit. -/
def ends_digits (b : List Char) : Prop := ∀ c ∈ b.head?, isdigit c = false

/-- The decimal numeral of an integer, as `printf ("%d")` writes it. -/
def int_digits (n : Int) : List Char :=
  if n < 0 then '-' :: Nat.toDigits 10 n.natAbs else Nat.toDigits 10 n.natAbs

/-- The place of an element symbol in a formula: `C` first, `H` second, the others after. -/
def formula_rank (s : List Char) : Nat :=
  if s = ['C'] then 0 else if s = ['H'] then 1 else 2

/-- The order of the element symbols in a formula, as the specification words
it: `C` first, `H` second, all the others in ascending alphabetical order. -/
def formula_before (s t : List Char) : Prop :=
  formula_rank s < formula_rank t ∨
    (formula_rank s = 2 ∧ formula_rank t = 2 ∧ List.Lex (fun x y : Char => x < y) s t)

/-- The comparison of `cmp_atoms` on two symbols. -/
def sym_le (s t : List Char) : Prop := cmp_atoms ⟨s, 0⟩ ⟨t, 0⟩ ≤ 0

instance : DecidableRel sym_le := fun s t => by unfold sym_le; infer_instance

/-- The update of `counts` by `count_symbol`, without the bound of 200 entries. -/
def bump (a : List Char) : List atom_and_count → List atom_and_count
  | [] => [⟨a, 1⟩]
  | e :: r => if strcmp a e.atom = 0 then { e with count := e.count + 1 } :: r else e :: bump a r

/-- The element symbols of a list of atoms, in order. -/
def symbols (atoms : List molecule_atom) : List (List Char) :=
  atoms.filterMap (fun a => element_symbol a.label)

/-- What the counting loop of `generate_molecule_formula` has built once it has
read the symbols `syms`. -/
def counts_inv (c : List atom_and_count) (syms : List (List Char)) : Prop :=
  (c.map atom_and_count.atom).Nodup ∧ (∀ e ∈ c, e.count = syms.count e.atom) ∧
    (∀ s, s ∈ c.map atom_and_count.atom ↔ s ∈ syms)

/-- The count written after a symbol: `[count]` when the count exceeds 1, nothing otherwise. -/
def count_suffix (n : Nat) : List Char :=
  if 1 < n then '[' :: (Nat.toDigits 10 n ++ [']']) else []

/-- The formula that lists the symbols `syms` in order, each one followed by
the count of the atoms of `atoms` that have this symbol. -/
def formula_text (atoms : List molecule_atom) (syms : List (List Char)) : List Char :=
  syms.flatMap (fun s => s ++ count_suffix (atoms.countP (fun a => element_symbol a.label = some s)))

/-- A molecule with the given atom names, all at the origin, with the styles
that `push_atom` resolves. -/
def molecule_of_labels (labels : List String) : molecule :=
  ⟨none, labels.map (fun l => ⟨0, l.toList, 0, 0, 0, (get_atom_data l.toList).getD none⟩), []⟩

/-- The override table of `special_case_formula`: the formula as derived, and
the conventional formula that replaces it. -/
def override_table : List (String × String) :=
  [ ("H[2]Be", "BeH[2]"), ("H[3]B", "BH[3]"), ("H[3]N", "NH[3]"), ("CHN", "HCN"),
    ("CKN", "KCN"), ("H[4]N[2]", "N[2]H[4]"), ("Cl[3]P", "PCl[3]"), ("Cl[5]P", "PCl[5]") ]

/-- A label stripped of its leading and trailing non-letters. -/
def trim_nonalpha (l : List Char) : List Char :=
  ((l.dropWhile (fun c => !isalpha c)).reverse.dropWhile (fun c => !isalpha c)).reverse

/-- Two names are equal when the case of their letters is ignored. -/
def eq_ignoring_case (a b : List Char) : Prop :=
  a.map tolower = b.map tolower

instance (a b : List Char) : Decidable (eq_ignoring_case a b) := by
  unfold eq_ignoring_case; infer_instance

/-- The first letters of the names of `two_letter_names`. -/
def first_letters : List Char := ['A', 'B', 'D', 'E', 'F', 'G', 'J', 'L']

/-- The second letters of the names of `two_letter_names`. -/
def second_letters : List Char :=
  ['a', 'b', 'c', 'd', 'e', 'f', 'g', 'h', 'i', 'j', 'k', 'l', 'm', 'n', 'o', 'p', 'q', 'r',
   's', 't', 'u', 'v', 'w', 'x', 'y']

/-- Two hundred atom names of two letters each: `Aa`, `Ab`, ..., `Ly`. -/
def two_letter_names : List (List Char) :=
  first_letters.flatMap (fun a => second_letters.map (fun b => [a, b]))

/-- The calls `push_atom (m, id, name, 0, 0, 0)` for the names of a list, with
the ids 1, 2, ... in the order of the calls, as `parse_pdb_data` makes them
for a file of atom records. -/
def push_atoms (m : molecule) : List (List Char) → Option molecule
  | [] => some m
  | l :: rest => (push_atom m ((m.natoms : Int) + 1) l 0 0 0).bind (fun m1 => push_atoms m1 rest)

/-! ## Scene state

Conventions of this part of the embedding.

* `random ()` is a list of natural numbers: the values that the successive
  calls return.  A function that calls `random ()` takes the list and returns
  what is left of it.
* `time (0)` is an argument of the function that calls it.
* The state of the OpenGL server, the trackball and the rotator are left out.
-/

/-- How a C function of this file ends: it returns, it calls `exit (1)`, it
calls `abort ()`, its behaviour is undefined, or, in the embedding only, it
calls `random ()` more often than there are numbers in the list. -/
inductive outcome (α : Type) where
  | ok (a : α)
  | exit
  | abort
  | undefined
  | starved
deriving DecidableEq

/-- Sequential composition of two functions that can end early. -/
def outcome.bind {α β : Type} (o : outcome α) (f : α → outcome β) : outcome β :=
  match o with
  | .ok a => f a
  | .exit => .exit
  | .abort => .abort
  | .undefined => .undefined
  | .starved => .starved

/-- The C struct `molecule_configuration`, together with the static variables
of the file (`scale_down` to `orig_wire`; `wire` is `MI_IS_WIREFRAME (mi)`)
and the static variables `last` and `tick` of `draw_molecule`.  The field
`nmolecules` is the length of `molecules`; `glx_context` tells whether the
pointer is not NULL. -/
structure molecule_configuration where
  glx_context : Bool
  button_down_p : Bool
  molecule_size : ℚ
  no_label_threshold : ℚ
  wireframe_threshold : ℚ
  which : Nat
  molecules : List molecule
  mode : Int
  mode_tick : Int
  polygon_count : Int
  scale_down : Bool
  timeout : Int
  molecule_str : Option (List Char)
  do_spin : List Char
  do_titles : Bool
  do_labels : Bool
  do_atoms : Bool
  do_bonds : Bool
  do_shells : Bool
  do_bbox : Bool
  verbose_p : Bool
  wire : Bool
  orig_do_labels : Bool
  orig_do_atoms : Bool
  orig_do_bonds : Bool
  orig_do_shells : Bool
  orig_wire : Bool
  last : Int
  tick : Int
deriving DecidableEq

/-- The field `nmolecules`. -/
def molecule_configuration.nmolecules (mc : molecule_configuration) : Nat :=
  mc.molecules.length

/-! ## `molecule_handle_event` -/

/-- The X events by what `molecule_handle_event` reads in them.  The character
of `KeyPress` is the value of `c` after the call of `XLookupString`, the NUL
character when the key has no string. -/
inductive XEvent where
  | ButtonPress (button : Nat) (x y : Int) (state : Nat)
  | ButtonRelease (button : Nat)
  | KeyPress (c : Char)
  | MotionNotify (x y : Int)
  | other
deriving DecidableEq

/-- The C function `molecule_handle_event`: the new state and the value returned. -/
def molecule_handle_event (mc : molecule_configuration) (event : XEvent) :
    molecule_configuration × Bool :=
  match event with
  | .ButtonPress button _ _ _ =>
    if button = 1 then ({ mc with button_down_p := true }, true)
    else if button = 4 ∨ button = 5 then (mc, true)
    else (mc, false)
  | .ButtonRelease button =>
    if button = 1 then ({ mc with button_down_p := false }, true) else (mc, false)
  | .KeyPress c =>
    if c = ' ' ∨ c = '\t' ∨ c = '\r' ∨ c = '\n' then
      ({ mc with mode := 1, mode_tick := 40 }, true)
    else (mc, false)
  | .MotionNotify _ _ => if mc.button_down_p then (mc, true) else (mc, false)
  | .other => (mc, false)

/-! ## `build_molecule` -/

/-- The loop of `build_molecule` over the bonds: the polygons it adds.  Both
ends of a bond are looked up with `get_atom` before the bond is drawn. -/
def build_bonds (wire scale_down : Bool) (atoms : List molecule_atom) :
    List molecule_bond → outcome Int
  | [] => .ok 0
  | b :: rest =>
    match get_atom atoms b.from_ with
    | .no_atom => .abort
    | .out_of_bounds => .undefined
    | .found _ =>
      match get_atom atoms b.to_ with
      | .no_atom => .abort
      | .out_of_bounds => .undefined
      | .found _ =>
        (build_bonds wire scale_down atoms rest).bind
          (fun polys => .ok ((if wire then 1 else if scale_down then 3 else 12) + polys))

/-- The loop of `build_molecule` over the atoms: the polygons it adds.
`atom_size` and `set_atom_color` read the entry that `data` points to. -/
def build_atoms (scale_down : Bool) : List molecule_atom → outcome Int
  | [] => .ok 0
  | a :: rest =>
    match a.data.bind (fun i => all_atom_data[i]?) with
    | none => .undefined
    | some _ =>
      (build_atoms scale_down rest).bind
        (fun polys => .ok ((if scale_down then 4 * 7 else 12 * 24) + polys))

/-- The C function `build_molecule`: it adds the polygons of the molecule
`mc->molecules[mc->which]` to `mc->polygon_count`.  `XParseColor` is taken to
know the colour names of `all_atom_data`, so `set_atom_color` returns. -/
def build_molecule (mc : molecule_configuration) (transparent_p : Bool) :
    outcome molecule_configuration :=
  match mc.molecules[mc.which]? with
  | none => .undefined
  | some m =>
    (if mc.do_bonds then build_bonds mc.wire mc.scale_down m.atoms m.bonds else .ok 0).bind
      (fun p1 =>
        (if !mc.wire && mc.do_atoms then build_atoms mc.scale_down m.atoms else .ok 0).bind
          (fun p2 =>
            let p3 : Int := if mc.do_bbox && !transparent_p then 4 else 0
            .ok { mc with polygon_count := mc.polygon_count + (p1 + p2 + p3) }))

/-! ## `pick_new_molecule` -/

/-- The loop `while (n == mc->which) n = random() % mc->nmolecules;`, entered
with `n == mc->which`: the value of `n` when the loop ends and the random
numbers left.  `none`: the loop has not ended when the list is used up. -/
def pick_other (nmolecules which : Nat) : List Nat → Option (Nat × List Nat)
  | [] => none
  | r :: rs =>
    if r % nmolecules = which then pick_other nmolecules which rs
    else some (r % nmolecules, rs)

/-- What the first statement of `pick_new_molecule` does. -/
inductive pick_choice where
  | returned
  | chosen (which : Nat) (rs : List Nat)
  | undefined
  | starved
deriving DecidableEq

/-- The first statement of `pick_new_molecule`, which sets `mc->which`.  With
one molecule and `last != 0` the function returns at once; with no molecule
the remainder `random() % mc->nmolecules` is a division by zero. -/
def pick_which (nmolecules which : Nat) (last : Int) (rs : List Nat) : pick_choice :=
  if nmolecules = 1 then
    if last ≠ 0 then .returned else .chosen 0 rs
  else if nmolecules = 0 then .undefined
  else if last = 0 then
    match rs with
    | [] => .starved
    | r :: rs1 => .chosen (r % nmolecules) rs1
  else
    match pick_other nmolecules which rs with
    | none => .starved
    | some (n, rs1) => .chosen n rs1

/-- Lines 1441 to 1463 of `pick_new_molecule`: the display flags are set back
to what the user asked for, then adjusted to the size of the molecule. -/
def pick_flags (mc : molecule_configuration) : molecule_configuration :=
  let do_labels := if mc.molecule_size > mc.no_label_threshold then false else mc.orig_do_labels
  let wire := if mc.molecule_size > mc.wireframe_threshold then true else mc.orig_wire
  let do_bonds := if wire then true else mc.orig_do_bonds
  let do_shells := if wire then false else mc.orig_do_shells
  let do_shells := if !do_bonds then false else do_shells
  let nothing := !(do_bonds || mc.orig_do_atoms || do_labels)
  { mc with
    do_labels := do_labels,
    do_atoms := mc.orig_do_atoms,
    do_bonds := if nothing then true else do_bonds,
    do_shells := do_shells,
    wire := if nothing then true else wire }

/-- The second display list of `pick_new_molecule`, built when `do_shells` is
set after the first one.  The call of `ensure_bounding_box_visible` stores the
values that the first call has stored. -/
def pick_shells (mc : molecule_configuration) : outcome molecule_configuration :=
  if mc.do_shells then
    (build_molecule { mc with do_labels := false, do_atoms := true, do_bonds := false } true).bind
      (fun mc1 => .ok { mc1 with
        do_bonds := mc1.orig_do_bonds,
        do_atoms := mc1.orig_do_atoms,
        do_labels := mc1.orig_do_labels })
  else .ok mc

/-- The body of `pick_new_molecule` after `mc->which` is set: the geometry of
the molecule `mc->molecules[mc->which]` is built again.  With `verbose_p`
the label is copied by `strdup`, which reads it. -/
def pick_rebuild (mc : molecule_configuration) : outcome molecule_configuration :=
  match mc.molecules[mc.which]? with
  | none => .undefined
  | some m =>
    if mc.verbose_p ∧ m.label = none then .undefined
    else
      let v := ensure_bounding_box_visible m
      let mc1 := { mc with
        polygon_count := 0, molecule_size := v.molecule_size, scale_down := v.scale_down }
      (build_molecule (pick_flags mc1) false).bind pick_shells

/-- The C function `pick_new_molecule`. -/
def pick_new_molecule (mc : molecule_configuration) (last : Int) (rs : List Nat) :
    outcome (molecule_configuration × List Nat) :=
  match pick_which mc.nmolecules mc.which last rs with
  | .returned => .ok (mc, rs)
  | .undefined => .undefined
  | .starved => .starved
  | .chosen n rs1 => (pick_rebuild { mc with which := n }).bind (fun mc1 => .ok (mc1, rs1))

/-! ## `draw_molecule` -/

/-- The statement `last = now;` after a call of `pick_new_molecule`. -/
def set_last (now : Int) (o : outcome (molecule_configuration × List Nat)) :
    outcome (molecule_configuration × List Nat) :=
  o.bind (fun r => .ok ({ r.1 with last := now }, r.2))

/-- The C function `draw_molecule` up to the end of the `if` chain on
`last` and `mc->mode`; the rendering that follows changes none of the fields.
`now` is the value of the first call of `time`, `now2` the value of the call in
the idle branch. -/
def draw_molecule (mc : molecule_configuration) (now now2 : Int) (rs : List Nat) :
    outcome (molecule_configuration × List Nat) :=
  if !mc.glx_context then .ok (mc, rs)
  else if mc.last = 0 then set_last now (pick_new_molecule mc mc.last rs)
  else if mc.mode = 0 then
    if mc.tick > 10 then
      if !mc.button_down_p ∧ mc.nmolecules > 1 ∧ mc.last + mc.timeout ≤ now2 then
        .ok ({ mc with tick := 0, mode := 1, mode_tick := 40, last := now2 }, rs)
      else .ok ({ mc with tick := 0 }, rs)
    else .ok ({ mc with tick := mc.tick + 1 }, rs)
  else if mc.mode = 1 then
    if mc.mode_tick - 1 ≤ 0 then
      set_last now (pick_new_molecule { mc with mode_tick := 40, mode := 2 } mc.last rs)
    else .ok ({ mc with mode_tick := mc.mode_tick - 1 }, rs)
  else if mc.mode = 2 then
    if mc.mode_tick - 1 ≤ 0 then .ok ({ mc with mode_tick := mc.mode_tick - 1, mode := 0 }, rs)
    else .ok ({ mc with mode_tick := mc.mode_tick - 1 }, rs)
  else .abort

/-- A run of frames: `draw_molecule` is called once for every pair of clock
readings in `clock`. -/
def draw_frames (mc : molecule_configuration) (rs : List Nat) :
    List (Int × Int) → outcome (molecule_configuration × List Nat)
  | [] => .ok (mc, rs)
  | t :: clock =>
    match draw_molecule mc t.1 t.2 rs with
    | .ok r => draw_frames r.1 r.2 clock
    | e => e

/-! ## `load_molecules`

The file system is a parameter of the loader: what `stat`, `opendir` with
`readdir`, and `fopen` with `fgets` answer for a path.  The contents of a
file is the list of its characters, none of which is NUL.  The table
`builtin_pdb_data` comes from `molecules.h` and is a parameter as well.
Memory allocation is taken to succeed.
-/

/-- The answers of the file system. -/
structure file_system where
  /-- The test `!stat (path, &st) && S_ISDIR (st.st_mode)`. -/
  is_dir : List Char → Bool
  /-- The names that the successive calls of `readdir` return; `none` when `opendir` fails. -/
  opendir : List Char → Option (List (List Char))
  /-- The contents of the file; `none` when `fopen` fails. -/
  fopen : List Char → Option (List Char)

/-- The loop of `insert_vertical_whitespace` from a position of the string
on.  `written` tells that the step before has stored a newline over the
character at this position. -/
def insert_vertical_whitespace_loop : Bool → List Char → List Char
  | _, [] => []
  | true, _ :: rest => '\n' :: insert_vertical_whitespace_loop false rest
  | false, c :: rest =>
    if (c = ',' ∨ c = ';' ∨ c = ':') ∧ rest.head? = some ' ' then
      ' ' :: insert_vertical_whitespace_loop true rest
    else c :: insert_vertical_whitespace_loop false rest

/-- The C function `insert_vertical_whitespace`. -/
def insert_vertical_whitespace (string : List Char) : List Char :=
  insert_vertical_whitespace_loop false string

/-- The body of the last loop of `load_molecules`: `generate_molecule_formula`,
then `insert_vertical_whitespace` on the label. -/
def annotate_molecule (m : molecule) : Option molecule :=
  (generate_molecule_formula m).map
    (fun m1 => { m1 with label := m1.label.map insert_vertical_whitespace })

/-- A function that can be undefined, run on each element of a list in turn. -/
def map_defined {α β : Type} (f : α → Option β) : List α → Option (List β)
  | [] => some []
  | a :: rest =>
    match f a with
    | none => none
    | some b => (map_defined f rest).map (fun bs => b :: bs)

/-- The characters that `fgets` stores when it may store `n` of them, and the
rest of the file: it stops after a newline. -/
def fgets_chars : Nat → List Char → List Char × List Char
  | 0, s => ([], s)
  | _ + 1, [] => ([], [])
  | n + 1, c :: r =>
    if c = '\n' then ([c], r)
    else ((c :: (fgets_chars n r).1), (fgets_chars n r).2)

/-- The library function `fgets (buf, size, in)` on the unread part of a file
that is not at its end: it stores at most `size - 1` characters. -/
def fgets (size : Nat) (s : List Char) : List Char × List Char :=
  fgets_chars (size - 1) s

/-- The loop `for (s = buf; *s; s++) if (*s == '\r') *s = '\n';` of
`parse_pdb_file` on one character. -/
def return_to_newline (c : Char) : Char :=
  if c = '\r' then '\n' else c

/-- The loop `while (fgets (buf, buf_size-1, in))` of `parse_pdb_file`, with a
bound on the number of iterations: carriage returns become newlines, then
`parse_pdb_data` reads the buffer. -/
def parse_pdb_file_loop (scanf_f : List Char → Option (ℚ × List Char)) :
    Nat → molecule → List Char → Option molecule
  | _, m, [] => some m
  | 0, _, _ :: _ => none
  | fuel + 1, m, c :: r =>
    match parse_pdb_data scanf_f m
        ((fgets (40960 - 1) (c :: r)).1.map return_to_newline) with
    | none => none
    | some m1 => parse_pdb_file_loop scanf_f fuel m1 (fgets (40960 - 1) (c :: r)).2

/-- The C function `parse_pdb_file` on the molecule `m`: the value returned,
the molecule and the flag `do_bonds` afterwards.  Every call of `fgets`
consumes a character, so as many iterations as the file has characters are
enough. -/
def parse_pdb_file (fs : file_system) (scanf_f : List Char → Option (ℚ × List Char))
    (m : molecule) (name : List Char) (do_bonds : Bool) : Option (Int × molecule × Bool) :=
  match fs.fopen name with
  | none => some (-1, m, do_bonds)
  | some contents =>
    match parse_pdb_file_loop scanf_f contents.length m contents with
    | none => none
    | some m1 =>
      if m1.natoms = 0 then some (-1, m1, do_bonds)
      else if m1.nbonds = 0 ∧ do_bonds = true then some (0, m1, false)
      else some (0, m1, do_bonds)

/-- The test of `load_molecules` on a directory entry:
`L > 4 && !strcasecmp (dentry->d_name + L - 4, ".pdb")`. -/
def pdb_name (d_name : List Char) : Bool :=
  decide (4 < d_name.length) && decide (strcasecmp (d_name.drop (d_name.length - 4)) ".pdb".toList = 0)

/-- The path `fn` that `load_molecules` builds for the entry `d_name` of the
directory `molecule_str`, which is not the empty string. -/
def file_path (molecule_str d_name : List Char) : List Char :=
  molecule_str ++ (if molecule_str.getLast? ≠ some '/' then ['/'] else []) ++ d_name

/-- The array `files` that `load_molecules` builds from the entries of the
directory `molecule_str`. -/
def directory_files (molecule_str : List Char) (entries : List (List Char)) : List (List Char) :=
  (entries.filter pdb_name).map (file_path molecule_str)

/-- The loop of `load_molecules` over `files`.  `mc.molecules` holds the
molecules loaded so far, `cur` is the entry `mc->molecules[molecule_ctr]` that
the next file is read into: zero-filled after a file that loaded, left as it
is after a file that did not.  `wire` is the local variable of `load_molecules`. -/
def load_files (fs : file_system) (scanf_f : List Char → Option (ℚ × List Char)) (wire : Bool) :
    List (List Char) → molecule → molecule_configuration → Option molecule_configuration
  | [], _, mc => some mc
  | f :: files, cur, mc =>
    match parse_pdb_file fs scanf_f cur f mc.do_bonds with
    | none => none
    | some (ret, m, do_bonds) =>
      if ret = 0 then
        load_files fs scanf_f wire files molecule.empty
          { mc with
            molecules := mc.molecules ++ [m],
            do_bonds := do_bonds,
            do_labels :=
              if (wire || !mc.do_atoms) && !mc.do_labels && decide (m.nbonds = 0) then true
              else mc.do_labels }
      else load_files fs scanf_f wire files m { mc with do_bonds := do_bonds }

/-- The array `files` of `load_molecules` for the path `molecule_str`: the
`.pdb` entries when the path is a directory, the path alone otherwise.  A
directory that `opendir` cannot open ends the program. -/
def external_files (fs : file_system) (molecule_str : List Char) : outcome (List (List Char)) :=
  if fs.is_dir molecule_str then
    match fs.opendir molecule_str with
    | none => .exit
    | some entries => .ok (directory_files molecule_str entries)
  else .ok [molecule_str]

/-- The first statement of `load_molecules` after `mc->nmolecules = 0;`: the
external files are read when `molecule_str` is neither NULL, nor empty, nor
`(default)`. -/
def load_external (fs : file_system) (scanf_f : List Char → Option (ℚ × List Char))
    (mc : molecule_configuration) : outcome molecule_configuration :=
  match mc.molecule_str with
  | none => .ok { mc with molecules := [] }
  | some str =>
    if str = [] ∨ strcmp str "(default)".toList = 0 then .ok { mc with molecules := [] }
    else
      (external_files fs str).bind
        (fun files =>
          match load_files fs scanf_f mc.wire files molecule.empty { mc with molecules := [] } with
          | none => .undefined
          | some mc1 => .ok mc1)

/-- The statement `if (mc->nmolecules == 0)` of `load_molecules`: every
entry of `builtin_pdb_data` is read into a zero-filled molecule. -/
def load_builtins (builtin_pdb_data : List (List Char))
    (scanf_f : List Char → Option (ℚ × List Char))
    (mc : molecule_configuration) : outcome molecule_configuration :=
  if mc.nmolecules = 0 then
    match map_defined (parse_pdb_data scanf_f molecule.empty) builtin_pdb_data with
    | none => .undefined
    | some ms => .ok { mc with molecules := ms }
  else .ok mc

/-- The last loop of `load_molecules`. -/
def annotate_molecules (mc : molecule_configuration) : outcome molecule_configuration :=
  match map_defined annotate_molecule mc.molecules with
  | none => .undefined
  | some ms => .ok { mc with molecules := ms }

/-- The C function `load_molecules`. -/
def load_molecules (fs : file_system) (builtin_pdb_data : List (List Char))
    (scanf_f : List Char → Option (ℚ × List Char))
    (mc : molecule_configuration) : outcome molecule_configuration :=
  ((load_external fs scanf_f mc).bind (load_builtins builtin_pdb_data scanf_f)).bind
    annotate_molecules

/-! ## `init_molecule` -/

/-- The C function `init_molecule`.  `init_GL` tells whether the call of that
name returns a context; `no_label_threshold` and `wireframe_threshold` are the
values of the two resources read with `get_float_resource`. -/
def init_molecule (fs : file_system) (builtin_pdb_data : List (List Char))
    (scanf_f : List Char → Option (ℚ × List Char)) (init_GL : Bool)
    (no_label_threshold wireframe_threshold : ℚ)
    (mc : molecule_configuration) (rs : List Nat) :
    outcome (molecule_configuration × List Nat) :=
  let wire := mc.wire
  if mc.do_spin.any (fun c => !"xXyYzZ".toList.contains c) then .exit
  else
    (load_molecules fs builtin_pdb_data scanf_f
      { mc with
        glx_context := init_GL,
        orig_do_labels := mc.do_labels,
        orig_do_atoms := mc.do_atoms,
        orig_do_bonds := mc.do_bonds,
        orig_do_shells := mc.do_shells,
        orig_wire := mc.wire }).bind
      (fun mc1 =>
        match rs with
        | [] => .starved
        | r :: rs1 =>
          if mc1.nmolecules = 0 then .undefined
          else
            .ok ({ mc1 with
              which := r % mc1.nmolecules,
              no_label_threshold := no_label_threshold,
              wireframe_threshold := wireframe_threshold,
              mode := 0,
              do_bonds := if wire then true else mc1.do_bonds }, rs1))

/-- The state in which the program starts when no option is given: the
entry of `mcs` is zero-filled, the static variables hold the values of `DEF_TIMEOUT` to
`DEF_VERBOSE`, and `last` and `tick` are 0. -/
def default_configuration : molecule_configuration :=
  { glx_context := false, button_down_p := false, molecule_size := 0,
    no_label_threshold := 0, wireframe_threshold := 0, which := 0, molecules := [],
    mode := 0, mode_tick := 0, polygon_count := 0, scale_down := false,
    timeout := 20, molecule_str := some "(default)".toList, do_spin := "XYZ".toList,
    do_titles := true, do_labels := true, do_atoms := true, do_bonds := true,
    do_shells := false, do_bbox := false, verbose_p := false, wire := false,
    orig_do_labels := false, orig_do_atoms := false, orig_do_bonds := false,
    orig_do_shells := false, orig_wire := false, last := 0, tick := 0 }

/-! ## Definitions used to state the properties of the scene and of the loader -/

/-- The value that a function returns; `none` when it does not return. -/
def outcome.result {α : Type} : outcome α → Option α
  | .ok a => some a
  | _ => none

/-- Both ends of every bond are found by `get_atom`. -/
def bonds_resolved (m : molecule) : Bool :=
  m.bonds.all (fun b =>
    (match get_atom m.atoms b.from_ with
     | .found _ => true
     | _ => false) &&
    (match get_atom m.atoms b.to_ with
     | .found _ => true
     | _ => false))

/-- The pointer `data` of every atom points to an entry of `all_atom_data`. -/
def styles_resolved (m : molecule) : Bool :=
  m.atoms.all (fun a => (a.data.bind (fun i => all_atom_data[i]?)).isSome)

/-- The display flags when `pick_new_molecule` returns, from the flags with
which the first display list was built: with `do_shells` set, `do_bonds`,
`do_atoms` and `do_labels` are set back to the values that the user asked for. -/
def shell_flags (mc : molecule_configuration) : molecule_configuration :=
  if mc.do_shells then
    { mc with
      do_bonds := mc.orig_do_bonds, do_atoms := mc.orig_do_atoms, do_labels := mc.orig_do_labels }
  else mc

/-- What `parse_pdb_file` makes of a file that it reads into a zero-filled
molecule: `none` when it has no defined behaviour, `some none` when it
returns -1, and `some (some atoms)` when it returns 0 with the atoms `atoms`. -/
def read_alone (fs : file_system) (scanf_f : List Char → Option (ℚ × List Char))
    (name : List Char) : Option (Option (List molecule_atom)) :=
  (parse_pdb_file fs scanf_f molecule.empty name true).map
    (fun r => if r.1 = 0 then some r.2.1.atoms else none)

/-- The file, read on its own, is accepted: it can be opened and gives at least one atom. -/
def loads (fs : file_system) (scanf_f : List Char → Option (ℚ × List Char))
    (name : List Char) : Bool :=
  match read_alone fs scanf_f name with
  | some (some _) => true
  | _ => false

/-- The atoms of the molecules of a catalog, molecule by molecule. -/
def catalog_atoms (o : outcome molecule_configuration) : outcome (List (List molecule_atom)) :=
  o.bind (fun mc => .ok (mc.molecules.map molecule.atoms))

/-- A file system with one directory `dir`, whose entries are `entries`, and
the files `files`, given by path and contents. -/
def small_file_system (dir : List Char) (entries : List (List Char))
    (files : List (List Char × List Char)) : file_system :=
  { is_dir := fun p => decide (p = dir),
    opendir := fun p => if p = dir then some entries else none,
    fopen := fun p => files.lookup p }

/-- A file with two atom records, no title and no connectivity record. -/
def atoms_file : List Char :=
  ("ATOM      1  O   HOH     1       0.000   0.000   0.000\n" ++
   "ATOM      2  H   HOH     1       1.000   0.000   0.000\n").toList

/-- A file with one connectivity record and nothing else. -/
def conect_file : List Char := "CONECT    1    2\n".toList

/-- A file with a title and one connectivity record, without atom record. -/
def title_conect_file : List Char := "COMPND    junk\nCONECT    1    2\n".toList

/-- A molecule of two bonded atoms, the second one at the distance `x` from
the first, with the label that `load_molecules` gives it. -/
def sample_molecule (x : ℚ) : molecule :=
  ⟨some "\nHO".toList, [⟨1, ['O'], 0, 0, 0, some 4⟩, ⟨2, ['H'], x, 0, 0, some 0⟩], [⟨1, 2, 1⟩]⟩

/-- A state of the running program: the default options, a small and a large
molecule loaded, the two thresholds of `DEFAULTS`, and the first frame drawn
at the time 1000. -/
def running_configuration : molecule_configuration :=
  { default_configuration with
    glx_context := true,
    molecules := [sample_molecule 1, sample_molecule 40],
    no_label_threshold := 30,
    wireframe_threshold := 150,
    orig_do_labels := true,
    orig_do_atoms := true,
    orig_do_bonds := true,
    last := 1000 }

/-- The molecule that `load_molecules` makes of `atoms_file`. -/
def atoms_molecule : molecule :=
  ⟨some "\nHO".toList, [⟨1, ['O'], 0, 0, 0, some 4⟩, ⟨2, ['H'], 1, 0, 0, some 0⟩], []⟩

/-- The options `+labels +atoms -molecule b.pdb`: neither labels nor atoms
are asked for, and the molecule is read from the file `b.pdb`. -/
def bonds_only_configuration : molecule_configuration :=
  { default_configuration with
    molecule_str := some "b.pdb".toList, do_labels := false, do_atoms := false }
/-! ## `atom_size` -/

/-- The argument of the call `glScalef (s, s, s)` that `draw_molecule` makes
after the `if` chain when `mc->mode != 0`, with `speed` 4.0; `none` when the
call is not made. -/
def transition_scale (mc : molecule_configuration) : Option ℚ :=
  if mc.mode ≠ 0 then
    some (if mc.mode = 1 then (mc.mode_tick : ℚ) / (10 * 4)
      else ((10 * 4) - (mc.mode_tick : ℚ) + 1) / (10 * 4))
  else none

/-! ## `driver/lock.c`: the password dialog

Conventions of this part of the embedding.

* `passwd_valid_p`, which another file defines, is a parameter.
* The state is made of the static variables `passwd_state`, `typed_passwd`
  and `passwd_idle_timer_tick`; the widgets, the grabs and what is drawn are
  left out.  The bytes of `typed_passwd` after its terminating NUL are zero
  whenever a function of the file is entered, so the buffer is the string
  that it holds.
* The file is read as it is compiled without `VERIFY_CALLBACK_WORKS`, which
  nothing defines.
* The Xt library is a list of events.  An event tells how many times the
  time-out `passwd_idle_timer` comes due while `XtAppNextEvent` waits, the
  type of the event that `XtAppNextEvent` returns, and the procedure of this
  file that `XtDispatchEvent` calls for it.  Whether a time-out is pending is
  not tracked: every number of calls is allowed.
-/

/-- The values of the variable `passwd_state`. -/
inductive passwd_state_value where
  | pw_read
  | pw_ok
  | pw_fail
  | pw_cancel
  | pw_time
deriving DecidableEq

/-- The static variables of `lock.c` that the dialog reads and writes. -/
structure passwd_dialog_state where
  passwd_state : passwd_state_value
  typed_passwd : List Char
  passwd_idle_timer_tick : Int
deriving DecidableEq

/-- The C function `passwd_cancel_cb`. -/
def passwd_cancel_cb (d : passwd_dialog_state) : passwd_dialog_state :=
  { d with passwd_state := .pw_cancel }

/-- The C function `passwd_done_cb`. -/
def passwd_done_cb (passwd_valid_p : List Char → Bool) (d : passwd_dialog_state) :
    passwd_dialog_state :=
  if d.passwd_state ≠ .pw_read then d
  else if passwd_valid_p d.typed_passwd then { d with passwd_state := .pw_ok }
  else { d with passwd_state := .pw_fail }

/-- The C function `backspace`. -/
def backspace (d : passwd_dialog_state) : passwd_dialog_state :=
  if d.typed_passwd.length = 0 then d else { d with typed_passwd := d.typed_passwd.dropLast }

/-- The C function `kill_line`. -/
def kill_line (d : passwd_dialog_state) : passwd_dialog_state :=
  { d with typed_passwd := [] }

/-- The C function `done`. -/
def done (passwd_valid_p : List Char → Bool) (d : passwd_dialog_state) : passwd_dialog_state :=
  passwd_done_cb passwd_valid_p d

/-- The C function `keypress`; `s` holds the bytes that `XLookupString`
stores, `size` is their number.  A NUL byte stored at the end of
`typed_passwd` leaves the string as it is. -/
def keypress (passwd_valid_p : List Char → Bool) (d : passwd_dialog_state) (s : List Char) :
    passwd_dialog_state :=
  match s with
  | [c] =>
    if c.toNat = 8 then backspace d
    else if c.toNat = 127 then backspace d
    else if c.toNat = 21 then kill_line d
    else if c.toNat = 24 then kill_line d
    else if c.toNat = 10 then done passwd_valid_p d
    else if c.toNat = 13 then done passwd_valid_p d
    else if d.typed_passwd.length ≥ 80 - 1 then d
    else if c.toNat = 0 then d
    else { d with typed_passwd := d.typed_passwd ++ [c] }
  | _ => d

/-- The C function `passwd_idle_timer`, for what it does to the state; `max`
is `p->passwd_timeout / 1000`.  `none`: in the branch marked "first time" the
division `360*64 / (passwd_idle_timer_tick - 1)` is a division by zero. -/
def passwd_idle_timer (max : Int) (d : passwd_dialog_state) : Option passwd_dialog_state :=
  if d.passwd_idle_timer_tick = max ∧ d.passwd_idle_timer_tick - 1 = 0 then none
  else some { d with passwd_idle_timer_tick := d.passwd_idle_timer_tick - 1 }

/-- The procedure of this file that `XtDispatchEvent` calls for an event:
`passwd_done_cb` (the `ok` button, the text field), `passwd_cancel_cb` (the
`cancel` button), the action `keypress` with the bytes of the key, or none of
them. -/
inductive xt_procedure where
  | passwd_done_cb
  | passwd_cancel_cb
  | keypress (s : List Char)
  | nothing
deriving DecidableEq

/-- One event of the Xt library. -/
structure xt_event where
  timeouts : Nat
  event_type : Nat
  procedure : xt_procedure
deriving DecidableEq

/-- The calls of `passwd_idle_timer` made while `XtAppNextEvent` waits. -/
def run_timeouts (max : Int) : Nat → passwd_dialog_state → Option passwd_dialog_state
  | 0, d => some d
  | n + 1, d => (passwd_idle_timer max d).bind (run_timeouts max n)

/-- The call `XtDispatchEvent (&event)`. -/
def XtDispatchEvent (passwd_valid_p : List Char → Bool) (d : passwd_dialog_state) :
    xt_procedure → passwd_dialog_state
  | .passwd_done_cb => passwd_done_cb passwd_valid_p d
  | .passwd_cancel_cb => passwd_cancel_cb d
  | .keypress s => keypress passwd_valid_p d s
  | .nothing => d

/-- The loop `while (passwd_state == pw_read)` of `pop_passwd_dialog`: the
state when the loop ends and the events left. -/
def read_loop (passwd_valid_p : List Char → Bool) (max : Int) :
    List xt_event → passwd_dialog_state → outcome (passwd_dialog_state × List xt_event)
  | [], d => if d.passwd_state = .pw_read then .starved else .ok (d, [])
  | e :: rest, d =>
    if d.passwd_state = .pw_read then
      match run_timeouts max e.timeouts d with
      | none => .undefined
      | some d1 =>
        read_loop passwd_valid_p max rest
          (XtDispatchEvent passwd_valid_p
            (if e.event_type = 0 ∧ d1.passwd_idle_timer_tick = 0 then
              { d1 with passwd_state := .pw_time }
             else d1)
            e.procedure)
    else .ok (d, e :: rest)

/-- The loop `while (1)` of `pop_passwd_dialog`, which shows the message
`lose` until the time-out has come due. -/
def lose_loop (passwd_valid_p : List Char → Bool) (max : Int) :
    List xt_event → passwd_dialog_state → outcome (passwd_dialog_state × List xt_event)
  | [], _ => .starved
  | e :: rest, d =>
    match run_timeouts max e.timeouts d with
    | none => .undefined
    | some d1 =>
      if e.event_type = 0 ∧ d1.passwd_idle_timer_tick = 0 then .ok (d1, rest)
      else lose_loop passwd_valid_p max rest (XtDispatchEvent passwd_valid_p d1 e.procedure)

/-- The end of `pop_passwd_dialog`: `typed_passwd` is cleared and the value
`passwd_state == pw_ok` is returned. -/
def pop_return (r : passwd_dialog_state × List xt_event) :
    outcome (Bool × passwd_dialog_state × List xt_event) :=
  .ok (decide (r.1.passwd_state = .pw_ok), { r.1 with typed_passwd := [] }, r.2)

/-- The C function `pop_passwd_dialog`: the value returned, the state and the
events left.  `max` is the value of `p->passwd_timeout / 1000`. -/
def pop_passwd_dialog (passwd_valid_p : List Char → Bool) (max : Int)
    (d : passwd_dialog_state) (events : List xt_event) :
    outcome (Bool × passwd_dialog_state × List xt_event) :=
  (read_loop passwd_valid_p max events
    { d with typed_passwd := [], passwd_state := .pw_read, passwd_idle_timer_tick := max }).bind
    (fun r =>
      if r.1.passwd_state ≠ .pw_ok then
        match r.1.passwd_state with
        | .pw_time | .pw_fail =>
          (lose_loop passwd_valid_p max r.2 { r.1 with passwd_idle_timer_tick := 1 }).bind
            pop_return
        | .pw_cancel => pop_return r
        | _ => .abort
      else pop_return r)
/-! ## Definitions used to state the properties of the later parts -/

/-- The plain full scan as the specification words it: the first atom whose
id equals the requested id. -/
def first_with_id (id : Int) (atoms : List molecule_atom) : Option molecule_atom :=
  atoms.find? (fun a => a.id = id)

/-- An atom with the given id and name at the origin, without a style. -/
def plain_atom (id : Int) (label : String) : molecule_atom :=
  ⟨id, label.toList, 0, 0, 0, none⟩

/-- The states that the program reaches from the state `mc0` in which
`init_molecule` has returned: a call of `draw_molecule` that returns and a call
of `molecule_handle_event` lead from a reachable state to a reachable state. -/
inductive reachable (mc0 : molecule_configuration) : molecule_configuration → Prop where
  | start : reachable mc0 mc0
  | frame (mc mc1 : molecule_configuration) (now now2 : Int) (rs rs1 : List Nat) :
    reachable mc0 mc → draw_molecule mc now now2 rs = .ok (mc1, rs1) → reachable mc0 mc1
  | event (mc : molecule_configuration) (e : XEvent) :
    reachable mc0 mc → reachable mc0 (molecule_handle_event mc e).1

/-- The events that the Xt library delivers to the dialog one after the
other, without the tests that the loops of `pop_passwd_dialog` make between
them. -/
def dispatch_all (passwd_valid_p : List Char → Bool) (d : passwd_dialog_state) :
    List xt_procedure → passwd_dialog_state
  | [] => d
  | p :: rest => dispatch_all passwd_valid_p (XtDispatchEvent passwd_valid_p d p) rest

/-- A file with two atom records and a connectivity record whose base id is
negative. -/
def negative_base_file : List Char :=
  ("ATOM      1  O   HOH     1       0.000   0.000   0.000\n" ++
   "ATOM      2  H   HOH     1       1.000   0.000   0.000\n" ++
   "CONECT   -1    2\n").toList

/-- The procedures that end in a call of `passwd_done_cb`: the callback itself
and the action `keypress` on a line feed or a carriage return. -/
def calls_passwd_done_cb : xt_procedure → Bool
  | .passwd_done_cb => true
  | .keypress [c] => c.toNat = 10 || c.toNat = 13
  | _ => false

/-- A dialog that has failed, been cancelled or timed out. -/
def dialog_lost (d : passwd_dialog_state) : Prop :=
  d.passwd_state = .pw_fail ∨ d.passwd_state = .pw_cancel ∨ d.passwd_state = .pw_time

/-- The key events that type the characters of `s`, one event per character. -/
def type_keys (s : String) : List xt_event :=
  s.toList.map (fun c => ⟨0, 2, .keypress [c]⟩)

/-- The state in which the first loop of `pop_passwd_dialog` calls
`XtDispatchEvent` for the event `e`, when the iteration starts in the state
`d`: the time-outs that come due while `XtAppNextEvent` waits have run, and
the test for the timer event has set `pw_time` or not. -/
def before_dispatch (max : Int) (e : xt_event) (d : passwd_dialog_state) :
    Option passwd_dialog_state :=
  (run_timeouts max e.timeouts d).map (fun d1 =>
    if e.event_type = 0 ∧ d1.passwd_idle_timer_tick = 0 then
      { d1 with passwd_state := .pw_time }
    else d1)

/-- One iteration of the body of the first loop of `pop_passwd_dialog`. -/
def read_iteration (passwd_valid_p : List Char → Bool) (max : Int) (d : passwd_dialog_state)
    (e : xt_event) : Option passwd_dialog_state :=
  (before_dispatch max e d).map (fun d2 => XtDispatchEvent passwd_valid_p d2 e.procedure)

/-- The iterations of the body of the first loop of `pop_passwd_dialog` for
the events of a list, one after the other. -/
def read_iterations (passwd_valid_p : List Char → Bool) (max : Int) :
    List xt_event → passwd_dialog_state → Option passwd_dialog_state
  | [], d => some d
  | e :: rest, d =>
    (read_iteration passwd_valid_p max d e).bind (read_iterations passwd_valid_p max rest)
/-! ## Definitions used to state the properties of the parser -/

/-- A title line: a line that starts with the keyword `HEADER` or `COMPND`. -/
def title_line (l : List Char) : Bool :=
  strncmp_eq l "HEADER".toList || strncmp_eq l "COMPND".toList

/-- A text without its leading and trailing white space. -/
def trim_space (t : List Char) : List Char :=
  ((t.dropWhile isspace).reverse.dropWhile isspace).reverse

/-- A text without its suffix `.pdb`, when it is longer than the suffix. -/
def without_pdb (t : List Char) : List Char :=
  if 4 < t.length ∧ ".pdb".toList.isSuffixOf t then t.take (t.length - 4) else t

/-- A title line of 110 characters: the keyword, four blanks and a text of a
hundred letters. -/
def long_title : List Char := "HEADER    ".toList ++ List.replicate 100 'a'

/-- The serial-number columns of a record, columns 7 to 11 (the bytes at the
offsets 6 to 10), with the number `n` written right-justified. -/
def serial_field (n : Nat) : List Char :=
  List.replicate (5 - (Nat.toDigits 10 n).length) ' ' ++ Nat.toDigits 10 n

/-- An atom record with the serial number `n` in the serial-number columns;
`tail` is the record from column 12 on. -/
def serial_atom_record (n : Nat) (tail : List Char) : List Char :=
  "ATOM  ".toList ++ serial_field n ++ tail

/-- A connectivity record with the base id `n` in the serial-number columns;
`tail` is the record from column 12 on. -/
def serial_conect_record (n : Nat) (tail : List Char) : List Char :=
  "CONECT".toList ++ serial_field n ++ tail

/-- A file with the atoms 234, 1234 and 1235 and a connectivity record that
declares a bond of the atom 1234 with the atom 1235. -/
def serial_file : List Char :=
  records_blob true
    [serial_atom_record 234 "  N   UNK     1       2.000   0.000   0.000".toList,
     serial_atom_record 1234 "  C   UNK     1       0.000   0.000   0.000".toList,
     serial_atom_record 1235 "  O   UNK     1       1.000   0.000   0.000".toList,
     serial_conect_record 1234 " 1235".toList]

/-- What `molecule_bounding_box` gives on one axis for the atoms `atoms`, not
empty; `f` reads the coordinate, `lo` and `hi` are the two bounds returned.
The bounds are the least and the greatest coordinate, lowered and raised by
1.5 in `double` and stored in a `GLfloat`; each is finite and differs from
the exact value by at most the fraction `2 ^ -23` of it; every atom lies between the bounds,
at a distance from each that falls short of 1.5 by no more than that error;
the extent falls short of 3 by no more than the two errors. -/
def axis_bounds (f : molecule_atom → ℚ) (atoms : List molecule_atom) (lo hi : ℚ) : Prop :=
  ∃ cmin ∈ atoms, ∃ cmax ∈ atoms,
    (∀ c ∈ atoms, f cmin ≤ f c ∧ f c ≤ f cmax) ∧
    lo = GLfloat_of (double_of (f cmin - 3/2)) ∧
    hi = GLfloat_of (double_of (f cmax + 3/2)) ∧
    is_GLfloat lo ∧ is_GLfloat hi ∧
    |lo - (f cmin - 3/2)| ≤ |f cmin - 3/2| / 2 ^ 23 ∧
    |hi - (f cmax + 3/2)| ≤ |f cmax + 3/2| / 2 ^ 23 ∧
    (∀ c ∈ atoms, lo ≤ f c ∧ f c ≤ hi) ∧
    (∀ c ∈ atoms, lo + (3/2 - |f cmin - 3/2| / 2 ^ 23) ≤ f c ∧
      f c ≤ hi - (3/2 - |f cmax + 3/2| / 2 ^ 23)) ∧
    3 - (|f cmin - 3/2| + |f cmax + 3/2|) / 2 ^ 23 ≤ hi - lo

/-- A molecule of one atom far from the origin, at `x = 100000000`. -/
def far_molecule : molecule :=
  ⟨none, [⟨1, ['H'], 100000000, 0, 0, some 0⟩], []⟩
/-! # Properties -/

/-! ## `push_bond` -/

theorem bond_matches_iff (r : molecule_bond) (a b : Int) :
    bond_matches r a b = true ↔ (r.from_ = a ∧ r.to_ = b) ∨ (r.to_ = a ∧ r.from_ = b) := by
  simp [bond_matches]

theorem bond_matches_swap (r : molecule_bond) (a b : Int) :
    bond_matches r b a = bond_matches r a b := by
  have h : bond_matches r b a = true ↔ bond_matches r a b = true := by
    rw [bond_matches_iff, bond_matches_iff]; tauto
  cases h1 : bond_matches r b a <;> cases h2 : bond_matches r a b <;> simp_all

theorem push_bond_loop_eq_none (a b : Int) (bonds : List molecule_bond) :
    push_bond_loop a b bonds = none ↔ ∀ r ∈ bonds, bond_matches r a b = false := by
  induction bonds with
  | nil => simp [push_bond_loop]
  | cons r rest ih =>
    by_cases h : bond_matches r a b = true
    · simp [push_bond_loop, h]
    · simp [push_bond_loop, h, ih]

theorem push_bond_loop_append (a b : Int) (bonds : List molecule_bond) (r : molecule_bond)
    (h : ∀ x ∈ bonds, bond_matches x a b = false) (hr : bond_matches r a b = true)
    (rest : List molecule_bond) :
    push_bond_loop a b (bonds ++ r :: rest) =
      some (bonds ++ { r with strength := r.strength + 1 } :: rest) := by
  induction bonds with
  | nil => simp [push_bond_loop, hr]
  | cons x xs ih =>
    have hx : bond_matches x a b = false := h x (by simp)
    have hxs : ∀ y ∈ xs, bond_matches y a b = false := fun y hy => h y (by simp [hy])
    simp [push_bond_loop, hx, ih hxs]

/-- Two calls of `push_bond` for a pair that has no record yet. -/
theorem push_bond_twice_matches (m : molecule) (a b : Int)
    (h : ∀ r ∈ m.bonds, bond_matches r a b = false) :
    push_bond (push_bond m a b) a b = { m with bonds := m.bonds ++ [⟨a, b, 2⟩] } ∧
    push_bond (push_bond m a b) b a = { m with bonds := m.bonds ++ [⟨a, b, 2⟩] } ∧
    (push_bond (push_bond m a b) a b).nbonds = m.nbonds + 1 ∧
    (push_bond (push_bond m a b) b a).nbonds = m.nbonds + 1 := by
  have h1 : push_bond m a b = { m with bonds := m.bonds ++ [⟨a, b, 1⟩] } := by
    simp [push_bond, (push_bond_loop_eq_none a b m.bonds).2 h]
  have hab : bond_matches ⟨a, b, 1⟩ a b = true := by simp [bond_matches]
  have hba : bond_matches ⟨a, b, 1⟩ b a = true := by simp [bond_matches]
  have h' : ∀ r ∈ m.bonds, bond_matches r b a = false := by
    intro r hr; rw [bond_matches_swap]; exact h r hr
  have e1 := push_bond_loop_append a b m.bonds ⟨a, b, 1⟩ h hab []
  have e2 := push_bond_loop_append b a m.bonds ⟨a, b, 1⟩ h' hba []
  have r1 : push_bond (push_bond m a b) a b = { m with bonds := m.bonds ++ [⟨a, b, 2⟩] } := by
    rw [h1]; simp only [push_bond, e1]; norm_num
  have r2 : push_bond (push_bond m a b) b a = { m with bonds := m.bonds ++ [⟨a, b, 2⟩] } := by
    rw [h1]; simp only [push_bond, e2]; norm_num
  refine ⟨r1, r2, ?_, ?_⟩
  · rw [r1]; simp [molecule.nbonds]
  · rw [r2]; simp [molecule.nbonds]

theorem toNat_ofNat_small : ∀ n < 128, (Char.ofNat n).toNat = n := by decide

theorem isalpha_tolower (c : Char) : isalpha (tolower c) = isalpha c := by
  unfold tolower
  split
  · rename_i h
    have h1 := toNat_ofNat_small (c.toNat + 32) (by omega)
    simp only [isalpha, h1]
    simp [h.1, h.2]
  · rfl

theorem not_isspace_of_isalpha (c : Char) (h : isalpha c = true) : isspace c = false := by
  simp [isalpha, isspace] at *
  omega

theorem any_isalpha_dropWhile_isspace (l : List Char) :
    (l.dropWhile isspace).any isalpha = l.any isalpha := by
  induction l with
  | nil => rfl
  | cons c r ih =>
    by_cases h : isspace c = true
    · have : isalpha c = false := by
        cases k : isalpha c with
        | false => rfl
        | true => rw [not_isspace_of_isalpha c k] at h; simp at h
      simp [List.dropWhile_cons, h, ih, this]
    · simp [List.dropWhile_cons, h]

theorem any_isalpha_strip_trailing_space (l : List Char) :
    (strip_trailing_space l).any isalpha = l.any isalpha := by
  unfold strip_trailing_space
  rw [List.any_reverse, any_isalpha_dropWhile_isspace, List.any_reverse]

theorem any_isalpha_atom_name (lower : Bool) (s : List Char) :
    (atom_name lower s).any isalpha = ((s.drop 12).take 3).any isalpha := by
  have hn : (strip_trailing_space (((s.drop 12).take 3).dropWhile isspace)).any isalpha =
      ((s.drop 12).take 3).any isalpha := by
    rw [any_isalpha_strip_trailing_space, any_isalpha_dropWhile_isspace]
  unfold atom_name
  simp only []
  generalize strip_trailing_space (((s.drop 12).take 3).dropWhile isspace) = n at hn
  cases lower with
  | false => simpa using hn
  | true =>
    cases n with
    | nil => simpa using hn
    | cons c r =>
      rw [← hn]
      simp [List.any_map, Function.comp_def, isalpha_tolower]

theorem get_atom_data_isSome (n : List Char) :
    (get_atom_data n).isSome = n.any isalpha := by
  unfold get_atom_data
  induction n with
  | nil => rfl
  | cons c r ih =>
    by_cases h : isalpha c = true
    · simp [List.dropWhile_cons, h]
    · simp only [Bool.not_eq_true] at h
      simp only [List.dropWhile_cons, h, Bool.not_false, if_true, List.any_cons, Bool.false_or]
      exact ih

theorem dropWhile_isspace_append (a b : List Char) (h : a.dropWhile isspace ≠ []) :
    (a ++ b).dropWhile isspace = a.dropWhile isspace ++ b := by
  induction a with
  | nil => simp at h
  | cons c r ih =>
    by_cases hc : isspace c = true
    · simp only [List.cons_append, List.dropWhile_cons, hc, if_true] at h ⊢
      exact ih h
    · simp [List.dropWhile_cons, hc]

theorem scan_digits_append (t b : List Char) (acc : Nat) (hb : ends_digits b) :
    scan_digits (t ++ b) acc = ((scan_digits t acc).1, (scan_digits t acc).2 ++ b) := by
  induction t generalizing acc with
  | nil =>
    cases b with
    | nil => simp [scan_digits]
    | cons c r =>
      have : isdigit c = false := hb c (by simp)
      simp [scan_digits, this]
  | cons c r ih =>
    by_cases hc : isdigit c = true
    · simp only [List.cons_append, scan_digits, hc, if_true]
      exact ih _
    · simp [scan_digits, hc]

theorem scan_unsigned_append (neg : Bool) (t b : List Char) (v : Int) (r : List Char)
    (hb : ends_digits b) (h : scan_unsigned neg t = .ok v r) :
    scan_unsigned neg (t ++ b) = .ok v (r ++ b) := by
  cases t with
  | nil => simp [scan_unsigned] at h
  | cons c t =>
    by_cases hc : isdigit c = true
    · simp only [scan_unsigned, hc, if_true] at h
      simp only [List.cons_append, scan_unsigned, hc, if_true]
      have e := scan_digits_append (c :: t) b 0 hb
      simp only [List.cons_append] at e
      rw [e]
      simp only []
      generalize (if neg = true then -((scan_digits (c :: t) 0).1 : Int)
        else ((scan_digits (c :: t) 0).1 : Int)) = v0 at h ⊢
      by_cases hr : -2147483648 ≤ v0 ∧ v0 ≤ 2147483647
      · rw [if_pos hr] at h ⊢
        simp only [scan_result.ok.injEq] at h ⊢
        exact ⟨h.1, by rw [h.2]⟩
      · rw [if_neg hr] at h
        simp at h
    · simp [scan_unsigned, hc] at h

theorem scan_int_append (a b : List Char) (v : Int) (r : List Char)
    (hb : ends_digits b) (h : scan_int a = .ok v r) :
    scan_int (a ++ b) = .ok v (r ++ b) := by
  unfold scan_int at h ⊢
  have hne : a.dropWhile isspace ≠ [] := by
    intro e; rw [e] at h; simp at h
  rw [dropWhile_isspace_append a b hne]
  cases hd : a.dropWhile isspace with
  | nil => exact absurd hd hne
  | cons c t =>
    rw [hd] at h
    simp only [List.cons_append] at h ⊢
    by_cases h1 : c = '-'
    · simp only [h1, if_true] at h ⊢
      exact scan_unsigned_append _ _ _ _ _ hb h
    · by_cases h2 : c = '+'
      · simp only [h2, if_true] at h ⊢
        simp only [show ('+' : Char) ≠ '-' by decide, if_false] at h ⊢
        exact scan_unsigned_append _ _ _ _ _ hb h
      · simp only [h1, h2, if_false] at h ⊢
        exact scan_unsigned_append false (c :: t) b v r hb h

theorem ends_digits_nil : ends_digits [] := by simp [ends_digits]

theorem ends_digits_newline (b : List Char) : ends_digits ('\n' :: b) := by
  intro c hc
  simp at hc
  subst hc
  decide

theorem atom_name_append (lower : Bool) (l b : List Char) (h : 15 ≤ l.length) :
    atom_name lower (l ++ b) = atom_name lower l := by
  unfold atom_name
  have : ((l ++ b).drop 12).take 3 = (l.drop 12).take 3 := by
    rw [List.drop_append_of_le_length (by omega), List.take_append_of_le_length]
    simp; omega
  rw [this]

/-- The atom that the ATOM and HETATM branches store. -/
theorem parse_atom_append (scanf_f : List Char → Option (ℚ × List Char)) (off : Nat)
    (lower : Bool) (m : molecule) (l b : List Char) (hoff : 15 ≤ off) (hl : off ≤ l.length)
    (hb : ends_digits b) (v : Int) (r : List Char) (hid : scan_int (l.drop 7) = .ok v r)
    (hname : ((l.drop 12).take 3).any isalpha = true) :
    ∃ a : molecule_atom, a.id = v ∧ a.label = atom_name lower l ∧
      parse_atom scanf_f off lower m (l ++ b) = some { m with atoms := m.atoms ++ [a] } := by
  have h7 : (l ++ b).drop 7 = l.drop 7 ++ b := List.drop_append_of_le_length (by omega)
  have hs := scan_int_append (l.drop 7) b v r hb hid
  have hd : (get_atom_data (atom_name lower l)).isSome = true := by
    rw [get_atom_data_isSome, any_isalpha_atom_name, hname]
  obtain ⟨d, hd⟩ := Option.isSome_iff_exists.1 hd
  refine ⟨⟨v, atom_name lower l, (scan_coords scanf_f ((l ++ b).drop off)).1,
    (scan_coords scanf_f ((l ++ b).drop off)).2.1, (scan_coords scanf_f ((l ++ b).drop off)).2.2, d⟩,
    rfl, rfl, ?_⟩
  unfold parse_atom
  rw [if_neg (by simp; omega), h7, hs]
  simp only [atom_name_append lower l b (by omega), push_atom, hd]

theorem parse_pdb_line_ATOM (scanf_f : List Char → Option (ℚ × List Char)) (m : molecule)
    (t : List Char) :
    parse_pdb_line scanf_f m ('A' :: 'T' :: 'O' :: 'M' :: ' ' :: ' ' :: ' ' :: t) =
      parse_atom scanf_f 32 true m ('A' :: 'T' :: 'O' :: 'M' :: ' ' :: ' ' :: ' ' :: t) := by
  simp [parse_pdb_line, strncmp_eq, ignored_line, ignored_keywords]

theorem parse_pdb_line_HETATM (scanf_f : List Char → Option (ℚ × List Char)) (m : molecule)
    (t : List Char) :
    parse_pdb_line scanf_f m ('H' :: 'E' :: 'T' :: 'A' :: 'T' :: 'M' :: ' ' :: t) =
      parse_atom scanf_f 30 false m ('H' :: 'E' :: 'T' :: 'A' :: 'T' :: 'M' :: ' ' :: t) := by
  simp [parse_pdb_line, strncmp_eq, ignored_line, ignored_keywords]

theorem strncmp_eq_iff (s pat : List Char) : strncmp_eq s pat = true ↔ ∃ t, s = pat ++ t := by
  unfold strncmp_eq
  rw [List.isPrefixOf_iff_prefix]
  constructor
  · rintro ⟨t, rfl⟩; exact ⟨t, rfl⟩
  · rintro ⟨t, rfl⟩; exact ⟨t, rfl⟩

theorem parse_pdb_loop_step (scanf_f : List Char → Option (ℚ × List Char)) (fuel : Nat)
    (m m1 : molecule) (s : List Char) (hs : s ≠ [])
    (h : parse_pdb_line scanf_f m s = some m1) :
    parse_pdb_loop scanf_f (fuel + 1) m s = parse_pdb_loop scanf_f fuel m1 (next_line s) := by
  cases s with
  | nil => exact absurd rfl hs
  | cons c r => simp only [parse_pdb_loop, h]

theorem next_line_append (l b : List Char) (h : l.contains '\n' = false) :
    next_line (l ++ '\n' :: b) = b := by
  induction l with
  | nil => simp [next_line]
  | cons c r ih =>
    simp only [List.contains_cons, Bool.or_eq_false_iff] at h
    have hc : c ≠ '\n' := by
      intro e; subst e; simp at h
    simp only [List.cons_append, next_line, if_neg hc]
    exact ih h.2

theorem next_line_no_newline (l : List Char) (h : l.contains '\n' = false) :
    next_line l = [] := by
  induction l with
  | nil => rfl
  | cons c r ih =>
    simp only [List.contains_cons, Bool.or_eq_false_iff] at h
    have hc : c ≠ '\n' := by
      intro e; subst e; simp at h
    simp only [next_line, if_neg hc]
    exact ih h.2

/-- One well-formed atom record stores one atom. -/
theorem parse_pdb_line_atom_record (scanf_f : List Char → Option (ℚ × List Char))
    (m : molecule) (l b : List Char) (hl : atom_record_ok l = true) (hb : ends_digits b) :
    ∃ a : molecule_atom, a.id = record_id l ∧ a.label = record_label l ∧
      parse_pdb_line scanf_f m (l ++ b) = some { m with atoms := m.atoms ++ [a] } := by
  simp only [atom_record_ok, Bool.and_eq_true, Bool.or_eq_true, decide_eq_true_eq] at hl
  obtain ⟨⟨⟨_, hk⟩, hid⟩, hname⟩ := hl
  cases hs : scan_int (l.drop 7) with
  | failure => rw [hs] at hid; simp at hid
  | overflow => rw [hs] at hid; simp at hid
  | ok v r =>
    have hrid : record_id l = v := by simp [record_id, hs]
    rcases hk with ⟨hp, hlen⟩ | ⟨hp, hlen⟩
    · obtain ⟨t, rfl⟩ := (strncmp_eq_iff _ _).1 hp
      obtain ⟨a, h1, h2, h3⟩ := parse_atom_append scanf_f 32 true m _ b (by omega) hlen hb v r hs hname
      refine ⟨a, by rw [h1, hrid], ?_, ?_⟩
      · rw [h2, record_label, hp]
      · rw [← h3]
        exact parse_pdb_line_ATOM scanf_f m (t ++ b)
    · obtain ⟨t, rfl⟩ := (strncmp_eq_iff _ _).1 hp
      obtain ⟨a, h1, h2, h3⟩ := parse_atom_append scanf_f 30 false m _ b (by omega) hlen hb v r hs hname
      refine ⟨a, by rw [h1, hrid], ?_, ?_⟩
      · rw [h2, record_label]
        have : strncmp_eq ("HETATM ".toList ++ t) "ATOM   ".toList = false := by
          simp [strncmp_eq, List.isPrefixOf]
        rw [this]
      · rw [← h3]
        exact parse_pdb_line_HETATM scanf_f m (t ++ b)

theorem atom_record_ok_ne_nil (l : List Char) (hl : atom_record_ok l = true) : l ≠ [] := by
  intro e; subst e; simp [atom_record_ok] at hl

theorem atom_record_ok_no_newline (l : List Char) (hl : atom_record_ok l = true) :
    l.contains '\n' = false := by
  simp only [atom_record_ok, Bool.and_eq_true, Bool.not_eq_true'] at hl
  exact hl.1.1.1

theorem digitChar_isdigit : ∀ d < 10, isdigit (Nat.digitChar d) = true ∧
    (Nat.digitChar d).toNat - 48 = d := by decide

theorem scan_digits_toDigitsCore (fuel n : Nat) (ds rest : List Char) (h : n < fuel) :
    scan_digits (Nat.toDigitsCore 10 fuel n ds ++ rest) 0 = scan_digits (ds ++ rest) n := by
  induction fuel generalizing n ds with
  | zero => omega
  | succ f ih =>
    have hd := digitChar_isdigit (n % 10) (Nat.mod_lt _ (by omega))
    unfold Nat.toDigitsCore
    simp only []
    split
    · rename_i h0
      simp only [List.cons_append, scan_digits, hd.1, if_true, hd.2]
      have : n = n % 10 := by omega
      rw [← this]; simp
    · rename_i h0
      rw [ih (n / 10) _ (by omega)]
      simp only [List.cons_append, scan_digits, hd.1, if_true, hd.2]
      have : 10 * (n / 10) + n % 10 = n := Nat.div_add_mod n 10
      rw [this]
      rfl

theorem toDigitsCore_head (fuel n : Nat) (ds : List Char) (h : n < fuel) :
    ∃ c t, Nat.toDigitsCore 10 fuel n ds = c :: t ∧ isdigit c = true := by
  induction fuel generalizing n ds with
  | zero => omega
  | succ f ih =>
    have hd := digitChar_isdigit (n % 10) (Nat.mod_lt _ (by omega))
    unfold Nat.toDigitsCore
    simp only []
    split
    · exact ⟨_, _, rfl, hd.1⟩
    · exact ih (n / 10) _ (by omega)

theorem scan_unsigned_toDigits (neg : Bool) (n : Nat) (rest : List Char) (hr : ends_digits rest)
    (hv : -2147483648 ≤ (if neg then -(n : Int) else n) ∧ (if neg then -(n : Int) else n) ≤ 2147483647) :
    scan_unsigned neg (Nat.toDigits 10 n ++ rest) = .ok (if neg then -(n : Int) else n) rest := by
  have hs : scan_digits (Nat.toDigits 10 n ++ rest) 0 = (n, rest) := by
    unfold Nat.toDigits
    rw [scan_digits_toDigitsCore (n + 1) n [] rest (by omega)]
    have := scan_digits_append [] rest n hr
    simpa [scan_digits] using this
  obtain ⟨c, t, e, hc⟩ := toDigitsCore_head (n + 1) n [] (by omega)
  have e2 : Nat.toDigits 10 n = c :: t := e
  rw [e2] at hs ⊢
  simp only [List.cons_append] at hs ⊢
  simp only [scan_unsigned, hc, if_true, hs]
  rw [if_pos hv]

theorem scan_int_int_digits (k : Nat) (n : Int) (rest : List Char) (hr : ends_digits rest)
    (hn : -2147483648 ≤ n ∧ n ≤ 2147483647) :
    scan_int (List.replicate k ' ' ++ int_digits n ++ rest) = .ok n rest := by
  have hdrop : ∀ t : List Char, (∀ c ∈ t.head?, isspace c = false) →
      (List.replicate k ' ' ++ t).dropWhile isspace = t := by
    intro t ht
    induction k with
    | zero =>
      cases t with
      | nil => rfl
      | cons c r => simp [List.dropWhile_cons, ht c (by simp)]
    | succ k ih =>
      simp only [List.replicate_succ, List.cons_append, List.dropWhile_cons]
      rw [if_pos (by decide)]
      exact ih
  unfold scan_int int_digits
  rw [List.append_assoc]
  by_cases hneg : n < 0
  · rw [if_pos hneg]
    rw [hdrop _ (by simp; decide)]
    simp only [List.cons_append, if_true]
    have habs : (n.natAbs : Int) = -n := Int.ofNat_natAbs_of_nonpos (by omega)
    have := scan_unsigned_toDigits true n.natAbs rest hr (by
      simp only [if_true]; rw [habs]; omega)
    rw [this]
    simp only [if_true, habs, neg_neg]
  · rw [if_neg hneg]
    obtain ⟨c, t, e, hc⟩ := toDigitsCore_head (n.natAbs + 1) n.natAbs [] (by omega)
    have e2 : Nat.toDigits 10 n.natAbs = c :: t := e
    have hsp : isspace c = false := by
      simp [isdigit, isspace] at hc ⊢; omega
    rw [hdrop _ (by rw [e2]; simpa using hsp)]
    have h1 : c ≠ '-' := by
      intro e; subst e; simp [isdigit] at hc
    have h2 : c ≠ '+' := by
      intro e; subst e; simp [isdigit] at hc
    have habs : (n.natAbs : Int) = n := Int.natAbs_of_nonneg (by omega)
    have := scan_unsigned_toDigits false n.natAbs rest hr (by
      simp only [Bool.false_eq_true, if_false]; rw [habs]; omega)
    rw [e2] at this ⊢
    simp only [List.cons_append, h1, h2, if_false] at this ⊢
    rw [this]
    simp only [Bool.false_eq_true, if_false, habs]

theorem next_line_length_le (s : List Char) : (next_line s).length ≤ s.length - 1 := by
  induction s with
  | nil => simp [next_line]
  | cons c r ih =>
    simp only [next_line]
    split
    · simp
    · simp only [List.length_cons, Nat.add_sub_cancel]; omega

/-- The loop of `parse_pdb_data` does not run out of iterations: any bound
from the length of the input on gives the same result. -/
theorem parse_pdb_loop_fuel (scanf_f : List Char → Option (ℚ × List Char)) (n : Nat) :
    ∀ (s : List Char) (m : molecule) (f1 f2 : Nat), s.length ≤ n → s.length ≤ f1 →
      s.length ≤ f2 → parse_pdb_loop scanf_f f1 m s = parse_pdb_loop scanf_f f2 m s := by
  induction n with
  | zero =>
    intro s m f1 f2 hn _ _
    cases s with
    | nil => simp [parse_pdb_loop]
    | cons c r => simp at hn
  | succ n ih =>
    intro s m f1 f2 hn h1 h2
    cases s with
    | nil => simp [parse_pdb_loop]
    | cons c r =>
      cases f1 with
      | zero => simp at h1
      | succ f1 =>
        cases f2 with
        | zero => simp at h2
        | succ f2 =>
          simp only [parse_pdb_loop]
          cases parse_pdb_line scanf_f m (c :: r) with
          | none => rfl
          | some m1 =>
            have hl := next_line_length_le (c :: r)
            simp only [List.length_cons, Nat.add_sub_cancel] at hl hn h1 h2
            exact ih _ m1 f1 f2 (by omega) (by omega) (by omega)

/-- Unfolding of `parse_pdb_data` on a first line `l` followed by a newline. -/
theorem parse_pdb_data_line (scanf_f : List Char → Option (ℚ × List Char)) (m : molecule)
    (l rest : List Char) (hl : l.contains '\n' = false) :
    parse_pdb_data scanf_f m (l ++ '\n' :: rest) =
      (parse_pdb_line scanf_f m (l ++ '\n' :: rest)).bind
        (fun m1 => parse_pdb_data scanf_f m1 rest) := by
  unfold parse_pdb_data
  have hne : l ++ '\n' :: rest ≠ [] := by simp
  have hlen : (l ++ '\n' :: rest).length = (l.length + rest.length) + 1 := by
    simp; omega
  rw [hlen]
  cases h : parse_pdb_line scanf_f m (l ++ '\n' :: rest) with
  | none =>
    cases hs : l ++ '\n' :: rest with
    | nil => exact absurd hs hne
    | cons c r =>
      rw [hs] at h
      simp [parse_pdb_loop, h]
  | some m1 =>
    rw [parse_pdb_loop_step scanf_f _ m m1 _ hne h, next_line_append l rest hl]
    simp only [Option.bind]
    exact parse_pdb_loop_fuel scanf_f rest.length rest m1 _ _ (le_refl _) (by omega) (le_refl _)

theorem contains_append (a b : List Char) (c : Char) :
    (a ++ b).contains c = (a.contains c || b.contains c) := by
  induction a with
  | nil => simp
  | cons x r ih => simp [List.contains_cons, ih, Bool.or_assoc]

theorem char_eq_of_toNat_eq (a b : Char) (h : a.toNat = b.toNat) : a = b := by
  rw [← Char.ofNat_toNat a, ← Char.ofNat_toNat b, h]

theorem char_lt_iff (a b : Char) : a < b ↔ a.toNat < b.toNat := Iff.rfl

theorem strcmp_self (a : List Char) : strcmp a a = 0 := by
  induction a with
  | nil => rfl
  | cons c r ih => simp [strcmp, ih]

theorem strcmp_eq_zero (a b : List Char) : strcmp a b = 0 ↔ a = b := by
  constructor
  · intro h
    induction a generalizing b with
    | nil => cases b with
      | nil => rfl
      | cons c r => simp [strcmp] at h
    | cons x xs ih =>
      cases b with
      | nil => simp [strcmp] at h
      | cons c r =>
        simp only [strcmp] at h
        split at h
        · rename_i e; rw [e, ih r h]
        · split at h <;> simp at h
  · rintro rfl; exact strcmp_self a

theorem strcmp_neg (a b : List Char) : strcmp b a = - strcmp a b := by
  induction a generalizing b with
  | nil => cases b <;> simp [strcmp]
  | cons x xs ih =>
    cases b with
    | nil => simp [strcmp]
    | cons c r =>
      simp only [strcmp]
      by_cases e : x = c
      · subst e; simp [ih]
      · have e' : c ≠ x := fun h => e h.symm
        have hne : x.toNat ≠ c.toNat := fun h => e (char_eq_of_toNat_eq _ _ h)
        simp only [e, e', if_false]
        by_cases hlt : x.toNat < c.toNat
        · have : ¬ c.toNat < x.toNat := by omega
          simp [hlt, this]
        · have : c.toNat < x.toNat := by omega
          simp [hlt, this]

theorem strcmp_cases (a b : List Char) : strcmp a b = -1 ∨ strcmp a b = 0 ∨ strcmp a b = 1 := by
  induction a generalizing b with
  | nil => cases b <;> simp [strcmp]
  | cons x xs ih =>
    cases b with
    | nil => simp [strcmp]
    | cons c r =>
      simp only [strcmp]
      split
      · exact ih r
      · split <;> simp

theorem strcmp_lt_iff (a b : List Char) :
    strcmp a b = -1 ↔ List.Lex (fun x y : Char => x < y) a b := by
  induction a generalizing b with
  | nil =>
    cases b with
    | nil => simp [strcmp]
    | cons c r => simp [strcmp, List.Lex.nil]
  | cons x xs ih =>
    cases b with
    | nil => simp [strcmp]
    | cons c r =>
      simp only [strcmp]
      by_cases e : x = c
      · subst e
        simp only [if_true, ih]
        constructor
        · intro h; exact List.Lex.cons h
        · intro h
          cases h with
          | cons h => exact h
          | rel h => exact absurd h (lt_irrefl _)
      · simp only [e, if_false]
        by_cases hlt : x.toNat < c.toNat
        · simp only [hlt, if_true, true_iff]
          exact List.Lex.rel ((char_lt_iff _ _).2 hlt)
        · simp only [hlt, if_false]
          constructor
          · intro h; simp at h
          · intro h
            cases h with
            | cons h => exact absurd rfl e
            | rel h => exact absurd ((char_lt_iff _ _).1 h) hlt

theorem strcmp_trans (a b c : List Char) (h1 : strcmp a b ≤ 0) (h2 : strcmp b c ≤ 0) :
    strcmp a c ≤ 0 := by
  induction a generalizing b c with
  | nil => cases c <;> simp [strcmp]
  | cons x xs ih =>
    cases b with
    | nil => simp [strcmp] at h1
    | cons y ys =>
      cases c with
      | nil => simp [strcmp] at h2
      | cons z zs =>
        simp only [strcmp] at h1 h2 ⊢
        by_cases e1 : x = y
        · subst e1
          simp only [if_true] at h1
          by_cases e2 : x = z
          · subst e2
            simp only [if_true] at h2 ⊢
            exact ih ys zs h1 h2
          · simp only [e2, if_false] at h2 ⊢
            exact h2
        · simp only [e1, if_false] at h1
          have hxy : x.toNat < y.toNat := by
            by_contra hc; simp [hc] at h1
          by_cases e2 : y = z
          · subst e2
            simp [e1, hxy]
          · simp only [e2, if_false] at h2
            have hyz : y.toNat < z.toNat := by
              by_contra hc; simp [hc] at h2
            have e3 : x ≠ z := by
              intro h; subst h; omega
            have : x.toNat < z.toNat := by omega
            simp [e3, this]

theorem cmp_atoms_eq (a b : atom_and_count) : cmp_atoms a b = cmp_atoms ⟨a.atom, 0⟩ ⟨b.atom, 0⟩ := rfl

theorem sym_le_iff (s t : List Char) :
    sym_le s t ↔ (s = ['C'] ∨ (t ≠ ['C'] ∧ (s = ['H'] ∨ (t ≠ ['H'] ∧ strcmp s t ≤ 0)))) := by
  unfold sym_le cmp_atoms
  simp only [strcmp_eq_zero]
  by_cases h1 : s = ['C']
  · simp [h1]
  · by_cases h2 : t = ['C']
    · simp [h1, h2]
    · by_cases h3 : s = ['H']
      · simp [h1, h2, h3]
      · by_cases h4 : t = ['H']
        · simp [h1, h2, h3, h4]
        · simp [h1, h2, h3, h4]

theorem sym_le_total (s t : List Char) : sym_le s t ∨ sym_le t s := by
  rw [sym_le_iff, sym_le_iff]
  have hn := strcmp_neg s t
  by_cases h1 : s = ['C']
  · exact Or.inl (Or.inl h1)
  · by_cases h2 : t = ['C']
    · exact Or.inr (Or.inl h2)
    · by_cases h3 : s = ['H']
      · exact Or.inl (Or.inr ⟨h2, Or.inl h3⟩)
      · by_cases h4 : t = ['H']
        · exact Or.inr (Or.inr ⟨h1, Or.inl h4⟩)
        · by_cases h5 : strcmp s t ≤ 0
          · exact Or.inl (Or.inr ⟨h2, Or.inr ⟨h4, h5⟩⟩)
          · exact Or.inr (Or.inr ⟨h1, Or.inr ⟨h3, by omega⟩⟩)

theorem sym_le_trans (s t u : List Char) (h1 : sym_le s t) (h2 : sym_le t u) : sym_le s u := by
  rw [sym_le_iff] at *
  rcases h1 with h | ⟨ht, h⟩
  · exact Or.inl h
  · rcases h2 with h' | ⟨hu, h'⟩
    · exact absurd h' ht
    · refine Or.inr ⟨hu, ?_⟩
      rcases h with h | ⟨ht', h⟩
      · exact Or.inl h
      · rcases h' with h' | ⟨hu', h'⟩
        · exact absurd h' ht'
        · exact Or.inr ⟨hu', strcmp_trans s t u h h'⟩

theorem formula_before_of_sym_le (s t : List Char) (h : sym_le s t) (hne : s ≠ t) :
    formula_before s t := by
  rw [sym_le_iff] at h
  unfold formula_before formula_rank
  rcases h with h | ⟨ht, h⟩
  · subst h
    have : t ≠ ['C'] := fun e => hne e.symm
    left
    simp only [if_true, this, if_false]
    split <;> omega
  · by_cases hs : s = ['C']
    · left; simp only [hs, if_true, ht, if_false]; split <;> omega
    · rcases h with h | ⟨ht', h⟩
      · subst h
        have : t ≠ ['H'] := fun e => hne e.symm
        left
        simp [ht, this]
      · by_cases hs' : s = ['H']
        · left; simp [hs', ht, ht']
        · right
          simp only [hs, hs', ht, ht', if_false, true_and]
          rw [← strcmp_lt_iff]
          rcases strcmp_cases s t with c | c | c
          · exact c
          · exact absurd ((strcmp_eq_zero s t).1 c) hne
          · omega

theorem formula_before_asymm (s t : List Char) (h1 : formula_before s t)
    (h2 : formula_before t s) : False := by
  unfold formula_before at h1 h2
  rcases h1 with h1 | ⟨a, b, h1⟩ <;> rcases h2 with h2 | ⟨c, d, h2⟩
  · omega
  · omega
  · omega
  · rw [← strcmp_lt_iff] at h1 h2
    have := strcmp_neg s t
    omega

/-- Two lists of symbols in formula order with the same members are equal. -/
theorem formula_order_unique (l1 l2 : List (List Char)) (h1 : l1.Pairwise formula_before)
    (h2 : l2.Pairwise formula_before) (hm : ∀ s, s ∈ l1 ↔ s ∈ l2) : l1 = l2 := by
  have n1 : l1.Nodup := h1.imp (fun {a b} h e => by
    subst e; exact formula_before_asymm a a h h)
  have n2 : l2.Nodup := h2.imp (fun {a b} h e => by
    subst e; exact formula_before_asymm a a h h)
  haveI : IsAntisymm (List Char) formula_before :=
    ⟨fun s t k1 k2 => (formula_before_asymm s t k1 k2).elim⟩
  exact List.eq_of_perm_of_sorted ((List.perm_ext_iff_of_nodup n1 n2).2 hm) h1 h2

/-- Sorting a duplicate-free list of symbols with `cmp_atoms` puts it in formula order. -/
theorem insertionSort_sym_le_pairwise (l : List (List Char)) (hn : l.Nodup) :
    (l.insertionSort sym_le).Pairwise formula_before := by
  haveI : IsTotal (List Char) sym_le := ⟨sym_le_total⟩
  haveI : IsTrans (List Char) sym_le := ⟨sym_le_trans⟩
  have hs : (l.insertionSort sym_le).Sorted sym_le := List.sorted_insertionSort sym_le l
  have hn2 : (l.insertionSort sym_le).Nodup := (List.perm_insertionSort sym_le l).nodup_iff.2 hn
  have := List.Pairwise.and hs hn2
  exact this.imp (fun {a b} h => formula_before_of_sym_le a b h.1 h.2)

theorem bump_length (a : List Char) (c : List atom_and_count) :
    c.length ≤ (bump a c).length ∧ (bump a c).length ≤ c.length + 1 := by
  induction c with
  | nil => simp [bump]
  | cons e r ih =>
    simp only [bump]
    split
    · simp
    · simp only [List.length_cons]; omega

theorem count_symbol_eq (a : List Char) (c : List atom_and_count) (j : Nat)
    (h : j + c.length ≤ 200) :
    count_symbol a c j = if j + (bump a c).length ≤ 200 then some (bump a c) else none := by
  induction c generalizing j with
  | nil =>
    simp only [count_symbol, bump, List.length_singleton]
    by_cases hj : j < 200
    · rw [if_pos hj, if_pos (by omega)]
    · rw [if_neg hj, if_neg (by omega)]
  | cons e r ih =>
    simp only [count_symbol, bump]
    simp only [List.length_cons] at h
    by_cases he : strcmp a e.atom = 0
    · simp only [he, if_true, List.length_cons]
      rw [if_pos (by omega)]
    · simp only [he, if_false, List.length_cons]
      rw [ih (j + 1) (by omega)]
      by_cases hl : j + 1 + (bump a r).length ≤ 200
      · rw [if_pos hl, if_pos (by omega)]; rfl
      · rw [if_neg hl, if_neg (by omega)]; rfl

theorem foldl_bump_length (syms : List (List Char)) (c : List atom_and_count) :
    c.length ≤ (syms.foldl (fun c s => bump s c) c).length := by
  induction syms generalizing c with
  | nil => simp
  | cons s r ih =>
    simp only [List.foldl_cons]
    have := (bump_length s c).1
    have := ih (bump s c)
    omega

theorem element_symbol_isSome (l : List Char) :
    (element_symbol l).isSome = l.any isalpha := by
  unfold element_symbol
  induction l with
  | nil => rfl
  | cons c r ih =>
    by_cases h : isalpha c = true
    · simp [List.dropWhile_cons, h]
    · simp only [Bool.not_eq_true] at h
      simp only [List.dropWhile_cons, h, Bool.not_false, if_true, List.any_cons, Bool.false_or]
      exact ih

theorem count_atoms_eq (atoms : List molecule_atom) (c : List atom_and_count)
    (hl : ∀ a ∈ atoms, a.label.any isalpha = true) (hc : c.length ≤ 200) :
    count_atoms atoms c =
      if ((symbols atoms).foldl (fun c s => bump s c) c).length ≤ 200 then
        some ((symbols atoms).foldl (fun c s => bump s c) c)
      else none := by
  induction atoms generalizing c with
  | nil => simp [count_atoms, symbols, hc]
  | cons a r ih =>
    have ha : (element_symbol a.label).isSome = true := by
      rw [element_symbol_isSome]; exact hl a (by simp)
    obtain ⟨s, hs⟩ := Option.isSome_iff_exists.1 ha
    have hsym : symbols (a :: r) = s :: symbols r := by
      simp [symbols, List.filterMap_cons, hs]
    rw [hsym]
    simp only [count_atoms, hs, List.foldl_cons]
    rw [count_symbol_eq s c 0 (by omega)]
    by_cases hb : (bump s c).length ≤ 200
    · rw [if_pos (by omega)]
      simp only []
      exact ih (bump s c) (fun x hx => hl x (by simp [hx])) hb
    · rw [if_neg (by omega)]
      have := foldl_bump_length (symbols r) (bump s c)
      rw [if_neg (by omega)]

theorem bump_not_mem (s : List Char) (c : List atom_and_count)
    (h : s ∉ c.map atom_and_count.atom) : bump s c = c ++ [⟨s, 1⟩] := by
  induction c with
  | nil => rfl
  | cons e r ih =>
    simp only [List.map_cons, List.mem_cons, not_or] at h
    have : ¬ strcmp s e.atom = 0 := fun k => h.1 ((strcmp_eq_zero _ _).1 k)
    simp [bump, this, ih h.2]

theorem bump_mem (s : List Char) (c : List atom_and_count)
    (hn : (c.map atom_and_count.atom).Nodup) (h : s ∈ c.map atom_and_count.atom) :
    bump s c = c.map (fun e => if e.atom = s then { e with count := e.count + 1 } else e) := by
  induction c with
  | nil => simp at h
  | cons e r ih =>
    simp only [List.map_cons, List.nodup_cons] at hn
    by_cases he : e.atom = s
    · subst he
      simp only [bump, strcmp_self, if_true, List.map_cons]
      congr 1
      symm
      rw [List.map_congr_left, List.map_id]
      intro x hx
      have : x.atom ≠ e.atom := by
        intro k
        apply hn.1
        rw [← k]
        exact List.mem_map_of_mem _ hx
      simp [this]
    · have : ¬ strcmp s e.atom = 0 := fun k => he ((strcmp_eq_zero _ _).1 k).symm
      have hr : s ∈ r.map atom_and_count.atom := by
        simp only [List.map_cons, List.mem_cons] at h
        rcases h with h | h
        · exact absurd h.symm he
        · exact h
      simp [bump, this, he, ih hn.2 hr]

theorem counts_inv_bump (c : List atom_and_count) (syms : List (List Char)) (s : List Char)
    (h : counts_inv c syms) : counts_inv (bump s c) (syms ++ [s]) := by
  obtain ⟨h1, h2, h3⟩ := h
  by_cases hs : s ∈ c.map atom_and_count.atom
  · rw [bump_mem s c h1 hs]
    have hmap : (c.map (fun e => if e.atom = s then { e with count := e.count + 1 } else e)).map
        atom_and_count.atom = c.map atom_and_count.atom := by
      rw [List.map_map]
      apply List.map_congr_left
      intro e _
      simp only [Function.comp]
      split <;> rfl
    refine ⟨by rw [hmap]; exact h1, ?_, ?_⟩
    · intro e he
      obtain ⟨x, hx, rfl⟩ := List.mem_map.1 he
      by_cases hxs : x.atom = s
      · simp only [hxs, if_true, List.count_append, h2 x hx]
        simp
      · simp only [hxs, if_false, List.count_append, h2 x hx]
        simp [List.count_singleton, hxs, Ne.symm hxs]
    · intro t
      rw [hmap, h3]
      simp only [List.mem_append, List.mem_singleton]
      constructor
      · exact Or.inl
      · rintro (h | rfl)
        · exact h
        · exact (h3 _).1 hs
  · rw [bump_not_mem s c hs]
    refine ⟨?_, ?_, ?_⟩
    · rw [List.map_append, List.nodup_append]
      refine ⟨h1, by simp, ?_⟩
      intro a ha hb
      simp at hb
      subst hb
      exact hs ha
    · intro e he
      rcases List.mem_append.1 he with he | he
      · have : e.atom ≠ s := by
          intro k; apply hs; rw [← k]; exact List.mem_map_of_mem _ he
        simp [List.count_append, h2 e he, List.count_singleton, this, Ne.symm this]
      · simp only [List.mem_singleton] at he
        subst he
        have : syms.count s = 0 := List.count_eq_zero.2 (fun k => hs ((h3 s).2 k))
        simp [List.count_append, this]
    · intro t
      simp only [List.map_append, List.mem_append, List.map_cons, List.map_nil, List.mem_singleton]
      rw [h3]

theorem counts_inv_foldl (syms : List (List Char)) :
    counts_inv (syms.foldl (fun c s => bump s c) []) syms := by
  induction syms using List.reverseRecOn with
  | nil => simp [counts_inv]
  | append_singleton l s ih =>
    rw [List.foldl_append]
    exact counts_inv_bump _ l s ih

theorem count_symbols (atoms : List molecule_atom) (s : List Char) :
    (symbols atoms).count s = atoms.countP (fun a => element_symbol a.label = some s) := by
  induction atoms with
  | nil => rfl
  | cons a r ih =>
    unfold symbols at ih ⊢
    cases h : element_symbol a.label with
    | none => simp [List.filterMap_cons, h, ih, List.countP_cons]
    | some t =>
      simp only [List.filterMap_cons, h, List.count_cons, ih, List.countP_cons]
      by_cases e : t = s
      · simp [e]
      · simp [e]

theorem mem_symbols (atoms : List molecule_atom) (s : List Char) :
    s ∈ symbols atoms ↔ ∃ a ∈ atoms, element_symbol a.label = some s := by
  simp [symbols, List.mem_filterMap]

/-- The contents of `buf` before `special_case_formula`, for a molecule whose
labels all have a letter: the symbols in formula order with their counts,
when there are fewer than 200 symbols and the text fits in `buf`. -/
theorem raw_formula_eq (m : molecule) (hl : ∀ a ∈ m.atoms, a.label.any isalpha = true) :
    ∃ syms : List (List Char),
      (∀ s, s ∈ syms ↔ ∃ a ∈ m.atoms, element_symbol a.label = some s) ∧
      syms.Pairwise formula_before ∧
      raw_formula m =
        if syms.length < 200 ∧ (formula_text m.atoms syms).length + 1 ≤ m.natoms * 10 then
          some (formula_text m.atoms syms)
        else none := by
  obtain ⟨h1, h2, h3⟩ := counts_inv_foldl (symbols m.atoms)
  generalize hF : (symbols m.atoms).foldl (fun c s => bump s c) [] = F at h1 h2 h3
  have hsort : (qsort cmp_atoms F).map atom_and_count.atom =
      (F.map atom_and_count.atom).insertionSort sym_le := by
    unfold qsort
    exact List.map_insertionSort (fun a b : atom_and_count => cmp_atoms a b ≤ 0) sym_le
      atom_and_count.atom F (fun a _ b _ => Iff.rfl)
  have hmemF : ∀ e ∈ qsort cmp_atoms F, e ∈ F := fun e he =>
    (List.perm_insertionSort _ F).subset he
  have htext : ((qsort cmp_atoms F).map formula_entry).flatten =
      formula_text m.atoms ((F.map atom_and_count.atom).insertionSort sym_le) := by
    rw [← hsort]
    unfold formula_text
    rw [List.flatMap_def, List.map_map]
    congr 1
    apply List.map_congr_left
    intro e he
    simp only [Function.comp, formula_entry, count_suffix]
    rw [h2 e (hmemF e he), count_symbols]
  have hlen : ((F.map atom_and_count.atom).insertionSort sym_le).length = F.length := by
    rw [List.length_insertionSort, List.length_map]
  refine ⟨(F.map atom_and_count.atom).insertionSort sym_le, ?_, ?_, ?_⟩
  · intro s
    rw [List.mem_insertionSort, h3, mem_symbols]
  · exact insertionSort_sym_le_pairwise _ h1
  · unfold raw_formula
    rw [count_atoms_eq m.atoms [] hl (by simp), hF, hlen]
    by_cases hc : F.length ≤ 200
    · rw [if_pos hc]
      simp only []
      by_cases hc2 : 200 ≤ F.length
      · rw [if_pos hc2, if_neg (by omega)]
      · rw [if_neg hc2, htext]
        by_cases hfit : (formula_text m.atoms
            ((F.map atom_and_count.atom).insertionSort sym_le)).length + 1 ≤ m.natoms * 10
        · rw [if_pos hfit, if_pos ⟨by omega, hfit⟩]
        · rw [if_neg hfit, if_neg (fun k => hfit k.2)]
    · rw [if_neg hc, if_neg (by omega)]

/-! ### The formula fits in `buf` -/

theorem toDigitsCore_length_le (fuel n : Nat) (ds : List Char) (h : 1 ≤ n) :
    (Nat.toDigitsCore 10 fuel n ds).length ≤ ds.length + n := by
  induction fuel generalizing n ds with
  | zero => simp [Nat.toDigitsCore]
  | succ f ih =>
    unfold Nat.toDigitsCore
    simp only []
    split
    · simp only [List.length_cons]; omega
    · have := ih (n / 10) ((n % 10).digitChar :: ds) (by omega)
      simp only [List.length_cons] at this
      omega

theorem count_suffix_length_le (k : Nat) (h : 1 ≤ k) : (count_suffix k).length + 4 ≤ 10 * k := by
  unfold count_suffix
  split
  · have := toDigitsCore_length_le (k + 1) k [] h
    have e : Nat.toDigits 10 k = Nat.toDigitsCore 10 (k + 1) k [] := rfl
    simp only [List.length_cons, List.length_append, e, List.length_nil] at this ⊢
    omega
  · simp; omega

theorem element_symbol_length_le (l s : List Char) (h : element_symbol l = some s) :
    s.length ≤ l.length := by
  unfold element_symbol at h
  split at h
  · simp at h
  · rename_i c r hd
    simp only [Option.some.injEq] at h
    rw [← h, ← hd]
    calc ((l.dropWhile _).takeWhile isalpha).length
        ≤ (l.dropWhile (fun c => !isalpha c)).length := (List.takeWhile_sublist _).length_le
      _ ≤ l.length := (List.dropWhile_sublist _).length_le

theorem formula_text_length_le (atoms : List molecule_atom) (syms : List (List Char))
    (h : ∀ s ∈ syms, s.length ≤ 3 ∧
      1 ≤ atoms.countP (fun a => element_symbol a.label = some s)) :
    (formula_text atoms syms).length + syms.length ≤
      10 * (syms.map (fun s => atoms.countP (fun a => element_symbol a.label = some s))).sum := by
  induction syms with
  | nil => simp [formula_text]
  | cons s r ih =>
    have hs := h s (by simp)
    have hr := ih (fun t ht => h t (by simp [ht]))
    have hk := count_suffix_length_le _ hs.2
    unfold formula_text at hr ⊢
    simp only [List.flatMap_cons, List.length_append, List.length_cons, List.map_cons,
      List.sum_cons]
    omega

theorem sum_indicator_not_mem (syms : List (List Char)) (t : List Char) (h : t ∉ syms) :
    (syms.map (fun s => if t = s then 1 else 0)).sum = 0 := by
  induction syms with
  | nil => rfl
  | cons s r ih =>
    simp only [List.mem_cons, not_or] at h
    simp only [List.map_cons, List.sum_cons, ih h.2, if_neg h.1]

theorem sum_indicator_mem (syms : List (List Char)) (t : List Char) (hn : syms.Nodup)
    (h : t ∈ syms) : (syms.map (fun s => if t = s then 1 else 0)).sum = 1 := by
  induction syms with
  | nil => simp at h
  | cons s r ih =>
    simp only [List.nodup_cons] at hn
    simp only [List.map_cons, List.sum_cons]
    by_cases e : t = s
    · subst e
      rw [if_pos rfl, sum_indicator_not_mem r t hn.1]
    · rw [if_neg e, ih hn.2 (by simpa [e] using h)]

theorem sum_symbol_counts (atoms : List molecule_atom) (syms : List (List Char))
    (hn : syms.Nodup) (h : ∀ a ∈ atoms, ∃ s ∈ syms, element_symbol a.label = some s) :
    (syms.map (fun s => atoms.countP (fun a => element_symbol a.label = some s))).sum =
      atoms.length := by
  induction atoms with
  | nil => simp
  | cons a r ih =>
    obtain ⟨t, ht, hat⟩ := h a (by simp)
    have hr := ih (fun x hx => h x (by simp [hx]))
    have e : (fun s => (a :: r).countP (fun a => element_symbol a.label = some s)) =
        (fun s => r.countP (fun a => element_symbol a.label = some s) +
          (if t = s then 1 else 0)) := by
      funext s
      rw [List.countP_cons, hat]
      by_cases k : t = s
      · simp [k]
      · simp [k]
    rw [e]
    have hsplit : ∀ (l : List (List Char)) (f g : List Char → Nat),
        (l.map (fun s => f s + g s)).sum = (l.map f).sum + (l.map g).sum := by
      intro l f g
      induction l with
      | nil => rfl
      | cons x xs ihx => simp only [List.map_cons, List.sum_cons, ihx]; omega
    rw [hsplit, hr, sum_indicator_mem syms t hn ht, List.length_cons]

/-- With at least one atom and labels of at most three characters (the three
name columns that `parse_pdb_data` copies), the formula and its terminator fit
in the `natoms * 10` bytes of `buf`. -/
theorem formula_text_fits (atoms : List molecule_atom) (syms : List (List Char))
    (hne : atoms ≠ []) (hl : ∀ a ∈ atoms, a.label.any isalpha = true)
    (h3 : ∀ a ∈ atoms, a.label.length ≤ 3)
    (hm : ∀ s, s ∈ syms ↔ ∃ a ∈ atoms, element_symbol a.label = some s)
    (ho : syms.Pairwise formula_before) :
    (formula_text atoms syms).length + 1 ≤ atoms.length * 10 := by
  have hn : syms.Nodup := ho.imp (fun {a b} h e => by
    subst e; exact formula_before_asymm a a h h)
  have hsym : ∀ a ∈ atoms, ∃ s ∈ syms, element_symbol a.label = some s := by
    intro a ha
    have : (element_symbol a.label).isSome = true := by
      rw [element_symbol_isSome]; exact hl a ha
    obtain ⟨s, hs⟩ := Option.isSome_iff_exists.1 this
    exact ⟨s, (hm s).2 ⟨a, ha, hs⟩, hs⟩
  have h1 := formula_text_length_le atoms syms (by
    intro s hs
    obtain ⟨a, ha, hsa⟩ := (hm s).1 hs
    refine ⟨le_trans (element_symbol_length_le _ _ hsa) (h3 a ha), ?_⟩
    exact List.countP_pos_iff.2 ⟨a, ha, by simpa using hsa⟩)
  rw [sum_symbol_counts atoms syms hn hsym] at h1
  have hpos : 1 ≤ syms.length := by
    cases atoms with
    | nil => exact absurd rfl hne
    | cons a r =>
      obtain ⟨s, hs, _⟩ := hsym a (by simp)
      exact List.length_pos_of_mem hs
  omega

/-! ## `get_atom` -/

theorem get_atom_scan_absent (atoms : List molecule_atom) (id : Int)
    (h : ∀ a ∈ atoms, a.id ≠ id) : get_atom_scan id atoms = .no_atom := by
  induction atoms with
  | nil => rfl
  | cons x r ih =>
    have hx : ¬ id = x.id := fun e => h x (by simp) e.symm
    simp only [get_atom_scan, if_neg hx]
    exact ih (fun a ha => h a (by simp [ha]))

theorem get_atom_scan_present (atoms : List molecule_atom) (id : Int) (a : molecule_atom)
    (hn : (atoms.map molecule_atom.id).Nodup) (ha : a ∈ atoms) (hid : a.id = id) :
    get_atom_scan id atoms = .found a := by
  induction atoms with
  | nil => simp at ha
  | cons x r ih =>
    simp only [List.map_cons, List.nodup_cons] at hn
    by_cases hx : id = x.id
    · simp only [get_atom_scan, if_pos hx]
      rcases List.mem_cons.1 ha with e | har
      · rw [e]
      · exfalso
        apply hn.1
        rw [← hx, ← hid]
        exact List.mem_map_of_mem _ har
    · simp only [get_atom_scan, if_neg hx]
      rcases List.mem_cons.1 ha with e | har
      · exact absurd (by rw [← hid, e]) hx
      · exact ih hn.2 har

theorem atom_at_mem (atoms : List molecule_atom) (i : Int) (h0 : 0 ≤ i)
    (h1 : i < (atoms.length : Int)) : ∃ b, atom_at atoms i = some b ∧ b ∈ atoms := by
  unfold atom_at
  rw [if_neg (by omega)]
  have hlt : i.toNat < atoms.length := by omega
  exact ⟨atoms[i.toNat], by simp [hlt], List.getElem_mem _⟩

/-- A probe inside the array returns what the full scan returns, when the ids differ pairwise. -/
theorem probe_eq_scan (atoms : List molecule_atom) (i id : Int) (k : get_atom_result)
    (hn : (atoms.map molecule_atom.id).Nodup) (h0 : 0 ≤ i) (h1 : i < (atoms.length : Int))
    (hk : k = get_atom_scan id atoms) : probe atoms i id k = get_atom_scan id atoms := by
  obtain ⟨b, hb, hmem⟩ := atom_at_mem atoms i h0 h1
  unfold probe
  rw [hb]
  simp only []
  by_cases e : b.id = id
  · rw [if_pos e, get_atom_scan_present atoms id b hn hmem e]
  · rw [if_neg e, hk]

/-- For an id that is not negative, in an array whose ids differ pairwise,
`get_atom` returns what its full scan returns. -/
theorem get_atom_eq_scan (atoms : List molecule_atom) (id : Int)
    (hn : (atoms.map molecule_atom.id).Nodup) (h0 : 0 ≤ id) :
    get_atom atoms id = get_atom_scan id atoms := by
  unfold get_atom
  by_cases h1 : id < (atoms.length : Int)
  · rw [if_pos h1]
    apply probe_eq_scan atoms id id _ hn h0 h1
    by_cases h2 : id > 0
    · rw [if_pos h2]
      apply probe_eq_scan atoms (id - 1) id _ hn (by omega) (by omega)
      by_cases h3 : id < (atoms.length : Int) - 1
      · rw [if_pos h3]
        exact probe_eq_scan atoms (id + 1) id _ hn (by omega) (by omega) rfl
      · rw [if_neg h3]
    · rw [if_neg h2]
      by_cases h3 : id < (atoms.length : Int) - 1
      · rw [if_pos h3]
        exact probe_eq_scan atoms (id + 1) id _ hn (by omega) (by omega) rfl
      · rw [if_neg h3]
  · rw [if_neg h1]

/-- For atoms whose ids differ pairwise and for an id that is not negative,
`get_atom` returns the atom with this id when there is one and reaches
`abort ()` when there is none, on the list and on every permutation of it. -/
theorem get_atom_perm_nonneg (atoms atoms' : List molecule_atom) (id : Int)
    (hn : (atoms.map molecule_atom.id).Nodup) (hp : atoms.Perm atoms') (h0 : 0 ≤ id) :
    get_atom atoms' id = get_atom atoms id ∧
    (∀ a ∈ atoms, a.id = id → get_atom atoms id = .found a) ∧
    ((∀ a ∈ atoms, a.id ≠ id) → get_atom atoms id = .no_atom) := by
  have hn' : (atoms'.map molecule_atom.id).Nodup := (hp.map _).nodup_iff.1 hn
  rw [get_atom_eq_scan atoms id hn h0, get_atom_eq_scan atoms' id hn' h0]
  refine ⟨?_, fun a ha hid => get_atom_scan_present atoms id a hn ha hid,
    fun h => get_atom_scan_absent atoms id h⟩
  by_cases hex : ∃ a ∈ atoms, a.id = id
  · obtain ⟨a, ha, hid⟩ := hex
    rw [get_atom_scan_present atoms id a hn ha hid,
      get_atom_scan_present atoms' id a hn' (hp.mem_iff.1 ha) hid]
  · have h : ∀ a ∈ atoms, a.id ≠ id := fun a ha e => hex ⟨a, ha, e⟩
    rw [get_atom_scan_absent atoms id h,
      get_atom_scan_absent atoms' id (fun a ha => h a (hp.mem_iff.2 ha))]

/-! ### Blobs of atom records and other lines -/

theorem strncmp_eq_append (pat l b : List Char) (hp : pat.contains '\n' = false)
    (hb : b = [] ∨ ∃ r, b = '\n' :: r) : strncmp_eq (l ++ b) pat = strncmp_eq l pat := by
  unfold strncmp_eq
  induction pat generalizing l with
  | nil => simp [List.isPrefixOf]
  | cons p ps ih =>
    simp only [List.contains_cons, Bool.or_eq_false_iff] at hp
    cases l with
    | nil =>
      rcases hb with rfl | ⟨r, rfl⟩
      · rfl
      · have : (p == '\n') = false := by
          have h1 := hp.1
          cases k : (p == '\n') with
          | false => rfl
          | true =>
            have e : p = '\n' := by simpa using k
            rw [e] at h1; simp at h1
        simp [List.isPrefixOf, this]
    | cons x xs =>
      have := ih xs hp.2
      simp only [List.cons_append, List.isPrefixOf]
      rw [show xs.append b = xs ++ b from rfl, this]

/-- A line that is neither an atom record nor a connectivity record leaves
the atoms and the bonds as they are. -/
theorem parse_pdb_line_other_record (scanf_f : List Char → Option (ℚ × List Char))
    (m : molecule) (l b : List Char) (hl : other_record_ok l = true)
    (hb : b = [] ∨ ∃ r, b = '\n' :: r) :
    ∃ m1 : molecule, parse_pdb_line scanf_f m (l ++ b) = some m1 ∧ m1.atoms = m.atoms ∧
      m1.bonds = m.bonds := by
  simp only [other_record_ok, Bool.and_eq_true, Bool.not_eq_true'] at hl
  obtain ⟨⟨⟨_, h1⟩, h2⟩, h3⟩ := hl
  have e1 := strncmp_eq_append "ATOM   ".toList l b (by decide) hb
  have e2 := strncmp_eq_append "HETATM ".toList l b (by decide) hb
  have e3 := strncmp_eq_append "CONECT ".toList l b (by decide) hb
  rw [h1] at e1
  rw [h2] at e2
  rw [h3] at e3
  unfold parse_pdb_line
  split
  · exact ⟨_, rfl, rfl, rfl⟩
  · split
    · exact ⟨m, rfl, rfl, rfl⟩
    · rw [e1, e2, e3]
      exact ⟨m, by simp, rfl, rfl⟩

theorem other_record_ok_no_newline (l : List Char) (hl : other_record_ok l = true) :
    l.contains '\n' = false := by
  simp only [other_record_ok, Bool.and_eq_true, Bool.not_eq_true'] at hl
  exact hl.1.1.1

theorem other_record_not_atom (l : List Char) (hl : other_record_ok l = true) :
    atom_record_ok l = false := by
  simp only [other_record_ok, Bool.and_eq_true, Bool.not_eq_true'] at hl
  obtain ⟨⟨⟨_, h1⟩, h2⟩, _⟩ := hl
  unfold atom_record_ok
  rw [h1, h2]
  simp

/-- One line of a blob, an atom record or a line that is neither an atom nor a
connectivity record: the atom of the record is appended, the bonds stay. -/
theorem parse_pdb_line_record (scanf_f : List Char → Option (ℚ × List Char))
    (m : molecule) (l b : List Char)
    (hl : atom_record_ok l = true ∨ other_record_ok l = true)
    (hb : b = [] ∨ ∃ r, b = '\n' :: r) :
    l.contains '\n' = false ∧
    ∃ (m1 : molecule) (atoms : List molecule_atom),
      parse_pdb_line scanf_f m (l ++ b) = some m1 ∧ m1.bonds = m.bonds ∧
      m1.atoms = m.atoms ++ atoms ∧
      atoms.map (fun a => (a.id, a.label)) =
        ([l].filter atom_record_ok).map (fun l => (record_id l, record_label l)) := by
  rcases hl with hl | hl
  · have hd : ends_digits b := by
      rcases hb with rfl | ⟨r, rfl⟩
      · exact ends_digits_nil
      · exact ends_digits_newline r
    obtain ⟨a, h1, h2, h3⟩ := parse_pdb_line_atom_record scanf_f m l b hl hd
    refine ⟨atom_record_ok_no_newline l hl, _, [a], h3, rfl, rfl, ?_⟩
    simp [List.filter_cons, hl, h1, h2]
  · obtain ⟨m1, h1, h2, h3⟩ := parse_pdb_line_other_record scanf_f m l b hl hb
    refine ⟨other_record_ok_no_newline l hl, m1, [], h1, h3, by simp [h2], ?_⟩
    simp [List.filter_cons, other_record_not_atom l hl]

/-- Unfolding of `parse_pdb_data` on a last line `l` without newline. -/
theorem parse_pdb_data_last_line (scanf_f : List Char → Option (ℚ × List Char)) (m : molecule)
    (l : List Char) (hl : l.contains '\n' = false) (hne : l ≠ []) :
    parse_pdb_data scanf_f m l = parse_pdb_line scanf_f m l := by
  unfold parse_pdb_data
  cases l with
  | nil => exact absurd rfl hne
  | cons c r =>
    simp only [List.length_cons, parse_pdb_loop]
    cases h : parse_pdb_line scanf_f m (c :: r) with
    | none => rfl
    | some m1 =>
      simp only []
      rw [next_line_no_newline (c :: r) hl]
      cases r.length <;> rfl

theorem parse_pdb_data_nil (scanf_f : List Char → Option (ℚ × List Char)) (m : molecule) :
    parse_pdb_data scanf_f m [] = some m := rfl

/-- A blob whose lines are atom records and lines that are neither atom nor
connectivity records: the atoms of the atom records are appended in order,
the bonds stay. -/
theorem parse_pdb_data_records (scanf_f : List Char → Option (ℚ × List Char))
    (final_newline : Bool) (lines : List (List Char))
    (h : ∀ l ∈ lines, atom_record_ok l = true ∨ other_record_ok l = true) (m : molecule) :
    ∃ (m1 : molecule) (atoms : List molecule_atom),
      parse_pdb_data scanf_f m (records_blob final_newline lines) = some m1 ∧
      m1.bonds = m.bonds ∧ m1.atoms = m.atoms ++ atoms ∧
      atoms.map (fun a => (a.id, a.label)) =
        (lines.filter atom_record_ok).map (fun l => (record_id l, record_label l)) := by
  induction lines generalizing m with
  | nil => exact ⟨m, [], rfl, rfl, by simp, rfl⟩
  | cons l ls ih =>
    have hl := h l (by simp)
    cases ls with
    | nil =>
      cases final_newline with
      | false =>
        simp only [records_blob, Bool.false_eq_true, if_false]
        by_cases hne : l = []
        · subst hne
          exact ⟨m, [], rfl, rfl, by simp, by simp [atom_record_ok]⟩
        · obtain ⟨hnl, m1, as, e1, e2, e3, e4⟩ :=
            parse_pdb_line_record scanf_f m l [] hl (Or.inl rfl)
          rw [List.append_nil] at e1
          rw [parse_pdb_data_last_line scanf_f m l hnl hne]
          exact ⟨m1, as, e1, e2, e3, e4⟩
      | true =>
        simp only [records_blob, if_true]
        obtain ⟨hnl, m1, as, e1, e2, e3, e4⟩ :=
          parse_pdb_line_record scanf_f m l ['\n'] hl (Or.inr ⟨[], rfl⟩)
        rw [parse_pdb_data_line scanf_f m l [] hnl, e1]
        exact ⟨m1, as, rfl, e2, e3, e4⟩
    | cons l2 ls =>
      simp only [records_blob]
      obtain ⟨hnl, m1, as, e1, e2, e3, e4⟩ :=
        parse_pdb_line_record scanf_f m l ('\n' :: records_blob final_newline (l2 :: ls)) hl
          (Or.inr ⟨_, rfl⟩)
      rw [parse_pdb_data_line scanf_f m l _ hnl, e1]
      obtain ⟨m2, as2, f1, f2, f3, f4⟩ := ih (fun x hx => h x (by simp [hx])) m1
      refine ⟨m2, as ++ as2, f1, by rw [f2, e2], by rw [f3, e3, List.append_assoc], ?_⟩
      rw [List.map_append, e4, f4, ← List.map_append, ← List.filter_append]
      rfl

/-! ## Rounding to a binary floating-point format -/

theorem round_half_even_cases (r : ℚ) :
    (round_half_even r = ⌊r⌋ ∧ r - ⌊r⌋ ≤ 1/2) ∨
    (round_half_even r = ⌊r⌋ + 1 ∧ 1/2 ≤ r - ⌊r⌋) := by
  unfold round_half_even
  by_cases h1 : r - ⌊r⌋ < 1/2
  · rw [if_pos h1]
    exact Or.inl ⟨rfl, le_of_lt h1⟩
  · rw [if_neg h1]
    by_cases h2 : 1/2 < r - ⌊r⌋
    · rw [if_pos h2]
      exact Or.inr ⟨rfl, le_of_lt h2⟩
    · rw [if_neg h2]
      by_cases h3 : ⌊r⌋ % 2 = 0
      · rw [if_pos h3]
        exact Or.inl ⟨rfl, not_lt.1 h2⟩
      · rw [if_neg h3]
        exact Or.inr ⟨rfl, not_lt.1 h1⟩

/-- The rounded integer is nearest among the integers. -/
theorem round_half_even_nearest (r : ℚ) (z : Int) :
    |(round_half_even r : ℚ) - r| ≤ |(z : ℚ) - r| := by
  have hf : ((⌊r⌋ : Int) : ℚ) ≤ r := Int.floor_le r
  have hl : r < ((⌊r⌋ : Int) : ℚ) + 1 := Int.lt_floor_add_one r
  have hz : (z : ℚ) ≤ ((⌊r⌋ : Int) : ℚ) ∨ ((⌊r⌋ : Int) : ℚ) + 1 ≤ (z : ℚ) := by
    rcases le_or_lt z ⌊r⌋ with h | h
    · left; exact_mod_cast h
    · right
      have : ⌊r⌋ + 1 ≤ z := h
      exact_mod_cast this
  rcases round_half_even_cases r with ⟨e, h⟩ | ⟨e, h⟩
  · rw [e]
    rw [abs_le]
    rcases hz with hz | hz
    · have : |(z : ℚ) - r| = r - z := by
        rw [abs_of_nonpos (by linarith)]; ring
      rw [this]
      constructor <;> linarith
    · have : |(z : ℚ) - r| = z - r := abs_of_nonneg (by linarith)
      rw [this]
      constructor <;> linarith
  · rw [e]
    push_cast
    rw [abs_le]
    rcases hz with hz | hz
    · have : |(z : ℚ) - r| = r - z := by
        rw [abs_of_nonpos (by linarith)]; ring
      rw [this]
      constructor <;> linarith
    · have : |(z : ℚ) - r| = z - r := abs_of_nonneg (by linarith)
      rw [this]
      constructor <;> linarith

theorem round_half_even_half (r : ℚ) : |(round_half_even r : ℚ) - r| ≤ 1/2 := by
  have hf : ((⌊r⌋ : Int) : ℚ) ≤ r := Int.floor_le r
  have hl : r < ((⌊r⌋ : Int) : ℚ) + 1 := Int.lt_floor_add_one r
  rcases round_half_even_cases r with ⟨e, h⟩ | ⟨e, h⟩
  · rw [e, abs_le]
    constructor <;> linarith
  · rw [e]
    push_cast
    rw [abs_le]
    constructor <;> linarith

theorem round_half_even_of_close (r : ℚ) (n : Int) (h : |r - n| < 1/2) :
    round_half_even r = n := by
  have h1 := round_half_even_half r
  have h2 : |(round_half_even r : ℚ) - n| < 1 := by
    have : (round_half_even r : ℚ) - n = ((round_half_even r : ℚ) - r) + (r - n) := by ring
    rw [this]
    calc |((round_half_even r : ℚ) - r) + (r - n)|
        ≤ |(round_half_even r : ℚ) - r| + |r - n| := abs_add _ _
      _ < 1 := by linarith
  have h3 : |round_half_even r - n| < 1 := by
    have : ((|round_half_even r - n| : Int) : ℚ) < 1 := by
      push_cast
      exact h2
    exact_mod_cast this
  have h4 : round_half_even r - n = 0 := Int.abs_lt_one_iff.1 h3
  omega

theorem round_half_even_intCast (n : Int) : round_half_even (n : ℚ) = n :=
  round_half_even_of_close _ n (by simp)

theorem ulp_pos (e : Int) : (0 : ℚ) < 2 ^ e := zpow_pos (by norm_num) e

/-- The rounded value is at least as near to `q` as every multiple of the unit
in the last place. -/
theorem round_binary_nearest_multiple (p : Nat) (emin : Int) (q : ℚ) (z : Int) :
    |round_binary p emin q - q| ≤
      |(z : ℚ) * 2 ^ (max (Int.log 2 |q|) emin - ((p : Int) - 1)) - q| := by
  unfold round_binary
  simp only []
  generalize hu : (2 : ℚ) ^ (max (Int.log 2 |q|) emin - ((p : Int) - 1)) = u
  have hpos : 0 < u := by rw [← hu]; exact ulp_pos _
  have h := round_half_even_nearest (q / u) z
  have e1 : ∀ t : ℚ, t * u - q = (t - q / u) * u := by
    intro t
    field_simp
  rw [e1, e1, abs_mul, abs_mul, abs_of_pos hpos]
  exact mul_le_mul_of_nonneg_right h (le_of_lt hpos)

theorem round_binary_zero (p : Nat) (emin : Int) : round_binary p emin 0 = 0 := by
  unfold round_binary
  simp only [zero_div]
  have : round_half_even 0 = 0 := round_half_even_intCast 0
  rw [this]
  simp

theorem log_bounds (q : ℚ) (hq : q ≠ 0) :
    (2 : ℚ) ^ Int.log 2 |q| ≤ |q| ∧ |q| < (2 : ℚ) ^ (Int.log 2 |q| + 1) := by
  have h1 := Int.zpow_log_le_self (b := 2) (by norm_num) (abs_pos.2 hq)
  have h2 := Int.lt_zpow_succ_log_self (b := 2) (by norm_num) |q|
  exact ⟨by exact_mod_cast h1, by exact_mod_cast h2⟩

theorem log_eq (q : ℚ) (e : Int) (hlo : (2 : ℚ) ^ e ≤ |q|) (hhi : |q| < (2 : ℚ) ^ (e + 1)) :
    Int.log 2 |q| = e := by
  have hpos : 0 < |q| := lt_of_lt_of_le (ulp_pos e) hlo
  apply le_antisymm
  · have := (Int.lt_zpow_iff_log_lt (b := 2) (by norm_num) hpos (x := e + 1)).1
      (by exact_mod_cast hhi)
    omega
  · exact (Int.zpow_le_iff_le_log (b := 2) (by norm_num) hpos (x := e)).1 (by exact_mod_cast hlo)

/-- The rounded value when the exponent and the nearest significand are known. -/
theorem round_binary_eval (p : Nat) (emin : Int) (q : ℚ) (e n : Int)
    (hlo : (2 : ℚ) ^ e ≤ |q|) (hhi : |q| < (2 : ℚ) ^ (e + 1)) (he : emin ≤ e)
    (hn : |q / 2 ^ (e - ((p : Int) - 1)) - n| < 1/2) :
    round_binary p emin q = n * 2 ^ (e - ((p : Int) - 1)) := by
  unfold round_binary
  simp only []
  rw [log_eq q e hlo hhi, max_eq_left he, round_half_even_of_close _ n hn]

theorem round_binary_error (p : Nat) (emin : Int) (q : ℚ) :
    |round_binary p emin q - q| ≤
      2 ^ (max (Int.log 2 |q|) emin - ((p : Int) - 1)) / 2 := by
  unfold round_binary
  simp only []
  generalize hu : (2 : ℚ) ^ (max (Int.log 2 |q|) emin - ((p : Int) - 1)) = u
  have hpos : 0 < u := by rw [← hu]; exact ulp_pos _
  have h := round_half_even_half (q / u)
  have e1 : ∀ t : ℚ, t * u - q = (t - q / u) * u := by
    intro t
    field_simp
  rw [e1, abs_mul, abs_of_pos hpos]
  calc |(round_half_even (q / u) : ℚ) - q / u| * u ≤ 1/2 * u :=
        mul_le_mul_of_nonneg_right h (le_of_lt hpos)
    _ = u / 2 := by ring

/-- The absolute error of rounding a number below `2 ^ (E + 1)`. -/
theorem round_binary_error_abs (p : Nat) (emin : Int) (q : ℚ) (E : Int) (he : emin ≤ E)
    (hq : |q| < (2 : ℚ) ^ (E + 1)) :
    |round_binary p emin q - q| ≤ 2 ^ (E - (p : Int)) := by
  by_cases h0 : q = 0
  · rw [h0, round_binary_zero]
    simp only [sub_zero, abs_zero]
    exact le_of_lt (ulp_pos _)
  have hL : Int.log 2 |q| ≤ E := by
    have := (Int.lt_zpow_iff_log_lt (b := 2) (by norm_num) (abs_pos.2 h0) (x := E + 1)).1
      (by exact_mod_cast hq)
    omega
  refine le_trans (round_binary_error p emin q) ?_
  have hm : max (Int.log 2 |q|) emin ≤ E := max_le hL he
  have : (2 : ℚ) ^ (max (Int.log 2 |q|) emin - ((p : Int) - 1)) ≤ 2 ^ (E - ((p : Int) - 1)) :=
    zpow_le_zpow_right₀ (by norm_num) (by omega)
  have e2 : (2 : ℚ) ^ (E - ((p : Int) - 1)) = 2 ^ (E - (p : Int)) * 2 := by
    rw [show E - ((p : Int) - 1) = (E - (p : Int)) + 1 by ring, zpow_add_one₀ (by norm_num)]
  rw [e2] at this
  linarith

/-- The relative error of rounding a number that is not subnormal. -/
theorem round_binary_error_rel (p : Nat) (emin : Int) (q : ℚ)
    (hq : (2 : ℚ) ^ emin ≤ |q|) :
    |round_binary p emin q - q| ≤ |q| * 2 ^ (-(p : Int)) := by
  have hpos : 0 < |q| := lt_of_lt_of_le (ulp_pos emin) hq
  have h0 : q ≠ 0 := abs_pos.1 hpos
  have hL : emin ≤ Int.log 2 |q| :=
    (Int.zpow_le_iff_le_log (b := 2) (by norm_num) hpos (x := emin)).1 (by exact_mod_cast hq)
  refine le_trans (round_binary_error p emin q) ?_
  rw [max_eq_left hL]
  have e2 : (2 : ℚ) ^ (Int.log 2 |q| - ((p : Int) - 1)) =
      2 ^ Int.log 2 |q| * 2 ^ (-(p : Int)) * 2 := by
    rw [show Int.log 2 |q| - ((p : Int) - 1) = (Int.log 2 |q| + -(p : Int)) + 1 by ring,
      zpow_add_one₀ (by norm_num), zpow_add₀ (by norm_num)]
  rw [e2]
  have := (log_bounds q h0).1
  have hp : (0 : ℚ) < 2 ^ (-(p : Int)) := ulp_pos _
  calc (2 : ℚ) ^ Int.log 2 |q| * 2 ^ (-(p : Int)) * 2 / 2
      = 2 ^ Int.log 2 |q| * 2 ^ (-(p : Int)) := by ring
    _ ≤ |q| * 2 ^ (-(p : Int)) := mul_le_mul_of_nonneg_right this (le_of_lt hp)

/-- Rounding gives a value of the format that is nearest to `q`. -/
theorem round_binary_nearest (p : Nat) (emin : Int) (q y : ℚ) (hp : 0 < p)
    (hy : representable p emin y) :
    |round_binary p emin q - q| ≤ |y - q| := by
  by_cases h0 : q = 0
  · rw [h0, round_binary_zero]
    simp
  obtain ⟨m, k, hm, hk, rfl⟩ := hy
  obtain ⟨hlo, hhi⟩ := log_bounds q h0
  generalize hL : Int.log 2 |q| = L at hlo hhi
  have hnm := round_binary_nearest_multiple p emin q
  rw [hL] at hnm
  by_cases hc : max L emin - ((p : Int) - 1) ≤ k
  · -- `y` is a multiple of the unit in the last place
    obtain ⟨j, hj⟩ : ∃ j : Nat, k = max L emin - ((p : Int) - 1) + j :=
      ⟨(k - (max L emin - ((p : Int) - 1))).toNat, by omega⟩
    have := hnm (m * 2 ^ j)
    have e1 : ((m * 2 ^ j : Int) : ℚ) * 2 ^ (max L emin - ((p : Int) - 1)) =
        (m : ℚ) * 2 ^ k := by
      rw [hj, zpow_add₀ (by norm_num), zpow_natCast]
      push_cast
      ring
    rw [e1] at this
    exact this
  · -- `y` lies below the binade of `q`
    have hmax : max L emin = L := by
      rcases le_total L emin with h | h
      · rw [max_eq_right h] at hc
        omega
      · exact max_eq_left h
    rw [hmax] at hc hnm
    have hp1 : ((p : Int) - 1).toNat = p - 1 := by omega
    have hm1 : (|m| : Int) ≤ 2 ^ p - 1 := by omega
    have hmq : |(m : ℚ)| ≤ 2 ^ p - 1 := by
      have : ((|m| : Int) : ℚ) ≤ ((2 ^ p - 1 : Int) : ℚ) := by exact_mod_cast hm1
      push_cast at this
      exact this
    have hk1 : (2 : ℚ) ^ k ≤ 2 ^ (L - (p : Int)) :=
      zpow_le_zpow_right₀ (by norm_num) (by omega)
    have hyabs : |(m : ℚ) * 2 ^ k| < 2 ^ L := by
      rw [abs_mul, abs_of_pos (ulp_pos k)]
      have h2p : (0 : ℚ) < 2 ^ p := by positivity
      calc |(m : ℚ)| * 2 ^ k ≤ (2 ^ p - 1) * 2 ^ k :=
            mul_le_mul_of_nonneg_right hmq (le_of_lt (ulp_pos k))
        _ < 2 ^ p * 2 ^ k := by
            have := ulp_pos k
            nlinarith
        _ ≤ 2 ^ p * 2 ^ (L - (p : Int)) :=
            mul_le_mul_of_nonneg_left hk1 (le_of_lt h2p)
        _ = 2 ^ L := by
            rw [← zpow_natCast (2 : ℚ) p, ← zpow_add₀ (by norm_num)]
            congr 1
            ring
    have e2 : ((2 ^ (p - 1) : Int) : ℚ) * 2 ^ (L - ((p : Int) - 1)) = 2 ^ L := by
      push_cast
      rw [← zpow_natCast (2 : ℚ) (p - 1), ← zpow_add₀ (by norm_num)]
      congr 1
      omega
    rcases lt_or_gt_of_ne h0 with hneg | hpos
    · have h1 := hnm (-(2 ^ (p - 1)))
      have e3 : ((-(2 ^ (p - 1)) : Int) : ℚ) * 2 ^ (L - ((p : Int) - 1)) = -(2 ^ L) := by
        rw [Int.cast_neg, neg_mul, e2]
      rw [e3] at h1
      rw [abs_of_neg hneg] at hlo
      have h2 : |-(2 : ℚ) ^ L - q| = -q - 2 ^ L := by
        rw [abs_of_nonneg (by linarith)]
        ring
      rw [h2] at h1
      refine le_trans h1 ?_
      have := neg_abs_le ((m : ℚ) * 2 ^ k)
      have h3 : (m : ℚ) * 2 ^ k - q ≤ |(m : ℚ) * 2 ^ k - q| := le_abs_self _
      linarith
    · have h1 := hnm (2 ^ (p - 1))
      rw [e2] at h1
      rw [abs_of_pos hpos] at hlo
      have h2 : |(2 : ℚ) ^ L - q| = q - 2 ^ L := by
        rw [abs_of_nonpos (by linarith)]
        ring
      rw [h2] at h1
      refine le_trans h1 ?_
      have := le_abs_self ((m : ℚ) * 2 ^ k)
      have h3 : -((m : ℚ) * 2 ^ k - q) ≤ |(m : ℚ) * 2 ^ k - q| := neg_le_abs _
      linarith

/-- Rounding does not cross a value of the format. -/
theorem round_binary_le (p : Nat) (emin : Int) (q y : ℚ) (hp : 0 < p)
    (hy : representable p emin y) (h : q ≤ y) : round_binary p emin q ≤ y := by
  have h1 := round_binary_nearest p emin q y hp hy
  rw [abs_of_nonneg (by linarith : 0 ≤ y - q)] at h1
  have := le_abs_self (round_binary p emin q - q)
  linarith

theorem round_binary_ge (p : Nat) (emin : Int) (q y : ℚ) (hp : 0 < p)
    (hy : representable p emin y) (h : y ≤ q) : y ≤ round_binary p emin q := by
  have h1 := round_binary_nearest p emin q y hp hy
  rw [abs_of_nonpos (by linarith : y - q ≤ 0)] at h1
  have := neg_le_abs (round_binary p emin q - q)
  linarith

/-- A value of the format is not changed by rounding. -/
theorem round_binary_exact (p : Nat) (emin : Int) (y : ℚ) (hp : 0 < p)
    (hy : representable p emin y) : round_binary p emin y = y := by
  have h1 := round_binary_nearest p emin y y hp hy
  rw [sub_self, abs_zero] at h1
  have := abs_nonneg (round_binary p emin y - y)
  have h2 : |round_binary p emin y - y| = 0 := le_antisymm h1 this
  rw [abs_eq_zero] at h2
  linarith

/-- The rounded value is a value of the format. -/
theorem round_binary_representable (p : Nat) (emin : Int) (q : ℚ) (hp : 0 < p) :
    representable p emin (round_binary p emin q) := by
  have hhi : |q| < (2 : ℚ) ^ (Int.log 2 |q| + 1) := by
    have h2 := Int.lt_zpow_succ_log_self (b := 2) (by norm_num) |q|
    exact_mod_cast h2
  unfold round_binary
  simp only []
  generalize hL : Int.log 2 |q| = L at hhi
  generalize he : max L emin = e
  have hLe : L ≤ e := by rw [← he]; exact le_max_left _ _
  have hee : emin ≤ e := by rw [← he]; exact le_max_right _ _
  have hu : (0 : ℚ) < 2 ^ (e - ((p : Int) - 1)) := ulp_pos _
  have h2p : (2 : ℚ) ^ p * 2 ^ (e - ((p : Int) - 1)) = 2 ^ (e + 1) := by
    rw [← zpow_natCast (2 : ℚ) p, ← zpow_add₀ (by norm_num)]
    congr 1
    ring
  have hq : |q| < 2 ^ p * 2 ^ (e - ((p : Int) - 1)) := by
    rw [h2p]
    exact lt_of_lt_of_le hhi (zpow_le_zpow_right₀ (by norm_num) (by omega))
  have hr : |q / 2 ^ (e - ((p : Int) - 1))| < 2 ^ p := by
    rw [abs_div, abs_of_pos hu, div_lt_iff₀ hu]
    exact hq
  generalize q / (2 : ℚ) ^ (e - ((p : Int) - 1)) = r at hr
  rw [abs_lt] at hr
  have hf1 : ⌊r⌋ < 2 ^ p := by
    have : ((⌊r⌋ : Int) : ℚ) < ((2 ^ p : Int) : ℚ) := by
      push_cast
      exact lt_of_le_of_lt (Int.floor_le r) hr.2
    exact_mod_cast this
  have hf2 : -(2 ^ p) ≤ ⌊r⌋ := by
    apply Int.le_floor.2
    push_cast
    exact le_of_lt hr.1
  have hn : -(2 ^ p) ≤ round_half_even r ∧ round_half_even r ≤ 2 ^ p := by
    rcases round_half_even_cases r with ⟨e1, _⟩ | ⟨e1, _⟩ <;> rw [e1] <;> constructor <;> omega
  have hpp : (2 : Int) ^ p = 2 * 2 ^ (p - 1) := by
    rw [← pow_succ']
    congr 1
    omega
  have hpos : (0 : Int) < 2 ^ (p - 1) := by positivity
  by_cases hlt : |round_half_even r| < 2 ^ p
  · exact ⟨round_half_even r, e - ((p : Int) - 1), hlt, by omega, rfl⟩
  · have habs : |round_half_even r| = 2 ^ p := by
      apply le_antisymm
      · exact abs_le.2 hn
      · exact not_lt.1 hlt
    have e3 : (2 : ℚ) ^ (e - ((p : Int) - 1) + 1) = 2 ^ (e - ((p : Int) - 1)) * 2 :=
      zpow_add_one₀ (by norm_num) _
    rcases abs_eq (by positivity : (0 : Int) ≤ 2 ^ p) |>.1 habs with h | h
    · refine ⟨2 ^ (p - 1), e - ((p : Int) - 1) + 1, ?_, by omega, ?_⟩
      · rw [abs_of_pos hpos]
        omega
      · rw [h, hpp, e3]
        push_cast
        ring
    · refine ⟨-(2 ^ (p - 1)), e - ((p : Int) - 1) + 1, ?_, by omega, ?_⟩
      · rw [abs_neg, abs_of_pos hpos]
        omega
      · rw [h, hpp, e3]
        push_cast
        ring

theorem representable_neg (p : Nat) (emin : Int) (y : ℚ) (h : representable p emin y) :
    representable p emin (-y) := by
  obtain ⟨m, k, h1, h2, rfl⟩ := h
  exact ⟨-m, k, by rw [abs_neg]; exact h1, h2, by push_cast; ring⟩

/-- Every `float` is a `double`. -/
theorem representable_double (y : ℚ) (h : representable 24 (-126) y) :
    representable 53 (-1022) y := by
  obtain ⟨m, k, h1, h2, rfl⟩ := h
  refine ⟨m, k, lt_trans h1 (by norm_num), ?_, rfl⟩
  simp only [Nat.cast_ofNat] at h2 ⊢
  omega

/-- The integers below `2 ^ p` in magnitude, scaled by a power of two, are
values of the format. -/
theorem representable_of_int (p : Nat) (emin : Int) (m k : Int) (h1 : |m| < 2 ^ p)
    (h2 : emin - ((p : Int) - 1) ≤ k) : representable p emin ((m : ℚ) * 2 ^ k) :=
  ⟨m, k, h1, h2, rfl⟩

theorem GLfloat_of_exact (y : ℚ) (h : representable 24 (-126) y) : GLfloat_of y = y :=
  round_binary_exact 24 (-126) y (by norm_num) h

theorem double_of_exact (y : ℚ) (h : representable 53 (-1022) y) : double_of y = y :=
  round_binary_exact 53 (-1022) y (by norm_num) h

/-- The conversion of a `float` to `double` and back, around an operation
whose exact result is a `float`, gives that result. -/
theorem GLfloat_of_double_of_exact (y : ℚ) (h : representable 24 (-126) y) :
    GLfloat_of (double_of y) = y := by
  rw [double_of_exact y (representable_double y h), GLfloat_of_exact y h]

/-- A value of the format of magnitude at least `2 ^ E` is a multiple of the
unit in the last place of that binade. -/
theorem representable_multiple (p : Nat) (emin : Int) (y : ℚ) (E : Int)
    (hy : representable p emin y) (hE : (2 : ℚ) ^ E ≤ |y|) :
    ∃ N : Int, y = N * 2 ^ (E - ((p : Int) - 1)) := by
  obtain ⟨m, k, hm, _, rfl⟩ := hy
  by_cases hc : E - ((p : Int) - 1) ≤ k
  · obtain ⟨j, hj⟩ : ∃ j : Nat, k = E - ((p : Int) - 1) + j :=
      ⟨(k - (E - ((p : Int) - 1))).toNat, by omega⟩
    refine ⟨m * 2 ^ j, ?_⟩
    rw [hj, zpow_add₀ (by norm_num), zpow_natCast]
    push_cast
    ring
  · exfalso
    have hm1 : (|m| : Int) ≤ 2 ^ p - 1 := by omega
    have hmq : |(m : ℚ)| ≤ 2 ^ p - 1 := by
      have : ((|m| : Int) : ℚ) ≤ ((2 ^ p - 1 : Int) : ℚ) := by exact_mod_cast hm1
      push_cast at this
      exact this
    have hk1 : (2 : ℚ) ^ k ≤ 2 ^ (E - (p : Int)) :=
      zpow_le_zpow_right₀ (by norm_num) (by omega)
    have h2p : (0 : ℚ) < 2 ^ p := by positivity
    have : |(m : ℚ) * 2 ^ k| < 2 ^ E := by
      rw [abs_mul, abs_of_pos (ulp_pos k)]
      calc |(m : ℚ)| * 2 ^ k ≤ (2 ^ p - 1) * 2 ^ k :=
            mul_le_mul_of_nonneg_right hmq (le_of_lt (ulp_pos k))
        _ < 2 ^ p * 2 ^ k := by
            have := ulp_pos k
            nlinarith
        _ ≤ 2 ^ p * 2 ^ (E - (p : Int)) :=
            mul_le_mul_of_nonneg_left hk1 (le_of_lt h2p)
        _ = 2 ^ E := by
            rw [← zpow_natCast (2 : ℚ) p, ← zpow_add₀ (by norm_num)]
            congr 1
            ring
    linarith

theorem GLfloat_of_representable (q : ℚ) : representable 24 (-126) (GLfloat_of q) :=
  round_binary_representable 24 (-126) q (by norm_num)

/-- A number written as an integer below `2 ^ 24` in magnitude times a power
of two not below `2 ^ -149` is a `GLfloat`. -/
theorem representable_dyadic (y : ℚ) (m k : Int) (h1 : |m| < 2 ^ 24) (h2 : -149 ≤ k)
    (hy : y = m * 2 ^ k) : representable 24 (-126) y :=
  ⟨m, k, h1, by simp only [Nat.cast_ofNat]; omega, hy⟩

/-- A `GLfloat` above 10 is at least `10 + 2 ^ -20`, the next `GLfloat`. -/
theorem GLfloat_above_ten (y : ℚ) (hy : representable 24 (-126) y) (h : 10 < y) :
    10 + 1 / 2 ^ 20 ≤ y := by
  have h8 : (2 : ℚ) ^ (3 : Int) ≤ |y| := by
    rw [abs_of_pos (by linarith)]
    norm_num
    linarith
  obtain ⟨N, hN⟩ := representable_multiple 24 (-126) y 3 hy h8
  have e : (2 : ℚ) ^ ((3 : Int) - (((24 : Nat) : Int) - 1)) = 1 / 2 ^ 20 := by
    norm_num [zpow_neg]
  rw [e] at hN
  have hN1 : (10485760 : ℚ) < N := by
    rw [hN] at h
    have : (10 : ℚ) * 2 ^ 20 < N := by
      have h20 : (0 : ℚ) < 2 ^ 20 := by positivity
      calc (10 : ℚ) * 2 ^ 20 < (N * (1 / 2 ^ 20)) * 2 ^ 20 :=
            mul_lt_mul_of_pos_right h h20
        _ = N := by field_simp
    norm_num at this
    exact this
  have hN2 : (10485761 : Int) ≤ N := by
    have : (10485760 : Int) < N := by exact_mod_cast hN1
    omega
  have hN3 : (10485761 : ℚ) ≤ N := by exact_mod_cast hN2
  rw [hN]
  have h20 : (0 : ℚ) < 1 / 2 ^ 20 := by positivity
  have e2 : (10 : ℚ) + 1 / 2 ^ 20 = (10485761 : ℚ) * (1 / 2 ^ 20) := by norm_num
  rw [e2]
  exact mul_le_mul_of_nonneg_right hN3 (le_of_lt h20)

/-- The `GLfloat` quotient `10 / size` for a `GLfloat` `size` above 10 that
is finite: it lies strictly between 0 and 1 and within the relative error
`2 ^ -24` of the exact quotient. -/
theorem GLfloat_of_quotient (size : ℚ) (hs : representable 24 (-126) size) (h10 : 10 < size)
    (hfin : size ≤ FLT_MAX) :
    0 < GLfloat_of (10 / size) ∧ GLfloat_of (10 / size) < 1 ∧
    |GLfloat_of (10 / size) - 10 / size| ≤ 10 / size / 2 ^ 24 := by
  have hpos : 0 < size := by linarith
  have hq : 0 < 10 / size := by positivity
  have hge := GLfloat_above_ten size hs h10
  have hrel : |GLfloat_of (10 / size) - 10 / size| ≤ 10 / size / 2 ^ 24 := by
    have hlow : (2 : ℚ) ^ (-126 : Int) ≤ |10 / size| := by
      rw [abs_of_pos hq, le_div_iff₀ hpos]
      have : (2 : ℚ) ^ (-126 : Int) * size ≤ 2 ^ (-126 : Int) * FLT_MAX :=
        mul_le_mul_of_nonneg_left hfin (le_of_lt (ulp_pos _))
      refine le_trans this ?_
      unfold FLT_MAX
      norm_num [zpow_neg]
    have := round_binary_error_rel 24 (-126) (10 / size) hlow
    rw [abs_of_pos hq] at this
    have e : (2 : ℚ) ^ (-((24 : Nat) : Int)) = 1 / 2 ^ 24 := by norm_num [zpow_neg]
    rw [e] at this
    unfold GLfloat_of
    calc |round_binary 24 (-126) (10 / size) - 10 / size| ≤ 10 / size * (1 / 2 ^ 24) := this
      _ = 10 / size / 2 ^ 24 := by ring
  refine ⟨?_, ?_, hrel⟩
  · have h1 := (abs_le.1 hrel).1
    have : 10 / size / 2 ^ 24 < 10 / size := by
      apply div_lt_self hq
      norm_num
    linarith
  · have hy : representable 24 (-126) (1 - 1 / 2 ^ 24) :=
      representable_dyadic _ (2 ^ 24 - 1) (-24) (by norm_num) (by norm_num)
        (by norm_num [zpow_neg])
    have hle : 10 / size ≤ 1 - 1 / 2 ^ 24 := by
      rw [div_le_iff₀ hpos]
      have : (1 - 1 / 2 ^ 24 : ℚ) * (10 + 1 / 2 ^ 20) ≤ (1 - 1 / 2 ^ 24) * size :=
        mul_le_mul_of_nonneg_left hge (by norm_num)
      refine le_trans ?_ this
      norm_num
    have := round_binary_le 24 (-126) (10 / size) _ (by norm_num) hy hle
    unfold GLfloat_of
    have h2 : (1 - 1 / 2 ^ 24 : ℚ) < 1 := by norm_num
    linarith

/-- The error of `x + c` computed in `double` and stored in a `GLfloat`, for a
`GLfloat` `x` and `c` one of 1.5 and -1.5: at most `2 ^ -23` of the exact sum. -/
theorem GLfloat_of_shift_error (x c : ℚ) (hx : representable 24 (-126) x)
    (hc : c = 3/2 ∨ c = -(3/2)) :
    |GLfloat_of (double_of (x + c)) - (x + c)| ≤ |x + c| / 2 ^ 23 := by
  by_cases hbig : (2 : ℚ) ^ (-126 : Int) ≤ |x + c|
  · generalize x + c = q at hbig
    have hq0 : q ≠ 0 := by
      intro h
      rw [h, abs_zero] at hbig
      exact absurd hbig (not_le.2 (ulp_pos _))
    have hd : |double_of q - q| ≤ |q| * 2 ^ (-((53 : Nat) : Int)) :=
      round_binary_error_rel 53 (-1022) q
        (le_trans (zpow_le_zpow_right₀ (by norm_num) (by norm_num)) hbig)
    have hr126 : representable 53 (-1022) ((2 : ℚ) ^ (-126 : Int)) :=
      ⟨1, -126, by norm_num, by norm_num, by simp⟩
    have hdbig : (2 : ℚ) ^ (-126 : Int) ≤ |double_of q| := by
      rcases lt_or_gt_of_ne hq0 with hneg | hpos
      · rw [abs_of_neg hneg] at hbig
        have h1 := round_binary_le 53 (-1022) q (-(2 : ℚ) ^ (-126 : Int)) (by norm_num)
          (representable_neg _ _ _ hr126) (by linarith)
        have : double_of q < 0 := lt_of_le_of_lt h1 (by
          have := ulp_pos (-126)
          linarith)
        rw [abs_of_neg this]
        unfold double_of
        linarith
      · rw [abs_of_pos hpos] at hbig
        have h1 := round_binary_ge 53 (-1022) q ((2 : ℚ) ^ (-126 : Int)) (by norm_num)
          hr126 hbig
        have : 0 < double_of q := lt_of_lt_of_le (ulp_pos _) h1
        rw [abs_of_pos this]
        exact h1
    have hf : |GLfloat_of (double_of q) - double_of q| ≤
        |double_of q| * 2 ^ (-((24 : Nat) : Int)) :=
      round_binary_error_rel 24 (-126) (double_of q) hdbig
    have e53 : (2 : ℚ) ^ (-((53 : Nat) : Int)) = 1 / 2 ^ 53 := by norm_num [zpow_neg]
    have e24 : (2 : ℚ) ^ (-((24 : Nat) : Int)) = 1 / 2 ^ 24 := by norm_num [zpow_neg]
    rw [e53] at hd
    rw [e24] at hf
    have hdabs : |double_of q| ≤ |q| + |q| * (1 / 2 ^ 53) := by
      have : double_of q = (double_of q - q) + q := by ring
      calc |double_of q| = |(double_of q - q) + q| := by rw [← this]
        _ ≤ |double_of q - q| + |q| := abs_add _ _
        _ ≤ |q| + |q| * (1 / 2 ^ 53) := by linarith
    have hsum : GLfloat_of (double_of q) - q =
        (GLfloat_of (double_of q) - double_of q) + (double_of q - q) := by ring
    have hqn : 0 ≤ |q| := abs_nonneg q
    calc |GLfloat_of (double_of q) - q|
        = |(GLfloat_of (double_of q) - double_of q) + (double_of q - q)| := by rw [← hsum]
      _ ≤ |GLfloat_of (double_of q) - double_of q| + |double_of q - q| := abs_add _ _
      _ ≤ |double_of q| * (1 / 2 ^ 24) + |q| * (1 / 2 ^ 53) := by linarith
      _ ≤ (|q| + |q| * (1 / 2 ^ 53)) * (1 / 2 ^ 24) + |q| * (1 / 2 ^ 53) := by
          have := mul_le_mul_of_nonneg_right hdabs (by norm_num : (0 : ℚ) ≤ 1 / 2 ^ 24)
          linarith
      _ ≤ |q| / 2 ^ 23 := by
          have : (|q| + |q| * (1 / 2 ^ 53)) * (1 / 2 ^ 24) + |q| * (1 / 2 ^ 53) =
              |q| * ((1 + 1 / 2 ^ 53) * (1 / 2 ^ 24) + 1 / 2 ^ 53) := by ring
          have e23 : |q| / 2 ^ 23 = |q| * (1 / 2 ^ 23) := by ring
          rw [this, e23]
          exact mul_le_mul_of_nonneg_left (by norm_num) hqn
  · -- the sum is below the least normal number: it is 0
    have hsmall : |x + c| < (2 : ℚ) ^ (-126 : Int) := not_le.1 hbig
    have htiny : (2 : ℚ) ^ (-126 : Int) < 1 / 8388608 := by norm_num [zpow_neg]
    generalize (2 : ℚ) ^ (-126 : Int) = t at hsmall htiny
    have e23 : (1 : ℚ) / 2 ^ 23 = 1 / 8388608 := by norm_num
    have hcabs : |c| = 3/2 := by
      rcases hc with h | h <;> rw [h] <;> norm_num [abs_of_pos, abs_of_neg]
    have hx1 : (2 : ℚ) ^ (0 : Int) ≤ |x| := by
      have h1 : |c| ≤ |x + c| + |x| := by
        have : c = (x + c) + (-x) := by ring
        calc |c| = |(x + c) + (-x)| := by rw [← this]
          _ ≤ |x + c| + |-x| := abs_add _ _
          _ = |x + c| + |x| := by rw [abs_neg]
      rw [hcabs] at h1
      simp only [zpow_zero]
      linarith
    obtain ⟨N, hN⟩ := representable_multiple 24 (-126) x 0 hx hx1
    have e : (2 : ℚ) ^ ((0 : Int) - (((24 : Nat) : Int) - 1)) = 1 / 2 ^ 23 := by
      norm_num [zpow_neg]
    rw [e] at hN
    obtain ⟨M, hM⟩ : ∃ M : Int, x + c = M * (1 / 2 ^ 23) := by
      rcases hc with h | h
      · refine ⟨N + 12582912, ?_⟩
        rw [hN, h]
        push_cast
        norm_num
        ring
      · refine ⟨N - 12582912, ?_⟩
        rw [hN, h]
        push_cast
        norm_num
        ring
    have hM0 : M = 0 := by
      have h1 : |(M : ℚ)| * (1 / 2 ^ 23) < 1 / 2 ^ 23 := by
        have : |x + c| = |(M : ℚ)| * (1 / 2 ^ 23) := by
          rw [hM, abs_mul, abs_of_pos (by positivity : (0 : ℚ) < 1 / 2 ^ 23)]
        rw [← this, e23]
        linarith
      have h2 : |(M : ℚ)| < 1 := by
        have h23 : (0 : ℚ) < 1 / 2 ^ 23 := by positivity
        by_contra hcon
        have := mul_le_mul_of_nonneg_right (not_lt.1 hcon) (le_of_lt h23)
        linarith
      have h3 : |M| < 1 := by
        have : ((|M| : Int) : ℚ) < 1 := by
          push_cast
          exact h2
        exact_mod_cast this
      exact Int.abs_lt_one_iff.1 h3
    have hq0 : x + c = 0 := by
      rw [hM, hM0]
      simp
    rw [hq0]
    have : GLfloat_of (double_of 0) = 0 := by
      unfold GLfloat_of double_of
      rw [round_binary_zero, round_binary_zero]
    rw [this]
    simp

/-- The value `x + c` computed in `double` and stored in a `GLfloat` does not
cross the `GLfloat` `x`: it is not above `x` for `c ≤ 0`, not below for `0 ≤ c`. -/
theorem GLfloat_of_shift_le (x c : ℚ) (hx : representable 24 (-126) x) (hc : c ≤ 0) :
    GLfloat_of (double_of (x + c)) ≤ x := by
  have h1 : double_of (x + c) ≤ x :=
    round_binary_le 53 (-1022) (x + c) x (by norm_num) (representable_double x hx) (by linarith)
  exact round_binary_le 24 (-126) _ x (by norm_num) hx h1

theorem GLfloat_of_shift_ge (x c : ℚ) (hx : representable 24 (-126) x) (hc : 0 ≤ c) :
    x ≤ GLfloat_of (double_of (x + c)) := by
  have h1 : x ≤ double_of (x + c) :=
    round_binary_ge 53 (-1022) (x + c) x (by norm_num) (representable_double x hx) (by linarith)
  exact round_binary_ge 24 (-126) _ x (by norm_num) hx h1

/-- An operation whose exact result is a `GLfloat` gives that result, also when
it is computed in `double`. -/
theorem GLfloat_of_dyadic (y : ℚ) (m k : Int) (h1 : |m| < 2 ^ 24) (h2 : -149 ≤ k)
    (hy : y = m * 2 ^ k) : GLfloat_of y = y ∧ GLfloat_of (double_of y) = y :=
  ⟨GLfloat_of_exact y (representable_dyadic y m k h1 h2 hy),
    GLfloat_of_double_of_exact y (representable_dyadic y m k h1 h2 hy)⟩


theorem FLT_MAX_representable : representable 24 (-126) FLT_MAX :=
  ⟨2 ^ 24 - 1, 104, by norm_num, by norm_num, by unfold FLT_MAX; norm_num⟩

/-- A value of the format with 24 significant bits below `2 ^ 128` in
magnitude is at most `FLT_MAX` in magnitude. -/
theorem representable_le_FLT_MAX (y : ℚ) (hy : representable 24 (-126) y)
    (h : |y| < 2 ^ 128) : |y| ≤ FLT_MAX := by
  by_cases hs : |y| < 2 ^ 127
  · unfold FLT_MAX
    have : (2 : ℚ) ^ 127 ≤ (2 ^ 24 - 1) * 2 ^ 104 := by norm_num
    linarith
  · have h127 : (2 : ℚ) ^ (127 : Int) ≤ |y| := by
      have := not_lt.1 hs
      norm_num at this ⊢
      exact this
    obtain ⟨N, hN⟩ := representable_multiple 24 (-126) y 127 hy h127
    have e : (2 : ℚ) ^ ((127 : Int) - (((24 : Nat) : Int) - 1)) = 2 ^ 104 := by
      norm_num
    rw [e] at hN
    have h104 : (0 : ℚ) < 2 ^ 104 := by positivity
    have habs : |y| = |(N : ℚ)| * 2 ^ 104 := by
      rw [hN, abs_mul, abs_of_pos h104]
    have hN1 : |(N : ℚ)| < 2 ^ 24 := by
      by_contra hc
      have := mul_le_mul_of_nonneg_right (not_lt.1 hc) (le_of_lt h104)
      rw [← habs] at this
      have e2 : (2 : ℚ) ^ 24 * 2 ^ 104 = 2 ^ 128 := by norm_num
      rw [e2] at this
      linarith
    have hN2 : |N| < 2 ^ 24 := by
      have : ((|N| : Int) : ℚ) < ((2 ^ 24 : Int) : ℚ) := by
        push_cast
        exact hN1
      exact_mod_cast this
    have hN3 : |N| ≤ 2 ^ 24 - 1 := by omega
    have hN4 : |(N : ℚ)| ≤ 2 ^ 24 - 1 := by
      have : ((|N| : Int) : ℚ) ≤ ((2 ^ 24 - 1 : Int) : ℚ) := by exact_mod_cast hN3
      push_cast at this
      norm_num at this ⊢
      exact this
    rw [habs]
    unfold FLT_MAX
    exact mul_le_mul_of_nonneg_right hN4 (le_of_lt h104)

/-- Rounding to `GLfloat` a number that exceeds `FLT_MAX` in magnitude by at
most `2 ^ 102`, a quarter of the distance to `2 ^ 128`, gives a finite value. -/
theorem GLfloat_of_finite (q : ℚ) (h : |q| ≤ FLT_MAX + 2 ^ 102) :
    |GLfloat_of q| ≤ FLT_MAX := by
  have hmax : (0 : ℚ) < FLT_MAX := by unfold FLT_MAX; norm_num
  by_cases hin : |q| ≤ FLT_MAX
  · obtain ⟨h1, h2⟩ := abs_le.1 hin
    rw [abs_le]
    exact ⟨round_binary_ge 24 (-126) q (-FLT_MAX) (by norm_num)
        (representable_neg _ _ _ FLT_MAX_representable) h1,
      round_binary_le 24 (-126) q FLT_MAX (by norm_num) FLT_MAX_representable h2⟩
  · have hout : FLT_MAX < |q| := not_le.1 hin
    apply representable_le_FLT_MAX _ (GLfloat_of_representable q)
    have hnear : |GLfloat_of q - q| ≤ |q| - FLT_MAX := by
      rcases le_total 0 q with hq | hq
      · rw [abs_of_nonneg hq] at hout ⊢
        have := round_binary_nearest 24 (-126) q FLT_MAX (by norm_num) FLT_MAX_representable
        rw [abs_of_nonpos (by linarith : FLT_MAX - q ≤ 0)] at this
        unfold GLfloat_of
        linarith
      · rw [abs_of_nonpos hq] at hout ⊢
        have := round_binary_nearest 24 (-126) q (-FLT_MAX) (by norm_num)
          (representable_neg _ _ _ FLT_MAX_representable)
        rw [abs_of_nonneg (by linarith : 0 ≤ -FLT_MAX - q)] at this
        unfold GLfloat_of
        linarith
    have htri : |GLfloat_of q| ≤ |GLfloat_of q - q| + |q| := by
      have : GLfloat_of q = (GLfloat_of q - q) + q := by ring
      calc |GLfloat_of q| = |(GLfloat_of q - q) + q| := by rw [← this]
        _ ≤ |GLfloat_of q - q| + |q| := abs_add _ _
    have e : FLT_MAX + 2 ^ 102 + 2 ^ 102 < (2 : ℚ) ^ 128 := by
      unfold FLT_MAX
      norm_num
    linarith

/-- A `GLfloat` raised or lowered by at most 1.5 in `double` and stored in a
`GLfloat` is finite. -/
theorem GLfloat_of_shift_finite (x c : ℚ) (hx : |x| ≤ FLT_MAX) (hc : |c| ≤ 3/2) :
    is_GLfloat (GLfloat_of (double_of (x + c))) := by
  refine ⟨GLfloat_of_representable _, ?_⟩
  apply GLfloat_of_finite
  have hq : |x + c| ≤ FLT_MAX + 2 ^ 102 := by
    have := abs_add x c
    have : (3 : ℚ) / 2 ≤ 2 ^ 102 := by norm_num
    linarith
  have hB : representable 53 (-1022) (FLT_MAX + 2 ^ 102) :=
    ⟨2 ^ 26 - 3, 102, by norm_num, by norm_num, by unfold FLT_MAX; norm_num⟩
  obtain ⟨h1, h2⟩ := abs_le.1 hq
  rw [abs_le]
  exact ⟨round_binary_ge 53 (-1022) (x + c) (-(FLT_MAX + 2 ^ 102)) (by norm_num)
      (representable_neg _ _ _ hB) h1,
    round_binary_le 53 (-1022) (x + c) (FLT_MAX + 2 ^ 102) (by norm_num) hB h2⟩

/-! ## The bounding box of two atoms -/

/-- The bounding box of `sample_molecule x`. -/
theorem sample_molecule_box (x : ℚ) (hx : 0 < x) :
    molecule_bounding_box (sample_molecule x) =
      ⟨-3/2, -3/2, -3/2, GLfloat_of (double_of (x + 3/2)), 3/2, 3/2⟩ := by
  have h1 : ¬ x < 0 := by linarith
  have e1 : (0 : ℚ) - 3/2 = -3/2 := by norm_num
  have e2 : (0 : ℚ) + 3/2 = 3/2 := by norm_num
  have f1 := (GLfloat_of_dyadic (-3/2) (-3) (-1) (by norm_num) (by norm_num)
    (by norm_num [zpow_neg])).2
  have f2 := (GLfloat_of_dyadic (3/2) 3 (-1) (by norm_num) (by norm_num)
    (by norm_num [zpow_neg])).2
  simp only [molecule_bounding_box, sample_molecule, List.drop, List.foldl, bounding_box_step,
    if_neg h1, if_pos hx, lt_irrefl, gt_iff_lt, if_false, e1, e2, f1, f2]

/-- The size of `sample_molecule x` when the bound `x + 1.5` and the extent
`s` are known. -/
theorem sample_molecule_visible (x s : ℚ) (hx : 0 < x)
    (h1 : GLfloat_of (double_of (x + 3/2)) = x + 3/2)
    (h2 : GLfloat_of (x + 3/2 - -3/2) = s) (h3 : 3 < s) :
    (ensure_bounding_box_visible (sample_molecule x)).molecule_size = s ∧
    (ensure_bounding_box_visible (sample_molecule x)).scale =
      if s > 10 then some (GLfloat_of (10 / s)) else none := by
  have f3 : GLfloat_of ((3 : ℚ)/2 - -3/2) = 3 := by
    have e : (3 : ℚ)/2 - -3/2 = 3 := by norm_num
    rw [e]
    exact (GLfloat_of_dyadic 3 3 0 (by norm_num) (by norm_num) (by norm_num)).1
  have h4 : ¬ (3 : ℚ) < 3 := lt_irrefl _
  simp only [ensure_bounding_box_visible, sample_molecule_box x hx, h1, h2, f3, gt_iff_lt,
    if_pos h3, if_neg h4, and_self]

theorem sample_molecule_size :
    (ensure_bounding_box_visible (sample_molecule 40)).molecule_size = 43 := by
  refine (sample_molecule_visible 40 43 (by norm_num) ?_ ?_ (by norm_num)).1
  · have e : (40 : ℚ) + 3/2 = 83/2 := by norm_num
    rw [e]
    exact (GLfloat_of_dyadic (83/2) 83 (-1) (by norm_num) (by norm_num)
      (by norm_num [zpow_neg])).2
  · have e : (40 : ℚ) + 3/2 - -3/2 = 43 := by norm_num
    rw [e]
    exact (GLfloat_of_dyadic 43 43 0 (by norm_num) (by norm_num) (by norm_num)).1

/-! ## The claims -/

theorem bond_matches_eq_false_iff (r : molecule_bond) (a b : Int) :
    bond_matches r a b = false ↔ ¬ same_pair r.from_ r.to_ a b := by
  rw [← Bool.not_eq_true, bond_matches_iff]
  unfold same_pair
  rfl

/-- C1: a blob whose lines are N well-formed atom records (ATOM or HETATM
lines), in any number and at any place lines that are neither atom records
nor connectivity records, and no connectivity (CONECT) record, is parsed from
an empty molecule into a molecule with exactly N atoms, whose ids and names
are those of the atom records in record order, and with zero bonds. -/
theorem parse_pdb_data_atom_records (scanf_f : List Char → Option (ℚ × List Char))
    (final_newline : Bool) (lines : List (List Char))
    (h : ∀ l ∈ lines, atom_record_ok l = true ∨ other_record_ok l = true) :
    ∃ m : molecule,
      parse_pdb_data scanf_f molecule.empty (records_blob final_newline lines) = some m ∧
      m.natoms = (lines.filter atom_record_ok).length ∧
      m.atoms.map (fun a => (a.id, a.label)) =
        (lines.filter atom_record_ok).map (fun l => (record_id l, record_label l)) ∧
      m.nbonds = 0 := by
  obtain ⟨m, atoms, h1, h2, h3, h4⟩ :=
    parse_pdb_data_records scanf_f final_newline lines h molecule.empty
  have e : m.atoms = atoms := by simpa [molecule.empty] using h3
  refine ⟨m, h1, ?_, ?_, ?_⟩
  · have := congrArg List.length h4
    simpa [molecule.natoms, e] using this
  · rw [e]; exact h4
  · simp [molecule.nbonds, h2, molecule.empty]

/-- Witness of C1: a title line, a HETATM record, a remark and an ATOM record. -/
theorem parse_pdb_data_atom_records_witness :
    (∀ l ∈ ["COMPND    water".toList,
            "HETATM    1  C   UNK     1       0.000   1.500  -2.250".toList,
            "REMARK two atoms".toList,
            "ATOM      2  CA  UNK     1       1.000   0.000   0.000".toList],
        atom_record_ok l = true ∨ other_record_ok l = true) ∧
    ∃ m : molecule,
      parse_pdb_data scan_decimal molecule.empty (records_blob true
        ["COMPND    water".toList,
         "HETATM    1  C   UNK     1       0.000   1.500  -2.250".toList,
         "REMARK two atoms".toList,
         "ATOM      2  CA  UNK     1       1.000   0.000   0.000".toList]) = some m ∧
      m.natoms = (["COMPND    water".toList,
         "HETATM    1  C   UNK     1       0.000   1.500  -2.250".toList,
         "REMARK two atoms".toList,
         "ATOM      2  CA  UNK     1       1.000   0.000   0.000".toList].filter
          atom_record_ok).length ∧
      m.atoms.map (fun a => (a.id, a.label)) =
        (["COMPND    water".toList,
         "HETATM    1  C   UNK     1       0.000   1.500  -2.250".toList,
         "REMARK two atoms".toList,
         "ATOM      2  CA  UNK     1       1.000   0.000   0.000".toList].filter
          atom_record_ok).map (fun l => (record_id l, record_label l)) ∧
      m.nbonds = 0 :=
  ⟨by decide, parse_pdb_data_atom_records scan_decimal true _ (by decide)⟩

/-- C2: in a molecule that holds no bond between the ids `a` and `b`, declaring
the bond twice with `push_bond`, as (a,b) then (a,b) or as (a,b) then (b,a),
appends exactly one record, `a`-`b` with strength 2: `nbonds` grows by 1 and
the other records, the atoms and the label are unchanged. -/
theorem push_bond_twice (m : molecule) (a b : Int)
    (h : ∀ r ∈ m.bonds, ¬ same_pair r.from_ r.to_ a b) :
    push_bond (push_bond m a b) a b = { m with bonds := m.bonds ++ [⟨a, b, 2⟩] } ∧
    push_bond (push_bond m a b) b a = { m with bonds := m.bonds ++ [⟨a, b, 2⟩] } ∧
    (push_bond (push_bond m a b) a b).nbonds = m.nbonds + 1 ∧
    (push_bond (push_bond m a b) b a).nbonds = m.nbonds + 1 :=
  push_bond_twice_matches m a b (fun r hr => (bond_matches_eq_false_iff r a b).2 (h r hr))

/-- Witness of C2: the bond 3-4 declared twice in a molecule that holds the bond 1-2. -/
theorem push_bond_twice_witness :
    (∀ r ∈ (⟨none, [], [⟨1, 2, 1⟩]⟩ : molecule).bonds, ¬ same_pair r.from_ r.to_ 3 4) ∧
    (push_bond (push_bond ⟨none, [], [⟨1, 2, 1⟩]⟩ 3 4) 3 4 =
      { (⟨none, [], [⟨1, 2, 1⟩]⟩ : molecule) with
        bonds := (⟨none, [], [⟨1, 2, 1⟩]⟩ : molecule).bonds ++ [⟨3, 4, 2⟩] } ∧
     push_bond (push_bond ⟨none, [], [⟨1, 2, 1⟩]⟩ 3 4) 4 3 =
      { (⟨none, [], [⟨1, 2, 1⟩]⟩ : molecule) with
        bonds := (⟨none, [], [⟨1, 2, 1⟩]⟩ : molecule).bonds ++ [⟨3, 4, 2⟩] } ∧
     (push_bond (push_bond ⟨none, [], [⟨1, 2, 1⟩]⟩ 3 4) 3 4).nbonds =
      (⟨none, [], [⟨1, 2, 1⟩]⟩ : molecule).nbonds + 1 ∧
     (push_bond (push_bond ⟨none, [], [⟨1, 2, 1⟩]⟩ 3 4) 4 3).nbonds =
      (⟨none, [], [⟨1, 2, 1⟩]⟩ : molecule).nbonds + 1) :=
  ⟨by decide, push_bond_twice ⟨none, [], [⟨1, 2, 1⟩]⟩ 3 4 (by decide)⟩

theorem formula_text_perm (atoms atoms' : List molecule_atom) (syms : List (List Char))
    (hp : atoms.Perm atoms') : formula_text atoms' syms = formula_text atoms syms := by
  unfold formula_text
  congr 1
  funext s
  rw [hp.countP_eq]

theorem raw_formula_perm (m : molecule) (atoms' : List molecule_atom)
    (hl : ∀ a ∈ m.atoms, a.label.any isalpha = true) (hp : m.atoms.Perm atoms') :
    raw_formula { m with atoms := atoms' } = raw_formula m := by
  have hl' : ∀ a ∈ ({ m with atoms := atoms' } : molecule).atoms, a.label.any isalpha = true :=
    fun a ha => hl a (hp.mem_iff.2 ha)
  obtain ⟨l1, m1, o1, e1⟩ := raw_formula_eq m hl
  obtain ⟨l2, m2, o2, e2⟩ := raw_formula_eq { m with atoms := atoms' } hl'
  have hsame : l2 = l1 := by
    apply formula_order_unique l2 l1 o2 o1
    intro s
    rw [m1, m2]
    constructor
    · rintro ⟨a, ha, h⟩; exact ⟨a, hp.mem_iff.2 ha, h⟩
    · rintro ⟨a, ha, h⟩; exact ⟨a, hp.mem_iff.1 ha, h⟩
  rw [e1, e2, hsame]
  simp only [formula_text_perm m.atoms atoms' l1 hp, molecule.natoms, hp.length_eq]

theorem symbols_dedup_length (atoms : List molecule_atom) (syms : List (List Char))
    (hm : ∀ s, s ∈ syms ↔ ∃ a ∈ atoms, element_symbol a.label = some s)
    (ho : syms.Pairwise formula_before) : syms.length = (symbols atoms).dedup.length := by
  have hn : syms.Nodup := ho.imp (fun {a b} h e => by
    subst e; exact formula_before_asymm a a h h)
  apply List.Perm.length_eq
  rw [List.perm_ext_iff_of_nodup hn (List.nodup_dedup _)]
  intro s
  rw [List.mem_dedup, mem_symbols, hm]

theorem raw_formula_isSome (m : molecule) (hl : ∀ a ∈ m.atoms, a.label.any isalpha = true)
    (hne : m.atoms ≠ []) (h3 : ∀ a ∈ m.atoms, a.label.length ≤ 3)
    (h200 : (symbols m.atoms).dedup.length < 200) : ∃ f, raw_formula m = some f := by
  obtain ⟨l1, m1, o1, e1⟩ := raw_formula_eq m hl
  have hfit := formula_text_fits m.atoms l1 hne hl h3 m1 o1
  rw [symbols_dedup_length m.atoms l1 m1 o1] at e1
  rw [if_pos ⟨h200, hfit⟩] at e1
  exact ⟨_, e1⟩

/-- C5: for a molecule whose atom labels each contain a letter, every
permutation of the atom list gives the same formula, and the same label from
`generate_molecule_formula`.  The formula is produced (on both orders)
whenever there is an atom, the labels have at most three characters and
there are fewer than 200 distinct element symbols. -/
theorem molecule_formula_perm (m : molecule) (atoms' : List molecule_atom)
    (hl : ∀ a ∈ m.atoms, a.label.any isalpha = true) (hp : m.atoms.Perm atoms') :
    molecule_formula { m with atoms := atoms' } = molecule_formula m ∧
    generate_molecule_formula { m with atoms := atoms' } =
      (generate_molecule_formula m).map (fun r => { r with atoms := atoms' }) ∧
    (m.atoms ≠ [] → (∀ a ∈ m.atoms, a.label.length ≤ 3) →
      (symbols m.atoms).dedup.length < 200 → ∃ f, molecule_formula m = some f) := by
  have h1 : molecule_formula { m with atoms := atoms' } = molecule_formula m := by
    unfold molecule_formula
    rw [raw_formula_perm m atoms' hl hp]
  refine ⟨h1, ?_, ?_⟩
  · unfold generate_molecule_formula
    rw [h1]
    cases molecule_formula m <;> rfl
  · intro hne h3 h200
    obtain ⟨f, hf⟩ := raw_formula_isSome m hl hne h3 h200
    exact ⟨special_case_formula f, by simp [molecule_formula, hf]⟩

/-- Witness of C5: the atoms C, H, O, H, C, H and the same atoms in the order H, H, H, O, C, C. -/
theorem molecule_formula_perm_witness :
    (∀ a ∈ (molecule_of_labels ["C", "H", "O", "H", "C", "H"]).atoms,
      a.label.any isalpha = true) ∧
    (molecule_of_labels ["C", "H", "O", "H", "C", "H"]).atoms.Perm
      (molecule_of_labels ["H", "H", "H", "O", "C", "C"]).atoms ∧
    molecule_formula { molecule_of_labels ["C", "H", "O", "H", "C", "H"] with
        atoms := (molecule_of_labels ["H", "H", "H", "O", "C", "C"]).atoms } =
      molecule_formula (molecule_of_labels ["C", "H", "O", "H", "C", "H"]) ∧
    molecule_formula (molecule_of_labels ["C", "H", "O", "H", "C", "H"]) =
      some "C[2]H[3]O".toList :=
  ⟨by decide, by decide,
    (molecule_formula_perm (molecule_of_labels ["C", "H", "O", "H", "C", "H"])
      (molecule_of_labels ["H", "H", "H", "O", "C", "C"]).atoms (by decide) (by decide)).1,
    by decide⟩

/-- The formula inside the bounds of the buffers: for a molecule whose atom
labels each contain a letter, the formula built before the override table lists the distinct element
symbols with `C` first, `H` second and the others in ascending alphabetical
order, each followed by `[count]` when its count exceeds 1 and by nothing when
it is 1, provided that there are fewer than 200 symbols and that the text and
its terminator fit in the `natoms * 10` bytes of `buf`.  The atoms
C, C, H, H, H, O give `C[2]H[3]O` and the atoms C, O give `CO`. -/
theorem raw_formula_spec (m : molecule) (hl : ∀ a ∈ m.atoms, a.label.any isalpha = true) :
    (∃ syms : List (List Char),
      (∀ s, s ∈ syms ↔ ∃ a ∈ m.atoms, element_symbol a.label = some s) ∧
      syms.Pairwise formula_before ∧
      raw_formula m =
        if syms.length < 200 ∧ (formula_text m.atoms syms).length + 1 ≤ m.natoms * 10 then
          some (formula_text m.atoms syms)
        else none) ∧
    raw_formula (molecule_of_labels ["C", "C", "H", "H", "H", "O"]) = some "C[2]H[3]O".toList ∧
    raw_formula (molecule_of_labels ["C", "O"]) = some "CO".toList :=
  ⟨raw_formula_eq m hl, by decide, by decide⟩

/-- The formula of the atoms O, Ca, H, C, H, Cl. -/
theorem raw_formula_spec_witness :
    (∀ a ∈ (molecule_of_labels ["O", "Ca", "H", "C", "H", "Cl"]).atoms,
      a.label.any isalpha = true) ∧
    ((∃ syms : List (List Char),
      (∀ s, s ∈ syms ↔ ∃ a ∈ (molecule_of_labels ["O", "Ca", "H", "C", "H", "Cl"]).atoms,
        element_symbol a.label = some s) ∧
      syms.Pairwise formula_before ∧
      raw_formula (molecule_of_labels ["O", "Ca", "H", "C", "H", "Cl"]) =
        if syms.length < 200 ∧
            (formula_text (molecule_of_labels ["O", "Ca", "H", "C", "H", "Cl"]).atoms syms).length
              + 1 ≤ (molecule_of_labels ["O", "Ca", "H", "C", "H", "Cl"]).natoms * 10 then
          some (formula_text (molecule_of_labels ["O", "Ca", "H", "C", "H", "Cl"]).atoms syms)
        else none) ∧
    raw_formula (molecule_of_labels ["C", "C", "H", "H", "H", "O"]) = some "C[2]H[3]O".toList ∧
    raw_formula (molecule_of_labels ["C", "O"]) = some "CO".toList) :=
  ⟨by decide, raw_formula_spec (molecule_of_labels ["O", "Ca", "H", "C", "H", "Cl"]) (by decide)⟩

theorem push_atoms_labels (names : List (List Char)) (m : molecule)
    (h : ∀ n ∈ names, n.any isalpha = true) :
    ∃ m1, push_atoms m names = some m1 ∧
      m1.atoms.map molecule_atom.label = m.atoms.map molecule_atom.label ++ names := by
  induction names generalizing m with
  | nil => exact ⟨m, rfl, by simp⟩
  | cons n r ih =>
    have hd : (get_atom_data n).isSome = true := by
      rw [get_atom_data_isSome]
      exact h n (by simp)
    obtain ⟨i, hi⟩ := Option.isSome_iff_exists.1 hd
    obtain ⟨m1, h1, h2⟩ := ih { m with atoms := m.atoms ++ [⟨(m.natoms : Int) + 1, n, 0, 0, 0, i⟩] }
      (fun x hx => h x (by simp [hx]))
    refine ⟨m1, ?_, ?_⟩
    · simp only [push_atoms, push_atom, hi, Option.bind_some]
      exact h1
    · rw [h2]
      simp

theorem two_letter_names_mem (n : List Char) (h : n ∈ two_letter_names) :
    ∃ a b, n = [a, b] ∧ isalpha a = true ∧ isalpha b = true := by
  unfold two_letter_names at h
  rw [List.mem_flatMap] at h
  obtain ⟨a, ha, h⟩ := h
  rw [List.mem_map] at h
  obtain ⟨b, hb, h⟩ := h
  have h1 : ∀ c ∈ first_letters, isalpha c = true := by decide
  have h2 : ∀ c ∈ second_letters, isalpha c = true := by decide
  exact ⟨a, b, h.symm, h1 a ha, h2 b hb⟩

theorem two_letter_names_nodup : two_letter_names.Nodup := by
  unfold two_letter_names
  rw [List.nodup_flatMap]
  constructor
  · intro a _
    have h2 : second_letters.Nodup := by decide
    exact h2.map (fun b c h => by injection h with _ h; injection h)
  · have h1 : first_letters.Nodup := by decide
    refine h1.imp (fun {a c} hn => ?_)
    intro x hx hy
    rw [List.mem_map] at hx hy
    obtain ⟨b, _, hb⟩ := hx
    obtain ⟨d, _, hd⟩ := hy
    rw [← hd] at hb
    injection hb with hb _
    exact hn hb

theorem two_letter_names_length : two_letter_names.length = 200 := by
  set_option maxRecDepth 4000 in rfl

theorem symbols_of_letters (atoms : List molecule_atom)
    (h : ∀ a ∈ atoms, ∃ c d, a.label = [c, d] ∧ isalpha c = true ∧ isalpha d = true) :
    symbols atoms = atoms.map molecule_atom.label := by
  induction atoms with
  | nil => rfl
  | cons a r ih =>
    obtain ⟨c, d, hl, hc, hd⟩ := h a (by simp)
    have hs : element_symbol a.label = some a.label := by
      rw [hl]
      simp [element_symbol, List.dropWhile_cons, List.takeWhile_cons, hc, hd]
    have := ih (fun x hx => h x (by simp [hx]))
    unfold symbols at this ⊢
    rw [List.filterMap_cons, hs, this]
    rfl

theorem count_atoms_nodup (atoms : List molecule_atom)
    (hl : ∀ a ∈ atoms, a.label.any isalpha = true) (hn : (symbols atoms).Nodup)
    (h200 : (symbols atoms).length ≤ 200) :
    ∃ counts, count_atoms atoms [] = some counts ∧ counts.length = (symbols atoms).length := by
  obtain ⟨h1, _, h3⟩ := counts_inv_foldl (symbols atoms)
  have hlen : ((symbols atoms).foldl (fun c s => bump s c) []).length =
      (symbols atoms).length := by
    rw [← List.length_map _ atom_and_count.atom]
    apply List.Perm.length_eq
    rw [List.perm_ext_iff_of_nodup h1 hn]
    exact h3
  refine ⟨_, ?_, hlen⟩
  rw [count_atoms_eq atoms [] hl (by simp), if_pos (by omega)]

/-- C6 fails at a molecule that `push_atom` builds.  For the atoms with the
200 names `Aa`, `Ab`, ..., `Ly`, all different, the counting loop of
`generate_molecule_formula` fills `counts[0]` to `counts[199]`; the loop
`while (counts[i].atom) i++;` that follows finds no NULL entry in the array
and reads `counts[200]`, outside it, so no formula is built: not the
concatenation that the claim gives for every molecule. -/
theorem generate_molecule_formula_counts_overrun :
    ∃ m, push_atoms molecule.empty two_letter_names = some m ∧
      m.natoms = 200 ∧
      m.atoms.map molecule_atom.label = two_letter_names ∧
      symbols m.atoms = two_letter_names ∧
      two_letter_names.Nodup ∧
      (∃ counts, count_atoms m.atoms [] = some counts ∧ counts.length = 200) ∧
      raw_formula m = none ∧
      generate_molecule_formula m = none := by
  obtain ⟨m, hm, hlab⟩ := push_atoms_labels two_letter_names molecule.empty
    (fun n hn => by
      obtain ⟨a, b, e, ha, _⟩ := two_letter_names_mem n hn
      rw [e]
      simp [ha])
  have hlab1 : m.atoms.map molecule_atom.label = two_letter_names := by
    rw [hlab]
    simp [molecule.empty]
  have hmem : ∀ a ∈ m.atoms, ∃ c d, a.label = [c, d] ∧ isalpha c = true ∧ isalpha d = true :=
    fun a ha => two_letter_names_mem a.label (by
      rw [← hlab1]
      exact List.mem_map_of_mem _ ha)
  have hl : ∀ a ∈ m.atoms, a.label.any isalpha = true := fun a ha => by
    obtain ⟨c, d, e, hc, _⟩ := hmem a ha
    rw [e]
    simp [hc]
  have hsym : symbols m.atoms = two_letter_names := by
    rw [symbols_of_letters m.atoms hmem, hlab1]
  have hnat : m.natoms = 200 := by
    unfold molecule.natoms
    rw [← List.length_map m.atoms molecule_atom.label, hlab1, two_letter_names_length]
  obtain ⟨counts, hc1, hc2⟩ := count_atoms_nodup m.atoms hl
    (by rw [hsym]; exact two_letter_names_nodup)
    (by rw [hsym, two_letter_names_length])
  rw [hsym, two_letter_names_length] at hc2
  have hraw : raw_formula m = none := by
    unfold raw_formula
    rw [hc1]
    simp only []
    rw [if_pos (by omega)]
  refine ⟨m, hm, hnat, hlab1, hsym, two_letter_names_nodup, ⟨counts, hc1, hc2⟩, hraw, ?_⟩
  unfold generate_molecule_formula molecule_formula
  rw [hraw]
  rfl

/-- C7: `special_case_formula` returns unchanged every formula that is not a
key of the override table, rewrites `H[2]Be` to `BeH[2]` (and each key to its
entry), so that a molecule with the atoms H, H, Be, whose derived formula is
`H[2]Be`, gets the formula `BeH[2]`. -/
theorem special_case_formula_spec (f : List Char)
    (h : ∀ e ∈ override_table, f ≠ e.1.toList) :
    special_case_formula f = f ∧
    special_case_formula "H[2]Be".toList = "BeH[2]".toList ∧
    (∀ e ∈ override_table, special_case_formula e.1.toList = e.2.toList) ∧
    raw_formula (molecule_of_labels ["H", "H", "Be"]) = some "H[2]Be".toList ∧
    molecule_formula (molecule_of_labels ["H", "H", "Be"]) = some "BeH[2]".toList ∧
    (generate_molecule_formula (molecule_of_labels ["H", "H", "Be"])).map molecule.label =
      some (some "\nBeH[2]".toList) := by
  refine ⟨?_, by decide, by decide, by decide, by decide, by decide⟩
  simp only [override_table, List.mem_cons, List.mem_singleton, List.not_mem_nil, or_false,
    forall_eq_or_imp, forall_eq] at h
  obtain ⟨h1, h2, h3, h4, h5, h6, h7, h8⟩ := h
  unfold special_case_formula
  rw [if_neg h1, if_neg h2, if_neg h3, if_neg h4, if_neg h5, if_neg h6, if_neg h7, if_neg h8]

/-- Witness of C7: the formula `CO` is not in the override table. -/
theorem special_case_formula_spec_witness :
    (∀ e ∈ override_table, "CO".toList ≠ e.1.toList) ∧
    (special_case_formula "CO".toList = "CO".toList ∧
    special_case_formula "H[2]Be".toList = "BeH[2]".toList ∧
    (∀ e ∈ override_table, special_case_formula e.1.toList = e.2.toList) ∧
    raw_formula (molecule_of_labels ["H", "H", "Be"]) = some "H[2]Be".toList ∧
    molecule_formula (molecule_of_labels ["H", "H", "Be"]) = some "BeH[2]".toList ∧
    (generate_molecule_formula (molecule_of_labels ["H", "H", "Be"])).map molecule.label =
      some (some "\nBeH[2]".toList)) :=
  ⟨by decide, special_case_formula_spec "CO".toList (by decide)⟩

theorem get_atom_data_loop_spec (n : List Char) (table : List atom_data) (i : Nat)
    (d : Option Nat) (hne : table ≠ []) :
    ∃ k e, get_atom_data_loop n table i d = some (i + k) ∧ table[k]? = some e ∧
      (strcasecmp n e.name = 0 ∨
        ((∀ x ∈ table, strcasecmp n x.name ≠ 0) ∧ k + 1 = table.length)) := by
  induction table generalizing i d with
  | nil => exact absurd rfl hne
  | cons e rest ih =>
    by_cases he : strcasecmp n e.name = 0
    · exact ⟨0, e, by simp [get_atom_data_loop, he], by simp, Or.inl he⟩
    · cases rest with
      | nil =>
        refine ⟨0, e, by simp [get_atom_data_loop, he], by simp, Or.inr ⟨?_, rfl⟩⟩
        intro x hx
        simp only [List.mem_singleton] at hx
        subst hx; exact he
      | cons e2 rest2 =>
        obtain ⟨k, x, h1, h2, h3⟩ := ih (i + 1) (some i) (by simp)
        refine ⟨k + 1, x, ?_, by simpa using h2, ?_⟩
        · simp only [get_atom_data_loop, he, if_false] at h1 ⊢
          rw [h1]; congr 1; omega
        · rcases h3 with h3 | ⟨h3, h4⟩
          · exact Or.inl h3
          · refine Or.inr ⟨?_, by simp only [List.length_cons] at h4 ⊢; omega⟩
            intro y hy
            rcases List.mem_cons.1 hy with rfl | hy
            · exact he
            · exact h3 y hy

theorem strcasecmp_eq_zero (a b : List Char) : strcasecmp a b = 0 ↔ eq_ignoring_case a b := by
  unfold strcasecmp eq_ignoring_case
  exact strcmp_eq_zero _ _

/-- C8: for a label that contains a letter, `get_atom_data` returns a pointer
that is not NULL, to an entry of the style table: an entry whose name equals,
ignoring case, the label stripped of its leading and trailing non-letters
(there is at most one, the names of the table differ pairwise), and the
entry `*` when no entry matches.  `push_atom` stores that pointer, so every
atom it adds has a resolved style. -/
theorem get_atom_data_resolved (label : List Char) (h : label.any isalpha = true) :
    ∃ i e, get_atom_data label = some (some i) ∧ all_atom_data[i]? = some e ∧
      (eq_ignoring_case (trim_nonalpha label) e.name ∨
        ((∀ x ∈ all_atom_data, ¬ eq_ignoring_case (trim_nonalpha label) x.name) ∧
          e.name = ['*'])) ∧
      all_atom_data.Pairwise (fun a b => ¬ eq_ignoring_case a.name b.name) ∧
      ∀ (m : molecule) (id : Int) (x y z : ℚ),
        push_atom m id label x y z =
          some { m with atoms := m.atoms ++ [⟨id, label, x, y, z, some i⟩] } := by
  have hs : (get_atom_data label).isSome = true := by rw [get_atom_data_isSome, h]
  have hd : label.dropWhile (fun c => !isalpha c) ≠ [] := by
    intro e
    unfold get_atom_data at hs
    rw [e] at hs
    simp at hs
  obtain ⟨k, e, h1, h2, h3⟩ :=
    get_atom_data_loop_spec (trim_nonalpha label) all_atom_data 0 none (by simp [all_atom_data])
  have hg : get_atom_data label = some (some k) := by
    unfold get_atom_data
    cases hc : label.dropWhile (fun c => !isalpha c) with
    | nil => exact absurd hc hd
    | cons c n =>
      simp only []
      have : strip_trailing_nonalpha (c :: n) = trim_nonalpha label := by
        unfold strip_trailing_nonalpha trim_nonalpha
        rw [hc]
      rw [this, h1]
      simp
  refine ⟨k, e, hg, h2, ?_, by decide, ?_⟩
  · rcases h3 with h3 | ⟨h3, h4⟩
    · exact Or.inl ((strcasecmp_eq_zero _ _).1 h3)
    · refine Or.inr ⟨fun x hx k => h3 x hx ((strcasecmp_eq_zero _ _).2 k), ?_⟩
      have hk : k = 8 := by simp [all_atom_data] at h4; omega
      subst hk
      simp [all_atom_data] at h2
      rw [← h2]
  · intro m id x y z
    simp [push_atom, hg]

/-- Witness of C8: the name `Ca` of an ATOM record resolves to the entry `CA`. -/
theorem get_atom_data_resolved_witness :
    "Ca".toList.any isalpha = true ∧
    ∃ i e, get_atom_data "Ca".toList = some (some i) ∧ all_atom_data[i]? = some e ∧
      (eq_ignoring_case (trim_nonalpha "Ca".toList) e.name ∨
        ((∀ x ∈ all_atom_data, ¬ eq_ignoring_case (trim_nonalpha "Ca".toList) x.name) ∧
          e.name = ['*'])) ∧
      all_atom_data.Pairwise (fun a b => ¬ eq_ignoring_case a.name b.name) ∧
      ∀ (m : molecule) (id : Int) (x y z : ℚ),
        push_atom m id "Ca".toList x y z =
          some { m with atoms := m.atoms ++ [⟨id, "Ca".toList, x, y, z, some i⟩] } :=
  ⟨by decide, get_atom_data_resolved "Ca".toList (by decide)⟩

/-- C9 at the failing input: in the one-atom list with id 0 the id -1 is
absent, `id < natoms` holds, and `get_atom` reads `atoms[-1]`, outside the
array, where the full scan alone would reach the `no atom` abort. -/
theorem get_atom_negative_id :
    get_atom [⟨0, ['C'], 0, 0, 0, some 1⟩] (-1) = .out_of_bounds ∧
    get_atom_scan (-1) [⟨0, ['C'], 0, 0, 0, some 1⟩] = .no_atom := by
  decide

/-- Counterexample to C10 as stated: for two atoms at the distance 8 the size
is 11 and the scale applied is the `GLfloat` nearest to `10 / 11`, which is
`15252015 / 2 ^ 24`, not `10 / 11`; it is above `10 / 11`, so that
`scale * size` exceeds 10. -/
theorem ensure_bounding_box_visible_counterexample :
    (ensure_bounding_box_visible (sample_molecule 8)).molecule_size = 11 ∧
    (ensure_bounding_box_visible (sample_molecule 8)).scale = some (15252015 / 16777216) ∧
    (ensure_bounding_box_visible (sample_molecule 8)).scale ≠
      some (10 / (ensure_bounding_box_visible (sample_molecule 8)).molecule_size) ∧
    ¬ ((ensure_bounding_box_visible (sample_molecule 8)).factor *
        (ensure_bounding_box_visible (sample_molecule 8)).molecule_size ≤ 10) := by
  have h1 : GLfloat_of (double_of ((8 : ℚ) + 3/2)) = 8 + 3/2 := by
    have e : (8 : ℚ) + 3/2 = 19/2 := by norm_num
    rw [e]
    exact (GLfloat_of_dyadic (19/2) 19 (-1) (by norm_num) (by norm_num)
      (by norm_num [zpow_neg])).2
  have h2 : GLfloat_of ((8 : ℚ) + 3/2 - -3/2) = 11 := by
    have e : (8 : ℚ) + 3/2 - -3/2 = 11 := by norm_num
    rw [e]
    exact (GLfloat_of_dyadic 11 11 0 (by norm_num) (by norm_num) (by norm_num)).1
  obtain ⟨hs, hc⟩ := sample_molecule_visible 8 11 (by norm_num) h1 h2 (by norm_num)
  have hq : GLfloat_of ((10 : ℚ) / 11) = 15252015 / 16777216 := by
    have := round_binary_eval 24 (-126) (10 / 11) (-1) 15252015
      (by rw [abs_of_pos (by norm_num)]; norm_num [zpow_neg])
      (by rw [abs_of_pos (by norm_num)]; norm_num)
      (by norm_num)
      (by rw [abs_lt]; constructor <;> norm_num [zpow_neg])
    unfold GLfloat_of
    rw [this]
    norm_num [zpow_neg]
  rw [if_pos (by norm_num), hq] at hc
  have hf : (ensure_bounding_box_visible (sample_molecule 8)).factor = 15252015 / 16777216 := by
    simp only [visible_box.factor, hc, Option.getD_some]
  refine ⟨hs, hc, ?_, ?_⟩
  · rw [hc, hs]
    intro h
    injection h with h
    norm_num at h
  · rw [hf, hs]
    norm_num

/-- C10, with the arithmetic of `GLfloat`: `ensure_bounding_box_visible`
takes for `size` the largest of the three extents of the bounding box, each
one the `GLfloat` difference of its bounds.  For a finite `size`: when
`size > 10` the scale is the `GLfloat` quotient of 10 and `size`, which lies
strictly between 0 and 1 and differs from `10 / size` by at most the
fraction `2 ^ -24` of it, so that `scale * size` is at most
`10 * (1 + 2 ^ -24)` and at least `10 * (1 - 2 ^ -24)`; when `size <= 10`
there is no scaling (factor 1); the factor never exceeds 1. -/
theorem ensure_bounding_box_visible_scale (m : molecule)
    (hfin : (ensure_bounding_box_visible m).molecule_size ≤ FLT_MAX) :
    (ensure_bounding_box_visible m).molecule_size =
      max (max (GLfloat_of ((molecule_bounding_box m).x2 - (molecule_bounding_box m).x1))
        (GLfloat_of ((molecule_bounding_box m).y2 - (molecule_bounding_box m).y1)))
        (GLfloat_of ((molecule_bounding_box m).z2 - (molecule_bounding_box m).z1)) ∧
    (10 < (ensure_bounding_box_visible m).molecule_size →
      (ensure_bounding_box_visible m).scale =
        some (GLfloat_of (10 / (ensure_bounding_box_visible m).molecule_size)) ∧
      0 < (ensure_bounding_box_visible m).factor ∧
      (ensure_bounding_box_visible m).factor < 1 ∧
      |(ensure_bounding_box_visible m).factor -
          10 / (ensure_bounding_box_visible m).molecule_size| ≤
        10 / (ensure_bounding_box_visible m).molecule_size / 2 ^ 24 ∧
      (ensure_bounding_box_visible m).factor * (ensure_bounding_box_visible m).molecule_size
        ≤ 10 * (1 + 1 / 2 ^ 24) ∧
      10 * (1 - 1 / 2 ^ 24) ≤
        (ensure_bounding_box_visible m).factor * (ensure_bounding_box_visible m).molecule_size) ∧
    ((ensure_bounding_box_visible m).molecule_size ≤ 10 →
      (ensure_bounding_box_visible m).scale = none ∧
      (ensure_bounding_box_visible m).factor = 1) ∧
    (ensure_bounding_box_visible m).factor ≤ 1 := by
  have hmax : ∀ a b : ℚ, (if a > b then a else b) = max a b := by
    intro a b
    by_cases h : a > b
    · rw [if_pos h, max_eq_left (le_of_lt h)]
    · rw [if_neg h, max_eq_right (not_lt.1 h)]
  generalize hb : molecule_bounding_box m = b
  have hsize : (ensure_bounding_box_visible m).molecule_size =
      max (max (GLfloat_of (b.x2 - b.x1)) (GLfloat_of (b.y2 - b.y1)))
        (GLfloat_of (b.z2 - b.z1)) := by
    simp only [ensure_bounding_box_visible, hb, hmax]
  have hscale : (ensure_bounding_box_visible m).scale =
      if (ensure_bounding_box_visible m).molecule_size > 10 then
        some (GLfloat_of (10 / (ensure_bounding_box_visible m).molecule_size)) else none := by
    simp only [ensure_bounding_box_visible, hb, hmax]
  have hrep : representable 24 (-126) (ensure_bounding_box_visible m).molecule_size := by
    rw [hsize]
    rcases max_choice (max (GLfloat_of (b.x2 - b.x1)) (GLfloat_of (b.y2 - b.y1)))
      (GLfloat_of (b.z2 - b.z1)) with e | e
    · rw [e]
      rcases max_choice (GLfloat_of (b.x2 - b.x1)) (GLfloat_of (b.y2 - b.y1)) with e1 | e1
      · rw [e1]; exact GLfloat_of_representable _
      · rw [e1]; exact GLfloat_of_representable _
    · rw [e]; exact GLfloat_of_representable _
  generalize (ensure_bounding_box_visible m).molecule_size = size at hsize hscale hrep hfin
  have hbig : 10 < size →
      (ensure_bounding_box_visible m).scale = some (GLfloat_of (10 / size)) ∧
      0 < (ensure_bounding_box_visible m).factor ∧ (ensure_bounding_box_visible m).factor < 1 ∧
      |(ensure_bounding_box_visible m).factor - 10 / size| ≤ 10 / size / 2 ^ 24 ∧
      (ensure_bounding_box_visible m).factor * size ≤ 10 * (1 + 1 / 2 ^ 24) ∧
      10 * (1 - 1 / 2 ^ 24) ≤ (ensure_bounding_box_visible m).factor * size := by
    intro h
    have hpos : 0 < size := by linarith
    have hs : (ensure_bounding_box_visible m).scale = some (GLfloat_of (10 / size)) := by
      rw [hscale, if_pos h]
    have hf : (ensure_bounding_box_visible m).factor = GLfloat_of (10 / size) := by
      simp [visible_box.factor, hs]
    obtain ⟨q1, q2, q3⟩ := GLfloat_of_quotient size hrep h hfin
    rw [hf]
    refine ⟨hs, q1, q2, q3, ?_, ?_⟩
    · have := (abs_le.1 q3).2
      have h2 : GLfloat_of (10 / size) ≤ 10 / size * (1 + 1 / 2 ^ 24) := by
        have e : 10 / size * (1 + 1 / 2 ^ 24) = 10 / size + 10 / size / 2 ^ 24 := by ring
        rw [e]
        linarith
      calc GLfloat_of (10 / size) * size ≤ 10 / size * (1 + 1 / 2 ^ 24) * size :=
            mul_le_mul_of_nonneg_right h2 (le_of_lt hpos)
        _ = 10 * (1 + 1 / 2 ^ 24) := by field_simp; ring
    · have := (abs_le.1 q3).1
      have h2 : 10 / size * (1 - 1 / 2 ^ 24) ≤ GLfloat_of (10 / size) := by
        have e : 10 / size * (1 - 1 / 2 ^ 24) = 10 / size - 10 / size / 2 ^ 24 := by ring
        rw [e]
        linarith
      calc 10 * (1 - 1 / 2 ^ 24) = 10 / size * (1 - 1 / 2 ^ 24) * size := by field_simp; ring
        _ ≤ GLfloat_of (10 / size) * size := mul_le_mul_of_nonneg_right h2 (le_of_lt hpos)
  have hsmall : size ≤ 10 → (ensure_bounding_box_visible m).scale = none ∧
      (ensure_bounding_box_visible m).factor = 1 := by
    intro h
    have hs : (ensure_bounding_box_visible m).scale = none := by
      rw [hscale, if_neg (not_lt.2 h)]
    exact ⟨hs, by simp [visible_box.factor, hs]⟩
  refine ⟨hsize, hbig, hsmall, ?_⟩
  by_cases h : 10 < size
  · exact le_of_lt (hbig h).2.2.1
  · exact le_of_eq (hsmall (not_lt.1 h)).2

/-- Witness of C10: two atoms at the distance 40, of size 43. -/
theorem ensure_bounding_box_visible_scale_witness :
    (ensure_bounding_box_visible (sample_molecule 40)).molecule_size ≤ FLT_MAX ∧
    (ensure_bounding_box_visible (sample_molecule 40)).molecule_size = 43 ∧
    (ensure_bounding_box_visible (sample_molecule 40)).factor ≤ 1 := by
  have hs : (ensure_bounding_box_visible (sample_molecule 40)).molecule_size = 43 :=
    sample_molecule_size
  have hfin : (ensure_bounding_box_visible (sample_molecule 40)).molecule_size ≤ FLT_MAX := by
    rw [hs]
    unfold FLT_MAX
    norm_num
  exact ⟨hfin, hs, (ensure_bounding_box_visible_scale (sample_molecule 40) hfin).2.2.2⟩
/-! ## The scene: `build_molecule`, `pick_new_molecule`, `draw_molecule` -/

theorem outcome_bind_eq_ok {α β : Type} (o : outcome α) (f : α → outcome β) (b : β) :
    o.bind f = .ok b ↔ ∃ a, o = .ok a ∧ f a = .ok b := by
  cases o <;> simp [outcome.bind]

theorem outcome_result_eq_some {α : Type} (o : outcome α) (a : α) :
    o.result = some a ↔ o = .ok a := by
  cases o <;> simp [outcome.result]

theorem build_bonds_defined (wire scale_down : Bool) (atoms : List molecule_atom)
    (bonds : List molecule_bond)
    (h : bonds_resolved ⟨none, atoms, bonds⟩ = true) :
    ∃ p, build_bonds wire scale_down atoms bonds = .ok p := by
  induction bonds with
  | nil => exact ⟨0, rfl⟩
  | cons b rest ih =>
    simp only [bonds_resolved, List.all_cons, Bool.and_eq_true] at h
    obtain ⟨⟨h1, h2⟩, h3⟩ := h
    obtain ⟨p, hp⟩ := ih (by simpa [bonds_resolved] using h3)
    unfold build_bonds
    cases hf : get_atom atoms b.from_ <;> simp [hf] at h1
    cases ht : get_atom atoms b.to_ <;> simp [ht] at h2
    simp only [hp, outcome.bind]
    exact ⟨_, rfl⟩

theorem build_atoms_defined (scale_down : Bool) (atoms : List molecule_atom)
    (h : styles_resolved ⟨none, atoms, []⟩ = true) :
    ∃ p, build_atoms scale_down atoms = .ok p := by
  induction atoms with
  | nil => exact ⟨0, rfl⟩
  | cons a rest ih =>
    simp only [styles_resolved, List.all_cons, Bool.and_eq_true] at h
    obtain ⟨h1, h3⟩ := h
    obtain ⟨p, hp⟩ := ih (by simpa [styles_resolved] using h3)
    unfold build_atoms
    cases hd : a.data.bind (fun i => all_atom_data[i]?) <;> simp [hd] at h1
    simp only [hp, outcome.bind]
    exact ⟨_, rfl⟩

theorem build_molecule_eq_ok (mc mc1 : molecule_configuration) (t : Bool)
    (h : build_molecule mc t = .ok mc1) : ∃ p, mc1 = { mc with polygon_count := p } := by
  unfold build_molecule at h
  cases hm : mc.molecules[mc.which]? with
  | none => simp [hm] at h
  | some m =>
    simp only [hm, outcome_bind_eq_ok] at h
    obtain ⟨p1, _, p2, _, h⟩ := h
    injection h with h
    exact ⟨_, h.symm⟩

theorem build_molecule_defined (mc : molecule_configuration) (t : Bool) (m : molecule)
    (hm : mc.molecules[mc.which]? = some m) (hb : bonds_resolved m = true)
    (hs : styles_resolved m = true) : ∃ p, build_molecule mc t = .ok { mc with polygon_count := p } := by
  obtain ⟨p1, hp1⟩ : ∃ p, (if mc.do_bonds then build_bonds mc.wire mc.scale_down m.atoms m.bonds
      else .ok 0) = .ok p := by
    split
    · exact build_bonds_defined _ _ _ _ (by simpa [bonds_resolved] using hb)
    · exact ⟨0, rfl⟩
  obtain ⟨p2, hp2⟩ : ∃ p, (if !mc.wire && mc.do_atoms then build_atoms mc.scale_down m.atoms
      else .ok 0) = .ok p := by
    split
    · exact build_atoms_defined _ _ (by simpa [styles_resolved] using hs)
    · exact ⟨0, rfl⟩
  unfold build_molecule
  simp only [hm, hp1, hp2, outcome.bind]
  exact ⟨_, rfl⟩

theorem shell_flags_polygon_count (mc : molecule_configuration) (q : Int) :
    shell_flags { mc with polygon_count := q } = { shell_flags mc with polygon_count := q } := by
  cases mc
  unfold shell_flags
  dsimp only
  split <;> rfl

theorem pick_shells_eq_ok (mc mc1 : molecule_configuration) (h : pick_shells mc = .ok mc1) :
    ∃ p, mc1 = { shell_flags mc with polygon_count := p } := by
  unfold pick_shells at h
  by_cases hs : mc.do_shells = true
  · rw [if_pos hs, outcome_bind_eq_ok] at h
    obtain ⟨mc2, h2, h⟩ := h
    obtain ⟨p, rfl⟩ := build_molecule_eq_ok _ _ _ h2
    injection h with h
    refine ⟨p, ?_⟩
    rw [← h]
    unfold shell_flags
    rw [if_pos hs]
  · rw [if_neg hs] at h
    injection h with h
    refine ⟨mc.polygon_count, ?_⟩
    rw [← h]
    unfold shell_flags
    rw [if_neg hs]

theorem pick_shells_defined (mc : molecule_configuration) (m : molecule)
    (hm : mc.molecules[mc.which]? = some m) (hb : bonds_resolved m = true)
    (hs : styles_resolved m = true) : ∃ mc1, pick_shells mc = .ok mc1 := by
  unfold pick_shells
  split
  · obtain ⟨p, hp⟩ := build_molecule_defined
      { mc with do_labels := false, do_atoms := true, do_bonds := false } true m hm hb hs
    rw [hp]
    exact ⟨_, rfl⟩
  · exact ⟨_, rfl⟩

/-- What `pick_rebuild` returns: the flags of `pick_flags`, then those of
`shell_flags`, for the size of the molecule `mc->molecules[mc->which]`. -/
theorem pick_rebuild_eq_ok (mc mc1 : molecule_configuration) (h : pick_rebuild mc = .ok mc1) :
    ∃ m p, mc.molecules[mc.which]? = some m ∧
      mc1 = { shell_flags (pick_flags { mc with
                polygon_count := 0,
                molecule_size := (ensure_bounding_box_visible m).molecule_size,
                scale_down := (ensure_bounding_box_visible m).scale_down }) with
              polygon_count := p } := by
  unfold pick_rebuild at h
  cases hm : mc.molecules[mc.which]? with
  | none => simp [hm] at h
  | some m =>
    simp only [hm] at h
    split at h
    · cases h
    · rw [outcome_bind_eq_ok] at h
      obtain ⟨mc2, h2, h⟩ := h
      obtain ⟨p2, rfl⟩ := build_molecule_eq_ok _ _ _ h2
      obtain ⟨p, rfl⟩ := pick_shells_eq_ok _ _ h
      exact ⟨m, p, rfl, by rw [shell_flags_polygon_count]⟩

theorem pick_rebuild_defined (mc : molecule_configuration) (m : molecule)
    (hm : mc.molecules[mc.which]? = some m) (hv : mc.verbose_p = true → m.label ≠ none)
    (hb : bonds_resolved m = true) (hs : styles_resolved m = true) :
    ∃ mc1, pick_rebuild mc = .ok mc1 := by
  unfold pick_rebuild
  simp only [hm]
  rw [if_neg (fun h => hv h.1 h.2)]
  obtain ⟨p, hp⟩ := build_molecule_defined (pick_flags { mc with
      polygon_count := 0,
      molecule_size := (ensure_bounding_box_visible m).molecule_size,
      scale_down := (ensure_bounding_box_visible m).scale_down }) false m
    (by simpa [pick_flags] using hm) hb hs
  simp only [hp, outcome.bind]
  exact pick_shells_defined _ m (by simpa [pick_flags] using hm) hb hs

theorem pick_other_eq_some (n which : Nat) (hn : 0 < n) (rs : List Nat) (k : Nat) (rs1 : List Nat)
    (h : pick_other n which rs = some (k, rs1)) : k ≠ which ∧ k < n := by
  induction rs with
  | nil => simp [pick_other] at h
  | cons r rs ih =>
    unfold pick_other at h
    split at h
    · exact ih h
    · rename_i hne
      injection h with h
      injection h with h1 h2
      subst h1
      exact ⟨hne, Nat.mod_lt _ hn⟩

theorem pick_other_isSome (n which : Nat) (rs : List Nat)
    (h : ∃ r ∈ rs, r % n ≠ which) : ∃ k rs1, pick_other n which rs = some (k, rs1) := by
  induction rs with
  | nil => simp at h
  | cons r rs ih =>
    unfold pick_other
    by_cases hr : r % n = which
    · rw [if_pos hr]
      obtain ⟨r1, hr1, hne⟩ := h
      rcases List.mem_cons.1 hr1 with rfl | hmem
      · exact absurd hr hne
      · exact ih ⟨r1, hmem, hne⟩
    · rw [if_neg hr]
      exact ⟨_, _, rfl⟩

theorem shell_flags_fields (mc : molecule_configuration) :
    (shell_flags mc).glx_context = mc.glx_context ∧
    (shell_flags mc).button_down_p = mc.button_down_p ∧
    (shell_flags mc).molecule_size = mc.molecule_size ∧
    (shell_flags mc).no_label_threshold = mc.no_label_threshold ∧
    (shell_flags mc).wireframe_threshold = mc.wireframe_threshold ∧
    (shell_flags mc).which = mc.which ∧
    (shell_flags mc).molecules = mc.molecules ∧
    (shell_flags mc).mode = mc.mode ∧
    (shell_flags mc).mode_tick = mc.mode_tick ∧
    (shell_flags mc).last = mc.last ∧
    (shell_flags mc).tick = mc.tick ∧
    (shell_flags mc).wire = mc.wire ∧
    (shell_flags mc).do_shells = mc.do_shells ∧
    (shell_flags mc).orig_do_labels = mc.orig_do_labels := by
  unfold shell_flags
  split <;> simp

/-- The fields that `pick_rebuild` leaves as they are, and the ones it sets. -/
theorem pick_rebuild_fields (mc mc1 : molecule_configuration) (h : pick_rebuild mc = .ok mc1) :
    mc1.glx_context = mc.glx_context ∧ mc1.button_down_p = mc.button_down_p ∧
    mc1.no_label_threshold = mc.no_label_threshold ∧
    mc1.wireframe_threshold = mc.wireframe_threshold ∧
    mc1.which = mc.which ∧ mc1.molecules = mc.molecules ∧
    mc1.mode = mc.mode ∧ mc1.mode_tick = mc.mode_tick ∧
    mc1.last = mc.last ∧ mc1.tick = mc.tick ∧ mc1.orig_do_labels = mc.orig_do_labels := by
  obtain ⟨m, p, _, rfl⟩ := pick_rebuild_eq_ok mc mc1 h
  obtain ⟨h1, h2, _, h4, h5, h6, h7, h8, h9, h10, h11, _, _, h14⟩ := shell_flags_fields
    (pick_flags { mc with
      polygon_count := 0,
      molecule_size := (ensure_bounding_box_visible m).molecule_size,
      scale_down := (ensure_bounding_box_visible m).scale_down })
  exact ⟨h1, h2, h4, h5, h6, h7, h8, h9, h10, h11, h14⟩

theorem pick_new_molecule_eq_ok (mc mc1 : molecule_configuration) (last : Int)
    (rs rs1 : List Nat) (h : pick_new_molecule mc last rs = .ok (mc1, rs1)) :
    (pick_which mc.nmolecules mc.which last rs = .returned ∧ mc1 = mc ∧ rs1 = rs) ∨
    (∃ n, pick_which mc.nmolecules mc.which last rs = .chosen n rs1 ∧
      pick_rebuild { mc with which := n } = .ok mc1) := by
  unfold pick_new_molecule at h
  cases hw : pick_which mc.nmolecules mc.which last rs with
  | returned =>
    rw [hw] at h
    injection h with h
    injection h with h1 h2
    exact Or.inl ⟨rfl, h1.symm, h2.symm⟩
  | chosen n rs2 =>
    rw [hw] at h
    simp only [outcome_bind_eq_ok] at h
    obtain ⟨mc2, h2, h⟩ := h
    injection h with h
    injection h with h3 h4
    subst h3 h4
    exact Or.inr ⟨n, rfl, h2⟩
  | undefined => rw [hw] at h; cases h
  | starved => rw [hw] at h; cases h

/-- The call `pick_new_molecule` changes neither the phase, nor the tick
count, nor the catalog, nor the static variables of `draw_molecule`. -/
theorem pick_new_molecule_fields (mc mc1 : molecule_configuration) (last : Int)
    (rs rs1 : List Nat) (h : pick_new_molecule mc last rs = .ok (mc1, rs1)) :
    mc1.glx_context = mc.glx_context ∧ mc1.button_down_p = mc.button_down_p ∧
    mc1.molecules = mc.molecules ∧ mc1.mode = mc.mode ∧ mc1.mode_tick = mc.mode_tick ∧
    mc1.last = mc.last ∧ mc1.tick = mc.tick := by
  rcases pick_new_molecule_eq_ok mc mc1 last rs rs1 h with ⟨_, rfl, _⟩ | ⟨n, _, h2⟩
  · exact ⟨rfl, rfl, rfl, rfl, rfl, rfl, rfl⟩
  · obtain ⟨h1, h2, _, _, _, h6, h7, h8, h9, h10, _⟩ := pick_rebuild_fields _ _ h2
    exact ⟨h1, h2, h6, h7, h8, h9, h10⟩

theorem set_last_eq_ok (now : Int) (o : outcome (molecule_configuration × List Nat))
    (mc1 : molecule_configuration) (rs1 : List Nat) (h : set_last now o = .ok (mc1, rs1)) :
    ∃ mc2, o = .ok (mc2, rs1) ∧ mc1 = { mc2 with last := now } := by
  unfold set_last at h
  rw [outcome_bind_eq_ok] at h
  obtain ⟨⟨mc2, rs2⟩, h1, h2⟩ := h
  injection h2 with h2
  injection h2 with h3 h4
  subst h4
  exact ⟨mc2, h1, h3.symm⟩

theorem draw_molecule_countdown (mc : molecule_configuration) (now now2 : Int) (rs : List Nat)
    (hglx : mc.glx_context = true) (hlast : mc.last ≠ 0) (hmode : mc.mode = 1 ∨ mc.mode = 2)
    (htick : 1 < mc.mode_tick) :
    draw_molecule mc now now2 rs = .ok ({ mc with mode_tick := mc.mode_tick - 1 }, rs) := by
  have h1 : ¬ mc.mode_tick - 1 ≤ 0 := by omega
  unfold draw_molecule
  rcases hmode with hm | hm
  · simp [hglx, hlast, hm, h1]
  · simp [hglx, hlast, hm, h1]

theorem draw_molecule_shrunk (mc : molecule_configuration) (now now2 : Int) (rs : List Nat)
    (hglx : mc.glx_context = true) (hlast : mc.last ≠ 0) (hmode : mc.mode = 1)
    (htick : mc.mode_tick ≤ 1) :
    draw_molecule mc now now2 rs =
      set_last now (pick_new_molecule { mc with mode_tick := 40, mode := 2 } mc.last rs) := by
  have h1 : mc.mode_tick - 1 ≤ 0 := by omega
  unfold draw_molecule
  simp [hglx, hlast, hmode, h1]

theorem draw_molecule_grown (mc : molecule_configuration) (now now2 : Int) (rs : List Nat)
    (hglx : mc.glx_context = true) (hlast : mc.last ≠ 0) (hmode : mc.mode = 2)
    (htick : mc.mode_tick ≤ 1) :
    draw_molecule mc now now2 rs =
      .ok ({ mc with mode_tick := mc.mode_tick - 1, mode := 0 }, rs) := by
  have h1 : mc.mode_tick - 1 ≤ 0 := by omega
  unfold draw_molecule
  simp [hglx, hlast, hmode, h1]

theorem draw_frames_countdown (clock : List (Int × Int)) :
    ∀ (mc : molecule_configuration) (rs : List Nat), mc.glx_context = true → mc.last ≠ 0 →
      (mc.mode = 1 ∨ mc.mode = 2) → (clock.length : Int) < mc.mode_tick →
      draw_frames mc rs clock = .ok ({ mc with mode_tick := mc.mode_tick - clock.length }, rs) := by
  induction clock with
  | nil =>
    intro mc rs _ _ _ _
    simp [draw_frames]
  | cons t clock ih =>
    intro mc rs hglx hlast hmode htick
    simp only [List.length_cons, Nat.cast_add, Nat.cast_one] at htick
    unfold draw_frames
    rw [draw_molecule_countdown mc t.1 t.2 rs hglx hlast hmode (by omega)]
    simp only
    rw [ih { mc with mode_tick := mc.mode_tick - 1 } rs hglx hlast hmode
      (by show (clock.length : Int) < mc.mode_tick - 1; omega)]
    have : mc.mode_tick - 1 - (clock.length : Int) = mc.mode_tick - ((clock.length + 1 : Nat) : Int) := by
      push_cast; omega
    simp only [List.length_cons]
    rw [← this]

theorem draw_frames_append (c1 c2 : List (Int × Int)) :
    ∀ (mc mc1 : molecule_configuration) (rs rs1 : List Nat),
      draw_frames mc rs c1 = .ok (mc1, rs1) →
      draw_frames mc rs (c1 ++ c2) = draw_frames mc1 rs1 c2 := by
  induction c1 with
  | nil =>
    intro mc mc1 rs rs1 h
    simp only [draw_frames] at h
    injection h with h
    injection h with h1 h2
    subst h1 h2
    rfl
  | cons t c1 ih =>
    intro mc mc1 rs rs1 h
    simp only [List.cons_append, draw_frames] at h ⊢
    cases hd : draw_molecule mc t.1 t.2 rs with
    | ok r =>
      rw [hd] at h
      simp only at h ⊢
      exact ih _ _ _ _ h
    | exit => rw [hd] at h; cases h
    | abort => rw [hd] at h; cases h
    | undefined => rw [hd] at h; cases h
    | starved => rw [hd] at h; cases h

theorem draw_frames_one (mc : molecule_configuration) (rs : List Nat) (t : Int × Int) :
    draw_frames mc rs [t] = draw_molecule mc t.1 t.2 rs := by
  unfold draw_frames
  cases draw_molecule mc t.1 t.2 rs <;> rfl

/-- A frame moves the phase along the cycle idle, shrinking, growing, or leaves it. -/
theorem draw_molecule_phase (mc mc1 : molecule_configuration) (now now2 : Int)
    (rs rs1 : List Nat) (h : draw_molecule mc now now2 rs = .ok (mc1, rs1)) :
    (mc.mode = 0 → mc1.mode = 0 ∨ mc1.mode = 1) ∧
    (mc.mode = 1 → mc1.mode = 1 ∨ mc1.mode = 2) ∧
    (mc.mode = 2 → mc1.mode = 2 ∨ mc1.mode = 0) := by
  unfold draw_molecule at h
  split at h
  · injection h with h; injection h with h1 h2; subst h1
    exact ⟨Or.inl, Or.inl, Or.inl⟩
  split at h
  · obtain ⟨mc2, h2, rfl⟩ := set_last_eq_ok _ _ _ _ h
    obtain ⟨_, _, _, hm, _⟩ := pick_new_molecule_fields _ _ _ _ _ h2
    have : ({ mc2 with last := now } : molecule_configuration).mode = mc.mode := hm
    rw [this]
    exact ⟨Or.inl, Or.inl, Or.inl⟩
  split at h
  · rename_i h0
    split at h
    · split at h <;>
      · injection h with h; injection h with h1 h2; subst h1
        simp [h0]
    · injection h with h; injection h with h1 h2; subst h1
      simp [h0]
  split at h
  · rename_i h0 h1
    split at h
    · obtain ⟨mc2, h2, rfl⟩ := set_last_eq_ok _ _ _ _ h
      obtain ⟨_, _, _, hm, _⟩ := pick_new_molecule_fields _ _ _ _ _ h2
      have : ({ mc2 with last := now } : molecule_configuration).mode = 2 := hm
      rw [this]
      simp [h1]
    · injection h with h; injection h with h2 h3; subst h2
      simp [h1]
  split at h
  · rename_i h0 h1 h2
    split at h <;>
    · injection h with h; injection h with h3 h4; subst h3
      simp [h2]
  · cases h

theorem shell_flags_do_labels (y : molecule_configuration) :
    (shell_flags y).do_labels = if y.do_shells = true then y.orig_do_labels else y.do_labels := by
  unfold shell_flags
  split <;> rfl

/-- The display flags after `pick_flags` and `shell_flags`, against the size
of the molecule and the two thresholds. -/
theorem shell_pick_flags (x : molecule_configuration) :
    (x.molecule_size > x.wireframe_threshold → (shell_flags (pick_flags x)).wire = true) ∧
    (x.molecule_size > x.no_label_threshold → (shell_flags (pick_flags x)).do_shells = false →
      (shell_flags (pick_flags x)).do_labels = false) ∧
    ((shell_flags (pick_flags x)).do_shells = true →
      (shell_flags (pick_flags x)).do_labels = x.orig_do_labels) ∧
    (x.orig_do_labels = false → (shell_flags (pick_flags x)).do_labels = false) := by
  obtain ⟨_, _, _, _, _, _, _, _, _, _, _, hw, hs, _⟩ := shell_flags_fields (pick_flags x)
  rw [hw, hs, shell_flags_do_labels]
  obtain ⟨glx, btn, size, nl, wf, wh, ms, mode, mt, pc, sd, tmo, str, spin, dt, dl, da, db, ds,
    dbb, vp, w, ol, oa, ob, os, ow, last, tick⟩ := x
  simp only [pick_flags]
  by_cases h1 : size > nl <;> by_cases h2 : size > wf <;>
    cases ol <;> cases oa <;> cases ob <;> cases os <;> cases ow <;> simp [h1, h2]

theorem pick_rebuild_flags (mc mc1 : molecule_configuration) (h : pick_rebuild mc = .ok mc1) :
    (mc1.molecule_size > mc1.wireframe_threshold → mc1.wire = true) ∧
    (mc1.molecule_size > mc1.no_label_threshold → mc1.do_shells = false →
      mc1.do_labels = false) ∧
    (mc1.do_shells = true → mc1.do_labels = mc1.orig_do_labels) ∧
    (mc1.orig_do_labels = false → mc1.do_labels = false) := by
  obtain ⟨m, p, _, rfl⟩ := pick_rebuild_eq_ok mc mc1 h
  have hf := shell_flags_fields (pick_flags { mc with
      polygon_count := 0,
      molecule_size := (ensure_bounding_box_visible m).molecule_size,
      scale_down := (ensure_bounding_box_visible m).scale_down })
  obtain ⟨_, _, f3, f4, f5, _, _, _, _, _, _, _, _, f14⟩ := hf
  obtain ⟨g1, g2, g3, g4⟩ := shell_pick_flags { mc with
      polygon_count := 0,
      molecule_size := (ensure_bounding_box_visible m).molecule_size,
      scale_down := (ensure_bounding_box_visible m).scale_down }
  refine ⟨fun h1 => g1 ?_, fun h1 h2 => g2 ?_ h2, fun h1 => (g3 h1).trans ?_, fun h1 => g4 ?_⟩
  · have h2 : (shell_flags (pick_flags { mc with
        polygon_count := 0,
        molecule_size := (ensure_bounding_box_visible m).molecule_size,
        scale_down := (ensure_bounding_box_visible m).scale_down })).molecule_size >
        (shell_flags (pick_flags { mc with
        polygon_count := 0,
        molecule_size := (ensure_bounding_box_visible m).molecule_size,
        scale_down := (ensure_bounding_box_visible m).scale_down })).wireframe_threshold := h1
    rw [f3, f5] at h2
    exact h2
  · have h2 : (shell_flags (pick_flags { mc with
        polygon_count := 0,
        molecule_size := (ensure_bounding_box_visible m).molecule_size,
        scale_down := (ensure_bounding_box_visible m).scale_down })).molecule_size >
        (shell_flags (pick_flags { mc with
        polygon_count := 0,
        molecule_size := (ensure_bounding_box_visible m).molecule_size,
        scale_down := (ensure_bounding_box_visible m).scale_down })).no_label_threshold := h1
    rw [f3, f4] at h2
    exact h2
  · exact f14.symm
  · exact f14.symm.trans h1


theorem outcome_result_map {α β : Type} (o : outcome α) (f : α → β) (b : β)
    (h : o.result.map f = some b) : ∃ a, o = .ok a ∧ f a = b := by
  cases o <;> simp [outcome.result] at h
  exact ⟨_, rfl, h⟩
/-! ## Claims C11 to C14: selection, phases and key presses -/

theorem pick_new_molecule_defined (mc : molecule_configuration) (last : Int) (rs rs1 : List Nat)
    (n : Nat) (m : molecule) (hw : pick_which mc.nmolecules mc.which last rs = .chosen n rs1)
    (hm : mc.molecules[n]? = some m) (hv : mc.verbose_p = true → m.label ≠ none)
    (hb : bonds_resolved m = true) (hs : styles_resolved m = true) :
    ∃ mc1, pick_new_molecule mc last rs = .ok (mc1, rs1) ∧ mc1.which = n := by
  obtain ⟨mc1, h1⟩ := pick_rebuild_defined { mc with which := n } m hm hv hb hs
  refine ⟨mc1, ?_, ?_⟩
  · unfold pick_new_molecule
    rw [hw]
    simp only [h1, outcome.bind]
  · exact (pick_rebuild_fields _ _ h1).2.2.2.2.1

/-- C11: with more than one molecule and `last != 0`, a call of
`pick_new_molecule` that returns leaves `which` different from its value
before the call and below `nmolecules`; on every list of random numbers on
which the loop ends (one of them selects another index) the index is chosen,
and the call returns when the chosen molecule can be drawn.  With exactly one
molecule the index stays 0.  The frame of `draw_molecule` that ends the
shrinking phase therefore never shows the same index again. -/
theorem pick_new_molecule_which (mc : molecule_configuration) (last : Int) (rs : List Nat) :
    (1 < mc.nmolecules → last ≠ 0 →
      (∀ mc1 rs1, pick_new_molecule mc last rs = .ok (mc1, rs1) →
        mc1.which ≠ mc.which ∧ mc1.which < mc1.nmolecules ∧ mc1.nmolecules = mc.nmolecules) ∧
      ((∃ r ∈ rs, r % mc.nmolecules ≠ mc.which) →
        ∃ n rs1, pick_which mc.nmolecules mc.which last rs = .chosen n rs1 ∧
          n ≠ mc.which ∧ n < mc.nmolecules ∧
          ∀ m, mc.molecules[n]? = some m → (mc.verbose_p = true → m.label ≠ none) →
            bonds_resolved m = true → styles_resolved m = true →
            ∃ mc1, pick_new_molecule mc last rs = .ok (mc1, rs1) ∧ mc1.which = n)) ∧
    (mc.nmolecules = 1 → mc.which = 0 →
      ∀ mc1 rs1, pick_new_molecule mc last rs = .ok (mc1, rs1) → mc1.which = 0) ∧
    (1 < mc.nmolecules → mc.glx_context = true → mc.last ≠ 0 → mc.mode = 1 →
      mc.mode_tick ≤ 1 →
      ∀ now now2 mc1 rs1, draw_molecule mc now now2 rs = .ok (mc1, rs1) →
        mc1.which ≠ mc.which ∧ mc1.which < mc1.nmolecules) := by
  have key : ∀ (mc : molecule_configuration) (last : Int) (rs : List Nat), 1 < mc.nmolecules →
      last ≠ 0 → ∀ mc1 rs1, pick_new_molecule mc last rs = .ok (mc1, rs1) →
      mc1.which ≠ mc.which ∧ mc1.which < mc1.nmolecules ∧ mc1.nmolecules = mc.nmolecules := by
    intro mc last rs hn hlast mc1 rs1 h
    have h1 : ¬ mc.nmolecules = 1 := by omega
    have h0 : ¬ mc.nmolecules = 0 := by omega
    rcases pick_new_molecule_eq_ok mc mc1 last rs rs1 h with ⟨hw, _, _⟩ | ⟨n, hw, h2⟩
    · simp only [pick_which, if_neg h1, if_neg h0, if_neg hlast] at hw
      cases hp : pick_other mc.nmolecules mc.which rs <;> rw [hp] at hw <;> cases hw
    · simp only [pick_which, if_neg h1, if_neg h0, if_neg hlast] at hw
      cases hp : pick_other mc.nmolecules mc.which rs with
      | none => rw [hp] at hw; cases hw
      | some p =>
        obtain ⟨k, rs2⟩ := p
        rw [hp] at hw
        injection hw with hk hrs
        subst hk
        obtain ⟨hne, hlt⟩ := pick_other_eq_some _ _ (by omega) _ _ _ hp
        obtain ⟨_, _, _, _, hwh, hmol, _⟩ := pick_rebuild_fields _ _ h2
        have hnm : mc1.nmolecules = mc.nmolecules := by
          unfold molecule_configuration.nmolecules
          rw [hmol]
        rw [hnm, hwh]
        exact ⟨hne, hlt, rfl⟩
  refine ⟨fun hn hlast => ⟨key mc last rs hn hlast, ?_⟩, ?_, ?_⟩
  · intro hex
    have h1 : ¬ mc.nmolecules = 1 := by omega
    have h0 : ¬ mc.nmolecules = 0 := by omega
    obtain ⟨k, rs1, hp⟩ := pick_other_isSome _ _ _ hex
    obtain ⟨hne, hlt⟩ := pick_other_eq_some _ _ (by omega) _ _ _ hp
    have hw : pick_which mc.nmolecules mc.which last rs = .chosen k rs1 := by
      simp only [pick_which, if_neg h1, if_neg h0, if_neg hlast, hp]
    exact ⟨k, rs1, hw, hne, hlt, fun m hm hv hb hs =>
      pick_new_molecule_defined mc last rs rs1 k m hw hm hv hb hs⟩
  · intro hn hwhich mc1 rs1 h
    rcases pick_new_molecule_eq_ok mc mc1 last rs rs1 h with ⟨_, rfl, _⟩ | ⟨n, hw, h2⟩
    · exact hwhich
    · rw [(pick_rebuild_fields _ _ h2).2.2.2.2.1]
      simp only [pick_which, hn, if_true] at hw
      split at hw
      · cases hw
      · injection hw with hk _
        exact hk.symm
  · intro hn hglx hlast hmode htick now now2 mc1 rs1 h
    rw [draw_molecule_shrunk mc now now2 rs hglx hlast hmode htick] at h
    obtain ⟨mc2, h2, rfl⟩ := set_last_eq_ok _ _ _ _ h
    obtain ⟨h3, h4, _⟩ := key { mc with mode_tick := 40, mode := 2 } mc.last rs hn hlast mc2 rs1 h2
    exact ⟨h3, h4⟩

theorem pick_new_molecule_which_witness :
    ∃ mc1, pick_new_molecule running_configuration 1000 [0, 4, 3] = .ok (mc1, []) ∧
      mc1.which = 1 := by
  obtain ⟨n, rs1, hw, _, _, h⟩ :=
    ((pick_new_molecule_which running_configuration 1000 [0, 4, 3]).1
      (by decide) (by decide)).2 ⟨3, by decide, by decide⟩
  have hw2 : pick_which running_configuration.nmolecules running_configuration.which 1000
      [0, 4, 3] = .chosen 1 [] := by decide
  rw [hw2] at hw
  injection hw with h1 h2
  subst h1 h2
  exact h (sample_molecule 40) (by decide) (by decide) (by decide) (by decide)

/-- C12, as stated, fails before the first frame: a frame drawn in the
state (mode 1, mode_tick 40) with `last == 0`, which a key press before the
first frame gives, selects a molecule and leaves (mode 1, mode_tick 40), so the
shrinking phase lasts one frame more than the 40 of the claim, and a molecule
is selected twice. -/
theorem draw_molecule_first_frame_counterexample :
    ({ running_configuration with mode := 1, mode_tick := 40, last := 0 } :
        molecule_configuration).mode = 1 ∧
    ({ running_configuration with mode := 1, mode_tick := 40, last := 0 } :
        molecule_configuration).mode_tick = 40 ∧
    ∃ mc1, draw_molecule { running_configuration with mode := 1, mode_tick := 40, last := 0 }
        1000 1000 [3] = .ok (mc1, []) ∧ mc1.which = 1 ∧ mc1.mode = 1 ∧ mc1.mode_tick = 40 := by
  refine ⟨rfl, rfl, ?_⟩
  obtain ⟨mc1, h1, h2⟩ := pick_new_molecule_defined
    { running_configuration with mode := 1, mode_tick := 40, last := 0 } 0 [3] [] 1
    (sample_molecule 40) (by decide) (by decide) (by decide) (by decide) (by decide)
  obtain ⟨_, _, _, h3, h4, _⟩ := pick_new_molecule_fields _ _ _ _ _ h1
  refine ⟨{ mc1 with last := 1000 }, ?_, h2, h3, h4⟩
  have hd : draw_molecule { running_configuration with mode := 1, mode_tick := 40, last := 0 }
      1000 1000 [3] = set_last 1000 (pick_new_molecule
        { running_configuration with mode := 1, mode_tick := 40, last := 0 } 0 [3]) := by
    unfold draw_molecule
    simp [running_configuration]
  rw [hd, h1]
  rfl

/-- C12, amended: with a GL context and after the first frame (`last != 0`),
once the state is (mode 1, mode_tick 40) the next 39 frames count the tick down
to 1 and change nothing else; the 40th frame calls `pick_new_molecule` once, in
the state (mode 2, mode_tick 40), and stores the clock reading in `last`; when
that reading is not 0, the next 39 frames count the tick down to 1 and the 40th
gives mode 0.  Whatever the state, a frame leaves the phase as it is or moves it
from idle to shrinking, from shrinking to growing, or from growing to idle. -/
theorem draw_frames_transition (mc : molecule_configuration) (rs : List Nat)
    (shrink grow : List (Int × Int)) (t1 t2 : Int × Int)
    (hglx : mc.glx_context = true) (hmode : mc.mode = 1) (htick : mc.mode_tick = 40)
    (hlast : mc.last ≠ 0) (hnow : t1.1 ≠ 0)
    (hs : shrink.length = 39) (hg : grow.length = 39) :
    (∀ k : Nat, k ≤ 39 →
      draw_frames mc rs (shrink.take k) = .ok ({ mc with mode_tick := 40 - k }, rs)) ∧
    draw_frames mc rs (shrink ++ [t1]) =
      set_last t1.1 (pick_new_molecule { mc with mode_tick := 40, mode := 2 } mc.last rs) ∧
    (∀ mc1 rs1, draw_frames mc rs (shrink ++ [t1]) = .ok (mc1, rs1) →
      mc1.mode = 2 ∧ mc1.mode_tick = 40 ∧
      (∀ k : Nat, k ≤ 39 →
        draw_frames mc1 rs1 (grow.take k) = .ok ({ mc1 with mode_tick := 40 - k }, rs1)) ∧
      draw_frames mc1 rs1 (grow ++ [t2]) = .ok ({ mc1 with mode_tick := 0, mode := 0 }, rs1)) ∧
    (∀ (s s1 : molecule_configuration) (now now2 : Int) (rs0 rs1 : List Nat),
      draw_molecule s now now2 rs0 = .ok (s1, rs1) →
      (s.mode = 0 → s1.mode = 0 ∨ s1.mode = 1) ∧
      (s.mode = 1 → s1.mode = 1 ∨ s1.mode = 2) ∧
      (s.mode = 2 → s1.mode = 2 ∨ s1.mode = 0)) := by
  have count : ∀ (s : molecule_configuration) (rs0 : List Nat) (clock : List (Int × Int)),
      s.glx_context = true → s.last ≠ 0 → (s.mode = 1 ∨ s.mode = 2) → s.mode_tick = 40 →
      clock.length = 39 → ∀ k : Nat, k ≤ 39 →
      draw_frames s rs0 (clock.take k) = .ok ({ s with mode_tick := 40 - k }, rs0) := by
    intro s rs0 clock h1 h2 h3 h4 h5 k hk
    have hlen : (clock.take k).length = k := by rw [List.length_take]; omega
    rw [draw_frames_countdown (clock.take k) s rs0 h1 h2 h3 (by rw [hlen, h4]; omega), hlen, h4]
  have hshrink := count mc rs shrink hglx hlast (Or.inl hmode) htick hs
  have h39 : draw_frames mc rs shrink = .ok ({ mc with mode_tick := 1 }, rs) := by
    have := hshrink 39 (le_refl _)
    rwa [List.take_of_length_le (by omega)] at this
  have h40 : draw_frames mc rs (shrink ++ [t1]) =
      set_last t1.1 (pick_new_molecule { mc with mode_tick := 40, mode := 2 } mc.last rs) := by
    rw [draw_frames_append shrink [t1] mc _ rs rs h39, draw_frames_one]
    exact draw_molecule_shrunk { mc with mode_tick := 1 } t1.1 t1.2 rs hglx hlast hmode (le_refl _)
  refine ⟨hshrink, h40, ?_, fun s s1 now now2 rs0 rs1 h => draw_molecule_phase s s1 now now2 rs0 rs1 h⟩
  intro mc1 rs1 h
  rw [h40] at h
  obtain ⟨mc2, h2, rfl⟩ := set_last_eq_ok _ _ _ _ h
  obtain ⟨g1, _, _, g4, g5, _⟩ := pick_new_molecule_fields _ _ _ _ _ h2
  have hglx1 : ({ mc2 with last := t1.1 } : molecule_configuration).glx_context = true :=
    g1.trans hglx
  have hmode1 : ({ mc2 with last := t1.1 } : molecule_configuration).mode = 2 := g4
  have htick1 : ({ mc2 with last := t1.1 } : molecule_configuration).mode_tick = 40 := g5
  have hgrow := count { mc2 with last := t1.1 } rs1 grow hglx1 hnow (Or.inr hmode1) htick1 hg
  refine ⟨hmode1, htick1, hgrow, ?_⟩
  have g39 : draw_frames { mc2 with last := t1.1 } rs1 grow =
      .ok ({ mc2 with last := t1.1, mode_tick := 1 }, rs1) := by
    have := hgrow 39 (le_refl _)
    rwa [List.take_of_length_le (by omega)] at this
  rw [draw_frames_append grow [t2] _ _ rs1 rs1 g39, draw_frames_one]
  exact draw_molecule_grown { mc2 with last := t1.1, mode_tick := 1 } t2.1 t2.2 rs1 hglx1 hnow
    hmode1 (le_refl _)

theorem draw_frames_transition_witness :
    ({ running_configuration with mode := 1, mode_tick := 40 } :
      molecule_configuration).glx_context = true ∧
    ({ running_configuration with mode := 1, mode_tick := 40 } :
      molecule_configuration).last ≠ 0 ∧
    (List.replicate 39 ((1000 : Int), (1000 : Int))).length = 39 ∧
    ∃ mc1, draw_frames { running_configuration with mode := 1, mode_tick := 40 } [3]
        (List.replicate 39 (1000, 1000) ++ [(1001, 1001)]) = .ok (mc1, []) ∧
      mc1.which = 1 ∧ mc1.mode = 2 ∧ mc1.mode_tick = 40 ∧
      draw_frames mc1 [] (List.replicate 39 (1001, 1001) ++ [(1002, 1002)]) =
        .ok ({ mc1 with mode_tick := 0, mode := 0 }, []) := by
  obtain ⟨_, h40, h3, _⟩ := draw_frames_transition
    { running_configuration with mode := 1, mode_tick := 40 } [3]
    (List.replicate 39 (1000, 1000)) (List.replicate 39 (1001, 1001)) (1001, 1001) (1002, 1002)
    rfl rfl rfl (by decide) (by decide) (by simp) (by simp)
  obtain ⟨mc2, hp, hw⟩ := pick_new_molecule_defined
    { running_configuration with mode_tick := 40, mode := 2 } 1000 [3] [] 1
    (sample_molecule 40) (by decide) (by decide) (by decide) (by decide) (by decide)
  have h : draw_frames { running_configuration with mode := 1, mode_tick := 40 } [3]
      (List.replicate 39 (1000, 1000) ++ [(1001, 1001)]) = .ok ({ mc2 with last := 1001 }, []) := by
    rw [h40]
    show set_last 1001 (pick_new_molecule
      { running_configuration with mode_tick := 40, mode := 2 } 1000 [3]) = _
    rw [hp]
    rfl
  obtain ⟨g1, g2, _, g4⟩ := h3 _ _ h
  exact ⟨rfl, by decide, by simp, { mc2 with last := 1001 }, h, hw, g1, g2, g4⟩

/-- C13: a frame drawn in the idle phase after the first frame (`mode == 0`,
`last != 0`) returns; it leaves `which` and the catalog as they are; the phase
after it is idle or shrinking, and it is shrinking (with the tick count 40)
only if the button is not down, more than one molecule is loaded and
`last + timeout <= now`, where `now` is the clock reading taken in the idle
branch; when one of the three conditions fails the phase stays idle. -/
theorem draw_molecule_idle (mc : molecule_configuration) (now now2 : Int) (rs : List Nat)
    (hmode : mc.mode = 0) (hlast : mc.last ≠ 0) :
    ∃ mc1, draw_molecule mc now now2 rs = .ok (mc1, rs) ∧
      mc1.which = mc.which ∧ mc1.molecules = mc.molecules ∧
      (mc1.mode = 0 ∨ mc1.mode = 1) ∧
      (mc1.mode = 1 →
        mc.button_down_p = false ∧ 1 < mc.nmolecules ∧ mc.last + mc.timeout ≤ now2 ∧
          mc1.mode_tick = 40) ∧
      (¬ (mc.button_down_p = false ∧ 1 < mc.nmolecules ∧ mc.last + mc.timeout ≤ now2) →
        mc1.mode = 0) := by
  unfold draw_molecule
  by_cases hglx : mc.glx_context = true
  · by_cases ht : mc.tick > 10
    · by_cases hc : mc.button_down_p = false ∧ 1 < mc.nmolecules ∧ mc.last + mc.timeout ≤ now2
      · refine ⟨{ mc with tick := 0, mode := 1, mode_tick := 40, last := now2 }, ?_, rfl, rfl,
          Or.inr rfl, fun _ => ⟨hc.1, hc.2.1, hc.2.2, rfl⟩, fun h => absurd hc h⟩
        simp [hglx, hlast, hmode, ht, hc.1, hc.2.1, hc.2.2]
      · refine ⟨{ mc with tick := 0 }, ?_, rfl, rfl, Or.inl hmode, ?_, fun _ => hmode⟩
        · have hc2 : ¬ (mc.button_down_p = false ∧ mc.nmolecules > 1 ∧
              mc.last + mc.timeout ≤ now2) := hc
          simp only [Bool.not_eq_true] at hc2 ⊢
          simp [hglx, hlast, hmode, ht, hc2]
        · intro h1
          have : mc.mode = 1 := h1
          omega
    · refine ⟨{ mc with tick := mc.tick + 1 }, ?_, rfl, rfl, Or.inl hmode, ?_, fun _ => hmode⟩
      · simp [hglx, hlast, hmode, ht]
      · intro h1
        have : mc.mode = 1 := h1
        omega
  · refine ⟨mc, ?_, rfl, rfl, Or.inl hmode, ?_, fun _ => hmode⟩
    · simp [hglx]
    · intro h1
      omega

theorem draw_molecule_idle_witness :
    ({ running_configuration with tick := 11 } : molecule_configuration).mode = 0 ∧
    ({ running_configuration with tick := 11 } : molecule_configuration).last ≠ 0 ∧
    ∃ mc1, draw_molecule { running_configuration with tick := 11 } 1020 1020 [] = .ok (mc1, []) ∧
      mc1.which = 0 ∧ mc1.mode = 1 ∧ mc1.mode_tick = 40 := by
  obtain ⟨mc1, h1, h2, _, h4, h5, _⟩ :=
    draw_molecule_idle { running_configuration with tick := 11 } 1020 1020 [] rfl (by decide)
  have h6 : draw_molecule { running_configuration with tick := 11 } 1020 1020 [] =
      .ok ({ running_configuration with tick := 0, mode := 1, mode_tick := 40, last := 1020 }, []) := by
    decide
  rw [h6] at h1
  injection h1 with h1
  injection h1 with h1 _
  subst h1
  exact ⟨rfl, by decide, _, h6, rfl, rfl, rfl⟩

/-- C14: in every state, a key press whose character is a space, a tab, a
carriage return or a newline makes `molecule_handle_event` set `mode` to 1 and
`mode_tick` to 40, change nothing else, and return True; a key press with any
other character leaves the state as it is and returns False. -/
theorem molecule_handle_event_key (mc : molecule_configuration) (c : Char) :
    ((c = ' ' ∨ c = '\t' ∨ c = '\r' ∨ c = '\n') →
      molecule_handle_event mc (.KeyPress c) = ({ mc with mode := 1, mode_tick := 40 }, true)) ∧
    (¬ (c = ' ' ∨ c = '\t' ∨ c = '\r' ∨ c = '\n') →
      molecule_handle_event mc (.KeyPress c) = (mc, false)) := by
  constructor
  · intro h
    simp only [molecule_handle_event, if_pos h]
  · intro h
    simp only [molecule_handle_event, if_neg h]

/-! ## The loader: `parse_pdb_file`, `load_molecules` -/

theorem push_bond_atoms (m : molecule) (a b : Int) : (push_bond m a b).atoms = m.atoms := by
  unfold push_bond
  split <;> rfl

theorem conect_bonds_atoms (partners : List Int) :
    ∀ (m : molecule) (base : Int), (conect_bonds m base partners).atoms = m.atoms := by
  induction partners with
  | nil => intro m base; rfl
  | cons p rest ih =>
    intro m base
    unfold conect_bonds
    simp only [List.foldl_cons]
    have := ih (if p > 0 then push_bond m base p else m) base
    unfold conect_bonds at this
    rw [this]
    split
    · exact push_bond_atoms m base p
    · rfl

theorem parse_conect_atoms (m1 m2 : molecule) (s : List Char) (h : m1.atoms = m2.atoms) :
    (parse_conect m1 s).map molecule.atoms = (parse_conect m2 s).map molecule.atoms := by
  unfold parse_conect
  split
  · rfl
  · split
    · rfl
    · simp [h]
    · split
      · rfl
      · simp [conect_bonds_atoms, h]

theorem parse_atom_atoms (scanf_f : List Char → Option (ℚ × List Char)) (off : Nat) (lower : Bool)
    (m1 m2 : molecule) (s : List Char) (h : m1.atoms = m2.atoms) :
    (parse_atom scanf_f off lower m1 s).map molecule.atoms =
      (parse_atom scanf_f off lower m2 s).map molecule.atoms := by
  unfold parse_atom
  split
  · rfl
  · split
    · unfold push_atom
      split
      · rfl
      · simp [h]
    · rfl

theorem ignored_line_HEADER (s : List Char)
    (h : strncmp_eq s "HEADER".toList = true ∨ strncmp_eq s "COMPND".toList = true) :
    ignored_line s = true := by
  unfold ignored_line
  rw [List.any_eq_true]
  rcases h with h | h
  · exact ⟨"HEADER", by simp [ignored_keywords], h⟩
  · exact ⟨"COMPND", by simp [ignored_keywords], h⟩

/-- The atoms that one line adds do not depend on the label and the bonds of
the molecule that it is read into. -/
theorem parse_pdb_line_atoms (scanf_f : List Char → Option (ℚ × List Char)) (m1 m2 : molecule)
    (s : List Char) (h : m1.atoms = m2.atoms) :
    (parse_pdb_line scanf_f m1 s).map molecule.atoms =
      (parse_pdb_line scanf_f m2 s).map molecule.atoms := by
  by_cases hh : strncmp_eq s "HEADER".toList = true ∨ strncmp_eq s "COMPND".toList = true
  · have hi := ignored_line_HEADER s hh
    have key : ∀ m : molecule, (parse_pdb_line scanf_f m s).map molecule.atoms = some m.atoms := by
      intro m
      unfold parse_pdb_line
      split
      · rfl
      · rfl
    rw [key m1, key m2, h]
  · have key : ∀ m : molecule, parse_pdb_line scanf_f m s =
        if ignored_line s then some m
        else if strncmp_eq s "ATOM   ".toList then parse_atom scanf_f 32 true m s
        else if strncmp_eq s "HETATM ".toList then parse_atom scanf_f 30 false m s
        else if strncmp_eq s "CONECT ".toList then parse_conect m s
        else some m := by
      intro m
      unfold parse_pdb_line
      rw [if_neg (fun hc => hh hc.2)]
    rw [key m1, key m2]
    split
    · simp [h]
    split
    · exact parse_atom_atoms _ _ _ _ _ _ h
    split
    · exact parse_atom_atoms _ _ _ _ _ _ h
    split
    · exact parse_conect_atoms _ _ _ h
    · simp [h]

theorem parse_pdb_loop_atoms (scanf_f : List Char → Option (ℚ × List Char)) (fuel : Nat) :
    ∀ (m1 m2 : molecule) (s : List Char), m1.atoms = m2.atoms →
      (parse_pdb_loop scanf_f fuel m1 s).map molecule.atoms =
        (parse_pdb_loop scanf_f fuel m2 s).map molecule.atoms := by
  induction fuel with
  | zero =>
    intro m1 m2 s h
    cases s with
    | nil => simp [parse_pdb_loop, h]
    | cons c r => simp [parse_pdb_loop]
  | succ fuel ih =>
    intro m1 m2 s h
    cases s with
    | nil => simp [parse_pdb_loop, h]
    | cons c r =>
      have hl := parse_pdb_line_atoms scanf_f m1 m2 (c :: r) h
      unfold parse_pdb_loop
      cases h1 : parse_pdb_line scanf_f m1 (c :: r) with
      | none =>
        rw [h1] at hl
        cases h2 : parse_pdb_line scanf_f m2 (c :: r) with
        | none => rfl
        | some b => rw [h2] at hl; simp at hl
      | some a =>
        rw [h1] at hl
        cases h2 : parse_pdb_line scanf_f m2 (c :: r) with
        | none => rw [h2] at hl; simp at hl
        | some b =>
          rw [h2] at hl
          simp only [Option.map_some', Option.some.injEq] at hl
          exact ih a b _ hl

theorem parse_pdb_data_atoms (scanf_f : List Char → Option (ℚ × List Char)) (m1 m2 : molecule)
    (s : List Char) (h : m1.atoms = m2.atoms) :
    (parse_pdb_data scanf_f m1 s).map molecule.atoms =
      (parse_pdb_data scanf_f m2 s).map molecule.atoms :=
  parse_pdb_loop_atoms scanf_f _ m1 m2 s h

theorem parse_pdb_file_loop_atoms (scanf_f : List Char → Option (ℚ × List Char)) (fuel : Nat) :
    ∀ (m1 m2 : molecule) (s : List Char), m1.atoms = m2.atoms →
      (parse_pdb_file_loop scanf_f fuel m1 s).map molecule.atoms =
        (parse_pdb_file_loop scanf_f fuel m2 s).map molecule.atoms := by
  induction fuel with
  | zero =>
    intro m1 m2 s h
    cases s with
    | nil => simp [parse_pdb_file_loop, h]
    | cons c r => simp [parse_pdb_file_loop]
  | succ fuel ih =>
    intro m1 m2 s h
    cases s with
    | nil => simp [parse_pdb_file_loop, h]
    | cons c r =>
      have hl := parse_pdb_data_atoms scanf_f m1 m2
        ((fgets (40960 - 1) (c :: r)).1.map return_to_newline) h
      unfold parse_pdb_file_loop
      cases h1 : parse_pdb_data scanf_f m1 ((fgets (40960 - 1) (c :: r)).1.map return_to_newline) with
      | none =>
        rw [h1] at hl
        cases h2 : parse_pdb_data scanf_f m2
            ((fgets (40960 - 1) (c :: r)).1.map return_to_newline) with
        | none => rfl
        | some b => rw [h2] at hl; simp at hl
      | some a =>
        rw [h1] at hl
        cases h2 : parse_pdb_data scanf_f m2
            ((fgets (40960 - 1) (c :: r)).1.map return_to_newline) with
        | none => rw [h2] at hl; simp at hl
        | some b =>
          rw [h2] at hl
          simp only [Option.map_some', Option.some.injEq] at hl
          exact ih a b _ hl

theorem map_defined_length {α β : Type} (f : α → Option β) (l : List α) :
    ∀ l1, map_defined f l = some l1 → l1.length = l.length := by
  induction l with
  | nil => intro l1 h; simp [map_defined] at h; subst h; rfl
  | cons a rest ih =>
    intro l1 h
    unfold map_defined at h
    cases ha : f a with
    | none => rw [ha] at h; cases h
    | some b =>
      rw [ha] at h
      cases hr : map_defined f rest with
      | none => rw [hr] at h; cases h
      | some bs =>
        rw [hr] at h
        simp only [Option.map_some', Option.some.injEq] at h
        subst h
        simp [ih bs hr]

theorem map_defined_getElem {α β : Type} (f : α → Option β) (l : List α) :
    ∀ l1, map_defined f l = some l1 → ∀ (i : Nat) (a : α), l[i]? = some a → f a = l1[i]? := by
  induction l with
  | nil => intro l1 _ i a hi; simp at hi
  | cons a0 rest ih =>
    intro l1 h i a hi
    unfold map_defined at h
    cases ha : f a0 with
    | none => rw [ha] at h; cases h
    | some b =>
      rw [ha] at h
      cases hr : map_defined f rest with
      | none => rw [hr] at h; cases h
      | some bs =>
        rw [hr] at h
        simp only [Option.map_some', Option.some.injEq] at h
        subst h
        cases i with
        | zero =>
          simp only [List.getElem?_cons_zero, Option.some.injEq] at hi
          subst hi
          simpa using ha
        | succ j =>
          simp only [List.getElem?_cons_succ] at hi ⊢
          exact ih bs hr j a hi

theorem map_defined_isSome {α β : Type} (f : α → Option β) (l : List α)
    (h : ∀ a ∈ l, ∃ b, f a = some b) : ∃ l1, map_defined f l = some l1 := by
  induction l with
  | nil => exact ⟨[], rfl⟩
  | cons a rest ih =>
    obtain ⟨b, hb⟩ := h a (List.mem_cons_self _ _)
    obtain ⟨bs, hbs⟩ := ih (fun x hx => h x (List.mem_cons_of_mem _ hx))
    exact ⟨b :: bs, by simp [map_defined, hb, hbs]⟩

theorem map_defined_bind {α β γ : Type} (f : α → Option β) (g : β → Option γ) (l : List α) :
    (map_defined f l).bind (map_defined g) = map_defined (fun a => (f a).bind g) l := by
  induction l with
  | nil => rfl
  | cons a rest ih =>
    unfold map_defined
    cases ha : f a with
    | none => simp
    | some b =>
      simp only [Option.some_bind]
      rw [← ih]
      cases hr : map_defined f rest with
      | none =>
        simp only [Option.map_none', Option.none_bind]
        cases g b <;> simp
      | some bs =>
        simp only [Option.map_some', Option.some_bind, map_defined]

theorem map_defined_append {α β : Type} (f : α → Option β) (l1 l2 : List α) :
    map_defined f (l1 ++ l2) =
      (map_defined f l1).bind (fun a => (map_defined f l2).map (fun b => a ++ b)) := by
  induction l1 with
  | nil =>
    simp only [List.nil_append, map_defined, Option.some_bind]
    cases map_defined f l2 <;> simp
  | cons a rest ih =>
    simp only [List.cons_append, map_defined]
    cases f a with
    | none => rfl
    | some b =>
      simp only
      rw [show rest.append l2 = rest ++ l2 from rfl, ih]
      cases map_defined f rest with
      | none => rfl
      | some bs =>
        simp only [Option.some_bind, Option.map_some']
        cases map_defined f l2 <;> simp

theorem map_defined_map {α β γ : Type} (f : β → Option γ) (g : α → β) (l : List α) :
    map_defined f (l.map g) = map_defined (fun a => f (g a)) l := by
  induction l with
  | nil => rfl
  | cons a rest ih => simp only [List.map_cons, map_defined, ih]

/-- What `parse_pdb_file` returns for a file read into an entry without atoms:
the value returned and the atoms are those of the file read on its own; when
the value is not 0 there is no atom and `do_bonds` is left as it is. -/
theorem parse_pdb_file_alone (fs : file_system) (scanf_f : List Char → Option (ℚ × List Char))
    (cur : molecule) (f : List Char) (b : Bool) (hc : cur.atoms = []) :
    (parse_pdb_file fs scanf_f cur f b = none → read_alone fs scanf_f f = none) ∧
    (∀ ret m b1, parse_pdb_file fs scanf_f cur f b = some (ret, m, b1) →
      read_alone fs scanf_f f = some (if ret = 0 then some m.atoms else none) ∧
      (ret ≠ 0 → m.atoms = [] ∧ b1 = b)) := by
  unfold read_alone parse_pdb_file
  cases hf : fs.fopen f with
  | none =>
    refine ⟨fun h => (by cases h), ?_⟩
    intro ret m b1 h
    simp only [Option.some.injEq, Prod.mk.injEq] at h
    obtain ⟨h1, h2, h3⟩ := h
    subst h1 h2 h3
    simp [hc]
  | some contents =>
    have hl := parse_pdb_file_loop_atoms scanf_f contents.length cur molecule.empty contents hc
    simp only
    cases h1 : parse_pdb_file_loop scanf_f contents.length cur contents with
    | none =>
      rw [h1] at hl
      cases h2 : parse_pdb_file_loop scanf_f contents.length molecule.empty contents with
      | none => simp
      | some m0 => rw [h2] at hl; simp at hl
    | some m1 =>
      rw [h1] at hl
      cases h2 : parse_pdb_file_loop scanf_f contents.length molecule.empty contents with
      | none => rw [h2] at hl; simp at hl
      | some m0 =>
        rw [h2] at hl
        simp only [Option.map_some', Option.some.injEq] at hl
        have hn : m0.natoms = m1.natoms := by unfold molecule.natoms; rw [hl]
        refine ⟨fun h => ?_, ?_⟩
        · simp only at h
          split at h
          · cases h
          · split at h <;> cases h
        · intro ret m b1 h
          simp only at h ⊢
          by_cases h0 : m1.natoms = 0
          · rw [if_pos h0] at h
            simp only [Option.some.injEq, Prod.mk.injEq] at h
            obtain ⟨h3, h4, h5⟩ := h
            subst h3 h4 h5
            rw [if_pos (hn.trans h0)]
            simp only [Option.map_some']
            have h6 : m1.atoms = [] := List.length_eq_zero.1 h0
            simp [h6]
          · rw [if_neg h0] at h
            have hret : ret = 0 ∧ m = m1 := by
              split at h <;>
              · simp only [Option.some.injEq, Prod.mk.injEq] at h
                exact ⟨h.1.symm, h.2.1.symm⟩
            obtain ⟨h3, h4⟩ := hret
            subst h3 h4
            rw [if_neg (by rw [hn]; exact h0)]
            refine ⟨?_, fun hne => absurd rfl hne⟩
            split <;> simp [hl]

/-- The atoms of the molecules that the loop of `load_molecules` over `files`
adds: those of the files that are accepted when read on their own, in order. -/
theorem load_files_atoms (fs : file_system) (scanf_f : List Char → Option (ℚ × List Char))
    (wire : Bool) (files : List (List Char)) :
    ∀ (cur : molecule) (mc : molecule_configuration), cur.atoms = [] →
      (load_files fs scanf_f wire files cur mc).map (fun mc1 => mc1.molecules.map molecule.atoms) =
        (map_defined (read_alone fs scanf_f) files).map
          (fun rs => mc.molecules.map molecule.atoms ++ rs.reduceOption) := by
  induction files with
  | nil =>
    intro cur mc _
    simp [load_files, map_defined]
  | cons f files ih =>
    intro cur mc hc
    obtain ⟨h1, h2⟩ := parse_pdb_file_alone fs scanf_f cur f mc.do_bonds hc
    unfold load_files map_defined
    cases hp : parse_pdb_file fs scanf_f cur f mc.do_bonds with
    | none => rw [h1 hp]; rfl
    | some r =>
      obtain ⟨ret, m, b1⟩ := r
      obtain ⟨h3, h4⟩ := h2 ret m b1 hp
      rw [h3]
      simp only
      by_cases h0 : ret = 0
      · rw [if_pos h0, if_pos h0, ih _ _ rfl]
        cases map_defined (read_alone fs scanf_f) files with
        | none => rfl
        | some rs => simp [List.reduceOption_cons_of_some]
      · rw [if_neg h0, if_neg h0, ih _ _ (h4 h0).1]
        cases map_defined (read_alone fs scanf_f) files with
        | none => rfl
        | some rs => simp [List.reduceOption_cons_of_none]

theorem raw_formula_atoms (m1 m2 : molecule) (h : m1.atoms = m2.atoms) :
    raw_formula m1 = raw_formula m2 := by
  unfold raw_formula molecule.natoms
  rw [h]

theorem annotate_molecule_atoms (m1 m2 : molecule) (h : m1.atoms = m2.atoms) :
    (annotate_molecule m1).map molecule.atoms = (annotate_molecule m2).map molecule.atoms := by
  unfold annotate_molecule generate_molecule_formula molecule_formula
  rw [raw_formula_atoms m1 m2 h]
  cases raw_formula m2 with
  | none => rfl
  | some buf => simp [h]

theorem map_defined_annotate_atoms (l1 : List molecule) :
    ∀ l2 : List molecule, l1.map molecule.atoms = l2.map molecule.atoms →
      (map_defined annotate_molecule l1).map (List.map molecule.atoms) =
        (map_defined annotate_molecule l2).map (List.map molecule.atoms) := by
  induction l1 with
  | nil =>
    intro l2 h
    cases l2 with
    | nil => rfl
    | cons b r => simp at h
  | cons a rest ih =>
    intro l2 h
    cases l2 with
    | nil => simp at h
    | cons b r =>
      simp only [List.map_cons, List.cons.injEq] at h
      have h1 := annotate_molecule_atoms a b h.1
      have h2 := ih r h.2
      unfold map_defined
      cases ha : annotate_molecule a with
      | none =>
        rw [ha] at h1
        cases hb : annotate_molecule b with
        | none => rfl
        | some b1 => rw [hb] at h1; simp at h1
      | some a1 =>
        rw [ha] at h1
        cases hb : annotate_molecule b with
        | none => rw [hb] at h1; simp at h1
        | some b1 =>
          rw [hb] at h1
          simp only [Option.map_some', Option.some.injEq] at h1
          simp only
          cases hr1 : map_defined annotate_molecule rest with
          | none =>
            rw [hr1] at h2
            cases hr2 : map_defined annotate_molecule r with
            | none => rfl
            | some x => rw [hr2] at h2; simp at h2
          | some x =>
            rw [hr1] at h2
            cases hr2 : map_defined annotate_molecule r with
            | none => rw [hr2] at h2; simp at h2
            | some y =>
              rw [hr2] at h2
              simp only [Option.map_some', Option.some.injEq] at h2
              simp [h1, h2]

theorem annotate_molecule_atoms_eq (m m1 : molecule) (h : annotate_molecule m = some m1) :
    m1.atoms = m.atoms := by
  unfold annotate_molecule generate_molecule_formula at h
  cases hf : molecule_formula m with
  | none => rw [hf] at h; simp at h
  | some buf =>
    rw [hf] at h
    simp only [Option.map_some', Option.some.injEq] at h
    rw [← h]

/-- The atoms of the catalog that `load_molecules` returns depend only on the
atoms of the molecules read from the external files. -/
theorem load_rest_atoms (builtin_pdb_data : List (List Char))
    (scanf_f : List Char → Option (ℚ × List Char)) (mc1 mc2 : molecule_configuration)
    (h : mc1.molecules.map molecule.atoms = mc2.molecules.map molecule.atoms) :
    catalog_atoms ((load_builtins builtin_pdb_data scanf_f mc1).bind annotate_molecules) =
      catalog_atoms ((load_builtins builtin_pdb_data scanf_f mc2).bind annotate_molecules) := by
  have hlen : mc1.nmolecules = mc2.nmolecules := by
    have := congrArg List.length h
    simpa [molecule_configuration.nmolecules] using this
  unfold load_builtins
  rw [hlen]
  by_cases h0 : mc2.nmolecules = 0
  · rw [if_pos h0, if_pos h0]
    cases map_defined (parse_pdb_data scanf_f molecule.empty) builtin_pdb_data with
    | none => rfl
    | some ms =>
      simp only [outcome.bind, annotate_molecules]
      cases map_defined annotate_molecule ms <;> rfl
  · rw [if_neg h0, if_neg h0]
    have key := map_defined_annotate_atoms mc1.molecules mc2.molecules h
    simp only [outcome.bind, annotate_molecules]
    cases h1 : map_defined annotate_molecule mc1.molecules with
    | none =>
      rw [h1] at key
      cases h2 : map_defined annotate_molecule mc2.molecules with
      | none => rfl
      | some y => rw [h2] at key; simp at key
    | some x =>
      rw [h1] at key
      cases h2 : map_defined annotate_molecule mc2.molecules with
      | none => rw [h2] at key; simp at key
      | some y =>
        rw [h2] at key
        simp only [Option.map_some', Option.some.injEq] at key
        simp only [catalog_atoms, outcome.bind, key]

theorem fgets_chars_append (n : Nat) :
    ∀ s : List Char, (fgets_chars n s).1 ++ (fgets_chars n s).2 = s := by
  induction n with
  | zero => intro s; simp [fgets_chars]
  | succ n ih =>
    intro s
    cases s with
    | nil => simp [fgets_chars]
    | cons c r =>
      unfold fgets_chars
      split
      · simp
      · simp [ih r]

theorem fgets_chars_length (n : Nat) :
    ∀ (c : Char) (r : List Char), (fgets_chars (n + 1) (c :: r)).2.length ≤ r.length := by
  induction n with
  | zero =>
    intro c r
    unfold fgets_chars
    split
    · simp
    · cases r <;> simp [fgets_chars]
  | succ n ih =>
    intro c r
    unfold fgets_chars
    split
    · simp
    · cases r with
      | nil => simp [fgets_chars]
      | cons d r1 =>
        have := ih d r1
        simp only [List.length_cons]
        omega

/-- The loop of `parse_pdb_file` does not run out of iterations: any bound
from the length of the file on gives the same result. -/
theorem parse_pdb_file_loop_fuel (scanf_f : List Char → Option (ℚ × List Char)) (n : Nat) :
    ∀ (s : List Char) (m : molecule) (f1 f2 : Nat), s.length ≤ n → s.length ≤ f1 →
      s.length ≤ f2 →
      parse_pdb_file_loop scanf_f f1 m s = parse_pdb_file_loop scanf_f f2 m s := by
  induction n with
  | zero =>
    intro s m f1 f2 hn _ _
    cases s with
    | nil => simp [parse_pdb_file_loop]
    | cons c r => simp at hn
  | succ n ih =>
    intro s m f1 f2 hn h1 h2
    cases s with
    | nil => simp [parse_pdb_file_loop]
    | cons c r =>
      cases f1 with
      | zero => simp at h1
      | succ f1 =>
        cases f2 with
        | zero => simp at h2
        | succ f2 =>
          simp only [parse_pdb_file_loop]
          cases parse_pdb_data scanf_f m ((fgets (40960 - 1) (c :: r)).1.map return_to_newline) with
          | none => rfl
          | some m1 =>
            have hl : (fgets (40960 - 1) (c :: r)).2.length ≤ r.length :=
              fgets_chars_length 40957 c r
            simp only [List.length_cons] at hn h1 h2
            exact ih _ m1 f1 f2 (by omega) (by omega) (by omega)

theorem next_line_suffix (s : List Char) : next_line s <:+ s := by
  induction s with
  | nil => simp [next_line]
  | cons c r ih =>
    simp only [next_line]
    split
    · exact List.suffix_cons c r
    · exact ih.trans (List.suffix_cons c r)

theorem parse_pdb_line_no_atom (scanf_f : List Char → Option (ℚ × List Char)) (m m1 : molecule)
    (s : List Char) (h1 : strncmp_eq s "ATOM   ".toList = false)
    (h2 : strncmp_eq s "HETATM ".toList = false) (h : parse_pdb_line scanf_f m s = some m1) :
    m1.atoms = m.atoms := by
  unfold parse_pdb_line at h
  rw [h1, h2] at h
  simp only [Bool.false_eq_true, if_false] at h
  split at h
  · injection h with h; rw [← h]
  split at h
  · injection h with h; rw [← h]
  split at h
  · have := parse_conect_atoms m m s rfl
    unfold parse_conect at h
    split at h
    · cases h
    · split at h
      · cases h
      · injection h with h; rw [← h]
      · split at h
        · cases h
        · injection h with h
          rw [← h]
          exact conect_bonds_atoms _ _ _
  · injection h with h; rw [← h]

theorem parse_pdb_loop_no_atom (scanf_f : List Char → Option (ℚ × List Char)) (fuel : Nat) :
    ∀ (m m1 : molecule) (s : List Char),
      (∀ t, t <:+ s → strncmp_eq t "ATOM   ".toList = false ∧
        strncmp_eq t "HETATM ".toList = false) →
      parse_pdb_loop scanf_f fuel m s = some m1 → m1.atoms = m.atoms := by
  induction fuel with
  | zero =>
    intro m m1 s _ h
    cases s with
    | nil => simp only [parse_pdb_loop] at h; injection h with h; rw [← h]
    | cons c r => simp [parse_pdb_loop] at h
  | succ fuel ih =>
    intro m m1 s hs h
    cases s with
    | nil => simp only [parse_pdb_loop] at h; injection h with h; rw [← h]
    | cons c r =>
      unfold parse_pdb_loop at h
      cases hl : parse_pdb_line scanf_f m (c :: r) with
      | none => rw [hl] at h; cases h
      | some m2 =>
        rw [hl] at h
        have h2 := parse_pdb_line_no_atom scanf_f m m2 (c :: r)
          (hs _ (List.suffix_refl _)).1 (hs _ (List.suffix_refl _)).2 hl
        have h3 := ih m2 m1 (next_line (c :: r))
          (fun t ht => hs t (ht.trans (next_line_suffix _))) h
        exact h3.trans h2

theorem strncmp_eq_false_of_absent (pat chunk t : List Char) (hp : ¬ pat <:+: chunk)
    (ht : t <:+ chunk) : strncmp_eq t pat = false := by
  cases h : strncmp_eq t pat with
  | false => rfl
  | true =>
    exfalso
    apply hp
    unfold strncmp_eq at h
    have h1 : pat <+: t := List.isPrefixOf_iff_prefix.1 h
    exact h1.isInfix.trans ht.isInfix

/-- A file in which neither `ATOM   ` nor `HETATM ` occurs, once its carriage
returns are newlines, gives no atom. -/
theorem parse_pdb_file_loop_no_atom (scanf_f : List Char → Option (ℚ × List Char)) (fuel : Nat) :
    ∀ (m m1 : molecule) (s : List Char),
      ¬ "ATOM   ".toList <:+: s.map return_to_newline →
      ¬ "HETATM ".toList <:+: s.map return_to_newline →
      parse_pdb_file_loop scanf_f fuel m s = some m1 → m1.atoms = m.atoms := by
  induction fuel with
  | zero =>
    intro m m1 s _ _ h
    cases s with
    | nil => simp only [parse_pdb_file_loop] at h; injection h with h; rw [← h]
    | cons c r => simp [parse_pdb_file_loop] at h
  | succ fuel ih =>
    intro m m1 s hA hH h
    cases s with
    | nil => simp only [parse_pdb_file_loop] at h; injection h with h; rw [← h]
    | cons c r =>
      unfold parse_pdb_file_loop at h
      have happ : (fgets (40960 - 1) (c :: r)).1 ++ (fgets (40960 - 1) (c :: r)).2 = c :: r :=
        fgets_chars_append _ _
      have hmap : (c :: r).map return_to_newline =
          (fgets (40960 - 1) (c :: r)).1.map return_to_newline ++
            (fgets (40960 - 1) (c :: r)).2.map return_to_newline := by
        rw [← List.map_append, happ]
      have hpre : (fgets (40960 - 1) (c :: r)).1.map return_to_newline <:+:
          (c :: r).map return_to_newline := by
        rw [hmap]; exact (List.prefix_append _ _).isInfix
      have hsuf : (fgets (40960 - 1) (c :: r)).2.map return_to_newline <:+:
          (c :: r).map return_to_newline := by
        rw [hmap]; exact (List.suffix_append _ _).isInfix
      cases hd : parse_pdb_data scanf_f m
          ((fgets (40960 - 1) (c :: r)).1.map return_to_newline) with
      | none => rw [hd] at h; cases h
      | some m2 =>
        rw [hd] at h
        have h2 : m2.atoms = m.atoms :=
          parse_pdb_loop_no_atom scanf_f _ m m2 _
            (fun t ht => ⟨strncmp_eq_false_of_absent _ _ t (fun hc => hA (hc.trans hpre)) ht,
              strncmp_eq_false_of_absent _ _ t (fun hc => hH (hc.trans hpre)) ht⟩) hd
        have h3 := ih m2 m1 _ (fun hc => hA (hc.trans hsuf)) (fun hc => hH (hc.trans hsuf)) h
        exact h3.trans h2

theorem read_alone_no_atom (fs : file_system) (scanf_f : List Char → Option (ℚ × List Char))
    (name contents : List Char) (hf : fs.fopen name = some contents)
    (hA : ¬ "ATOM   ".toList <:+: contents.map return_to_newline)
    (hH : ¬ "HETATM ".toList <:+: contents.map return_to_newline) :
    read_alone fs scanf_f name = none ∨ read_alone fs scanf_f name = some none := by
  unfold read_alone parse_pdb_file
  rw [hf]
  simp only
  cases h : parse_pdb_file_loop scanf_f contents.length molecule.empty contents with
  | none => exact Or.inl rfl
  | some m1 =>
    right
    have h1 : m1.atoms = [] := parse_pdb_file_loop_no_atom scanf_f _ _ _ _ hA hH h
    have h2 : m1.natoms = 0 := by unfold molecule.natoms; rw [h1]; rfl
    simp [h2]

theorem load_external_builtin (fs : file_system) (scanf_f : List Char → Option (ℚ × List Char))
    (mc : molecule_configuration)
    (h : mc.molecule_str = none ∨ mc.molecule_str = some [] ∨
      mc.molecule_str = some "(default)".toList) :
    load_external fs scanf_f mc = .ok { mc with molecules := [] } := by
  unfold load_external
  rcases h with h | h | h
  · rw [h]
  · rw [h]; simp
  · rw [h]
    simp only
    rw [if_pos (Or.inr (strcmp_self _))]

theorem load_external_path (fs : file_system) (scanf_f : List Char → Option (ℚ × List Char))
    (mc : molecule_configuration) (str : List Char) (h : mc.molecule_str = some str)
    (h1 : str ≠ []) (h2 : str ≠ "(default)".toList) :
    load_external fs scanf_f mc =
      (external_files fs str).bind (fun files =>
        match load_files fs scanf_f mc.wire files molecule.empty { mc with molecules := [] } with
        | none => .undefined
        | some mc1 => .ok mc1) := by
  unfold load_external
  rw [h]
  simp only
  rw [if_neg]
  intro hc
  rcases hc with hc | hc
  · exact h1 hc
  · exact h2 ((strcmp_eq_zero _ _).1 hc)

theorem reduceOption_length_countP {α β : Type} (f : α → Option (Option β)) (l : List α) :
    ∀ rs, map_defined f l = some rs →
      rs.reduceOption.length = l.countP (fun a =>
        match f a with
        | some (some _) => true
        | _ => false) := by
  induction l with
  | nil => intro rs h; simp [map_defined] at h; subst h; rfl
  | cons a rest ih =>
    intro rs h
    unfold map_defined at h
    cases ha : f a with
    | none => rw [ha] at h; cases h
    | some b =>
      rw [ha] at h
      cases hr : map_defined f rest with
      | none => rw [hr] at h; cases h
      | some bs =>
        rw [hr] at h
        simp only [Option.map_some', Option.some.injEq] at h
        subst h
        have := ih bs hr
        cases b with
        | none => simp [List.reduceOption_cons_of_none, List.countP_cons, ha, this]
        | some x => simp [List.reduceOption_cons_of_some, List.countP_cons, ha, this]

/-- The test of `load_molecules` on a directory entry, in words: the name has
more than four characters and its last four are `.pdb` when case is ignored. -/
theorem pdb_name_iff (d_name : List Char) :
    pdb_name d_name = true ↔
      4 < d_name.length ∧ eq_ignoring_case (d_name.drop (d_name.length - 4)) ".pdb".toList := by
  unfold pdb_name eq_ignoring_case strcasecmp
  simp only [Bool.and_eq_true, decide_eq_true_eq, strcmp_eq_zero]

theorem outcome_bind_assoc {α β γ : Type} (o : outcome α) (f : α → outcome β)
    (g : β → outcome γ) : (o.bind f).bind g = o.bind (fun a => (f a).bind g) := by
  cases o <;> rfl

theorem read_alone_fopen (fs fs2 : file_system) (scanf_f : List Char → Option (ℚ × List Char))
    (h : fs2.fopen = fs.fopen) : read_alone fs2 scanf_f = read_alone fs scanf_f := by
  funext name
  unfold read_alone parse_pdb_file
  rw [h]

theorem reduceOption_skip {β : Type} (f : List Char → Option (Option β))
    (l1 l2 : List (List Char)) (d : List Char) (hd : f d = some none) :
    (map_defined f (l1 ++ d :: l2)).map List.reduceOption =
      (map_defined f (l1 ++ l2)).map List.reduceOption := by
  rw [map_defined_append, map_defined_append]
  cases map_defined f l1 with
  | none => rfl
  | some a =>
    simp only [Option.some_bind, map_defined, hd]
    cases map_defined f l2 with
    | none => rfl
    | some b =>
      simp [List.reduceOption_append, List.reduceOption_cons_of_none]

/-- The atoms of the catalog are the same whether or not the directory lists an
entry whose file, read on its own, is rejected. -/
theorem load_external_skip (fs fs2 : file_system) (scanf_f : List Char → Option (ℚ × List Char))
    (mc : molecule_configuration) (dir d : List Char) (e1 e2 : List (List Char))
    (hstr : mc.molecule_str = some dir) (h1 : dir ≠ []) (h2 : dir ≠ "(default)".toList)
    (hd1 : fs.is_dir dir = true) (hd2 : fs2.is_dir dir = true) (hf : fs2.fopen = fs.fopen)
    (ho1 : fs.opendir dir = some (e1 ++ d :: e2)) (ho2 : fs2.opendir dir = some (e1 ++ e2))
    (hr : read_alone fs scanf_f (file_path dir d) = some none) :
    (load_external fs scanf_f mc = .undefined ∧ load_external fs2 scanf_f mc = .undefined) ∨
    ∃ mc1 mc2, load_external fs scanf_f mc = .ok mc1 ∧ load_external fs2 scanf_f mc = .ok mc2 ∧
      mc1.molecules.map molecule.atoms = mc2.molecules.map molecule.atoms := by
  rw [load_external_path fs scanf_f mc dir hstr h1 h2,
    load_external_path fs2 scanf_f mc dir hstr h1 h2]
  unfold external_files
  rw [hd1, hd2, ho1, ho2]
  simp only [if_true, outcome.bind]
  have a1 := load_files_atoms fs scanf_f mc.wire (directory_files dir (e1 ++ d :: e2))
    molecule.empty { mc with molecules := [] } rfl
  have a2 := load_files_atoms fs2 scanf_f mc.wire (directory_files dir (e1 ++ e2))
    molecule.empty { mc with molecules := [] } rfl
  rw [read_alone_fopen fs fs2 scanf_f hf] at a2
  have hfiles : (map_defined (read_alone fs scanf_f) (directory_files dir (e1 ++ d :: e2))).map
      List.reduceOption =
      (map_defined (read_alone fs scanf_f) (directory_files dir (e1 ++ e2))).map
        List.reduceOption := by
    unfold directory_files
    by_cases hp : pdb_name d = true
    · rw [List.filter_append, List.filter_cons_of_pos hp, List.map_append, List.map_cons,
        List.filter_append, List.map_append]
      exact reduceOption_skip _ _ _ _ hr
    · rw [List.filter_append, List.filter_cons_of_neg hp, List.filter_append]
  simp only [List.map_nil, List.nil_append] at a1 a2
  have a3 : (load_files fs scanf_f mc.wire (directory_files dir (e1 ++ d :: e2))
      molecule.empty { mc with molecules := [] }).map (fun mc1 => mc1.molecules.map molecule.atoms) =
      (load_files fs2 scanf_f mc.wire (directory_files dir (e1 ++ e2))
      molecule.empty { mc with molecules := [] }).map (fun mc1 => mc1.molecules.map molecule.atoms) := by
    rw [a1, a2]
    exact hfiles
  cases hl1 : load_files fs scanf_f mc.wire (directory_files dir (e1 ++ d :: e2))
      molecule.empty { mc with molecules := [] } with
  | none =>
    rw [hl1] at a3
    cases hl2 : load_files fs2 scanf_f mc.wire (directory_files dir (e1 ++ e2))
        molecule.empty { mc with molecules := [] } with
    | none => exact Or.inl ⟨rfl, rfl⟩
    | some y => rw [hl2] at a3; simp at a3
  | some x =>
    rw [hl1] at a3
    cases hl2 : load_files fs2 scanf_f mc.wire (directory_files dir (e1 ++ e2))
        molecule.empty { mc with molecules := [] } with
    | none => rw [hl2] at a3; simp at a3
    | some y =>
      rw [hl2] at a3
      simp only [Option.map_some', Option.some.injEq] at a3
      exact Or.inr ⟨x, y, rfl, rfl, a3⟩

/-! ## Claims C15 to C18: the catalog -/

theorem load_molecules_eq_ok (fs : file_system) (builtin_pdb_data : List (List Char))
    (scanf_f : List Char → Option (ℚ × List Char)) (mc mc1 : molecule_configuration)
    (h : load_molecules fs builtin_pdb_data scanf_f mc = .ok mc1) :
    ∃ mc0 ms ms1, load_external fs scanf_f mc = .ok mc0 ∧
      (if mc0.nmolecules = 0 then
        map_defined (parse_pdb_data scanf_f molecule.empty) builtin_pdb_data = some ms
       else ms = mc0.molecules) ∧
      map_defined annotate_molecule ms = some ms1 ∧ mc1 = { mc0 with molecules := ms1 } := by
  unfold load_molecules at h
  simp only [outcome_bind_eq_ok] at h
  obtain ⟨mc2, ⟨mc0, h0, h2⟩, h3⟩ := h
  unfold load_builtins at h2
  unfold annotate_molecules at h3
  cases ha : map_defined annotate_molecule mc2.molecules with
  | none => rw [ha] at h3; cases h3
  | some ms1 =>
    rw [ha] at h3
    injection h3 with h3
    by_cases hz : mc0.nmolecules = 0
    · rw [if_pos hz] at h2
      cases hb : map_defined (parse_pdb_data scanf_f molecule.empty) builtin_pdb_data with
      | none => rw [hb] at h2; cases h2
      | some ms =>
        rw [hb] at h2
        injection h2 with h2
        subst h2
        exact ⟨mc0, ms, ms1, h0, by rw [if_pos hz], ha, h3.symm⟩
    · rw [if_neg hz] at h2
      injection h2 with h2
      subst h2
      exact ⟨mc0, mc0.molecules, ms1, h0, by rw [if_neg hz], ha, h3.symm⟩

/-- C15: when `molecule_str` is NULL, empty or `(default)`, the external
files give no molecule; and whenever they give none, the catalog that
`load_molecules` returns has as many molecules as `builtin_pdb_data` has
entries, molecule `i` being entry `i` read by `parse_pdb_data` into a
zero-filled molecule and then given its formula, and `load_molecules` does
return when every entry can be read and given a formula.  With a table that is
not empty, no catalog that `load_molecules` returns is empty. -/
theorem load_molecules_builtin (fs : file_system) (builtin_pdb_data : List (List Char))
    (scanf_f : List Char → Option (ℚ × List Char)) (mc : molecule_configuration) :
    ((mc.molecule_str = none ∨ mc.molecule_str = some [] ∨
        mc.molecule_str = some "(default)".toList) →
      load_external fs scanf_f mc = .ok { mc with molecules := [] }) ∧
    (∀ mc0, load_external fs scanf_f mc = .ok mc0 → mc0.nmolecules = 0 →
      (∀ mc1, load_molecules fs builtin_pdb_data scanf_f mc = .ok mc1 →
        mc1.nmolecules = builtin_pdb_data.length ∧
        (∀ (i : Nat) (blob : List Char), builtin_pdb_data[i]? = some blob →
          ∃ m, parse_pdb_data scanf_f molecule.empty blob = some m ∧
            annotate_molecule m = mc1.molecules[i]?) ∧
        mc1 = { mc0 with molecules := mc1.molecules }) ∧
      ((∀ blob ∈ builtin_pdb_data, ∃ m m1,
          parse_pdb_data scanf_f molecule.empty blob = some m ∧ annotate_molecule m = some m1) →
        ∃ mc1, load_molecules fs builtin_pdb_data scanf_f mc = .ok mc1)) ∧
    (∀ mc1, load_molecules fs builtin_pdb_data scanf_f mc = .ok mc1 → builtin_pdb_data ≠ [] →
      mc1.nmolecules ≠ 0) := by
  refine ⟨load_external_builtin fs scanf_f mc, ?_, ?_⟩
  · intro mc0 h0 hz
    constructor
    · intro mc1 h
      obtain ⟨mc0', ms, ms1, h0', hms, hms1, rfl⟩ := load_molecules_eq_ok _ _ _ _ _ h
      rw [h0] at h0'
      injection h0' with h0'
      subst h0'
      rw [if_pos hz] at hms
      have l1 := map_defined_length _ _ _ hms
      have l2 := map_defined_length _ _ _ hms1
      refine ⟨by show ms1.length = _; rw [l2, l1], ?_, rfl⟩
      intro i blob hi
      have g1 := map_defined_getElem _ _ _ hms i blob hi
      have hlt : i < ms.length := by
        rw [l1]
        exact (List.getElem?_eq_some.1 hi).1
      have g2 : ms[i]? = some ms[i] := List.getElem?_eq_getElem hlt
      refine ⟨ms[i], g1.trans g2, ?_⟩
      exact map_defined_getElem _ _ _ hms1 i ms[i] g2
    · intro hall
      have hfused : ∃ l, map_defined (fun blob =>
          (parse_pdb_data scanf_f molecule.empty blob).bind annotate_molecule)
          builtin_pdb_data = some l := by
        apply map_defined_isSome
        intro blob hb
        obtain ⟨m, m1, h1, h2⟩ := hall blob hb
        exact ⟨m1, by rw [h1]; exact h2⟩
      obtain ⟨l, hl⟩ := hfused
      rw [← map_defined_bind] at hl
      cases hms : map_defined (parse_pdb_data scanf_f molecule.empty) builtin_pdb_data with
      | none => rw [hms] at hl; cases hl
      | some ms =>
        rw [hms] at hl
        simp only [Option.some_bind] at hl
        refine ⟨{ mc0 with molecules := l }, ?_⟩
        unfold load_molecules
        rw [h0]
        simp only [outcome.bind, load_builtins, if_pos hz, hms, annotate_molecules, hl]
  · intro mc1 h hne
    obtain ⟨mc0, ms, ms1, _, hms, hms1, rfl⟩ := load_molecules_eq_ok _ _ _ _ _ h
    have l2 := map_defined_length _ _ _ hms1
    show ms1.length ≠ 0
    rw [l2]
    by_cases hz : mc0.nmolecules = 0
    · rw [if_pos hz] at hms
      rw [map_defined_length _ _ _ hms]
      exact fun hc => hne (List.length_eq_zero.1 hc)
    · rw [if_neg hz] at hms
      rw [hms]
      exact hz

theorem load_molecules_builtin_witness :
    ∃ mc1, load_molecules (small_file_system [] [] []) [atoms_file] scan_decimal
        default_configuration = .ok mc1 ∧
      mc1.nmolecules = 1 ∧ mc1.molecules[0]? = some atoms_molecule := by
  obtain ⟨h1, h2, _⟩ := load_molecules_builtin (small_file_system [] [] []) [atoms_file]
    scan_decimal default_configuration
  have h0 := h1 (Or.inr (Or.inr rfl))
  obtain ⟨g1, g2⟩ := h2 _ h0 rfl
  have hp : parse_pdb_data scan_decimal molecule.empty atoms_file =
      some { atoms_molecule with label := none } := by decide
  have ha : annotate_molecule { atoms_molecule with label := none } = some atoms_molecule := by
    decide
  obtain ⟨mc1, hm⟩ := g2 (by
    intro blob hb
    rw [List.mem_singleton] at hb
    subst hb
    exact ⟨_, _, hp, ha⟩)
  obtain ⟨k1, k2, _⟩ := g1 mc1 hm
  obtain ⟨m, k3, k4⟩ := k2 0 atoms_file rfl
  rw [hp] at k3
  injection k3 with k3
  subst k3
  exact ⟨mc1, hm, k1, k4.symm.trans ha⟩


theorem load_rest_ne_exit (builtin_pdb_data : List (List Char))
    (scanf_f : List Char → Option (ℚ × List Char)) (mc : molecule_configuration) :
    (load_builtins builtin_pdb_data scanf_f mc).bind annotate_molecules ≠ .exit := by
  unfold load_builtins annotate_molecules
  by_cases hz : mc.nmolecules = 0
  · rw [if_pos hz]
    cases map_defined (parse_pdb_data scanf_f molecule.empty) builtin_pdb_data with
    | none => simp [outcome.bind]
    | some ms =>
      simp only [outcome.bind]
      cases map_defined annotate_molecule ms <;> simp
  · rw [if_neg hz]
    simp only [outcome.bind]
    cases map_defined annotate_molecule mc.molecules <;> simp

/-- C16, as stated, fails in single-file mode: the path names the file
`a.pdb`, which holds one CONECT record and nothing else, and the table of
built-in molecules has one entry.  `load_molecules` returns, and the catalog is
the built-in molecule. -/
theorem load_molecules_single_file_counterexample :
    (load_molecules (small_file_system [] [] [("a.pdb".toList, conect_file)]) [atoms_file]
      scan_decimal { default_configuration with molecule_str := some "a.pdb".toList }).result.map
      (fun mc => mc.molecules) = some [atoms_molecule] := by
  decide

/-- C16, amended.  A file in which no atom record occurs (neither `ATOM   `
nor `HETATM ` once carriage returns are newlines) is rejected by
`parse_pdb_file` wherever the parser is defined on it.  When the path names a
single file that is rejected, `load_molecules` is not fatal: it goes on as it
does without external file, with the built-in molecules.  When a rejected file
is an entry of a directory, `load_molecules` does not exit, and the catalog has
the same molecules, atom for atom, as for the directory without that entry. -/
theorem load_molecules_no_atom_file (fs : file_system) (builtin_pdb_data : List (List Char))
    (scanf_f : List Char → Option (ℚ × List Char)) (mc : molecule_configuration) :
    (∀ name contents, fs.fopen name = some contents →
      ¬ "ATOM   ".toList <:+: contents.map return_to_newline →
      ¬ "HETATM ".toList <:+: contents.map return_to_newline →
      read_alone fs scanf_f name = none ∨ read_alone fs scanf_f name = some none) ∧
    (∀ path, mc.molecule_str = some path → path ≠ [] → path ≠ "(default)".toList →
      fs.is_dir path = false → read_alone fs scanf_f path = some none →
      load_molecules fs builtin_pdb_data scanf_f mc =
        (load_builtins builtin_pdb_data scanf_f { mc with molecules := [] }).bind
          annotate_molecules) ∧
    (∀ (fs2 : file_system) (dir d : List Char) (e1 e2 : List (List Char)),
      mc.molecule_str = some dir → dir ≠ [] → dir ≠ "(default)".toList →
      fs.is_dir dir = true → fs2.is_dir dir = true → fs2.fopen = fs.fopen →
      fs.opendir dir = some (e1 ++ d :: e2) → fs2.opendir dir = some (e1 ++ e2) →
      read_alone fs scanf_f (file_path dir d) = some none →
      load_molecules fs builtin_pdb_data scanf_f mc ≠ .exit ∧
      catalog_atoms (load_molecules fs builtin_pdb_data scanf_f mc) =
        catalog_atoms (load_molecules fs2 builtin_pdb_data scanf_f mc)) := by
  refine ⟨fun name contents => read_alone_no_atom fs scanf_f name contents, ?_, ?_⟩
  · intro path hstr h1 h2 hd hr
    unfold load_molecules
    rw [load_external_path fs scanf_f mc path hstr h1 h2]
    unfold external_files
    rw [hd]
    simp only [Bool.false_eq_true, if_false, outcome.bind]
    obtain ⟨k1, k2⟩ := parse_pdb_file_alone fs scanf_f molecule.empty path mc.do_bonds rfl
    cases hp : parse_pdb_file fs scanf_f molecule.empty path mc.do_bonds with
    | none => rw [k1 hp] at hr; cases hr
    | some r =>
      obtain ⟨ret, m, b1⟩ := r
      obtain ⟨k3, k4⟩ := k2 ret m b1 hp
      rw [hr] at k3
      have hret : ret ≠ 0 := by
        intro h0
        rw [if_pos h0] at k3
        cases k3
      obtain ⟨_, k5⟩ := k4 hret
      subst k5
      have hl : load_files fs scanf_f mc.wire [path] molecule.empty { mc with molecules := [] } =
          some { mc with molecules := [] } := by
        simp only [load_files]
        rw [show ({ mc with molecules := [] } : molecule_configuration).do_bonds = mc.do_bonds
          from rfl, hp]
        simp only [if_neg hret]
      rw [hl]
  · intro fs2 dir d e1 e2 hstr h1 h2 hd1 hd2 hf ho1 ho2 hr
    unfold load_molecules
    rw [outcome_bind_assoc, outcome_bind_assoc]
    rcases load_external_skip fs fs2 scanf_f mc dir d e1 e2 hstr h1 h2 hd1 hd2 hf ho1 ho2 hr with
      ⟨u1, u2⟩ | ⟨mc1, mc2, u1, u2, u3⟩
    · rw [u1, u2]
      exact ⟨fun h => (by cases h), rfl⟩
    · rw [u1, u2]
      simp only [outcome.bind]
      exact ⟨load_rest_ne_exit builtin_pdb_data scanf_f mc1,
        load_rest_atoms builtin_pdb_data scanf_f mc1 mc2 u3⟩

theorem load_molecules_no_atom_file_witness :
    read_alone (small_file_system [] [] [("a.pdb".toList, conect_file)]) scan_decimal
      "a.pdb".toList = some none ∧
    load_molecules (small_file_system [] [] [("a.pdb".toList, conect_file)]) [atoms_file]
        scan_decimal { default_configuration with molecule_str := some "a.pdb".toList } =
      (load_builtins [atoms_file] scan_decimal
        { default_configuration with molecule_str := some "a.pdb".toList, molecules := [] }).bind
        annotate_molecules ∧
    catalog_atoms (load_molecules
        (small_file_system "d".toList ["a.pdb".toList, "b.pdb".toList]
          [("d/a.pdb".toList, conect_file), ("d/b.pdb".toList, atoms_file)])
        [] scan_decimal { default_configuration with molecule_str := some "d".toList }) =
      catalog_atoms (load_molecules
        (small_file_system "d".toList ["b.pdb".toList]
          [("d/a.pdb".toList, conect_file), ("d/b.pdb".toList, atoms_file)])
        [] scan_decimal { default_configuration with molecule_str := some "d".toList }) :=
  ⟨by decide,
   (load_molecules_no_atom_file (small_file_system [] [] [("a.pdb".toList, conect_file)])
      [atoms_file] scan_decimal
      { default_configuration with molecule_str := some "a.pdb".toList }).2.1
      "a.pdb".toList rfl (by decide) (by decide) (by decide) (by decide),
   ((load_molecules_no_atom_file
      (small_file_system "d".toList ["a.pdb".toList, "b.pdb".toList]
        [("d/a.pdb".toList, conect_file), ("d/b.pdb".toList, atoms_file)])
      [] scan_decimal { default_configuration with molecule_str := some "d".toList }).2.2
      (small_file_system "d".toList ["b.pdb".toList]
        [("d/a.pdb".toList, conect_file), ("d/b.pdb".toList, atoms_file)])
      "d".toList "a.pdb".toList [] ["b.pdb".toList] rfl (by decide) (by decide) (by decide)
      (by decide) rfl (by decide) (by decide) (by decide)).2⟩

/-- C17, as stated, fails for a directory without a file that loads: the
directory `d` holds the entry `notes.txt` only, so no entry parses with at least
one atom, and the table of built-in molecules has one entry.  The catalog that
`load_molecules` returns has one molecule, not zero. -/
theorem load_molecules_directory_counterexample :
    (directory_files "d".toList ["notes.txt".toList]).countP
      (loads (small_file_system "d".toList ["notes.txt".toList]
        [("d/notes.txt".toList, atoms_file)]) scan_decimal) = 0 ∧
    (load_molecules
      (small_file_system "d".toList ["notes.txt".toList] [("d/notes.txt".toList, atoms_file)])
      [atoms_file] scan_decimal
      { default_configuration with molecule_str := some "d".toList }).result.map
      (fun mc => mc.nmolecules) = some 1 := by
  decide

/-- C17, amended: for a directory, the files that `load_molecules` reads are
the entries whose name has more than four characters and ends, when case is
ignored, in `.pdb`; when `load_molecules` returns, the catalog has as many
molecules as there are such files that are accepted when read on their own
(they can be opened and give at least one atom) if there is one, and as many as
there are built-in molecules if there is none. -/
theorem load_molecules_directory (fs : file_system) (builtin_pdb_data : List (List Char))
    (scanf_f : List Char → Option (ℚ × List Char)) (mc mc1 : molecule_configuration)
    (dir : List Char) (entries : List (List Char))
    (hstr : mc.molecule_str = some dir) (h1 : dir ≠ []) (h2 : dir ≠ "(default)".toList)
    (hd : fs.is_dir dir = true) (ho : fs.opendir dir = some entries)
    (h : load_molecules fs builtin_pdb_data scanf_f mc = .ok mc1) :
    directory_files dir entries =
      (entries.filter (fun d => decide (4 < d.length ∧
        eq_ignoring_case (d.drop (d.length - 4)) ".pdb".toList))).map (file_path dir) ∧
    mc1.nmolecules =
      if (directory_files dir entries).countP (loads fs scanf_f) = 0 then builtin_pdb_data.length
      else (directory_files dir entries).countP (loads fs scanf_f) := by
  constructor
  · unfold directory_files
    congr 1
    apply List.filter_congr
    intro d _
    rw [Bool.eq_iff_iff, pdb_name_iff]
    simp
  · obtain ⟨mc0, ms, ms1, h0, hms, hms1, rfl⟩ := load_molecules_eq_ok _ _ _ _ _ h
    rw [load_external_path fs scanf_f mc dir hstr h1 h2] at h0
    unfold external_files at h0
    rw [hd, ho] at h0
    simp only [if_true, outcome.bind] at h0
    have a1 := load_files_atoms fs scanf_f mc.wire (directory_files dir entries)
      molecule.empty { mc with molecules := [] } rfl
    cases hl : load_files fs scanf_f mc.wire (directory_files dir entries)
        molecule.empty { mc with molecules := [] } with
    | none => rw [hl] at h0; cases h0
    | some x =>
      rw [hl] at h0 a1
      injection h0 with h0
      subst h0
      cases hr : map_defined (read_alone fs scanf_f) (directory_files dir entries) with
      | none => rw [hr] at a1; simp at a1
      | some rs =>
        rw [hr] at a1
        simp only [Option.map_some', Option.some.injEq, List.map_nil, List.nil_append] at a1
        have hcount : x.nmolecules = (directory_files dir entries).countP (loads fs scanf_f) := by
          have := reduceOption_length_countP (read_alone fs scanf_f) _ rs hr
          have h3 := congrArg List.length a1
          rw [List.length_map] at h3
          unfold molecule_configuration.nmolecules
          rw [h3, this]
          congr 1
          funext a
          unfold loads
          cases read_alone fs scanf_f a with
          | none => rfl
          | some o => cases o <;> rfl
        have l2 := map_defined_length _ _ _ hms1
        show ms1.length = _
        rw [l2, ← hcount]
        by_cases hz : x.nmolecules = 0
        · rw [if_pos hz] at hms
          rw [if_pos hz, map_defined_length _ _ _ hms]
        · rw [if_neg hz] at hms
          rw [if_neg hz, hms]
          rfl

theorem load_molecules_directory_witness :
    ∃ mc1, load_molecules
        (small_file_system "d".toList
          ["one.pdb".toList, "README".toList, "two.PDB".toList, "three.Pdb".toList,
            "four.pdbx".toList]
          [("d/one.pdb".toList, atoms_file), ("d/README".toList, atoms_file),
            ("d/two.PDB".toList, atoms_file), ("d/three.Pdb".toList, atoms_file),
            ("d/four.pdbx".toList, atoms_file)])
        [] scan_decimal { default_configuration with molecule_str := some "d".toList } =
        .ok mc1 ∧
      mc1.nmolecules = 3 := by
  obtain ⟨mc1, h, _⟩ := outcome_result_map
    (load_molecules
      (small_file_system "d".toList
        ["one.pdb".toList, "README".toList, "two.PDB".toList, "three.Pdb".toList,
          "four.pdbx".toList]
        [("d/one.pdb".toList, atoms_file), ("d/README".toList, atoms_file),
          ("d/two.PDB".toList, atoms_file), ("d/three.Pdb".toList, atoms_file),
          ("d/four.pdbx".toList, atoms_file)])
      [] scan_decimal { default_configuration with molecule_str := some "d".toList })
    (fun mc => mc.nmolecules) 3 (by decide)
  refine ⟨mc1, h, ?_⟩
  have key := (load_molecules_directory _ _ _ _ mc1 "d".toList
    ["one.pdb".toList, "README".toList, "two.PDB".toList, "three.Pdb".toList,
      "four.pdbx".toList] rfl (by decide) (by decide) (by decide) (by decide) h).2
  rw [key]
  decide

/-- C18 fails: the directory `d` lists `a.pdb`, which has a title and a
CONECT record but no atom and is rejected, and then `b.pdb`, which has two atoms,
no title and no CONECT record.  The molecule loaded from `b.pdb` has the title
and the bond of `a.pdb`; with `b.pdb` alone in the directory it has neither. -/
theorem load_molecules_failed_file_kept :
    (load_molecules
      (small_file_system "d".toList ["a.pdb".toList, "b.pdb".toList]
        [("d/a.pdb".toList, title_conect_file), ("d/b.pdb".toList, atoms_file)])
      [] scan_decimal { default_configuration with molecule_str := some "d".toList }).result.map
      (fun mc => mc.molecules) =
      some [{ atoms_molecule with label := some "junk\nHO".toList, bonds := [⟨1, 2, 1⟩] }] ∧
    (load_molecules
      (small_file_system "d".toList ["b.pdb".toList]
        [("d/a.pdb".toList, title_conect_file), ("d/b.pdb".toList, atoms_file)])
      [] scan_decimal { default_configuration with molecule_str := some "d".toList }).result.map
      (fun mc => mc.molecules) = some [atoms_molecule] := by
  decide

/-! ## Claims C19 and C20: the display flags -/

theorem atoms_molecule_size :
    (ensure_bounding_box_visible atoms_molecule).molecule_size = 4 := by
  show (ensure_bounding_box_visible (sample_molecule 1)).molecule_size = 4
  refine (sample_molecule_visible 1 4 (by norm_num) ?_ ?_ (by norm_num)).1
  · have e : (1 : ℚ) + 3/2 = 5/2 := by norm_num
    rw [e]
    exact (GLfloat_of_dyadic (5/2) 5 (-1) (by norm_num) (by norm_num)
      (by norm_num [zpow_neg])).2
  · have e : (1 : ℚ) + 3/2 - -3/2 = 4 := by norm_num
    rw [e]
    exact (GLfloat_of_dyadic 4 4 0 (by norm_num) (by norm_num) (by norm_num)).1

theorem pick_rebuild_size (mc mc1 : molecule_configuration) (m : molecule)
    (hm : mc.molecules[mc.which]? = some m) (h : pick_rebuild mc = .ok mc1) :
    mc1.molecule_size = (ensure_bounding_box_visible m).molecule_size := by
  obtain ⟨m1, p, hm1, rfl⟩ := pick_rebuild_eq_ok mc mc1 h
  have : m1 = m := Option.some.inj (hm1.symm.trans hm)
  subst this
  exact (shell_flags_fields _).2.2.1

/-- C19 fails at the first frame.  Whenever `pick_new_molecule` builds the
geometry and returns, `do_labels` is false if `orig_do_labels` is false,
whatever `do_labels` was before the call.  The failing input: neither labels nor atoms are asked for and
the file `b.pdb` has two atoms and no bond.  `init_molecule` returns with
`do_labels` set by `load_molecules` and `orig_do_labels` false; the first frame
of `draw_molecule` returns with `do_labels` false, for a molecule of size 4,
below the no-label threshold 30. -/
theorem init_molecule_labels_not_kept :
    (∀ (mc mc1 : molecule_configuration) (last : Int) (rs rs1 : List Nat),
      pick_new_molecule mc last rs = .ok (mc1, rs1) →
      pick_which mc.nmolecules mc.which last rs ≠ .returned →
      mc.orig_do_labels = false → mc1.do_labels = false) ∧
    ∃ mc1, init_molecule (small_file_system [] [] [("b.pdb".toList, atoms_file)]) []
        scan_decimal true 30 150 bonds_only_configuration [7] = .ok (mc1, []) ∧
      mc1.molecules = [atoms_molecule] ∧ mc1.do_labels = true ∧ mc1.orig_do_labels = false ∧
      ∃ mc2, draw_molecule mc1 1000 1000 [] = .ok (mc2, []) ∧
        mc2.molecule_size = 4 ∧ mc2.no_label_threshold = 30 ∧ mc2.do_labels = false := by
  constructor
  · intro mc mc1 last rs rs1 h hw ho
    rcases pick_new_molecule_eq_ok _ _ _ _ _ h with ⟨hw1, _, _⟩ | ⟨n, _, h3⟩
    · exact absurd hw1 hw
    · obtain ⟨_, _, _, g4⟩ := pick_rebuild_flags _ _ h3
      exact g4 (((pick_rebuild_fields _ _ h3).2.2.2.2.2.2.2.2.2.2).trans ho)
  obtain ⟨⟨mc1, rs1⟩, hi, hf⟩ := outcome_result_map
    (init_molecule (small_file_system [] [] [("b.pdb".toList, atoms_file)]) []
      scan_decimal true 30 150 bonds_only_configuration [7])
    (fun r => (r.2, r.1.molecules, r.1.do_labels, r.1.orig_do_labels))
    (([] : List Nat), [atoms_molecule], true, false) (by decide)
  obtain ⟨r2, hi2, hg⟩ := outcome_result_map
    (init_molecule (small_file_system [] [] [("b.pdb".toList, atoms_file)]) []
      scan_decimal true 30 150 bonds_only_configuration [7])
    (fun r => (r.1.glx_context, r.1.last, r.1.verbose_p, r.1.no_label_threshold))
    (true, (0 : Int), false, (30 : ℚ)) (by decide)
  rw [hi] at hi2
  injection hi2 with hi2
  subst hi2
  simp only [Prod.mk.injEq] at hf hg
  obtain ⟨f1, f2, f3, f4⟩ := hf
  obtain ⟨f5, f6, f8, f9⟩ := hg
  subst f1
  refine ⟨mc1, hi, f2, f3, f4, ?_⟩
  have hw : pick_which mc1.nmolecules mc1.which 0 [] = .chosen 0 [] := by
    simp [pick_which, molecule_configuration.nmolecules, f2]
  obtain ⟨mc2, h1, _⟩ := pick_new_molecule_defined mc1 0 [] [] 0 atoms_molecule hw
    (by rw [f2]; rfl) (by intro h; rw [f8] at h; cases h) (by decide) (by decide)
  refine ⟨{ mc2 with last := 1000 }, ?_, ?_, ?_, ?_⟩
  · unfold draw_molecule
    simp only [f5, f6, Bool.not_true, Bool.false_eq_true, if_false, if_true, h1]
    rfl
  · rcases pick_new_molecule_eq_ok _ _ _ _ _ h1 with ⟨hw1, _, _⟩ | ⟨n, hw2, h3⟩
    · rw [hw] at hw1; cases hw1
    · rw [hw] at hw2
      injection hw2 with hn _
      subst hn
      exact (pick_rebuild_size _ _ atoms_molecule (by show mc1.molecules[0]? = _; rw [f2]; rfl)
        h3).trans atoms_molecule_size
  · rcases pick_new_molecule_eq_ok _ _ _ _ _ h1 with ⟨hw1, _, _⟩ | ⟨n, hw2, h3⟩
    · rw [hw] at hw1; cases hw1
    · exact ((pick_rebuild_fields _ _ h3).2.2.1).trans f9
  · rcases pick_new_molecule_eq_ok _ _ _ _ _ h1 with ⟨hw1, _, _⟩ | ⟨n, hw2, h3⟩
    · rw [hw] at hw1; cases hw1
    · obtain ⟨_, _, _, g4⟩ := pick_rebuild_flags _ _ h3
      exact g4 (((pick_rebuild_fields _ _ h3).2.2.2.2.2.2.2.2.2.2).trans f4)


/-- C20 holds for the wireframe threshold and fails for the no-label
threshold.  Whenever `pick_new_molecule` builds the geometry and returns, a size
above the wireframe threshold gives wireframe; a size above the no-label
threshold gives `do_labels` false only when no shell list is built: with
`do_shells` set, `do_labels` is `orig_do_labels` when the call returns.  The
failing input: the large molecule (size 43, thresholds 30 and 150) with labels,
atoms, bonds and shells asked for; labels are enabled when the call returns. -/
theorem pick_new_molecule_thresholds :
    (∀ (mc mc1 : molecule_configuration) (last : Int) (rs rs1 : List Nat),
      pick_new_molecule mc last rs = .ok (mc1, rs1) →
      pick_which mc.nmolecules mc.which last rs ≠ .returned →
      (mc1.molecule_size > mc1.wireframe_threshold → mc1.wire = true) ∧
      (mc1.molecule_size > mc1.no_label_threshold → mc1.do_shells = false →
        mc1.do_labels = false) ∧
      (mc1.do_shells = true → mc1.do_labels = mc1.orig_do_labels)) ∧
    ∃ mc1, pick_new_molecule { running_configuration with orig_do_shells := true } 1000 [1] =
        .ok (mc1, []) ∧
      mc1.which = 1 ∧ mc1.molecule_size = 43 ∧ mc1.no_label_threshold = 30 ∧
      mc1.molecule_size > mc1.no_label_threshold ∧ mc1.do_labels = true := by
  constructor
  · intro mc mc1 last rs rs1 h hw
    rcases pick_new_molecule_eq_ok _ _ _ _ _ h with ⟨hw1, _, _⟩ | ⟨n, _, h3⟩
    · exact absurd hw1 hw
    · obtain ⟨g1, g2, g3, _⟩ := pick_rebuild_flags _ _ h3
      exact ⟨g1, g2, g3⟩
  obtain ⟨mc1, h1, h2⟩ := pick_new_molecule_defined
    { running_configuration with orig_do_shells := true } 1000 [1] [] 1
    (sample_molecule 40) (by decide) (by decide) (by decide) (by decide) (by decide)
  refine ⟨mc1, h1, h2, ?_⟩
  have hw1 : pick_which
      ({ running_configuration with orig_do_shells := true } : molecule_configuration).nmolecules
      ({ running_configuration with orig_do_shells := true } : molecule_configuration).which
      1000 [1] = .chosen 1 [] := by decide
  rcases pick_new_molecule_eq_ok _ _ _ _ _ h1 with ⟨hw, _, _⟩ | ⟨n, hw, h3⟩
  · rw [hw1] at hw; cases hw
  · have hn : n = 1 := by
      rw [hw1] at hw
      injection hw with h _
      exact h.symm
    subst hn
    obtain ⟨m, p, hm, rfl⟩ := pick_rebuild_eq_ok _ _ h3
    have hm2 : m = sample_molecule 40 := by
      have : ({ running_configuration with orig_do_shells := true, which := 1 } :
          molecule_configuration).molecules[1]? = some (sample_molecule 40) := by decide
      exact Option.some.inj (hm.symm.trans this)
    subst hm2
    have hs2 : (ensure_bounding_box_visible (sample_molecule 40)).molecule_size = 43 :=
      sample_molecule_size
    simp only [shell_flags, pick_flags, hs2, running_configuration, default_configuration]
    norm_num

/-! ## `molecule_bounding_box` -/

/-- The running minimum of the values `f a`, as the `for` loop of
`molecule_bounding_box` keeps it. -/
theorem foldl_lower (f : molecule_atom → ℚ) (rest : List molecule_atom) (v : ℚ) :
    let r := rest.foldl (fun v a => if f a < v then f a else v) v
    r ≤ v ∧ (∀ a ∈ rest, r ≤ f a) ∧ (r = v ∨ ∃ a ∈ rest, f a = r) := by
  induction rest generalizing v with
  | nil => simp
  | cons c rest ih =>
    simp only [List.foldl_cons]
    obtain ⟨h1, h2, h3⟩ := ih (if f c < v then f c else v)
    have hle : (if f c < v then f c else v) ≤ v := by
      split
      · exact le_of_lt (by assumption)
      · exact le_refl _
    have hlc : (if f c < v then f c else v) ≤ f c := by
      split
      · exact le_refl _
      · exact not_lt.1 (by assumption)
    refine ⟨le_trans h1 hle, ?_, ?_⟩
    · intro a ha
      rcases List.mem_cons.1 ha with e | har
      · rw [e]; exact le_trans h1 hlc
      · exact h2 a har
    · rcases h3 with e | ⟨a, ha, e⟩
      · by_cases hc : f c < v
        · simp only [if_pos hc] at e ⊢
          exact Or.inr ⟨c, by simp, e.symm⟩
        · simp only [if_neg hc] at e ⊢
          exact Or.inl e
      · exact Or.inr ⟨a, by simp [ha], e⟩

/-- The running maximum of the values `f a`, as the `for` loop of
`molecule_bounding_box` keeps it. -/
theorem foldl_upper (f : molecule_atom → ℚ) (rest : List molecule_atom) (v : ℚ) :
    let r := rest.foldl (fun v a => if f a > v then f a else v) v
    v ≤ r ∧ (∀ a ∈ rest, f a ≤ r) ∧ (r = v ∨ ∃ a ∈ rest, f a = r) := by
  induction rest generalizing v with
  | nil => simp
  | cons c rest ih =>
    simp only [List.foldl_cons]
    obtain ⟨h1, h2, h3⟩ := ih (if f c > v then f c else v)
    have hle : v ≤ (if f c > v then f c else v) := by
      split
      · exact le_of_lt (by assumption)
      · exact le_refl _
    have hlc : f c ≤ (if f c > v then f c else v) := by
      split
      · exact le_refl _
      · exact not_lt.1 (by assumption)
    refine ⟨le_trans hle h1, ?_, ?_⟩
    · intro a ha
      rcases List.mem_cons.1 ha with e | har
      · rw [e]; exact le_trans hlc h1
      · exact h2 a har
    · rcases h3 with e | ⟨a, ha, e⟩
      · by_cases hc : f c > v
        · simp only [if_pos hc] at e ⊢
          exact Or.inr ⟨c, by simp, e.symm⟩
        · simp only [if_neg hc] at e ⊢
          exact Or.inl e
      · exact Or.inr ⟨a, by simp [ha], e⟩

/-- The six bounds kept by the loop of `molecule_bounding_box` are six
independent running minima and maxima. -/
theorem foldl_bounding_box_step (rest : List molecule_atom) (b : bounding_box) :
    rest.foldl bounding_box_step b =
      ⟨rest.foldl (fun v a => if a.x < v then a.x else v) b.x1,
       rest.foldl (fun v a => if a.y < v then a.y else v) b.y1,
       rest.foldl (fun v a => if a.z < v then a.z else v) b.z1,
       rest.foldl (fun v a => if a.x > v then a.x else v) b.x2,
       rest.foldl (fun v a => if a.y > v then a.y else v) b.y2,
       rest.foldl (fun v a => if a.z > v then a.z else v) b.z2⟩ := by
  induction rest generalizing b with
  | nil => rfl
  | cons c rest ih =>
    simp only [List.foldl_cons]
    rw [ih]
    rfl

/-- The bounds of `molecule_bounding_box` on one axis: `f` reads the coordinate. -/
theorem bounds_axis (f : molecule_atom → ℚ) (a : molecule_atom) (rest : List molecule_atom)
    (hf : ∀ c ∈ a :: rest, is_GLfloat (f c)) :
    axis_bounds f (a :: rest)
      (GLfloat_of (double_of
        (rest.foldl (fun v a => if f a < v then f a else v) (f a) - 3/2)))
      (GLfloat_of (double_of
        (rest.foldl (fun v a => if f a > v then f a else v) (f a) + 3/2))) := by
  obtain ⟨l1, l2, l3⟩ := foldl_lower f rest (f a)
  obtain ⟨u1, u2, u3⟩ := foldl_upper f rest (f a)
  obtain ⟨cmin, hcmin, emin⟩ : ∃ c ∈ a :: rest,
      f c = rest.foldl (fun v a => if f a < v then f a else v) (f a) := by
    rcases l3 with e | ⟨c, hc, e⟩
    · exact ⟨a, by simp, e.symm⟩
    · exact ⟨c, by simp [hc], e⟩
  obtain ⟨cmax, hcmax, emax⟩ : ∃ c ∈ a :: rest,
      f c = rest.foldl (fun v a => if f a > v then f a else v) (f a) := by
    rcases u3 with e | ⟨c, hc, e⟩
    · exact ⟨a, by simp, e.symm⟩
    · exact ⟨c, by simp [hc], e⟩
  rw [← emin] at l1 l2 ⊢
  rw [← emax] at u1 u2 ⊢
  have hall : ∀ c ∈ a :: rest, f cmin ≤ f c ∧ f c ≤ f cmax := by
    intro c hc
    rcases List.mem_cons.1 hc with e | hr
    · rw [e]; exact ⟨l1, u1⟩
    · exact ⟨l2 c hr, u2 c hr⟩
  have elo : f cmin - 3/2 = f cmin + -(3/2) := sub_eq_add_neg _ _
  have herr1 : |GLfloat_of (double_of (f cmin - 3/2)) - (f cmin - 3/2)| ≤
      |f cmin - 3/2| / 2 ^ 23 := by
    rw [elo]
    exact GLfloat_of_shift_error (f cmin) (-(3/2)) (hf cmin hcmin).1 (Or.inr rfl)
  have herr2 : |GLfloat_of (double_of (f cmax + 3/2)) - (f cmax + 3/2)| ≤
      |f cmax + 3/2| / 2 ^ 23 :=
    GLfloat_of_shift_error (f cmax) (3/2) (hf cmax hcmax).1 (Or.inl rfl)
  have hle1 : GLfloat_of (double_of (f cmin - 3/2)) ≤ f cmin := by
    rw [elo]
    exact GLfloat_of_shift_le (f cmin) (-(3/2)) (hf cmin hcmin).1 (by norm_num)
  have hle2 : f cmax ≤ GLfloat_of (double_of (f cmax + 3/2)) :=
    GLfloat_of_shift_ge (f cmax) (3/2) (hf cmax hcmax).1 (by norm_num)
  have b1 := (abs_le.1 herr1).2
  have b2 := (abs_le.1 herr2).1
  have hfin1 : is_GLfloat (GLfloat_of (double_of (f cmin - 3/2))) := by
    rw [elo]
    exact GLfloat_of_shift_finite (f cmin) (-(3/2)) (hf cmin hcmin).2 (by norm_num [abs_of_pos])
  have hfin2 : is_GLfloat (GLfloat_of (double_of (f cmax + 3/2))) :=
    GLfloat_of_shift_finite (f cmax) (3/2) (hf cmax hcmax).2 (by norm_num [abs_of_pos])
  refine ⟨cmin, hcmin, cmax, hcmax, hall, rfl, rfl, hfin1, hfin2, herr1, herr2, ?_, ?_, ?_⟩
  · intro c hc
    obtain ⟨h1, h2⟩ := hall c hc
    exact ⟨le_trans hle1 h1, le_trans h2 hle2⟩
  · intro c hc
    obtain ⟨h1, h2⟩ := hall c hc
    constructor <;> linarith
  · obtain ⟨h1, _⟩ := hall cmax hcmax
    have e : (|f cmin - 3/2| + |f cmax + 3/2|) / 2 ^ 23 =
        |f cmin - 3/2| / 2 ^ 23 + |f cmax + 3/2| / 2 ^ 23 := by ring
    rw [e]
    linarith

/-- Counterexample to C25 as stated: for one atom at `x = 100000000`, where
neighbouring values of `GLfloat` are 8 apart, both bounds on the axis `x` are
100000000: the lower bound is not the coordinate less 1.5, the atom is not
1.5 inside, and the extent is 0, not 3 or more. -/
theorem molecule_bounding_box_counterexample :
    (molecule_bounding_box far_molecule).x1 = 100000000 ∧
    (molecule_bounding_box far_molecule).x2 = 100000000 ∧
    (∀ c ∈ far_molecule.atoms, is_GLfloat c.x ∧ is_GLfloat c.y ∧ is_GLfloat c.z) ∧
    (molecule_bounding_box far_molecule).x1 ≠ 100000000 - 3/2 ∧
    ¬ (∀ c ∈ far_molecule.atoms, (molecule_bounding_box far_molecule).x1 + 3/2 ≤ c.x) ∧
    ¬ (3 ≤ (molecule_bounding_box far_molecule).x2 - (molecule_bounding_box far_molecule).x1) := by
  have d1 : double_of ((100000000 : ℚ) - 3/2) = 199999997 / 2 := by
    have e : (100000000 : ℚ) - 3/2 = 199999997 / 2 := by norm_num
    rw [e]
    exact double_of_exact _ ⟨199999997, -1, by norm_num, by norm_num, by norm_num [zpow_neg]⟩
  have d2 : double_of ((100000000 : ℚ) + 3/2) = 200000003 / 2 := by
    have e : (100000000 : ℚ) + 3/2 = 200000003 / 2 := by norm_num
    rw [e]
    exact double_of_exact _ ⟨200000003, -1, by norm_num, by norm_num, by norm_num [zpow_neg]⟩
  have f1 : GLfloat_of ((199999997 : ℚ) / 2) = 100000000 := by
    have := round_binary_eval 24 (-126) (199999997 / 2) 26 12500000
      (by rw [abs_of_pos (by norm_num)]; norm_num)
      (by rw [abs_of_pos (by norm_num)]; norm_num)
      (by norm_num)
      (by rw [abs_lt]; constructor <;> norm_num)
    unfold GLfloat_of
    rw [this]
    norm_num
  have f2 : GLfloat_of ((200000003 : ℚ) / 2) = 100000000 := by
    have := round_binary_eval 24 (-126) (200000003 / 2) 26 12500000
      (by rw [abs_of_pos (by norm_num)]; norm_num)
      (by rw [abs_of_pos (by norm_num)]; norm_num)
      (by norm_num)
      (by rw [abs_lt]; constructor <;> norm_num)
    unfold GLfloat_of
    rw [this]
    norm_num
  have h1 : (molecule_bounding_box far_molecule).x1 = 100000000 := by
    simp only [molecule_bounding_box, far_molecule, List.drop, List.foldl, d1, f1]
  have h2 : (molecule_bounding_box far_molecule).x2 = 100000000 := by
    simp only [molecule_bounding_box, far_molecule, List.drop, List.foldl, d2, f2]
  have hz : is_GLfloat 0 :=
    ⟨⟨0, 0, by norm_num, by norm_num, by norm_num⟩, by unfold FLT_MAX; norm_num⟩
  have hx : is_GLfloat 100000000 :=
    ⟨⟨390625, 8, by norm_num, by norm_num, by norm_num⟩, by unfold FLT_MAX; norm_num⟩
  refine ⟨h1, h2, ?_, ?_, ?_, ?_⟩
  · intro c hc
    simp only [far_molecule, List.mem_singleton] at hc
    rw [hc]
    exact ⟨hx, hz, hz⟩
  · rw [h1]
    norm_num
  · intro h
    have := h ⟨1, ['H'], 100000000, 0, 0, some 0⟩ (by simp [far_molecule])
    rw [h1] at this
    norm_num at this
  · rw [h1, h2]
    norm_num

/-- C25, with the arithmetic of `GLfloat`: for a molecule with at least one
atom, whose coordinates are values of type `GLfloat`, `molecule_bounding_box`
returns on each axis the least atom coordinate less 1.5 and the greatest one
plus 1.5, each computed in `double` and rounded to `GLfloat`, so finite and
within the fraction `2 ^ -23` of the exact value; every atom lies between the two
bounds, short of 1.5 inside by at most that rounding error, and each extent
is short of 3 by at most the two errors (`axis_bounds`).  For a molecule
without atoms every lower bound is -1.5 and every upper bound 1.5. -/
theorem molecule_bounding_box_margin (label : Option (List Char)) (a : molecule_atom)
    (rest : List molecule_atom) (bonds : List molecule_bond)
    (hf : ∀ c ∈ a :: rest, is_GLfloat c.x ∧ is_GLfloat c.y ∧ is_GLfloat c.z) :
    axis_bounds (fun c => c.x) (a :: rest)
      (molecule_bounding_box ⟨label, a :: rest, bonds⟩).x1
      (molecule_bounding_box ⟨label, a :: rest, bonds⟩).x2 ∧
    axis_bounds (fun c => c.y) (a :: rest)
      (molecule_bounding_box ⟨label, a :: rest, bonds⟩).y1
      (molecule_bounding_box ⟨label, a :: rest, bonds⟩).y2 ∧
    axis_bounds (fun c => c.z) (a :: rest)
      (molecule_bounding_box ⟨label, a :: rest, bonds⟩).z1
      (molecule_bounding_box ⟨label, a :: rest, bonds⟩).z2 ∧
    molecule_bounding_box ⟨label, [], bonds⟩ = ⟨-3/2, -3/2, -3/2, 3/2, 3/2, 3/2⟩ := by
  have hb : molecule_bounding_box ⟨label, a :: rest, bonds⟩ =
      ⟨GLfloat_of (double_of (rest.foldl (fun v a => if a.x < v then a.x else v) a.x - 3/2)),
       GLfloat_of (double_of (rest.foldl (fun v a => if a.y < v then a.y else v) a.y - 3/2)),
       GLfloat_of (double_of (rest.foldl (fun v a => if a.z < v then a.z else v) a.z - 3/2)),
       GLfloat_of (double_of (rest.foldl (fun v a => if a.x > v then a.x else v) a.x + 3/2)),
       GLfloat_of (double_of (rest.foldl (fun v a => if a.y > v then a.y else v) a.y + 3/2)),
       GLfloat_of (double_of (rest.foldl (fun v a => if a.z > v then a.z else v) a.z + 3/2))⟩ := by
    simp only [molecule_bounding_box, List.drop_succ_cons, List.drop_zero,
      foldl_bounding_box_step]
  rw [hb]
  refine ⟨bounds_axis (fun c => c.x) a rest (fun c hc => (hf c hc).1),
    bounds_axis (fun c => c.y) a rest (fun c hc => (hf c hc).2.1),
    bounds_axis (fun c => c.z) a rest (fun c hc => (hf c hc).2.2), ?_⟩
  have e1 : (0 : ℚ) - 3/2 = -3/2 := by norm_num
  have e2 : (0 : ℚ) + 3/2 = 3/2 := by norm_num
  have f1 := (GLfloat_of_dyadic (-3/2) (-3) (-1) (by norm_num) (by norm_num)
    (by norm_num [zpow_neg])).2
  have f2 := (GLfloat_of_dyadic (3/2) 3 (-1) (by norm_num) (by norm_num)
    (by norm_num [zpow_neg])).2
  simp only [molecule_bounding_box, List.drop_nil, List.foldl_nil, e1, e2, f1, f2]

/-- Witness of C25: the atoms at `x = 0` and `x = 1`. -/
theorem molecule_bounding_box_margin_witness :
    (∀ c ∈ [(⟨1, ['O'], 0, 0, 0, some 4⟩ : molecule_atom), ⟨2, ['H'], 1, 0, 0, some 0⟩],
      is_GLfloat c.x ∧ is_GLfloat c.y ∧ is_GLfloat c.z) ∧
    axis_bounds (fun c => c.x)
      [(⟨1, ['O'], 0, 0, 0, some 4⟩ : molecule_atom), ⟨2, ['H'], 1, 0, 0, some 0⟩]
      (molecule_bounding_box
        ⟨none, [⟨1, ['O'], 0, 0, 0, some 4⟩, ⟨2, ['H'], 1, 0, 0, some 0⟩], []⟩).x1
      (molecule_bounding_box
        ⟨none, [⟨1, ['O'], 0, 0, 0, some 4⟩, ⟨2, ['H'], 1, 0, 0, some 0⟩], []⟩).x2 := by
  have hz : is_GLfloat 0 :=
    ⟨⟨0, 0, by norm_num, by norm_num, by norm_num⟩, by unfold FLT_MAX; norm_num⟩
  have ho : is_GLfloat 1 :=
    ⟨⟨1, 0, by norm_num, by norm_num, by norm_num⟩, by unfold FLT_MAX; norm_num⟩
  have hf : ∀ c ∈ [(⟨1, ['O'], 0, 0, 0, some 4⟩ : molecule_atom), ⟨2, ['H'], 1, 0, 0, some 0⟩],
      is_GLfloat c.x ∧ is_GLfloat c.y ∧ is_GLfloat c.z := by
    intro c hc
    simp only [List.mem_cons, List.mem_singleton, List.not_mem_nil, or_false] at hc
    rcases hc with e | e <;> rw [e]
    · exact ⟨hz, hz, hz⟩
    · exact ⟨ho, hz, hz⟩
  exact ⟨hf, (molecule_bounding_box_margin none _ _ [] hf).1⟩
/-! ## `atom_size` -/

/-- The full scan of `get_atom` returns the first atom that has the id, and
reaches `abort ()` when no atom has it. -/
theorem get_atom_scan_first (id : Int) (atoms : List molecule_atom) :
    get_atom_scan id atoms =
      match first_with_id id atoms with
      | some a => .found a
      | none => .no_atom := by
  induction atoms with
  | nil => rfl
  | cons x r ih =>
    unfold first_with_id at ih ⊢
    by_cases hx : id = x.id
    · have hx1 : decide (x.id = id) = true := by simp [hx]
      simp only [get_atom_scan, if_pos hx, List.find?_cons, hx1]
    · have hx1 : decide (x.id = id) = false := by
        simp only [decide_eq_false_iff_not]
        exact fun e => hx e.symm
      simp only [get_atom_scan, if_neg hx, List.find?_cons, hx1]
      exact ih

theorem get_atom_scan_found (id : Int) (atoms : List molecule_atom)
    (h : ∃ a ∈ atoms, a.id = id) :
    ∃ a ∈ atoms, a.id = id ∧ get_atom_scan id atoms = .found a := by
  induction atoms with
  | nil => obtain ⟨a, ha, _⟩ := h; simp at ha
  | cons x r ih =>
    by_cases hx : id = x.id
    · exact ⟨x, by simp, hx.symm, by simp only [get_atom_scan, if_pos hx]⟩
    · obtain ⟨a, ha, hid⟩ := h
      rcases List.mem_cons.1 ha with e | har
      · exact absurd (by rw [← hid, e]) hx
      · obtain ⟨b, hb, hbid, hs⟩ := ih ⟨a, har, hid⟩
        exact ⟨b, by simp [hb], hbid, by simp only [get_atom_scan, if_neg hx]; exact hs⟩

/-- A probe inside the array returns an atom of the array that has the id
when what follows the probe does. -/
theorem probe_found (atoms : List molecule_atom) (i id : Int) (k : get_atom_result)
    (h0 : 0 ≤ i) (h1 : i < (atoms.length : Int))
    (hk : ∃ a ∈ atoms, a.id = id ∧ k = .found a) :
    ∃ a ∈ atoms, a.id = id ∧ probe atoms i id k = .found a := by
  obtain ⟨b, hb, hmem⟩ := atom_at_mem atoms i h0 h1
  unfold probe
  rw [hb]
  simp only []
  by_cases e : b.id = id
  · exact ⟨b, hmem, e, by rw [if_pos e]⟩
  · rw [if_neg e]
    exact hk

/-- For an id that is not negative and that some atom has, `get_atom` returns
an atom of the array that has this id, whether or not ids are repeated. -/
theorem get_atom_found (atoms : List molecule_atom) (id : Int) (h0 : 0 ≤ id)
    (h : ∃ a ∈ atoms, a.id = id) :
    ∃ a ∈ atoms, a.id = id ∧ get_atom atoms id = .found a := by
  have hs := get_atom_scan_found id atoms h
  unfold get_atom
  by_cases h1 : id < (atoms.length : Int)
  · rw [if_pos h1]
    apply probe_found atoms id id _ h0 h1
    by_cases h2 : id > 0
    · rw [if_pos h2]
      apply probe_found atoms (id - 1) id _ (by omega) (by omega)
      by_cases h3 : id < (atoms.length : Int) - 1
      · rw [if_pos h3]
        exact probe_found atoms (id + 1) id _ (by omega) (by omega) hs
      · rw [if_neg h3]
        exact hs
    · rw [if_neg h2]
      by_cases h3 : id < (atoms.length : Int) - 1
      · rw [if_pos h3]
        exact probe_found atoms (id + 1) id _ (by omega) (by omega) hs
      · rw [if_neg h3]
        exact hs
  · rw [if_neg h1]
    exact hs

/-- C24, as the claim words it, fails when an id is repeated: in the array of
the atoms `C` and `O` that both have the id 1, the positional guess
`atoms[1]` returns the second atom, the full scan and the first atom with the
id are the first one. -/
theorem get_atom_repeated_id_counterexample :
    get_atom [plain_atom 1 "C", plain_atom 1 "O"] 1 = .found (plain_atom 1 "O") ∧
    get_atom_scan 1 [plain_atom 1 "C", plain_atom 1 "O"] = .found (plain_atom 1 "C") ∧
    first_with_id 1 [plain_atom 1 "C", plain_atom 1 "O"] = some (plain_atom 1 "C") ∧
    plain_atom 1 "O" ≠ plain_atom 1 "C" := by
  decide

/-- C24: for every atom array, in any order, and every id that is not negative
and that some atom has, `get_atom` returns an atom of the array that has this
id; when the ids of the array differ pairwise it returns what the full scan
from index 0 returns, which is the first atom that has the id. -/
theorem get_atom_first_with_id (atoms : List molecule_atom) (id : Int) (h0 : 0 ≤ id)
    (h : ∃ a ∈ atoms, a.id = id) :
    (∃ a ∈ atoms, a.id = id ∧ get_atom atoms id = .found a) ∧
    ((atoms.map molecule_atom.id).Nodup →
      get_atom atoms id = get_atom_scan id atoms ∧
      ∃ a, first_with_id id atoms = some a ∧ get_atom atoms id = .found a) := by
  refine ⟨get_atom_found atoms id h0 h, fun hn => ?_⟩
  have he := get_atom_eq_scan atoms id hn h0
  refine ⟨he, ?_⟩
  obtain ⟨a, _, _, hs⟩ := get_atom_scan_found id atoms h
  refine ⟨a, ?_, by rw [he, hs]⟩
  have hf := get_atom_scan_first id atoms
  rw [hs] at hf
  cases hfi : first_with_id id atoms with
  | none => rw [hfi] at hf; cases hf
  | some b =>
    rw [hfi] at hf
    injection hf with hf
    rw [hf]

theorem get_atom_first_with_id_witness :
    (0 : Int) ≤ 2 ∧
    (∃ a ∈ [plain_atom 7 "C", plain_atom 2 "O", plain_atom 0 "H"], a.id = 2) ∧
    get_atom [plain_atom 7 "C", plain_atom 2 "O", plain_atom 0 "H"] 2 =
      get_atom_scan 2 [plain_atom 7 "C", plain_atom 2 "O", plain_atom 0 "H"] ∧
    ∃ a, first_with_id 2 [plain_atom 7 "C", plain_atom 2 "O", plain_atom 0 "H"] = some a ∧
      get_atom [plain_atom 7 "C", plain_atom 2 "O", plain_atom 0 "H"] 2 = .found a :=
  ⟨by decide, ⟨plain_atom 2 "O", by decide, by decide⟩,
    (get_atom_first_with_id [plain_atom 7 "C", plain_atom 2 "O", plain_atom 0 "H"] 2 (by decide)
      ⟨plain_atom 2 "O", by decide, by decide⟩).2 (by decide)⟩

/-! ## The ids that `get_atom` is called with -/

theorem get_atom_scan_in_bounds (id : Int) (atoms : List molecule_atom) :
    get_atom_scan id atoms ≠ .out_of_bounds := by
  induction atoms with
  | nil => simp [get_atom_scan]
  | cons x r ih =>
    unfold get_atom_scan
    split
    · simp
    · exact ih

theorem probe_in_bounds (atoms : List molecule_atom) (i id : Int) (k : get_atom_result)
    (h0 : 0 ≤ i) (h1 : i < (atoms.length : Int)) (hk : k ≠ .out_of_bounds) :
    probe atoms i id k ≠ .out_of_bounds := by
  obtain ⟨b, hb, _⟩ := atom_at_mem atoms i h0 h1
  unfold probe
  rw [hb]
  simp only []
  split
  · simp
  · exact hk

/-- With an id that is not negative `get_atom` reads inside the array. -/
theorem get_atom_in_bounds (atoms : List molecule_atom) (id : Int) (h0 : 0 ≤ id) :
    get_atom atoms id ≠ .out_of_bounds := by
  have hs := get_atom_scan_in_bounds id atoms
  unfold get_atom
  by_cases h1 : id < (atoms.length : Int)
  · rw [if_pos h1]
    apply probe_in_bounds atoms id id _ h0 h1
    by_cases h2 : id > 0
    · rw [if_pos h2]
      apply probe_in_bounds atoms (id - 1) id _ (by omega) (by omega)
      by_cases h3 : id < (atoms.length : Int) - 1
      · rw [if_pos h3]
        exact probe_in_bounds atoms (id + 1) id _ (by omega) (by omega) hs
      · rw [if_neg h3]
        exact hs
    · rw [if_neg h2]
      by_cases h3 : id < (atoms.length : Int) - 1
      · rw [if_pos h3]
        exact probe_in_bounds atoms (id + 1) id _ (by omega) (by omega) hs
      · rw [if_neg h3]
        exact hs
  · rw [if_neg h1]
    exact hs

/-- With a negative id and at least one atom `get_atom` reads `atoms[id]`,
before the array. -/
theorem get_atom_out_of_bounds (atoms : List molecule_atom) (id : Int) (h0 : id < 0) :
    get_atom atoms id = .out_of_bounds := by
  have h1 : id < (atoms.length : Int) := by omega
  simp only [get_atom, if_pos h1, probe, atom_at, if_pos h0]

/-- C28 at the failing input: from a file with the atoms 1 and 2 and the
record `CONECT   -1    2`, `parse_pdb_data` stores the bond from -1 to 2; the
lookup of the partner id 2 reads inside the array, the lookup of the base id
-1 reads `atoms[-1]`, and so does `build_bonds` when it draws the bond. -/
theorem parse_pdb_data_negative_base :
    (parse_pdb_data scan_decimal molecule.empty negative_base_file).map
        (fun m => (m.atoms.map molecule_atom.id, m.bonds)) = some ([1, 2], [⟨-1, 2, 1⟩]) ∧
    (parse_pdb_data scan_decimal molecule.empty negative_base_file).map
        (fun m => (get_atom m.atoms 2, get_atom m.atoms (-1))) =
      some (.found ⟨2, ['H'], 1, 0, 0, some 0⟩, .out_of_bounds) ∧
    (parse_pdb_data scan_decimal molecule.empty negative_base_file).map
        (fun m => build_bonds false false m.atoms m.bonds) = some .undefined := by
  have h : parse_pdb_data scan_decimal molecule.empty negative_base_file =
      some ⟨none, [⟨1, ['O'], 0, 0, 0, some 4⟩, ⟨2, ['H'], 1, 0, 0, some 0⟩], [⟨-1, 2, 1⟩]⟩ := by
    set_option maxRecDepth 8000 in decide
  rw [h]
  decide

/-! ## The partner ids of the bonds -/

theorem push_bond_loop_partner (from_ to_ : Int) (bonds bonds1 : List molecule_bond)
    (h : ∀ b ∈ bonds, 0 < b.to_) (hl : push_bond_loop from_ to_ bonds = some bonds1) :
    ∀ b ∈ bonds1, 0 < b.to_ := by
  induction bonds generalizing bonds1 with
  | nil => cases hl
  | cons x r ih =>
    unfold push_bond_loop at hl
    split at hl
    · injection hl with hl
      subst hl
      intro b hb
      rcases List.mem_cons.1 hb with e | hb
      · rw [e]; exact h x (by simp)
      · exact h b (by simp [hb])
    · cases hr : push_bond_loop from_ to_ r with
      | none => rw [hr] at hl; cases hl
      | some r1 =>
        rw [hr] at hl
        injection hl with hl
        subst hl
        intro b hb
        rcases List.mem_cons.1 hb with e | hb
        · rw [e]; exact h x (by simp)
        · exact ih r1 (fun c hc => h c (by simp [hc])) hr b hb

theorem push_bond_partner (m : molecule) (from_ to_ : Int) (hp : 0 < to_)
    (h : ∀ b ∈ m.bonds, 0 < b.to_) : ∀ b ∈ (push_bond m from_ to_).bonds, 0 < b.to_ := by
  unfold push_bond
  cases hl : push_bond_loop from_ to_ m.bonds with
  | some bonds1 => exact push_bond_loop_partner from_ to_ m.bonds bonds1 h hl
  | none =>
    intro b hb
    simp only [List.mem_append, List.mem_singleton] at hb
    rcases hb with hb | hb
    · exact h b hb
    · rw [hb]; exact hp

theorem conect_bonds_partner (partners : List Int) :
    ∀ (m : molecule) (base : Int), (∀ b ∈ m.bonds, 0 < b.to_) →
      ∀ b ∈ (conect_bonds m base partners).bonds, 0 < b.to_ := by
  induction partners with
  | nil => intro m base h; exact h
  | cons p rest ih =>
    intro m base h
    unfold conect_bonds
    simp only [List.foldl_cons]
    have := ih (if p > 0 then push_bond m base p else m) base (by
      split
      · rename_i hp
        exact push_bond_partner m base p hp h
      · exact h)
    unfold conect_bonds at this
    exact this

theorem parse_pdb_line_partner (scanf_f : List Char → Option (ℚ × List Char)) (m m1 : molecule)
    (s : List Char) (h : parse_pdb_line scanf_f m s = some m1)
    (hb : ∀ b ∈ m.bonds, 0 < b.to_) : ∀ b ∈ m1.bonds, 0 < b.to_ := by
  unfold parse_pdb_line at h
  split at h
  · injection h with h; rw [← h]; exact hb
  split at h
  · injection h with h; rw [← h]; exact hb
  split at h
  · unfold parse_atom at h
    split at h
    · cases h
    · split at h
      · unfold push_atom at h
        split at h
        · cases h
        · injection h with h; rw [← h]; exact hb
      · cases h
  split at h
  · unfold parse_atom at h
    split at h
    · cases h
    · split at h
      · unfold push_atom at h
        split at h
        · cases h
        · injection h with h; rw [← h]; exact hb
      · cases h
  split at h
  · unfold parse_conect at h
    split at h
    · cases h
    · split at h
      · cases h
      · injection h with h; rw [← h]; exact hb
      · split at h
        · cases h
        · injection h with h
          rw [← h]
          exact conect_bonds_partner _ _ _ hb
  · injection h with h; rw [← h]; exact hb

theorem parse_pdb_loop_partner (scanf_f : List Char → Option (ℚ × List Char)) (fuel : Nat) :
    ∀ (m m1 : molecule) (s : List Char), (∀ b ∈ m.bonds, 0 < b.to_) →
      parse_pdb_loop scanf_f fuel m s = some m1 → ∀ b ∈ m1.bonds, 0 < b.to_ := by
  induction fuel with
  | zero =>
    intro m m1 s hb h
    cases s with
    | nil => simp only [parse_pdb_loop] at h; injection h with h; rw [← h]; exact hb
    | cons c r => simp [parse_pdb_loop] at h
  | succ fuel ih =>
    intro m m1 s hb h
    cases s with
    | nil => simp only [parse_pdb_loop] at h; injection h with h; rw [← h]; exact hb
    | cons c r =>
      simp only [parse_pdb_loop] at h
      cases hl : parse_pdb_line scanf_f m (c :: r) with
      | none => rw [hl] at h; cases h
      | some m2 =>
        rw [hl] at h
        simp only [] at h
        exact ih m2 m1 _ (parse_pdb_line_partner scanf_f m m2 _ hl hb) h

/-- In every molecule that `parse_pdb_data` returns from a zero-filled
molecule the partner id `to` of every bond is positive, and the lookup of
that id reads inside the array of atoms. -/
theorem parse_pdb_data_partner (scanf_f : List Char → Option (ℚ × List Char)) (m : molecule)
    (s : List Char) (h : parse_pdb_data scanf_f molecule.empty s = some m) :
    ∀ b ∈ m.bonds, 0 < b.to_ ∧ get_atom m.atoms b.to_ ≠ .out_of_bounds := by
  intro b hb
  have hp := parse_pdb_loop_partner scanf_f _ molecule.empty m s
    (by intro c hc; simp [molecule.empty] at hc) h b hb
  exact ⟨hp, get_atom_in_bounds m.atoms b.to_ (by omega)⟩

/-! ## The phase and the tick count of a transition -/

/-- A call of `molecule_handle_event` keeps this true: the phase is 0, or it
is 1 or 2 and the tick count lies between 1 and 40. -/
theorem handle_event_phase (mc : molecule_configuration) (e : XEvent)
    (h : mc.mode = 0 ∨ ((mc.mode = 1 ∨ mc.mode = 2) ∧ 1 ≤ mc.mode_tick ∧ mc.mode_tick ≤ 40)) :
    (molecule_handle_event mc e).1.mode = 0 ∨
      (((molecule_handle_event mc e).1.mode = 1 ∨ (molecule_handle_event mc e).1.mode = 2) ∧
        1 ≤ (molecule_handle_event mc e).1.mode_tick ∧
        (molecule_handle_event mc e).1.mode_tick ≤ 40) := by
  cases e with
  | ButtonPress button x y state =>
    unfold molecule_handle_event
    simp only []
    split
    · exact h
    · split <;> exact h
  | ButtonRelease button =>
    unfold molecule_handle_event
    simp only []
    split <;> exact h
  | KeyPress c =>
    unfold molecule_handle_event
    simp only []
    split
    · right
      exact ⟨Or.inl rfl, (by decide : (1 : Int) ≤ 40), (by decide : (40 : Int) ≤ 40)⟩
    · exact h
  | MotionNotify x y =>
    unfold molecule_handle_event
    simp only []
    split <;> exact h
  | other => exact h

theorem draw_molecule_tick (mc mc1 : molecule_configuration) (now now2 : Int)
    (rs rs1 : List Nat) (hd : draw_molecule mc now now2 rs = .ok (mc1, rs1))
    (h : mc.mode = 0 ∨ ((mc.mode = 1 ∨ mc.mode = 2) ∧ 1 ≤ mc.mode_tick ∧ mc.mode_tick ≤ 40)) :
    mc1.mode = 0 ∨ ((mc1.mode = 1 ∨ mc1.mode = 2) ∧ 1 ≤ mc1.mode_tick ∧ mc1.mode_tick ≤ 40) := by
  unfold draw_molecule at hd
  split at hd
  · injection hd with hd; injection hd with h1 h2; subst h1
    exact h
  split at hd
  · obtain ⟨mc2, h2, rfl⟩ := set_last_eq_ok _ _ _ _ hd
    obtain ⟨_, _, _, hm, ht, _⟩ := pick_new_molecule_fields _ _ _ _ _ h2
    show mc2.mode = 0 ∨ ((mc2.mode = 1 ∨ mc2.mode = 2) ∧ 1 ≤ mc2.mode_tick ∧ mc2.mode_tick ≤ 40)
    rw [hm, ht]
    exact h
  split at hd
  · rename_i h0
    split at hd
    · split at hd
      · injection hd with hd; injection hd with h1 h2; subst h1
        right
        exact ⟨Or.inl rfl, (by decide : (1 : Int) ≤ 40), (by decide : (40 : Int) ≤ 40)⟩
      · injection hd with hd; injection hd with h1 h2; subst h1
        exact Or.inl h0
    · injection hd with hd; injection hd with h1 h2; subst h1
      exact Or.inl h0
  have hr : (mc.mode = 1 ∨ mc.mode = 2) ∧ 1 ≤ mc.mode_tick ∧ mc.mode_tick ≤ 40 := by
    rcases h with h | h
    · rename_i h0
      exact absurd h h0
    · exact h
  split at hd
  · split at hd
    · obtain ⟨mc2, h2, rfl⟩ := set_last_eq_ok _ _ _ _ hd
      obtain ⟨_, _, _, hm, ht, _⟩ := pick_new_molecule_fields _ _ _ _ _ h2
      show mc2.mode = 0 ∨ ((mc2.mode = 1 ∨ mc2.mode = 2) ∧ 1 ≤ mc2.mode_tick ∧ mc2.mode_tick ≤ 40)
      rw [hm, ht]
      right
      exact ⟨Or.inr rfl, (by decide : (1 : Int) ≤ 40), (by decide : (40 : Int) ≤ 40)⟩
    · rename_i h3
      injection hd with hd; injection hd with h1 h2; subst h1
      right
      exact ⟨hr.1, by show 1 ≤ mc.mode_tick - 1; omega, by show mc.mode_tick - 1 ≤ 40; omega⟩
  split at hd
  · split at hd
    · injection hd with hd; injection hd with h1 h2; subst h1
      exact Or.inl rfl
    · rename_i h3
      injection hd with hd; injection hd with h1 h2; subst h1
      right
      exact ⟨hr.1, by show 1 ≤ mc.mode_tick - 1; omega, by show mc.mode_tick - 1 ≤ 40; omega⟩
  · cases hd

theorem init_molecule_phase (fs : file_system) (builtin_pdb_data : List (List Char))
    (scanf_f : List Char → Option (ℚ × List Char)) (init_GL : Bool)
    (no_label_threshold wireframe_threshold : ℚ) (mc mc0 : molecule_configuration)
    (rs rs0 : List Nat)
    (h : init_molecule fs builtin_pdb_data scanf_f init_GL no_label_threshold
      wireframe_threshold mc rs = .ok (mc0, rs0)) : mc0.mode = 0 := by
  unfold init_molecule at h
  simp only [] at h
  split at h
  · cases h
  · rw [outcome_bind_eq_ok] at h
    obtain ⟨mc1, _, h⟩ := h
    cases rs with
    | nil => cases h
    | cons r rs1 =>
      simp only [] at h
      split at h
      · cases h
      · injection h with h
        injection h with h1 h2
        subst h1
        rfl

theorem reachable_phase (mc0 mc : molecule_configuration) (h0 : mc0.mode = 0)
    (h : reachable mc0 mc) :
    mc.mode = 0 ∨ ((mc.mode = 1 ∨ mc.mode = 2) ∧ 1 ≤ mc.mode_tick ∧ mc.mode_tick ≤ 40) := by
  induction h with
  | start => exact Or.inl h0
  | frame mc1 mc2 now now2 rs rs1 _ hd ih => exact draw_molecule_tick mc1 mc2 now now2 rs rs1 hd ih
  | event mc1 e _ ih => exact handle_event_phase mc1 e ih

/-- C27: in every state reached from a state in which `init_molecule` has
returned, by calls of `draw_molecule` that return and by calls of
`molecule_handle_event`, the phase is 0, 1 or 2, so the `abort ()` that ends
the `if` chain of `draw_molecule` is not reached; in phase 1 and in phase 2
the tick count lies between 1 and 40, and the scale of the transition, the
argument of `glScalef`, is greater than 0 and at most 1. -/
theorem reachable_transition_scale (fs : file_system) (builtin_pdb_data : List (List Char))
    (scanf_f : List Char → Option (ℚ × List Char)) (init_GL : Bool)
    (no_label_threshold wireframe_threshold : ℚ) (mc mc0 mc1 : molecule_configuration)
    (rs rs0 : List Nat)
    (hinit : init_molecule fs builtin_pdb_data scanf_f init_GL no_label_threshold
      wireframe_threshold mc rs = .ok (mc0, rs0))
    (hr : reachable mc0 mc1) :
    (mc1.mode = 0 ∨ mc1.mode = 1 ∨ mc1.mode = 2) ∧
    (mc1.mode ≠ 0 → 1 ≤ mc1.mode_tick ∧ mc1.mode_tick ≤ 40) ∧
    (mc1.mode = 1 → transition_scale mc1 = some ((mc1.mode_tick : ℚ) / 40)) ∧
    (mc1.mode = 2 → transition_scale mc1 = some ((40 - (mc1.mode_tick : ℚ) + 1) / 40)) ∧
    (∀ s, transition_scale mc1 = some s → 0 < s ∧ s ≤ 1) := by
  have hp := reachable_phase mc0 mc1
    (init_molecule_phase fs builtin_pdb_data scanf_f init_GL no_label_threshold
      wireframe_threshold mc mc0 rs rs0 hinit) hr
  have h1 : mc1.mode = 1 → transition_scale mc1 = some ((mc1.mode_tick : ℚ) / 40) := by
    intro hm
    simp only [transition_scale, hm]
    norm_num
  have h2 : mc1.mode = 2 →
      transition_scale mc1 = some ((40 - (mc1.mode_tick : ℚ) + 1) / 40) := by
    intro hm
    simp only [transition_scale, hm]
    norm_num
  refine ⟨?_, ?_, h1, h2, ?_⟩
  · rcases hp with h | ⟨h | h, _⟩
    · exact Or.inl h
    · exact Or.inr (Or.inl h)
    · exact Or.inr (Or.inr h)
  · intro hn
    rcases hp with h | ⟨_, h⟩
    · exact absurd h hn
    · exact h
  · intro s hs
    rcases hp with h | ⟨h | h, ht1, ht2⟩
    · simp [transition_scale, h] at hs
    · rw [h1 h] at hs
      injection hs with hs
      subst hs
      have a1 : (1 : ℚ) ≤ (mc1.mode_tick : ℚ) := by exact_mod_cast ht1
      have a2 : (mc1.mode_tick : ℚ) ≤ 40 := by exact_mod_cast ht2
      constructor
      · apply div_pos <;> linarith
      · rw [div_le_one (by norm_num)]
        exact a2
    · rw [h2 h] at hs
      injection hs with hs
      subst hs
      have a1 : (1 : ℚ) ≤ (mc1.mode_tick : ℚ) := by exact_mod_cast ht1
      have a2 : (mc1.mode_tick : ℚ) ≤ 40 := by exact_mod_cast ht2
      constructor
      · apply div_pos <;> linarith
      · rw [div_le_one (by norm_num)]
        linarith

theorem reachable_transition_scale_witness :
    ∃ mc0, init_molecule (small_file_system [] [] [("b.pdb".toList, atoms_file)]) []
        scan_decimal true 30 150 bonds_only_configuration [7] = .ok (mc0, []) ∧
      reachable mc0 (molecule_handle_event mc0 (.KeyPress ' ')).1 ∧
      (molecule_handle_event mc0 (.KeyPress ' ')).1.mode = 1 ∧
      (molecule_handle_event mc0 (.KeyPress ' ')).1.mode_tick = 40 ∧
      ∀ s, transition_scale (molecule_handle_event mc0 (.KeyPress ' ')).1 = some s →
        0 < s ∧ s ≤ 1 := by
  obtain ⟨⟨mc0, rs0⟩, hi, hf⟩ := outcome_result_map
    (init_molecule (small_file_system [] [] [("b.pdb".toList, atoms_file)]) []
      scan_decimal true 30 150 bonds_only_configuration [7])
    (fun r => r.2) ([] : List Nat) (by decide)
  simp only at hf
  subst hf
  exact ⟨mc0, hi, .event mc0 (.KeyPress ' ') .start, rfl, rfl,
    (reachable_transition_scale _ _ _ _ _ _ _ mc0 _ _ _ hi
      (.event mc0 (.KeyPress ' ') .start)).2.2.2.2⟩

/-! ## `driver/lock.c`: the password dialog -/

theorem passwd_done_cb_not_read (valid : List Char → Bool) (d : passwd_dialog_state)
    (h : d.passwd_state ≠ .pw_read) : passwd_done_cb valid d = d := by
  unfold passwd_done_cb
  rw [if_pos h]

theorem passwd_done_cb_ok (valid : List Char → Bool) (d : passwd_dialog_state)
    (h : (passwd_done_cb valid d).passwd_state = .pw_ok) :
    d.passwd_state = .pw_ok ∨ (d.passwd_state = .pw_read ∧ valid d.typed_passwd = true) := by
  unfold passwd_done_cb at h
  by_cases hr : d.passwd_state ≠ .pw_read
  · rw [if_pos hr] at h
    exact Or.inl h
  · rw [if_neg hr] at h
    by_cases hv : valid d.typed_passwd = true
    · exact Or.inr ⟨not_not.1 hr, hv⟩
    · rw [if_neg hv] at h
      cases h

theorem passwd_done_cb_lost (valid : List Char → Bool) (d : passwd_dialog_state)
    (h : dialog_lost d) : passwd_done_cb valid d = d := by
  apply passwd_done_cb_not_read
  intro hr
  rcases h with h | h | h <;> rw [hr] at h <;> cases h

/-- The action `keypress` either is a call of `passwd_done_cb` or leaves
`passwd_state` as it is. -/
theorem keypress_cases (valid : List Char → Bool) (d : passwd_dialog_state) (s : List Char) :
    (calls_passwd_done_cb (.keypress s) = true ∧ keypress valid d s = passwd_done_cb valid d) ∨
    (keypress valid d s).passwd_state = d.passwd_state := by
  unfold keypress
  split
  · rename_i c
    by_cases h1 : c.toNat = 8
    · rw [if_pos h1]; right; unfold backspace; split <;> rfl
    rw [if_neg h1]
    by_cases h2 : c.toNat = 127
    · rw [if_pos h2]; right; unfold backspace; split <;> rfl
    rw [if_neg h2]
    by_cases h3 : c.toNat = 21
    · rw [if_pos h3]; right; rfl
    rw [if_neg h3]
    by_cases h4 : c.toNat = 24
    · rw [if_pos h4]; right; rfl
    rw [if_neg h4]
    by_cases h5 : c.toNat = 10
    · rw [if_pos h5]; left
      exact ⟨by simp [calls_passwd_done_cb, h5], rfl⟩
    rw [if_neg h5]
    by_cases h6 : c.toNat = 13
    · rw [if_pos h6]; left
      exact ⟨by simp [calls_passwd_done_cb, h6], rfl⟩
    rw [if_neg h6]
    right
    split
    · rfl
    · split <;> rfl
  · right; rfl

theorem dispatch_ok (valid : List Char → Bool) (d : passwd_dialog_state) (p : xt_procedure)
    (h : (XtDispatchEvent valid d p).passwd_state = .pw_ok) :
    d.passwd_state = .pw_ok ∨
      (d.passwd_state = .pw_read ∧ calls_passwd_done_cb p = true ∧
        valid d.typed_passwd = true) := by
  cases p with
  | passwd_done_cb =>
    rcases passwd_done_cb_ok valid d h with h1 | ⟨h1, h2⟩
    · exact Or.inl h1
    · exact Or.inr ⟨h1, rfl, h2⟩
  | passwd_cancel_cb => cases h
  | keypress s =>
    rcases keypress_cases valid d s with ⟨hc, he⟩ | hs
    · have h' : (passwd_done_cb valid d).passwd_state = .pw_ok := by
        rw [← he]; exact h
      rcases passwd_done_cb_ok valid d h' with h1 | ⟨h1, h2⟩
      · exact Or.inl h1
      · exact Or.inr ⟨h1, hc, h2⟩
    · left
      rw [← hs]
      exact h
  | nothing => exact Or.inl h

theorem dispatch_lost (valid : List Char → Bool) (d : passwd_dialog_state) (p : xt_procedure)
    (h : dialog_lost d) : dialog_lost (XtDispatchEvent valid d p) := by
  cases p with
  | passwd_done_cb =>
    show dialog_lost (passwd_done_cb valid d)
    rw [passwd_done_cb_lost valid d h]
    exact h
  | passwd_cancel_cb => exact Or.inr (Or.inl rfl)
  | keypress s =>
    show dialog_lost (keypress valid d s)
    rcases keypress_cases valid d s with ⟨_, he⟩ | hs
    · rw [he, passwd_done_cb_lost valid d h]
      exact h
    · unfold dialog_lost
      rw [hs]
      exact h
  | nothing => exact h

theorem dispatch_all_lost (valid : List Char → Bool) (ps : List xt_procedure) :
    ∀ d, dialog_lost d → dialog_lost (dispatch_all valid d ps) := by
  induction ps with
  | nil => intro d h; exact h
  | cons p ps ih =>
    intro d h
    exact ih _ (dispatch_lost valid d p h)

theorem run_timeouts_state (max : Int) (n : Nat) :
    ∀ d d1, run_timeouts max n d = some d1 →
      d1.passwd_state = d.passwd_state ∧ d1.typed_passwd = d.typed_passwd := by
  induction n with
  | zero =>
    intro d d1 h
    injection h with h
    subst h
    exact ⟨rfl, rfl⟩
  | succ n ih =>
    intro d d1 h
    unfold run_timeouts at h
    unfold passwd_idle_timer at h
    split at h
    · cases h
    · obtain ⟨h1, h2⟩ := ih _ d1 h
      exact ⟨h1, h2⟩

/-- A procedure that ends in a call of `passwd_done_cb` does what that call does. -/
theorem dispatch_calls (valid : List Char → Bool) (d : passwd_dialog_state) (p : xt_procedure)
    (h : calls_passwd_done_cb p = true) :
    XtDispatchEvent valid d p = passwd_done_cb valid d := by
  cases p with
  | passwd_done_cb => rfl
  | passwd_cancel_cb => cases h
  | nothing => cases h
  | keypress s =>
    rcases keypress_cases valid d s with ⟨_, he⟩ | hs
    · exact he
    · match s, h, hs with
      | [c], h, _ =>
        simp only [calls_passwd_done_cb, Bool.or_eq_true, decide_eq_true_eq] at h
        show keypress valid d [c] = passwd_done_cb valid d
        unfold keypress
        rcases h with h | h
        · simp only [h]
          rfl
        · simp only [h]
          rfl

theorem before_dispatch_state (max : Int) (e : xt_event) (d d2 : passwd_dialog_state)
    (h : before_dispatch max e d = some d2) :
    d2.passwd_state = d.passwd_state ∨ d2.passwd_state = .pw_time := by
  unfold before_dispatch at h
  cases ht : run_timeouts max e.timeouts d with
  | none => rw [ht] at h; cases h
  | some d1 =>
    rw [ht] at h
    obtain ⟨hs1, _⟩ := run_timeouts_state max e.timeouts d d1 ht
    simp only [Option.map_some'] at h
    injection h with h
    subst h
    split
    · exact Or.inr rfl
    · exact Or.inl hs1

/-- The run of the loop `while (passwd_state == pw_read)`: it ends with the
first event whose iteration leaves a state other than `pw_read`; the events
before it have each left the state `pw_read`. -/
theorem read_loop_trace (valid : List Char → Bool) (max : Int) (events : List xt_event) :
    ∀ d r, d.passwd_state = .pw_read → read_loop valid max events d = .ok r →
      ∃ pre e dpre dcall, events = pre ++ e :: r.2 ∧
        read_iterations valid max pre d = some dpre ∧
        (∀ k, k ≤ pre.length → ∃ dk, read_iterations valid max (pre.take k) d = some dk ∧
          dk.passwd_state = .pw_read) ∧
        before_dispatch max e dpre = some dcall ∧
        r.1 = XtDispatchEvent valid dcall e.procedure ∧
        r.1.passwd_state ≠ .pw_read := by
  induction events with
  | nil =>
    intro d r hd h
    simp only [read_loop, if_pos hd] at h
    cases h
  | cons e rest ih =>
    intro d r hd h
    simp only [read_loop, if_pos hd] at h
    cases ht : run_timeouts max e.timeouts d with
    | none => rw [ht] at h; cases h
    | some d1 =>
      rw [ht] at h
      simp only [] at h
      generalize hd2 : (if e.event_type = 0 ∧ d1.passwd_idle_timer_tick = 0 then
          { d1 with passwd_state := passwd_state_value.pw_time } else d1) = d2 at h
      have hbd : before_dispatch max e d = some d2 := by
        unfold before_dispatch
        rw [ht, Option.map_some', hd2]
      have hit : read_iteration valid max d e = some (XtDispatchEvent valid d2 e.procedure) := by
        unfold read_iteration
        rw [hbd]
        rfl
      by_cases hn : (XtDispatchEvent valid d2 e.procedure).passwd_state = .pw_read
      · obtain ⟨pre, e1, dpre, dcall, h1, h2, h3, h4, h5, h6⟩ := ih _ r hn h
        refine ⟨e :: pre, e1, dpre, dcall, by rw [h1]; rfl, ?_, ?_, h4, h5, h6⟩
        · simp only [read_iterations, hit, Option.bind_some]
          exact h2
        · intro k hk
          cases k with
          | zero => exact ⟨d, rfl, hd⟩
          | succ k =>
            obtain ⟨dk, hk1, hk2⟩ := h3 k (by simpa using hk)
            refine ⟨dk, ?_, hk2⟩
            simp only [List.take_succ_cons, read_iterations, hit, Option.bind_some]
            exact hk1
      · have hr : r = (XtDispatchEvent valid d2 e.procedure, rest) := by
          cases rest with
          | nil =>
            simp only [read_loop, if_neg hn] at h
            injection h with h
            exact h.symm
          | cons e2 rest2 =>
            simp only [read_loop, if_neg hn] at h
            injection h with h
            exact h.symm
        subst hr
        refine ⟨[], e, d, d2, rfl, rfl, ?_, hbd, rfl, hn⟩
        intro k hk
        have hk0 : k = 0 := by simpa using hk
        subst hk0
        exact ⟨d, rfl, hd⟩

theorem lose_loop_lost (valid : List Char → Bool) (max : Int) (events : List xt_event) :
    ∀ d r, dialog_lost d → lose_loop valid max events d = .ok r → dialog_lost r.1 := by
  induction events with
  | nil => intro d r _ h; cases h
  | cons e rest ih =>
    intro d r hd h
    simp only [lose_loop] at h
    cases ht : run_timeouts max e.timeouts d with
    | none => rw [ht] at h; cases h
    | some d1 =>
      rw [ht] at h
      simp only [] at h
      obtain ⟨hs1, _⟩ := run_timeouts_state max e.timeouts d d1 ht
      have hl1 : dialog_lost d1 := by
        unfold dialog_lost
        rw [hs1]
        exact hd
      split at h
      · injection h with h
        subst h
        exact hl1
      · exact ih _ r (dispatch_lost valid d1 e.procedure hl1) h

theorem pop_return_eq_ok (r : passwd_dialog_state × List xt_event) (b : Bool)
    (d1 : passwd_dialog_state) (rest : List xt_event) (h : pop_return r = .ok (b, d1, rest)) :
    b = decide (r.1.passwd_state = .pw_ok) ∧ d1 = { r.1 with typed_passwd := [] } ∧
      rest = r.2 := by
  unfold pop_return at h
  injection h with h
  injection h with h1 h2
  injection h2 with h2 h3
  subst h1 h2 h3
  exact ⟨rfl, rfl, rfl⟩

theorem dialog_lost_not_ok (d : passwd_dialog_state) (h : dialog_lost d) :
    d.passwd_state ≠ .pw_ok := by
  intro hok
  rcases h with hl | hl | hl <;> rw [hok] at hl <;> cases hl

/-- What `pop_passwd_dialog` returns: the first loop has ended in a state
`r.1` other than `pw_read` with the events `r.2` left; on `pw_ok` and
`pw_cancel` this state is returned with `typed_passwd` cleared, on `pw_fail`
and `pw_time` the second loop has run and has left a dialog that is lost. -/
theorem pop_passwd_dialog_eq_ok (passwd_valid_p : List Char → Bool) (max : Int)
    (d : passwd_dialog_state) (events : List xt_event) (b : Bool) (d1 : passwd_dialog_state)
    (rest : List xt_event)
    (h : pop_passwd_dialog passwd_valid_p max d events = .ok (b, d1, rest)) :
    ∃ r, read_loop passwd_valid_p max events
        { d with typed_passwd := [], passwd_state := .pw_read,
                 passwd_idle_timer_tick := max } = .ok r ∧
      ((r.1.passwd_state = .pw_ok ∧ b = true ∧ d1 = { r.1 with typed_passwd := [] } ∧
          rest = r.2) ∨
       (dialog_lost r.1 ∧ b = false ∧ dialog_lost d1)) := by
  unfold pop_passwd_dialog at h
  simp only [] at h
  rw [outcome_bind_eq_ok] at h
  obtain ⟨r, hr, h⟩ := h
  refine ⟨r, hr, ?_⟩
  obtain ⟨_, _, _, _, _, _, _, _, _, hne⟩ := read_loop_trace passwd_valid_p _ events _ r rfl hr
  cases hs : r.1.passwd_state with
  | pw_read => exact absurd hs hne
  | pw_ok =>
    simp only [hs, ne_eq, not_true_eq_false, if_false] at h
    obtain ⟨hb, hd1, hrest⟩ := pop_return_eq_ok r b d1 rest h
    left
    refine ⟨rfl, ?_, hd1, hrest⟩
    rw [hb, hs]
    rfl
  | pw_cancel =>
    simp only [hs, ne_eq, reduceCtorEq, not_false_eq_true, if_true] at h
    obtain ⟨hb, hd1, _⟩ := pop_return_eq_ok r b d1 rest h
    right
    refine ⟨Or.inr (Or.inl hs), ?_, ?_⟩
    · rw [hb, hs]
      rfl
    · rw [hd1]
      exact Or.inr (Or.inl hs)
  | pw_fail =>
    simp only [hs, ne_eq, reduceCtorEq, not_false_eq_true, if_true] at h
    rw [outcome_bind_eq_ok] at h
    obtain ⟨r2, hr2, h⟩ := h
    have hl := lose_loop_lost passwd_valid_p _ r.2 _ r2 (Or.inl rfl) hr2
    obtain ⟨hb, hd1, _⟩ := pop_return_eq_ok r2 b d1 rest h
    right
    refine ⟨Or.inl hs, ?_, ?_⟩
    · rw [hb]
      exact decide_eq_false (dialog_lost_not_ok _ hl)
    · rw [hd1]
      exact hl
  | pw_time =>
    simp only [hs, ne_eq, reduceCtorEq, not_false_eq_true, if_true] at h
    rw [outcome_bind_eq_ok] at h
    obtain ⟨r2, hr2, h⟩ := h
    have hl := lose_loop_lost passwd_valid_p _ r.2 _ r2 (Or.inr (Or.inr rfl)) hr2
    obtain ⟨hb, hd1, _⟩ := pop_return_eq_ok r2 b d1 rest h
    right
    refine ⟨Or.inr (Or.inr hs), ?_, ?_⟩
    · rw [hb]
      exact decide_eq_false (dialog_lost_not_ok _ hl)
    · rw [hd1]
      exact hl

/-- C30: when `pop_passwd_dialog` returns, it returns True exactly when
`passwd_state` is `pw_ok`, and False exactly when the dialog has failed, been
cancelled or timed out.  When it returns True, the run was this one: the
events consumed are `pre` followed by one event `e`; every event of `pre`
has left the state `pw_read`; for `e` the procedure that `XtDispatchEvent`
calls is `passwd_done_cb` (or `keypress` on a line feed or carriage return,
which calls it), it is called in a state `dcall` that is `pw_read` and whose
`typed_passwd` is accepted by `passwd_valid_p`, and the state returned is the
result of that call with `typed_passwd` cleared.  When the first loop has
ended in a dialog that has failed, been cancelled or timed out, the value
returned is False and the dialog is still lost, whatever events followed.
`passwd_done_cb` leaves a state other than `pw_read` as it is; a procedure
that `XtDispatchEvent` calls sets `pw_ok` only by a call of `passwd_done_cb`
in the state `pw_read` with an accepted password; and no run of events takes
a dialog that has failed, been cancelled or timed out to `pw_ok`. -/
theorem pop_passwd_dialog_ok (passwd_valid_p : List Char → Bool) (max : Int)
    (d : passwd_dialog_state) (events : List xt_event) (b : Bool) (d1 : passwd_dialog_state)
    (rest : List xt_event)
    (h : pop_passwd_dialog passwd_valid_p max d events = .ok (b, d1, rest)) :
    (b = true ↔ d1.passwd_state = .pw_ok) ∧
    (b = false ↔ dialog_lost d1) ∧
    (b = true →
      ∃ pre e dpre dcall,
        events = pre ++ e :: rest ∧
        read_iterations passwd_valid_p max pre
          { d with typed_passwd := [], passwd_state := .pw_read,
                   passwd_idle_timer_tick := max } = some dpre ∧
        (∀ k, k ≤ pre.length →
          ∃ dk, read_iterations passwd_valid_p max (pre.take k)
              { d with typed_passwd := [], passwd_state := .pw_read,
                       passwd_idle_timer_tick := max } = some dk ∧
            dk.passwd_state = .pw_read) ∧
        before_dispatch max e dpre = some dcall ∧
        dcall.passwd_state = .pw_read ∧
        calls_passwd_done_cb e.procedure = true ∧
        passwd_valid_p dcall.typed_passwd = true ∧
        XtDispatchEvent passwd_valid_p dcall e.procedure =
          passwd_done_cb passwd_valid_p dcall ∧
        d1 = { passwd_done_cb passwd_valid_p dcall with typed_passwd := [] }) ∧
    (∀ r, read_loop passwd_valid_p max events
        { d with typed_passwd := [], passwd_state := .pw_read,
                 passwd_idle_timer_tick := max } = .ok r →
      dialog_lost r.1 → b = false ∧ dialog_lost d1) ∧
    (∀ d2 : passwd_dialog_state, d2.passwd_state ≠ .pw_read →
      passwd_done_cb passwd_valid_p d2 = d2) ∧
    (∀ (d2 : passwd_dialog_state) (p : xt_procedure),
      (XtDispatchEvent passwd_valid_p d2 p).passwd_state = .pw_ok →
      d2.passwd_state = .pw_ok ∨
        (d2.passwd_state = .pw_read ∧ calls_passwd_done_cb p = true ∧
          passwd_valid_p d2.typed_passwd = true)) ∧
    (∀ (d2 : passwd_dialog_state) (ps : List xt_procedure), dialog_lost d2 →
      dialog_lost (dispatch_all passwd_valid_p d2 ps) ∧
      (dispatch_all passwd_valid_p d2 ps).passwd_state ≠ .pw_ok) := by
  obtain ⟨r, hr, hcase⟩ := pop_passwd_dialog_eq_ok passwd_valid_p max d events b d1 rest h
  have hiff : b = true ↔ d1.passwd_state = .pw_ok := by
    rcases hcase with ⟨hs, hb, hd1, _⟩ | ⟨_, hb, hl⟩
    · exact ⟨fun _ => (by rw [hd1]; exact hs), fun _ => hb⟩
    · exact ⟨fun k => (by rw [hb] at k; cases k), fun k => absurd k (dialog_lost_not_ok _ hl)⟩
  have hiff2 : b = false ↔ dialog_lost d1 := by
    rcases hcase with ⟨hs, hb, hd1, _⟩ | ⟨_, hb, hl⟩
    · refine ⟨fun k => (by rw [hb] at k; cases k), fun k => ?_⟩
      exact absurd (show d1.passwd_state = .pw_ok by rw [hd1]; exact hs) (dialog_lost_not_ok _ k)
    · exact ⟨fun _ => hl, fun _ => hb⟩
  refine ⟨hiff, hiff2, ?_, ?_, passwd_done_cb_not_read passwd_valid_p,
    dispatch_ok passwd_valid_p,
    fun d2 ps hl => ⟨dispatch_all_lost passwd_valid_p ps d2 hl,
      dialog_lost_not_ok _ (dispatch_all_lost passwd_valid_p ps d2 hl)⟩⟩
  · intro hb1
    rcases hcase with ⟨hs, _, hd1, hrest⟩ | ⟨_, hb, _⟩
    · obtain ⟨pre, e, dpre, dcall, h1, h2, h3, h4, h5, _⟩ :=
        read_loop_trace passwd_valid_p _ events _ r rfl hr
      have hok : (XtDispatchEvent passwd_valid_p dcall e.procedure).passwd_state = .pw_ok := by
        rw [← h5]; exact hs
      obtain ⟨dk, hk1, hk2⟩ := h3 pre.length (le_refl _)
      rw [List.take_length, h2] at hk1
      injection hk1 with hk1
      subst hk1
      have hcall : dcall.passwd_state ≠ .pw_ok := by
        rcases before_dispatch_state max e dpre dcall h4 with k | k
        · rw [k, hk2]; intro c; cases c
        · rw [k]; intro c; cases c
      rcases dispatch_ok passwd_valid_p dcall e.procedure hok with k | ⟨k1, k2, k3⟩
      · exact absurd k hcall
      · have hdc := dispatch_calls passwd_valid_p dcall e.procedure k2
        refine ⟨pre, e, dpre, dcall, by rw [h1, hrest], h2, h3, h4, k1, k2, k3, hdc, ?_⟩
        rw [hd1, h5, hdc]
    · rw [hb] at hb1
      cases hb1
  · intro r2 hr2 hl2
    rw [hr] at hr2
    injection hr2 with hr2
    subst hr2
    rcases hcase with ⟨hs, _, _, _⟩ | ⟨_, hb, hl⟩
    · exact absurd hs (dialog_lost_not_ok _ hl2)
    · exact ⟨hb, hl⟩

/-- Witness of C30: the keys `p`, `q`, backspace, `w` and carriage return with
the password `pw` give True, and the event left is not consumed; the keys
`p`, `q` and carriage return give False. -/
theorem pop_passwd_dialog_ok_witness :
    pop_passwd_dialog (fun p => decide (p = "pw".toList)) 30 ⟨.pw_fail, ['x'], 0⟩
        (type_keys "pq" ++ [⟨1, 2, .keypress [Char.ofNat 8]⟩] ++ type_keys "w" ++
          [⟨0, 2, .keypress ['\r']⟩, ⟨0, 2, .passwd_cancel_cb⟩]) =
      .ok (true, ⟨.pw_ok, [], 29⟩, [⟨0, 2, .passwd_cancel_cb⟩]) ∧
    (true = true ↔ (⟨.pw_ok, [], 29⟩ : passwd_dialog_state).passwd_state = .pw_ok) ∧
    pop_passwd_dialog (fun p => decide (p = "pw".toList)) 30 ⟨.pw_fail, ['x'], 0⟩
        (type_keys "pq" ++ [⟨0, 2, .keypress ['\r']⟩, ⟨0, 2, .passwd_done_cb⟩,
          ⟨1, 0, .nothing⟩]) =
      .ok (false, ⟨.pw_fail, [], 0⟩, []) := by
  have h : pop_passwd_dialog (fun p => decide (p = "pw".toList)) 30 ⟨.pw_fail, ['x'], 0⟩
        (type_keys "pq" ++ [⟨1, 2, .keypress [Char.ofNat 8]⟩] ++ type_keys "w" ++
          [⟨0, 2, .keypress ['\r']⟩, ⟨0, 2, .passwd_cancel_cb⟩]) =
      .ok (true, ⟨.pw_ok, [], 29⟩, [⟨0, 2, .passwd_cancel_cb⟩]) := by
    decide
  exact ⟨h, (pop_passwd_dialog_ok _ _ _ _ _ _ _ h).1, by decide⟩
/-! ## Atom records: the atom stored -/

theorem push_bond_label (m : molecule) (a b : Int) : (push_bond m a b).label = m.label := by
  unfold push_bond
  split <;> rfl

theorem conect_bonds_label (partners : List Int) :
    ∀ (m : molecule) (base : Int), (conect_bonds m base partners).label = m.label := by
  induction partners with
  | nil => intro m base; rfl
  | cons p rest ih =>
    intro m base
    unfold conect_bonds
    simp only [List.foldl_cons]
    have := ih (if p > 0 then push_bond m base p else m) base
    unfold conect_bonds at this
    rw [this]
    split
    · exact push_bond_label m base p
    · rfl

/-- A line leaves the label as it is, unless it is a title line read when the
label is NULL or empty. -/
theorem parse_pdb_line_label (scanf_f : List Char → Option (ℚ × List Char)) (m m1 : molecule)
    (s : List Char) (h : parse_pdb_line scanf_f m s = some m1)
    (hk : title_line s = false ∨ ¬ (m.label = none ∨ m.label = some [])) :
    m1.label = m.label := by
  unfold parse_pdb_line at h
  split at h
  · rename_i hc
    exfalso
    rcases hk with hk | hk
    · simp only [title_line, Bool.or_eq_false_iff] at hk
      rcases hc.2 with h1 | h1
      · rw [hk.1] at h1; cases h1
      · rw [hk.2] at h1; cases h1
    · exact hk hc.1
  split at h
  · injection h with h; rw [← h]
  split at h
  · unfold parse_atom at h
    split at h
    · cases h
    · split at h
      · unfold push_atom at h
        split at h
        · cases h
        · injection h with h; rw [← h]
      · cases h
  split at h
  · unfold parse_atom at h
    split at h
    · cases h
    · split at h
      · unfold push_atom at h
        split at h
        · cases h
        · injection h with h; rw [← h]
      · cases h
  split at h
  · unfold parse_conect at h
    split at h
    · cases h
    · split at h
      · cases h
      · injection h with h; rw [← h]
      · split at h
        · cases h
        · injection h with h
          rw [← h]
          exact conect_bonds_label _ _ _
  · injection h with h; rw [← h]

/-- Once the label is set and not empty, no text changes it. -/
theorem parse_pdb_loop_label (scanf_f : List Char → Option (ℚ × List Char)) (fuel : Nat) :
    ∀ (m m1 : molecule) (s : List Char), ¬ (m.label = none ∨ m.label = some []) →
      parse_pdb_loop scanf_f fuel m s = some m1 → m1.label = m.label := by
  induction fuel with
  | zero =>
    intro m m1 s _ h
    cases s with
    | nil => simp only [parse_pdb_loop] at h; injection h with h; rw [h]
    | cons c r => simp [parse_pdb_loop] at h
  | succ fuel ih =>
    intro m m1 s hm h
    cases s with
    | nil => simp only [parse_pdb_loop] at h; injection h with h; rw [h]
    | cons c r =>
      simp only [parse_pdb_loop] at h
      cases hl : parse_pdb_line scanf_f m (c :: r) with
      | none => rw [hl] at h; cases h
      | some m2 =>
        rw [hl] at h
        simp only [] at h
        have h2 := parse_pdb_line_label scanf_f m m2 (c :: r) hl (Or.inr hm)
        have h3 := ih m2 m1 _ (by rw [h2]; exact hm) h
        rw [h3, h2]

theorem parse_pdb_data_label_kept (scanf_f : List Char → Option (ℚ × List Char))
    (m m1 : molecule) (s : List Char) (hm : ¬ (m.label = none ∨ m.label = some []))
    (h : parse_pdb_data scanf_f m s = some m1) : m1.label = m.label :=
  parse_pdb_loop_label scanf_f _ m m1 s hm h

theorem records_blob_cons (l : List Char) (ls : List (List Char)) :
    records_blob true (l :: ls) = l ++ '\n' :: records_blob true ls := by
  cases ls with
  | nil => simp [records_blob]
  | cons l2 ls => rfl

/-- Lines that are not title lines, each one followed by a newline, leave the
label as it is. -/
theorem parse_pdb_data_lines_label (scanf_f : List Char → Option (ℚ × List Char))
    (pre : List (List Char)) (tail : List Char)
    (hpre : ∀ p ∈ pre, p.contains '\n' = false ∧ title_line p = false) :
    ∀ (m m1 : molecule), parse_pdb_data scanf_f m (records_blob true pre ++ tail) = some m1 →
      ∃ m2, m2.label = m.label ∧ parse_pdb_data scanf_f m2 tail = some m1 := by
  induction pre with
  | nil =>
    intro m m1 h
    exact ⟨m, rfl, h⟩
  | cons p ps ih =>
    intro m m1 h
    obtain ⟨hnl, ht⟩ := hpre p (by simp)
    rw [records_blob_cons, List.append_assoc, List.cons_append,
      parse_pdb_data_line scanf_f m p _ hnl] at h
    cases hl : parse_pdb_line scanf_f m (p ++ '\n' :: (records_blob true ps ++ tail)) with
    | none => rw [hl] at h; cases h
    | some m2 =>
      rw [hl] at h
      simp only [Option.bind] at h
      have ht2 : title_line (p ++ '\n' :: (records_blob true ps ++ tail)) = false := by
        unfold title_line at ht ⊢
        rw [strncmp_eq_append _ p _ (by decide) (Or.inr ⟨_, rfl⟩),
          strncmp_eq_append _ p _ (by decide) (Or.inr ⟨_, rfl⟩)]
        exact ht
      have h2 := parse_pdb_line_label scanf_f m m2 _ hl (Or.inl ht2)
      obtain ⟨m3, h3, h4⟩ := ih (fun q hq => hpre q (by simp [hq])) m2 m1 h
      exact ⟨m3, by rw [h3, h2], h4⟩

theorem without_pdb_eq (t : List Char) :
    (if 4 < t.length ∧ t.drop (t.length - 4) = ".pdb".toList then t.take (t.length - 4) else t) =
      without_pdb t := by
  unfold without_pdb
  have e : (".pdb".toList.isSuffixOf t = true) ↔ t.drop (t.length - 4) = ".pdb".toList := by
    rw [List.isSuffixOf_iff_suffix, List.suffix_iff_eq_drop]
    exact ⟨fun h => h.symm, fun h => h.symm⟩
  by_cases h : 4 < t.length ∧ t.drop (t.length - 4) = ".pdb".toList
  · rw [if_pos h, if_pos ⟨h.1, e.2 h.2⟩]
  · rw [if_neg h, if_neg (fun h2 => h ⟨h2.1, e.1 h2.2⟩)]

theorem trim_space_ne_nil (text : List Char) (h : text.any (fun c => !isspace c) = true) :
    trim_space text ≠ [] := by
  unfold trim_space
  intro e
  rw [List.reverse_eq_nil_iff, List.dropWhile_eq_nil_iff] at e
  have hne : text.dropWhile isspace ≠ [] := by
    intro e2
    rw [List.dropWhile_eq_nil_iff] at e2
    rw [List.any_eq_true] at h
    obtain ⟨c, hc, hs⟩ := h
    rw [e2 c hc] at hs
    cases hs
  cases hd : text.dropWhile isspace with
  | nil => exact hne hd
  | cons c r =>
    have hc : isspace c = false := by
      have := List.head_dropWhile_not isspace text
      simp only [hd] at this
      have h3 := this (by simp)
      simpa using h3
    have := e c (by rw [hd]; simp)
    rw [hc] at this
    cases this

theorem without_pdb_ne_nil (t : List Char) (h : t ≠ []) : without_pdb t ≠ [] := by
  unfold without_pdb
  split
  · rename_i hc
    intro e
    have := congrArg List.length e
    simp only [List.length_take, List.length_nil] at this
    omega
  · exact h

theorem contains_eq_false_iff (l : List Char) (c : Char) :
    l.contains c = false ↔ ∀ x ∈ l, x ≠ c := by
  induction l with
  | nil => simp
  | cons a r ih =>
    simp only [List.contains_cons, Bool.or_eq_false_iff, ih, List.mem_cons, forall_eq_or_imp]
    constructor
    · rintro ⟨h1, h2⟩
      refine ⟨fun e => ?_, h2⟩
      subst e
      simp at h1
    · rintro ⟨h1, h2⟩
      refine ⟨?_, h2⟩
      cases k : (c == a) with
      | false => rfl
      | true => exact absurd (by simpa using k : c = a).symm h1

/-- The label that the HEADER/COMPND branch computes from a title line
followed by a newline: the text of the line after its seventh character,
when the line has at most 99 characters, a text that is not blank and no
carriage return. -/
theorem parse_label_line (kw : List Char) (c : Char) (text rest : List Char)
    (hkw : kw.length = 6) (htext : text.any (fun c => !isspace c) = true)
    (hnl : text.contains '\n' = false) (hcr : text.contains '\r' = false)
    (hlen : (kw ++ c :: text).length ≤ 99) :
    parse_label (kw ++ c :: text ++ '\n' :: rest) = without_pdb (trim_space text) := by
  have hne : text.dropWhile isspace ≠ [] := by
    intro e2
    rw [List.dropWhile_eq_nil_iff] at e2
    rw [List.any_eq_true] at htext
    obtain ⟨x, hx, hs⟩ := htext
    rw [e2 x hx] at hs
    cases hs
  have hsub : ∀ x ∈ text.dropWhile isspace, x ∈ text :=
    fun x hx => (List.dropWhile_suffix isspace).subset hx
  have h1 : ((kw ++ c :: text ++ '\n' :: rest).take 99).drop 7 =
      text ++ ('\n' :: rest).take (99 - (kw ++ c :: text).length) := by
    rw [List.take_append_eq_append_take, List.take_of_length_le hlen,
      List.drop_append_of_le_length (by simp; omega)]
    congr 1
    rw [show kw ++ c :: text = (kw ++ [c]) ++ text by simp]
    exact List.drop_left' (by simp; omega)
  have h2 : (text ++ ('\n' :: rest).take (99 - (kw ++ c :: text).length)).dropWhile isspace =
      text.dropWhile isspace ++ ('\n' :: rest).take (99 - (kw ++ c :: text).length) :=
    dropWhile_isspace_append _ _ hne
  have h3 : (text.dropWhile isspace ++
        ('\n' :: rest).take (99 - (kw ++ c :: text).length)).takeWhile (fun c => c ≠ '\n') =
      text.dropWhile isspace := by
    rw [List.takeWhile_append_of_pos]
    · cases h99 : 99 - (kw ++ c :: text).length with
      | zero => simp
      | succ k => simp [List.takeWhile]
    · intro x hx
      have := (contains_eq_false_iff text '\n').1 hnl x (hsub x hx)
      simpa using this
  have h4 : (text.dropWhile isspace).takeWhile (fun c => c ≠ '\r') = text.dropWhile isspace := by
    rw [List.takeWhile_eq_self_iff]
    intro x hx
    have := (contains_eq_false_iff text '\r').1 hcr x (hsub x hx)
    simpa using this
  unfold parse_label
  simp only [h1, h2, h3, h4]
  exact without_pdb_eq _

/-- A title line whose text is blank: the white space skipped after the
seventh character includes the newline, and the label is taken from the line
that follows, here with the keyword of that line. -/
theorem parse_pdb_data_blank_title :
    (parse_pdb_data scan_decimal molecule.empty "HEADER\nCOMPND    water\n".toList).map
      molecule.label = some (some "COMPND    water".toList) ∧
    (parse_pdb_data scan_decimal molecule.empty "HEADER    \nAUTHOR    me\n".toList).map
      molecule.label = some (some "AUTHOR    me".toList) := by
  decide

/-- C21, as the claim words it, fails for a long title and for the title
`.pdb`: of a title line of 110 characters the label holds the 89 characters
of the text that lie in the first 99 characters of the line, and the text
`.pdb`, which is not longer than the suffix, is kept. -/
theorem parse_pdb_data_long_title_counterexample :
    (parse_pdb_data scan_decimal molecule.empty (long_title ++ ['\n'])).map molecule.label =
      some (some (List.replicate 89 'a')) ∧
    trim_space (long_title.drop 6) = List.replicate 100 'a' ∧
    (parse_pdb_data scan_decimal molecule.empty "COMPND    .pdb\n".toList).map molecule.label =
      some (some ".pdb".toList) := by
  refine ⟨?_, by decide, by decide⟩
  set_option maxRecDepth 8000 in decide

/-- C21: when the label is NULL or empty and the lines read so far are not
title lines, a title line (HEADER or COMPND) of at most 99 characters, whose
text after the seventh character is not blank and has no carriage return,
sets the label to this text without its leading and trailing white space and
without the suffix `.pdb` when the text is longer than the suffix; no line
read after it changes the label. -/
theorem parse_pdb_data_label (scanf_f : List Char → Option (ℚ × List Char))
    (pre : List (List Char)) (kw : List Char) (c : Char) (text rest : List Char)
    (m m1 : molecule) (hm : m.label = none ∨ m.label = some [])
    (hpre : ∀ p ∈ pre, p.contains '\n' = false ∧ title_line p = false)
    (hkw : kw = "HEADER".toList ∨ kw = "COMPND".toList) (hc : c ≠ '\n')
    (htext : text.any (fun c => !isspace c) = true)
    (hnl : text.contains '\n' = false) (hcr : text.contains '\r' = false)
    (hlen : (kw ++ c :: text).length ≤ 99)
    (h : parse_pdb_data scanf_f m
      (records_blob true pre ++ (kw ++ c :: text ++ '\n' :: rest)) = some m1) :
    m1.label = some (without_pdb (trim_space text)) := by
  obtain ⟨m2, h2, h3⟩ := parse_pdb_data_lines_label scanf_f pre _ hpre m m1 h
  have hm2 : m2.label = none ∨ m2.label = some [] := by rw [h2]; exact hm
  have hk6 : kw.length = 6 := by rcases hkw with e | e <;> rw [e] <;> rfl
  have hl : (kw ++ c :: text).contains '\n' = false := by
    rw [contains_append, List.contains_cons, hnl]
    have : ('\n' == c) = false := by
      cases k : ('\n' == c) with
      | false => rfl
      | true => exact absurd (by simpa using k : '\n' = c).symm hc
    rw [this]
    rcases hkw with e | e <;> rw [e] <;> rfl
  have ht : strncmp_eq (kw ++ c :: text ++ '\n' :: rest) "HEADER".toList = true ∨
      strncmp_eq (kw ++ c :: text ++ '\n' :: rest) "COMPND".toList = true := by
    rcases hkw with e | e
    · left
      rw [strncmp_eq_iff]
      exact ⟨c :: text ++ '\n' :: rest, by rw [e]; simp⟩
    · right
      rw [strncmp_eq_iff]
      exact ⟨c :: text ++ '\n' :: rest, by rw [e]; simp⟩
  rw [parse_pdb_data_line scanf_f m2 _ rest hl] at h3
  have hline : parse_pdb_line scanf_f m2 (kw ++ c :: text ++ '\n' :: rest) =
      some { m2 with label := some (parse_label (kw ++ c :: text ++ '\n' :: rest)) } := by
    unfold parse_pdb_line
    rw [if_pos ⟨hm2, ht⟩]
  rw [hline, parse_label_line kw c text rest hk6 htext hnl hcr hlen] at h3
  simp only [Option.bind] at h3
  have hkept := parse_pdb_data_label_kept scanf_f _ m1 rest (by
    intro hx
    rcases hx with hx | hx
    · cases hx
    · injection hx with hx
      exact without_pdb_ne_nil _ (trim_space_ne_nil text htext) hx) h3
  rw [hkept]

theorem parse_pdb_data_label_witness :
    parse_pdb_data scan_decimal molecule.empty
      (records_blob true ["REMARK one".toList, "TITLE   x".toList] ++
        ("COMPND".toList ++ ' ' :: "   water.pdb  ".toList ++
          '\n' :: "HEADER    other\nCOMPND    more\n".toList)) =
      some ⟨some "water".toList, [], []⟩ ∧
    without_pdb (trim_space "   water.pdb  ".toList) = "water".toList ∧
    (⟨some "water".toList, [], []⟩ : molecule).label =
      some (without_pdb (trim_space "   water.pdb  ".toList)) := by
  have h : parse_pdb_data scan_decimal molecule.empty
      (records_blob true ["REMARK one".toList, "TITLE   x".toList] ++
        ("COMPND".toList ++ ' ' :: "   water.pdb  ".toList ++
          '\n' :: "HEADER    other\nCOMPND    more\n".toList)) =
      some ⟨some "water".toList, [], []⟩ := by
    set_option maxRecDepth 8000 in decide
  exact ⟨h, by decide,
    parse_pdb_data_label scan_decimal ["REMARK one".toList, "TITLE   x".toList]
      "COMPND".toList ' ' "   water.pdb  ".toList "HEADER    other\nCOMPND    more\n".toList
      molecule.empty _ (Or.inl rfl) (by decide) (Or.inr rfl) (by decide) (by decide)
      (by decide) (by decide) (by decide) h⟩

/-! ## The serial-number columns -/

theorem toDigitsCore_length_pow (fuel : Nat) :
    ∀ (n k : Nat) (ds : List Char), 1 ≤ k → n < 10 ^ k →
      (Nat.toDigitsCore 10 fuel n ds).length ≤ ds.length + k := by
  induction fuel with
  | zero => intro n k ds hk _; simp [Nat.toDigitsCore]
  | succ f ih =>
    intro n k ds hk hn
    unfold Nat.toDigitsCore
    simp only []
    split
    · simp only [List.length_cons]; omega
    · rename_i h0
      have hk2 : 2 ≤ k := by
        by_contra hc
        have : k = 1 := by omega
        subst this
        have : n / 10 = 0 := by omega
        exact h0 this
      have hlt : n / 10 < 10 ^ (k - 1) := by
        have e : 10 ^ k = 10 ^ (k - 1) * 10 := by
          rw [← pow_succ]
          congr 1
          omega
        rw [e] at hn
        exact Nat.div_lt_of_lt_mul (by rw [Nat.mul_comm]; exact hn)
      have := ih (n / 10) (k - 1) ((n % 10).digitChar :: ds) (by omega) hlt
      simp only [List.length_cons] at this
      omega

/-- In a record whose serial number has at most three digits, the scan of the
atom id from the offset 7 and the scan of the base id from the offset 8 read
the same number. -/
theorem scan_int_serial (n : Nat) (tail tail2 : List Char) (hn : n < 1000)
    (ht : ends_digits tail) (ht2 : ends_digits tail2) :
    scan_int ((serial_atom_record n tail).drop 7) = .ok n tail ∧
    scan_int ((serial_conect_record n tail2).drop 8) = .ok n tail2 := by
  have hlen : (Nat.toDigits 10 n).length ≤ 3 := by
    have := toDigitsCore_length_pow (n + 1) n 3 [] (by omega) (by omega)
    simpa [Nat.toDigits] using this
  have hd : int_digits (n : Int) = Nat.toDigits 10 n := by
    unfold int_digits
    rw [if_neg (by omega)]
    rfl
  have e1 : (serial_atom_record n tail).drop 7 =
      List.replicate (4 - (Nat.toDigits 10 n).length) ' ' ++ int_digits (n : Int) ++ tail := by
    unfold serial_atom_record serial_field
    rw [hd]
    have : 5 - (Nat.toDigits 10 n).length = (4 - (Nat.toDigits 10 n).length) + 1 := by omega
    rw [this, List.replicate_succ]
    rfl
  have e2 : (serial_conect_record n tail2).drop 8 =
      List.replicate (3 - (Nat.toDigits 10 n).length) ' ' ++ int_digits (n : Int) ++ tail2 := by
    unfold serial_conect_record serial_field
    rw [hd]
    have : 5 - (Nat.toDigits 10 n).length = (3 - (Nat.toDigits 10 n).length) + 1 + 1 := by omega
    rw [this, List.replicate_succ, List.replicate_succ]
    rfl
  rw [e1, e2]
  exact ⟨scan_int_int_digits _ n tail ht (by omega), scan_int_int_digits _ n tail2 ht2 (by omega)⟩

/-- C29 at the failing input: the atoms 234, 1234 and 1235 and the record
`CONECT 1234 1235`, each serial number right-justified in the columns 7 to
11.  The atom ids are read as written; the base id of the connectivity
record, scanned from the offset 8, is read without its first digit, as 234, so
the bond declared for the atom 1234 is stored for the atom 234. -/
theorem parse_pdb_data_serial_offset :
    serial_conect_record 1234 " 1235".toList = "CONECT 1234 1235".toList ∧
    (parse_pdb_data scan_decimal molecule.empty serial_file).map
        (fun m => (m.atoms.map molecule_atom.id, m.bonds)) =
      some ([234, 1234, 1235], [⟨234, 1235, 1⟩]) ∧
    scan_int ((serial_atom_record 1234 []).drop 7) = .ok 1234 [] ∧
    scan_int ((serial_conect_record 1234 []).drop 8) = .ok 234 [] := by
  refine ⟨by decide, ?_, by decide, by decide⟩
  set_option maxRecDepth 16000 in decide

/-! ## Blobs of well-formed records -/

end Molecule
